import Mathlib

/-!
# smux: a shallow embedding of the matching core

The Go sources `segment.go`, `trie.go`, `ctx.go`, `hostmatch.go`, `mux.go` and
`search.go` are transcribed into pure Lean functions.

Conventions of the embedding:

* a Go `string` is the list of its bytes, `Str := List Char` (one `Char` per byte);
* a `map[string]T` is an association list with at most one entry per key; assignment
  `m[k] = v` replaces the entry of `k` or appends a new one;
* a pointer to an immutable record (`*Route`) is the record itself;
* in-place mutation becomes state passing: a mutating method returns the new state
  next to its Go result, and it returns the state reached so far when it stops early
  with an error;
* a run-time panic (slice bounds, index out of range) is the result `none`;
* the functions of the Go standard library that the code calls
  (`net/url`, `regexp`, `strings`) are modelled by the definitions of the first section.
-/

namespace Smux

/-- A Go string, as the list of its bytes. -/
abbrev Str := List Char

/-! ## Library models: `strings` -/

/-- `strings.HasPrefix`. -/
def hasPrefix (s p : Str) : Bool := p.isPrefixOf s

/-- `strings.HasSuffix`. -/
def hasSuffix (s p : Str) : Bool := p.isSuffixOf s

/-- `strings.Contains(s, string(c))` for a one-byte separator. -/
def containsByte (s : Str) (c : Char) : Bool := s.contains c

/-- `strings.Split(s, string(c))` for a one-byte separator: the pieces between the
occurrences of `c`; never empty, `[""]` on `""`. -/
def split : Str → Char → List Str
  | [], _ => [[]]
  | x :: xs, c =>
    if x = c then [] :: split xs c
    else
      match split xs c with
      | [] => [[x]]
      | piece :: pieces => (x :: piece) :: pieces

/-- `strings.TrimRight(s, cutset)`: drops every trailing byte that occurs in `cutset`. -/
def trimRight (s cutset : Str) : Str :=
  (s.reverse.dropWhile (fun c => cutset.contains c)).reverse

/-- `strings.Count(s, string(c))`. -/
def countByte (s : Str) (c : Char) : Nat := s.count c

/-- The component before the first `c` (`s[:ii]` with `ii` the index of `c`, or `len(s)`). -/
def upTo (s : Str) (c : Char) : Str := s.takeWhile (fun x => x != c)

/-! ## Library models: character classes of `regexp` and `net/url` -/

def isDigit (c : Char) : Bool := '0' ≤ c && c ≤ '9'

def isLetter (c : Char) : Bool := ('a' ≤ c && c ≤ 'z') || ('A' ≤ c && c ≤ 'Z')

/-- The class `\w`. -/
def isWord (c : Char) : Bool := isLetter c || isDigit c || c == '_'

/-- The class `[[:xdigit:]]`. -/
def isXDigit (c : Char) : Bool :=
  isDigit c || ('a' ≤ c && c ≤ 'f') || ('A' ≤ c && c ≤ 'F')

/-- Bytes that `net/url` leaves unescaped in a path (`validEncoded` with `encodePath`),
the escape introducer `%` apart. -/
def isPathByte (c : Char) : Bool :=
  isLetter c || isDigit c || "-_.~$&+,/:;=@!'()*[]".toList.contains c

/-- Every `%` is followed by two hexadecimal digits, every other byte is a path byte. -/
def validEncodedPath : Str → Bool
  | [] => true
  | '%' :: a :: b :: rest => isXDigit a && isXDigit b && validEncodedPath rest
  | '%' :: _ => false
  | c :: rest => isPathByte c && validEncodedPath rest

/-- Model of `u, err := url.ParseRequestURI(s); err == nil && u.EscapedPath() == s`:
the request URI is `*`, or it starts with `/` and consists of unescaped path bytes and
well-formed escapes (no query, no control byte). -/
def requestURIIsPath (s : Str) : Bool :=
  s == ['*'] || (hasPrefix s ['/'] && validEncodedPath s)

/-- Model of `u, err := url.Parse(s); err == nil && u.EscapedPath() == s` for a string
without `/`: no scheme and no colon in the first segment, no fragment, no query, only
unescaped path bytes and well-formed escapes. -/
def urlIsPath (s : Str) : Bool :=
  !containsByte s ':' && validEncodedPath s

/-- `regexp.QuoteMeta`: a backslash before each of the bytes `\.+*?()|[]{}^$`. -/
def quoteMeta : Str → Str
  | [] => []
  | c :: rest =>
    if "\\.+*?()|[]{}^$".toList.contains c then '\\' :: c :: quoteMeta rest
    else c :: quoteMeta rest

/-! ## Library model: the expression `bracketSimplistic` -/

/-- Length of the match of `\{[a-zA-Z]\w*(?::[a-zA-Z]\w*)?\}` at the start of `s`, if any. -/
def bracketAt (s : Str) : Option Nat :=
  match s with
  | '{' :: c :: rest =>
    if isLetter c then
      let name := rest.takeWhile isWord
      match rest.drop name.length with
      | '}' :: _ => some (name.length + 3)
      | ':' :: d :: rest2 =>
        if isLetter d then
          let ty := rest2.takeWhile isWord
          match rest2.drop ty.length with
          | '}' :: _ => some (name.length + ty.length + 5)
          | _ => none
        else none
      | _ => none
    else none
  | _ => none

/-- `bracketSimplistic.FindAllStringIndex(s, -1)`, as pairs `(start, end)` relative to the
original string; `off` is the offset of `s` in it. -/
def findBrackets : Nat → Nat → Str → List (Nat × Nat)
  | 0, _, _ => []
  | _, _, [] => []
  | fuel + 1, off, c :: rest =>
    match bracketAt (c :: rest) with
    | some len => (off, off + len) :: findBrackets fuel (off + len) ((c :: rest).drop len)
    | none => findBrackets fuel (off + 1) rest

/-- `bracketSimplistic.FindAllStringIndex(r, -1)`. -/
def bracketFindAll (r : Str) : List (Nat × Nat) := findBrackets r.length 0 r

/-- The pieces of `r` outside the given matches, concatenated. -/
def cutOut (r : Str) : Nat → List (Nat × Nat) → Str
  | init, [] => r.drop init
  | init, (fi, fe) :: fs => (r.drop init).take (fi - init) ++ cutOut r fe fs

/-- `bracketSimplistic.ReplaceAllString(r, "")`. -/
def bracketStrip (r : Str) : Str := cutOut r 0 (bracketFindAll r)

/-! ## Library model: the expressions that `NewSegmentRegex` compiles

`NewSegmentRegex` assembles the source text of an expression from quoted literals and from
the capture groups of `pathTypesSubstitutions`.  `regexp.Compile` of such a text is modelled
by the program assembled from the same pieces; matching follows the leftmost-first
(backtracking) rule of `regexp`. -/

/-- The capture groups: `(.+?)`, `(-?\d+)`, `(\d+)`, the uuidv4 group, `([[:xdigit:]]+)`. -/
inductive rxgroup where
  | any
  | int
  | uint
  | uuidv4
  | id
  deriving DecidableEq, Repr

/-- A piece of a compiled expression: literal text or one capture group. -/
inductive rxpiece where
  | lit (s : Str)
  | grp (g : rxgroup)
  deriving DecidableEq, Repr

/-- A compiled `*regexp.Regexp`: its source text (the result of `String()`), whether the
text starts with `^`, and the program. The text always ends in `$`. -/
structure Regexp where
  expr : Str
  anchored : Bool
  prog : List rxpiece
  deriving DecidableEq, Repr

/-- Whether the first 36 bytes of `p` have the shape
`[[:xdigit:]]{8}-[[:xdigit:]]{4}-4[[:xdigit:]]{3}-[89aAbB][[:xdigit:]]{3}-[[:xdigit:]]{12}`. -/
def uuidv4Prefix (p : Str) : Bool :=
  36 ≤ p.length &&
  (List.range 36).all (fun i =>
    let c := p.getD i ' '
    if i = 8 ∨ i = 13 ∨ i = 18 ∨ i = 23 then c == '-'
    else if i = 14 then c == '4'
    else if i = 19 then "89aAbB".toList.contains c
    else isXDigit c)

/-- The lengths of the prefixes of `p` that a group can capture, in the order in which a
backtracking search tries them (lazy `.+?`: shortest first, and `.` excludes the newline;
greedy `\d+` and `[[:xdigit:]]+`: longest first). Lengths count bytes: on ASCII text this
is what `regexp` does; on other text `regexp` lets `.` match whole UTF-8 characters only,
which the byte prefixes of `(.+?)` do not respect. -/
def rxgroup.candidates (g : rxgroup) (p : Str) : List Nat :=
  match g with
  | .any => List.range' 1 (p.takeWhile (fun c => c != '\n')).length
  | .uint => (List.range' 1 (p.takeWhile isDigit).length).reverse
  | .id => (List.range' 1 (p.takeWhile isXDigit).length).reverse
  | .int =>
    match p with
    | '-' :: q => ((List.range' 1 (q.takeWhile isDigit).length).reverse).map (fun k => k + 1)
    | _ => (List.range' 1 (p.takeWhile isDigit).length).reverse
  | .uuidv4 => if uuidv4Prefix p then [36] else []

/-- Match of an anchored program against the whole of `p`: the captured texts of the first
successful alternative. -/
def rxRun : List rxpiece → Str → Option (List Str)
  | [], p => if p.isEmpty then some [] else none
  | .lit s :: ps, p => if s.isPrefixOf p then rxRun ps (p.drop s.length) else none
  | .grp g :: ps, p =>
    (g.candidates p).findSome? (fun k => (rxRun ps (p.drop k)).map (fun caps => p.take k :: caps))

/-- `FindAllStringSubmatch(p, -1)`: the list of matches, each with its captured groups
(the whole match, element 0 in Go, is left out). An anchored expression matches the whole
input at most once; the unanchored expressions are a quoted literal followed by `$`, which
match once when the input ends with the literal. -/
def Regexp.FindAllStringSubmatch (re : Regexp) (p : Str) : List (List Str) :=
  if re.anchored then
    match rxRun re.prog p with
    | some caps => [caps]
    | none => []
  else
    match re.prog with
    | [.lit s] => if s.isSuffixOf p then [[]] else []
    | _ => []

/-! ## ctx.go -/

structure PathParam where
  Key : Str
  Value : Str
  deriving DecidableEq, Repr

/-! ## segment.go -/

/-- The errors of segment creation and of `ParsePath`, `trie.Add`, `AddHostname` and
`AddRoute`, one constructor per `fmt.Errorf` site. -/
inductive Err where
  | mustBeSegment
  | invalidUrlPath
  | invalidType
  | invalidPath
  | catchallNotLast
  | noMethodOnPath
  | catchAllHiding
  | catchAllOverlaps
  | alreadyHandled
  | invalidHost
  | hostIntersection (host : Str)
  | noMethodOnRoute
  | hostNotFound
  deriving DecidableEq, Repr

/-- The implementations of the interface `segment` that `createSegment` builds and that
a trie can hold: `segmentstring`, `segmentcatchallstring`, `segmentregex` and `segmentany`
(`createSegment` never builds the `*searchnode` of search.go). -/
inductive segment where
  | segmentstring (s : Str)
  | segmentcatchallstring
  | segmentregex (r : Regexp) (original : Str) (fields : List Str)
  | segmentany (comp : Str) (original : Str) (fieldname : Str)
  deriving DecidableEq, Repr

/-- The table `pathTypesSubstitutions`. -/
def pathTypesSubstitutions : List (Str × Str) :=
  [ ("int".toList, "-?\\d+".toList),
    ("uint".toList, "\\d+".toList),
    ("uuidv4".toList,
      ("[[:xdigit:]]\x7b8\x7d-[[:xdigit:]]\x7b4\x7d-4[[:xdigit:]]\x7b3\x7d-" ++
       "[89aAbB][[:xdigit:]]\x7b3\x7d-[[:xdigit:]]\x7b12\x7d").toList),
    ("id".toList, "[[:xdigit:]]+".toList) ]

/-- `pathSubstitute`: the field name and the capture group text of one bracket. -/
def pathSubstitute (s : Str) : Except Err (Str × Str) :=
  let splt := split s ':'
  let fieldName := splt.headD []
  let fieldName := if hasPrefix fieldName ['{'] then fieldName.drop 1 else fieldName
  if splt.length = 1 then
    let fieldName := if hasSuffix fieldName ['}'] then fieldName.dropLast else fieldName
    .ok (fieldName, "(.+?)".toList)
  else if splt.length = 2 then
    let t := (splt.getD 1 []).dropLast
    match pathTypesSubstitutions.lookup t with
    | none => .error .invalidType
    | some change => .ok (fieldName, "(".toList ++ change ++ ")".toList)
  else .ok ([], [])

/-- The program that `regexp.Compile` builds for the text of one substitution. -/
def compileSub (sub : Str) : List rxpiece :=
  if sub = "(.+?)".toList then [.grp .any]
  else if sub = "(-?\\d+)".toList then [.grp .int]
  else if sub = "(\\d+)".toList then [.grp .uint]
  else if sub = "([[:xdigit:]]+)".toList then [.grp .id]
  else if sub = "(".toList ++ (pathTypesSubstitutions.getD 2 ([], [])).2 ++ ")".toList then
    [.grp .uuidv4]
  else []

/-- `r[lo:hi]`. -/
def slice (r : Str) (lo hi : Nat) : Str := (r.drop lo).take (hi - lo)

/-- The loop of `NewSegmentRegex` over the bracket matches, followed by the final literal:
source text, program and field names assembled from position `init` on. -/
def regexPieces (r : Str) : List (Nat × Nat) → Nat → Except Err (Str × List rxpiece × List Str)
  | [], init => .ok (quoteMeta (r.drop init), [.lit (r.drop init)], [])
  | (fi, fe) :: fs, init =>
    match pathSubstitute (slice r fi fe) with
    | .error e => .error e
    | .ok (fname, sub) =>
      match regexPieces r fs fe with
      | .error e => .error e
      | .ok (txt, prog, names) =>
        .ok (quoteMeta (slice r init fi) ++ sub ++ txt,
             .lit (slice r init fi) :: compileSub sub ++ prog,
             fname :: names)

def NewSegmentRegex (r : Str) : Except Err segment :=
  if containsByte r '/' then .error .mustBeSegment
  else if !urlIsPath (bracketStrip r) then .error .invalidUrlPath
  else
    let findings := bracketFindAll r
    if findings.length = 0 then
      .ok (.segmentregex ⟨quoteMeta r ++ ['$'], false, [.lit r]⟩ r [])
    else
      match regexPieces r findings 0 with
      | .error e => .error e
      | .ok (txt, prog, names) =>
        .ok (.segmentregex ⟨'^' :: txt ++ ['$'], true, prog⟩ r names)

def newSegmentAny (s : Str) : segment :=
  .segmentany "(.+?)".toList s (slice s 1 (s.length - 1))

def createSegment (s : Str) : Except Err segment :=
  if s = "\x7b*\x7d".toList then .ok .segmentcatchallstring
  else if containsByte s '{' then
    if hasPrefix s ['{'] && hasSuffix s ['}'] && !containsByte s ':' then
      .ok (newSegmentAny s)
    else NewSegmentRegex s
  else .ok (.segmentstring s)

namespace segment

def String : segment → Str
  | segmentstring s => s
  | segmentcatchallstring => ['*']
  | segmentregex _ original _ => original
  | segmentany _ original _ => original

def Comparable : segment → Str
  | segmentstring s => s
  | segmentcatchallstring => ['*']
  | segmentregex r _ _ => r.expr
  | segmentany comp _ _ => comp

def CatchAll : segment → Bool
  | segmentcatchallstring => true
  | _ => false

def NumVars : segment → Nat
  | segmentstring _ => 0
  | segmentcatchallstring => 1
  | segmentregex _ original _ => countByte original '{'
  | segmentany _ _ _ => 1

/-- The appends of `segmentregex.Match`: `fields[i]` paired with the `i`-th captured
group; `none` when `fields` is too short (index out of range). -/
def zipFields : List Str → List Str → Option (List PathParam)
  | _, [] => some []
  | [], _ :: _ => none
  | f :: fs, c :: cs => (zipFields fs cs).map (fun ps => ⟨f, c⟩ :: ps)

/-- `Match(p, parms)`: the verdict and the new contents of `*parms`; `none` is a panic. -/
def Match (s : segment) (p : Str) (parms : List PathParam) : Option (Bool × List PathParam) :=
  match s with
  | segmentstring t => some (decide (p = t), parms)
  | segmentcatchallstring => some (true, parms)
  | segmentregex r _ fields =>
    match r.FindAllStringSubmatch p with
    | [caps] => (zipFields fields caps).map (fun ps => (true, parms ++ ps))
    | _ => some (false, parms)
  | segmentany _ _ fieldname =>
    if p.length = 0 then some (false, parms)
    else some (true, parms ++ [⟨fieldname, p⟩])

end segment

/-! ## mux.go, ctx.go: routes and the per-request context -/

/-- A `Route`; `methods` is the key set of `map[string]struct{}`, `handler` stands for the
opaque `http.Handler`. -/
structure Route where
  name : Str
  host : Str
  path : Str
  methods : List Str
  handler : Nat
  deriving DecidableEq, Repr, Inhabited

/-- The fields of `Context` that the matching core reads or writes. -/
structure Context where
  Route : Option Route
  pathParams : List PathParam
  HostParams : List Str
  RoutePath : Str
  deriving DecidableEq, Repr

/-- The state after `ctx.Reset()`. -/
def Context.Reset : Context := ⟨none, [], [], []⟩

/-- `ctx.PathParam(p)`: the value of the first parameter with key `p`, else `""`. -/
def Context.PathParam (ctx : Context) (p : Str) : Str :=
  match ctx.pathParams.find? (fun q => q.Key = p) with
  | some q => q.Value
  | none => []

/-- `ctx.AddPathParam(key, parm)`. -/
def Context.AddPathParam (ctx : Context) (key parm : Str) : Context :=
  { ctx with pathParams := ctx.pathParams ++ [⟨key, parm⟩] }

/-! ## trie.go -/

def verifyPath (path : Str) : Bool :=
  let r1 := if hasSuffix path "\x7b*\x7d".toList then trimRight path "\x7b*\x7d".toList else path
  let r1 := bracketStrip r1
  requestURIIsPath r1

/-- The loop of `ParsePath` over the components; `i != len(ps)-1` holds exactly when
components remain after the current one. -/
def parseSegments : List Str → Except Err (List segment)
  | [] => .ok []
  | p :: ps =>
    match createSegment p with
    | .error e => .error e
    | .ok seg =>
      if seg.CatchAll && !ps.isEmpty then .error .catchallNotLast
      else
        match parseSegments ps with
        | .error e => .error e
        | .ok segs => .ok (seg :: segs)

def ParsePath (path : Str) : Except Err (List segment) :=
  if !verifyPath path then .error .invalidPath
  else
    let path := if hasPrefix path ['/'] then path.drop 1 else path
    parseSegments (split path '/')

/-- The method table `map[string]*Route` of a node. -/
abbrev Methods := List (Str × Route)

/-- `m[k] = v`. -/
def mapSet : Methods → Str → Route → Methods
  | [], k, v => [(k, v)]
  | (k', v') :: rest, k, v => if k' = k then (k, v) :: rest else (k', v') :: mapSet rest k v

/-- `m[k]`, `none` when the key is absent (Go yields the nil route). -/
def mapGet : Methods → Str → Option Route
  | [], _ => none
  | (k', v') :: rest, k => if k' = k then some v' else mapGet rest k

/-- A non-root `node`: its segment, its method table and its children. -/
inductive node where
  | mk (seg : segment) (methods : Methods) (nodes : List node)

namespace node

def seg : node → segment
  | mk s _ _ => s

def methods : node → Methods
  | mk _ m _ => m

def nodes : node → List node
  | mk _ _ ns => ns

/-- `n.Methods()`. -/
def Methods (n : node) : Smux.Methods := n.methods

end node

/-- A `trie`. The embedded root node has a nil segment and a nil method table that no
method reads or writes, so only its child list is kept. -/
structure trie where
  nodes : List node
  depth : Nat
  maxparams : Nat

/-- The zero value `trie{}`. -/
def trie.empty : trie := ⟨[], 0, 0⟩

/-- The search for an existent node: the children before the first one whose comparable
equals `c`, that child, and the children after it. -/
def findNode (c : Str) : List node → Option (List node × node × List node)
  | [] => none
  | nn :: rest =>
    if nn.seg.Comparable = c then some ([], nn, rest)
    else (findNode c rest).map (fun x => (nn :: x.1, x.2.1, x.2.2))

/-- The loop `for m := range n.methods` of `trie.Add`: whether a method of the table is
also a method of the route. -/
def alreadySet (r : Route) (m : Methods) : Bool := m.any (fun kv => r.methods.contains kv.1)

/-- The loop `for m := range r.methods { n.methods[m] = r }`. -/
def setAll (r : Route) (m : Methods) : Methods := r.methods.foldl (fun m k => mapSet m k r) m

/-- The body of `if i == l-1` in `trie.Add`, on the node `n` reached for the last segment. -/
def setValue (r : Route) (n : node) : node × Option Err :=
  if alreadySet r n.methods then (n, some .alreadyHandled)
  else (node.mk n.seg (setAll r n.methods) n.nodes, none)

/-- The loop `for i, s := range path` of `trie.Add`, started on a node with children
`nodes`. It returns the children after the walk (mutations made before an error stay) and
either the error or the increments of `d` and `maxparams`. -/
def addLoop (r : Route) : List segment → List node → List node × Except Err (Nat × Nat)
  | [], nodes => (nodes, .ok (0, 0))
  | s :: rest, nodes =>
    if nodes.any (fun c => c.seg.CatchAll) then (nodes, .error .catchAllHiding)
    else if nodes.length > 0 && s.CatchAll then (nodes, .error .catchAllOverlaps)
    else
      let found := findNode s.Comparable nodes
      let n := match found with
        | some x => x.2.1
        | none => node.mk s [] []
      let visited : node × Except Err (Nat × Nat) :=
        if rest.isEmpty then
          match setValue r n with
          | (n1, some e) => (n1, .error e)
          | (n1, none) => (n1, .ok (0, 0))
        else
          match addLoop r rest n.nodes with
          | (sub, res) => (node.mk n.seg n.methods sub, res)
      let nodes1 := match found with
        | some x => x.1 ++ visited.1 :: x.2.2
        | none => nodes ++ [visited.1]
      match visited.2 with
      | .error e => (nodes1, .error e)
      | .ok dm => (nodes1, .ok (dm.1 + 1, dm.2 + n.seg.NumVars))

/-- `t.Add(r)`; `r = none` is the nil route. Returns the trie after the call and the
error, `none` for a nil error. -/
def trie.Add (t : trie) (r : Option Route) : trie × Option Err :=
  match r with
  | none => (t, none)
  | some r =>
    match ParsePath r.path with
    | .error e => (t, some e)
    | .ok path =>
      if r.methods.length = 0 then (t, some .noMethodOnPath)
      else
        match addLoop r path t.nodes with
        | (nodes, .error e) => (⟨nodes, t.depth, t.maxparams⟩, some e)
        | (nodes, .ok dm) =>
          (⟨nodes, if t.depth < dm.1 then dm.1 else t.depth,
             if t.maxparams < dm.2 then dm.2 else t.maxparams⟩, none)

/-- The result of a lookup: a node, the nil result, or a panic; `outOfFuel` is the
iteration budget of the embedding running out, which `trie.Get` never reaches. -/
inductive GetResult where
  | found (n : node) (ctx : Context)
  | notFound (ctx : Context)
  | panic
  | outOfFuel

/-- The scan `for j := range n.nodes` of `trie.Get`: the first child whose segment matches
`p`, with the parameters after the scan; `none` is a panic inside `Match`. -/
def scanNodes (p : Str) : List node → List PathParam → Option (Option node × List PathParam)
  | [], parms => some (none, parms)
  | c :: rest, parms =>
    match c.seg.Match p parms with
    | none => none
    | some (true, parms1) => some (some c, parms1)
    | some (false, parms1) => scanNodes p rest parms1

/-- `s[:hi]` for a signed bound; `none` is the slice-bounds panic. -/
def sliceTo (s : Str) (hi : Int) : Option Str :=
  if 0 ≤ hi ∧ hi ≤ s.length then some (s.take hi.toNat) else none

/-- The loop `for { ... }` of `trie.Get`; `nodes` are the children of the current node. -/
def getLoop (originalpath : Str) : Nat → List node → Str → Int → Context → GetResult
  | 0, _, _, _, _ => .outOfFuel
  | fuel + 1, nodes, path, ior, ctx =>
    let comp := upTo path '/'
    match scanNodes comp nodes ctx.pathParams with
    | none => .panic
    | some (none, parms) => .notFound { ctx with pathParams := parms }
    | some (some n, parms) =>
      let ctx1 := { ctx with pathParams := parms }
      if n.seg.CatchAll then
        match sliceTo originalpath (ior - 1) with
        | none => .panic
        | some p => .found n { ctx1.AddPathParam ['*'] path with RoutePath := p }
      else if !containsByte path '/' then .found n { ctx1 with RoutePath := originalpath }
      else getLoop originalpath fuel n.nodes (path.drop (comp.length + 1))
        (ior + (comp.length + 1)) ctx1

/-- `t.Get(path, ctx)`. -/
def trie.Get (t : trie) (path : Str) (ctx : Context) : GetResult :=
  let stripped := hasPrefix path ['/']
  let rest := if stripped then path.drop 1 else path
  getLoop path (rest.length + 1) t.nodes rest (if stripped then 1 else 0)
    { ctx with pathParams := [] }

/-! ## hostmatch.go -/

/-- `hostSegmentRegex.MatchString`, for
`^([a-zA-Z0-9]|[a-zA-Z0-9][a-zA-Z0-9\-]{0,61}[a-zA-Z0-9])$`. -/
def hostSegmentRegex (s : Str) : Bool :=
  let alnum := fun c => isLetter c || isDigit c
  match s with
  | [] => false
  | [c] => alnum c
  | c :: rest =>
    alnum c && rest.length ≤ 62 && alnum (rest.getLastD ' ') &&
      rest.dropLast.all (fun x => alnum x || x == '-')

/-- The loop of `verifyHostname` over the labels, with the flag `allowStar`. -/
def verifyLabels : List Str → Bool → Bool
  | [], _ => true
  | s :: rest, allowStar =>
    if s = ['*'] && !allowStar then false
    else if s ≠ ['*'] then
      if !hostSegmentRegex s then false else verifyLabels rest false
    else verifyLabels rest allowStar

def verifyHostname (host : Str) : Bool := verifyLabels (split host '.') true

def verifyHost (host : Str) : Bool := host = [] || verifyHostname host

/-- A `hostentry`; `t` is the `*trie` behind the `PathRouter` interface. -/
structure hostentry where
  host : Str
  segs : List Str
  numwildcards : Nat
  t : trie

/-- The loop of `Intersects` over the positions of two label lists of equal length. -/
def intersectsLabels : List Str → List Str → Bool
  | hh1 :: r1, hh2 :: r2 =>
    if hh1 = hh2 || hh1 = ['*'] || hh2 = ['*'] then intersectsLabels r1 r2 else false
  | _, _ => true

def hostentry.Intersects (h1 h2 : hostentry) : Bool :=
  let h1splt := split h1.host '.'
  let h2splt := split h2.host '.'
  if h1splt.length ≠ h2splt.length then false
  else intersectsLabels h1splt h2splt

/-- `h.Compile()`. -/
def hostentry.Compile (h : hostentry) : hostentry :=
  let segs := split h.host '.'
  { h with segs := segs, numwildcards := segs.foldl (fun n s => if s = ['*'] then n + 1 else n) 0 }

/-- `a[i] = v`; `none` is the index-out-of-range panic. -/
def setIndex (a : List Str) (i : Nat) (v : Str) : Option (List Str) :=
  if i < a.length then some (a.set i v) else none

/-- The loop of `hostentry.Match` over the remaining pattern labels: the verdict and the
contents of `ctx.HostParams`; `none` is a panic. -/
def matchLabels : List Str → Str → Nat → List Str → Option (Bool × List Str)
  | [], _, _, params => some (false, params)
  | seg :: rest, hostname, si, params =>
    let label := upTo hostname '.'
    if seg ≠ ['*'] && seg ≠ label then some (false, params)
    else
      let stored := if seg = ['*'] then (setIndex params si label).map (fun ps => (ps, si + 1))
        else some (params, si)
      match stored with
      | none => none
      | some (params1, si1) =>
        if hostname.length = label.length then
          if !rest.isEmpty then some (false, params1) else some (true, params1)
        else matchLabels rest (hostname.drop (label.length + 1)) si1 params1

/-- `h.Match(hostname, ctx)`: the verdict and the context after the call. -/
def hostentry.Match (h : hostentry) (hostname : Str) (ctx : Context) : Option (Bool × Context) :=
  (matchLabels h.segs hostname 0 (List.replicate h.numwildcards [])).map
    (fun x => (x.1, { ctx with HostParams := x.2 }))

/-- A `HostRouter`; `allhost` is the `*trie` behind the `PathRouter` interface. -/
structure HostRouter where
  hosts : List hostentry
  allhost : trie

def NewHostRouter : HostRouter := ⟨[], trie.empty⟩

/-- `h.AddHostname(hostname)`: the router after the call and the error. -/
def HostRouter.AddHostname (h : HostRouter) (hostname : Str) : HostRouter × Option Err :=
  if !verifyHost hostname then (h, some .invalidHost)
  else
    let hentry : hostentry := ⟨hostname, [], 0, trie.empty⟩
    match h.hosts.find? (fun e => hentry.Intersects e) with
    | some e => (h, some (.hostIntersection e.host))
    | none => ({ h with hosts := h.hosts ++ [hentry.Compile] }, none)

/-- The loop of `AddRoute` over the hosts: the route is added to the trie of the first
entry whose pattern equals the host of the route. -/
def addToHost (rt : Route) : List hostentry → List hostentry × Option Err
  | [] => ([], some .hostNotFound)
  | e :: rest =>
    if e.host = rt.host then
      let res := e.t.Add (some rt)
      ({ e with t := res.1 } :: rest, res.2)
    else
      let res := addToHost rt rest
      (e :: res.1, res.2)

/-- `h.AddRoute(rt)`; `rt = none` is the nil route. -/
def HostRouter.AddRoute (h : HostRouter) (rt : Option Route) : HostRouter × Option Err :=
  match rt with
  | none => (h, none)
  | some rt =>
    if !verifyPath rt.path then (h, some .invalidPath)
    else if rt.methods.length = 0 then (h, some .noMethodOnRoute)
    else if rt.host = [] then
      let res := h.allhost.Add (some rt)
      ({ h with allhost := res.1 }, res.2)
    else
      let res := addToHost rt h.hosts
      ({ h with hosts := res.1 }, res.2)

/-- The loop of `HostRouter.Get` over the hosts, followed by the lookup in `allhost`. -/
def getHosts (allhost : trie) (hostname path : Str) : List hostentry → Context → GetResult
  | [], ctx => allhost.Get path ctx
  | e :: rest, ctx =>
    match e.Match hostname ctx with
    | none => .panic
    | some (false, ctx1) => getHosts allhost hostname path rest ctx1
    | some (true, ctx1) =>
      match e.t.Get path ctx1 with
      | .notFound ctx2 => getHosts allhost hostname path rest ctx2
      | r => r

/-- `h.Get(hostname, path, ctx)`. -/
def HostRouter.Get (h : HostRouter) (hostname path : Str) (ctx : Context) : GetResult :=
  getHosts h.allhost hostname path h.hosts ctx

/-! ## Vocabulary of the statements -/

/-- The visit of the node `n` chosen for a segment in `addLoop`: the value is set when no
segment remains, else the walk goes on below `n`. -/
def visitNode (r : Route) (rest : List segment) (n : node) : node × Except Err (Nat × Nat) :=
  if rest.isEmpty then
    match setValue r n with
    | (n1, some e) => (n1, .error e)
    | (n1, none) => (n1, .ok (0, 0))
  else (node.mk n.seg n.methods (addLoop r rest n.nodes).1, (addLoop r rest n.nodes).2)

/-- The update `d += 1; maxparams += n.seg.NumVars()` on the result of a visit. -/
def bump (nv : Nat) : Except Err (Nat × Nat) → Except Err (Nat × Nat)
  | .error e => .error e
  | .ok dm => .ok (dm.1 + 1, dm.2 + nv)

/-- The node that a walk by comparable signatures reaches from the children `nodes`: at
every level the first child whose comparable equals the next signature, as in the search
for an existent node of `trie.Add`. -/
def descend : List Str → List node → Option node
  | [], _ => none
  | c :: cs, nodes =>
    match findNode c nodes with
    | none => none
    | some x => if cs.isEmpty then some x.2.1 else descend cs x.2.1.nodes

/-- Every binding of `m` is a binding of `m1`. -/
def MethodsLe (m m1 : Methods) : Prop := ∀ k v, mapGet m k = some v → mapGet m1 k = some v

/-- The node `n1` continues `n`: same segment, every binding kept, and the segments of
the children of `n` are the first segments of the children of `n1`. -/
structure NodeLe (n n1 : node) : Prop where
  seg_eq : n1.seg = n.seg
  methods_le : MethodsLe n.methods n1.methods
  nodes_le : n.nodes.map node.seg <+: n1.nodes.map node.seg

/-- The children `nodes1` continue the children `nodes`: nothing that a walk by comparable
signatures finds below `nodes` is lost or rebound below `nodes1`. -/
def Grows (nodes nodes1 : List node) : Prop :=
  nodes.map node.seg <+: nodes1.map node.seg ∧
  ∀ cs n, descend cs nodes = some n → ∃ n1, descend cs nodes1 = some n1 ∧ NodeLe n n1

/-- The outcome of a walk of `trie.Add` without error, seen from the children `nodes` after
the walk: the signatures of the segments lead to a node that binds every method of the
route to the route, and that node is a catch-all exactly when the last segment is. -/
def Terminal (r : Route) (segs : List segment) (nodes : List node) : Prop :=
  ∃ n, descend (segs.map segment.Comparable) nodes = some n ∧
    (∀ k ∈ r.methods, mapGet n.methods k = some r) ∧
    (∀ l, segs.getLast? = some l → n.seg.CatchAll = l.CatchAll)

/-- The components that `ParsePath` splits a template into: the leading `/` is dropped
once, then the template is split at every `/`. -/
def components (path : Str) : List Str :=
  split (if hasPrefix path ['/'] then path.drop 1 else path) '/'

/-- The components of a template prefix `P` in a template `P/...`. -/
def prefixComponents (P : Str) : List Str :=
  match P with
  | [] => []
  | c :: rest => if c = '/' then split rest '/' else split (c :: rest) '/'

/-- `t.Add` called for each route of a list in turn, whatever each call returns. -/
def trie.AddAll (t : trie) : List (Option Route) → trie
  | [] => t
  | r :: rs => ((t.Add r).1).AddAll rs

/-! ## Concrete inputs -/

/-- A route with the given name, template and methods, for any host, with handler `0`. -/
def mkRoute (name path : String) (methods : List String) : Route :=
  ⟨name.toList, [], path.toList, methods.map String.toList, 0⟩

/-- The trie after `Add` of a `GET` route for the template `/a/b` on the empty trie. -/
def trieAB : trie := (trie.empty.Add (some (mkRoute "ab" "/a/b" ["GET"]))).1

/-- The trie after `Add` of a `GET` route for the template `/{*}` on the empty trie. -/
def trieRootCatchAll : trie := (trie.empty.Add (some (mkRoute "all" "/\x7b*\x7d" ["GET"]))).1

/-- The trie after `Add` of a `GET` route for the template `/static/{*}` on the empty trie. -/
def trieStatic : trie :=
  (trie.empty.Add (some (mkRoute "files" "/static/\x7b*\x7d" ["GET"]))).1

/-- The calls that build a host router. -/
inductive HostOp where
  | addHostname (hostname : Str)
  | addRoute (rt : Option Route)

/-- The router after one call, whatever the call returns. -/
def HostRouter.apply (h : HostRouter) : HostOp → HostRouter
  | .addHostname hostname => (h.AddHostname hostname).1
  | .addRoute rt => (h.AddRoute rt).1

/-- The router after a sequence of calls, successful or failing. -/
def HostRouter.run (h : HostRouter) : List HostOp → HostRouter
  | [] => h
  | op :: ops => (h.apply op).run ops

/-- `Intersects` as a relation between two host patterns. -/
def patternsIntersect (a b : Str) : Bool :=
  hostentry.Intersects ⟨a, [], 0, trie.empty⟩ ⟨b, [], 0, trie.empty⟩

/-- An entry as `Compile` leaves it. -/
def hostentry.Compiled (e : hostentry) : Prop :=
  e.segs = split e.host '.' ∧
  e.numwildcards = (split e.host '.').foldl (fun n s => if s = ['*'] then n + 1 else n) 0

/-- The state that `AddHostname` maintains: every entry is compiled, and no entry
intersects an entry registered before it. -/
def HostsOk (hosts : List hostentry) : Prop :=
  (∀ e ∈ hosts, e.Compiled) ∧
  (hosts.map hostentry.host).Pairwise (fun a b => patternsIntersect b a = false)

/-- Three registrations, the second of which fails: `*.example.com` intersects
`www.example.com`. -/
def exampleHostOps : List HostOp :=
  [.addHostname "www.example.com".toList, .addHostname "*.example.com".toList,
   .addHostname "*.local.com".toList]

/-- The compiled entry of a pattern, with an empty trie. -/
def compiledEntry (pattern : String) : hostentry :=
  hostentry.Compile ⟨pattern.toList, [], 0, trie.empty⟩

/-- Every segment of the subtree of a node satisfies `P`. -/
inductive node.All (P : segment → Prop) : node → Prop where
  | mk (s : segment) (m : Smux.Methods) (ns : List node) :
    P s → (∀ c ∈ ns, node.All P c) → node.All P (node.mk s m ns)

/-- A segment that `createSegment` has built. -/
def Created (s : segment) : Prop := ∃ x, createSegment x = .ok s

/-- A trie reached from the empty trie by calls of `Add`, successful or failing. -/
def trie.Built (t : trie) : Prop := ∃ rs, t = trie.empty.AddAll rs

/-- A segment whose `Match` only appends parameters, none of them under the key `*`. -/
def NoStarKey (s : segment) : Prop :=
  ∀ p parms b parms1, s.Match p parms = some (b, parms1) →
    ∃ extra, parms1 = parms ++ extra ∧ ∀ q ∈ extra, q.Key ≠ ['*']

/-- Whether, on the walk of `trie.Get` by the components `cs` from the children `nodes`,
every level has a child with the signature of the component that matches it without
recording a parameter and is not a catch-all, while no child before it matches the
component: `trie.Get`, which takes the first matching child and never backtracks, then
reaches the node that the walk by signatures reaches. -/
def reachesOwn : List Str → List node → Bool
  | [], _ => true
  | c :: cs, nodes =>
    match findNode c nodes with
    | none => false
    | some x =>
      x.1.all (fun y => y.seg.Match c [] == some (false, [])) &&
      (x.2.1.seg.Match c [] == some (true, [])) && !x.2.1.seg.CatchAll &&
      (cs.isEmpty || reachesOwn cs x.2.1.nodes)

/-- The trie that `AddRoute` adds the routes of a host to: `allhost` for the empty host,
else the trie of the first entry whose pattern equals the host. -/
def HostRouter.trieFor (h : HostRouter) (host : Str) : Option trie :=
  if host = [] then some h.allhost
  else (h.hosts.find? (fun e => decide (e.host = host))).map hostentry.t

/-- `t.Get(path, ctx)` returns the node `n` whatever the context holds before the call. -/
def Finds (t : trie) (path : Str) (n : node) : Prop :=
  ∀ ctx, ∃ c, t.Get path ctx = .found n c

/-- An entry that does not claim the hostname: its `Match` fails, or its trie is empty. -/
def Passes (e : hostentry) (hostname : Str) : Prop :=
  (∀ ctx, ∃ c, e.Match hostname ctx = some (false, c)) ∨
  ((∀ ctx, ∃ b c, e.Match hostname ctx = some (b, c)) ∧ e.t.nodes = [])

/-- A route for a host, with the given name, template and methods, and handler `0`. -/
def mkHostRoute (name host path : String) (methods : List String) : Route :=
  ⟨name.toList, host.toList, path.toList, methods.map String.toList, 0⟩

/-- The router after the calls `ops1`, then `AddRoute` of `r`, then the calls `ops2`. -/
def routerWith (ops1 : List HostOp) (r : Route) (ops2 : List HostOp) : HostRouter :=
  ((NewHostRouter.run ops1).AddRoute (some r)).1.run ops2

/-- The host `api.example.com` with a capture route `/{id}` registered for it. -/
def exampleCaptureFirst : List HostOp :=
  [.addHostname "api.example.com".toList,
   .addRoute (some (mkHostRoute "item" "api.example.com" "/\x7bid\x7d" ["GET"]))]

/-- The hosts of `TestAddHostAndRouteWithGet`. -/
def exampleHosts : List HostOp :=
  [.addHostname "www.example.com".toList, .addHostname "api.example.com".toList,
   .addHostname "*.local.com".toList]

/-! ## Vocabulary of the statements: the grammars of the placeholders -/

/-- One or more ASCII digits. -/
def isUintText (p : Str) : Bool := !p.isEmpty && p.all isDigit

/-- An optional leading `-` followed by one or more ASCII digits. -/
def isIntText (p : Str) : Bool :=
  match p with
  | '-' :: q => isUintText q
  | _ => isUintText p

/-- One or more hexadecimal digits of either case. -/
def isIdText (p : Str) : Bool := !p.isEmpty && p.all isXDigit

/-- Exactly 36 characters: `-` at the offsets 8, 13, 18 and 23, the character `4` at offset
14, one of `8`, `9`, `a`, `b`, `A`, `B` at offset 19, hexadecimal digits elsewhere. -/
def isUuidv4Text (p : Str) : Bool :=
  p.length == 36 &&
  [8, 13, 18, 23].all (fun i => p.getD i ' ' == '-') &&
  p.getD 14 ' ' == '4' &&
  "89abAB".toList.contains (p.getD 19 ' ') &&
  ((List.range 36).filter (fun i => !([8, 13, 14, 18, 19, 23].contains i))).all
    (fun i => isXDigit (p.getD i ' '))

/-- A non-empty text without a newline: the values of an untyped placeholder inside a
component with literal text. -/
def isAnyText (p : Str) : Bool := !p.isEmpty && p.all (fun c => c != '\n')

/-- The grammar of the values of each capture group. -/
def rxgroup.conforms : rxgroup → Str → Bool
  | .any, v => isAnyText v
  | .int, v => isIntText v
  | .uint, v => isUintText v
  | .uuidv4, v => isUuidv4Text v
  | .id, v => isIdText v

/-- The text `p` is the concatenation of the literal pieces of the program and of one
conforming value per capture group; `caps` lists the values in order. -/
inductive Parses : List rxpiece → Str → List Str → Prop where
  | nil : Parses [] [] []
  | lit (s : Str) {ps : List rxpiece} {rest : Str} {caps : List Str} :
      Parses ps rest caps → Parses (.lit s :: ps) (s ++ rest) caps
  | grp (g : rxgroup) (v : Str) {ps : List rxpiece} {rest : Str} {caps : List Str} :
      g.conforms v = true → Parses ps rest caps → Parses (.grp g :: ps) (v ++ rest) (v :: caps)

/-- A placeholder name or a type name: a letter followed by letters, digits and
underscores. -/
def isName (x : Str) : Bool :=
  match x with
  | c :: xs => isLetter c && xs.all isWord
  | [] => false

/-- The component `{x:T}`. -/
def typedHole (x T : Str) : Str := '{' :: x ++ ':' :: T ++ ['}']

/-- The component `{x}`. -/
def untypedHole (x : Str) : Str := '{' :: x ++ ['}']

/-! ## search.go: the table of placeholder types of the search automaton -/

/-- The constants of `searchkind`. -/
inductive searchkind where
  | searchstatic
  | searchany
  | searchnumber
  | searchsignednumber
  | searchuuid
  | searchuuidv4
  | searchid
  deriving DecidableEq, Repr

/-- The table `searchPathTypesSubstitutions`. -/
def searchPathTypesSubstitutions : List (Str × searchkind) :=
  [ ("int".toList, .searchsignednumber),
    ("uint".toList, .searchnumber),
    ("uuidv4".toList, .searchuuidv4),
    ("uuid".toList, .searchuuid),
    ("id".toList, .searchid) ]

/-- The trie of `TestAddGetUser`: one route `/users/{userid}` for GET and HEAD. -/
def trieUsers : trie :=
  (trie.empty.Add (some (mkRoute "user" "/users/\x7buserid\x7d" ["GET", "HEAD"]))).1

/-! ## Vocabulary of the statements: component templates -/

/-- A piece of a component template: literal text, or a placeholder with its name and its
type (the empty type for an untyped placeholder `{name}`). -/
inductive tplPiece where
  | text (s : Str)
  | hole (name ty : Str)
  deriving DecidableEq, Repr

/-- The placeholder written as the bracket `b`: the name stands between `{` and the first
`:` (or the closing bracket), the type between that `:` and the closing bracket. -/
def holeOf (b : Str) : tplPiece :=
  let inner := (b.drop 1).dropLast
  .hole (upTo inner ':') (inner.drop ((upTo inner ':').length + 1))

/-- The pieces of `r` from position `init` on, given the positions of its placeholders. -/
def templateFrom (r : Str) : List (Nat × Nat) → Nat → List tplPiece
  | [], init => [.text (r.drop init)]
  | (fi, fe) :: fs, init =>
    .text (slice r init fi) :: holeOf (slice r fi fe) :: templateFrom r fs fe

/-- The pieces of the component template `r`, in order: its placeholders `{name}` and
`{name:type}`, and the literal text before, between and after them. -/
def templateOf (r : Str) : List tplPiece := templateFrom r (bracketFindAll r) 0

/-- The grammar of the values of a placeholder type; the empty type is the untyped
placeholder inside a component with other pieces. -/
def grammar (ty : Str) (v : Str) : Bool :=
  if ty = "int".toList then isIntText v
  else if ty = "uint".toList then isUintText v
  else if ty = "id".toList then isIdText v
  else if ty = "uuidv4".toList then isUuidv4Text v
  else if ty = [] then isAnyText v
  else false

/-- The text `p` is the concatenation, in template order, of the literal pieces and of one
value per placeholder that conforms to the grammar of the placeholder; `params` pairs every
placeholder name with its value, in template order. -/
inductive Fits : List tplPiece → Str → List PathParam → Prop where
  | nil : Fits [] [] []
  | text (s : Str) {ps : List tplPiece} {rest : Str} {params : List PathParam} :
      Fits ps rest params → Fits (.text s :: ps) (s ++ rest) params
  | hole (name ty v : Str) {ps : List tplPiece} {rest : Str} {params : List PathParam} :
      grammar ty v = true → Fits ps rest params →
      Fits (.hole name ty :: ps) (v ++ rest) (⟨name, v⟩ :: params)

/-- A component template with at least one placeholder, all of whose placeholders are
typed with one of `int`, `uint`, `id`, `uuidv4`. -/
def isTypedTemplate (r : Str) : Bool :=
  (templateOf r).any (fun piece =>
    match piece with
    | .hole _ _ => true
    | .text _ => false) &&
  (templateOf r).all (fun piece =>
    match piece with
    | .hole _ ty => ["int".toList, "uint".toList, "id".toList, "uuidv4".toList].contains ty
    | .text _ => true)

/-- The text of one match of `bracketSimplistic`: `{x}` or `{x:T}` with names `x`, `T`. -/
def BracketShaped (b : Str) : Prop :=
  (∃ x, isName x = true ∧ b = untypedHole x) ∨
  (∃ x T, isName x = true ∧ isName T = true ∧ b = typedHole x T)

/-- A literal host label: 1 to 63 characters, only ASCII letters, digits and `-`, neither
starting nor ending with `-`. -/
def isHostLabel (s : Str) : Bool :=
  decide (1 ≤ s.length) && decide (s.length ≤ 63) &&
    s.all (fun c => isLetter c || isDigit c || c == '-') &&
    !hasPrefix s ['-'] && !hasSuffix s ['-']

/-- The number of `*` labels among the labels of a pattern. -/
def wildcardCount (segs : List Str) : Nat := (segs.filter (fun s => s = ['*'])).length

/-- The hostname labels at the wildcard positions of the pattern, from left to right. -/
def wildcardLabels (segs labels : List Str) : List Str :=
  (segs.zip labels).filterMap (fun sl => if sl.1 = ['*'] then some sl.2 else none)

/-! ## mux.go: the route builder -/

/-- The errors of the `RouteBuilder`, one constructor per `fmt.Errorf` site. -/
inductive BuildErr where
  | invalidHost
  | invalidPath
  | nilHandler
  deriving DecidableEq, Repr

/-- A `RouteBuilder`; `handler` is `none` for a nil `http.Handler`, `err` is `none` for a
nil error, `methods` is the key set of the map in insertion order. -/
structure RouteBuilder where
  name : Str
  host : Str
  path : Str
  methods : List Str
  handler : Option Nat
  err : Option BuildErr
  deriving DecidableEq, Repr

/-- `NewRoute()`. -/
def NewRoute : RouteBuilder := ⟨[], [], [], [], none, none⟩

def RouteBuilder.Name (route : RouteBuilder) (n : Str) : RouteBuilder :=
  if route.err ≠ none then route else { route with name := n }

def RouteBuilder.Host (route : RouteBuilder) (h : Str) : RouteBuilder :=
  if route.err ≠ none then route
  else if !verifyHost h then { route with err := some .invalidHost }
  else { route with host := h }

def RouteBuilder.Path (route : RouteBuilder) (p : Str) : RouteBuilder :=
  if route.err ≠ none then route
  else if !verifyPath p then { route with err := some .invalidPath }
  else { route with path := p }

/-- `route.Methods(ms...)`: the method set is replaced by the upper-cased names. The
upper-casing is that of the ASCII letters, which is `strings.ToUpper` on ASCII names. -/
def RouteBuilder.Methods (route : RouteBuilder) (ms : List Str) : RouteBuilder :=
  if route.err ≠ none then route
  else { route with methods := (ms.map (fun m => m.map Char.toUpper)).eraseDups }

def RouteBuilder.Handler (route : RouteBuilder) (handler : Option Nat) : RouteBuilder :=
  if route.err ≠ none then route
  else
    match handler with
    | none => { route with err := some .nilHandler }
    | some h => { route with handler := some h }

/-- `route.mkname()`: the name, or `[methods] host path` (the methods in the order of the
key list). -/
def RouteBuilder.mkname (route : RouteBuilder) : Str :=
  if route.name ≠ [] then route.name
  else '[' :: (" ".toList.intercalate route.methods) ++ "] ".toList ++ route.host ++ route.path

/-- `r.Build()`. -/
def RouteBuilder.Build (r : RouteBuilder) : Except BuildErr Route :=
  match r.err with
  | some e => .error e
  | none =>
    match r.handler with
    | none => .error .nilHandler
    | some h => .ok ⟨r.mkname, r.host, r.path, r.methods, h⟩

/-! ## Vocabulary of the statements: the single walk of a lookup -/

/-- Whether the segment matches the path component `p`. -/
def segment.accepts (s : segment) (p : Str) : Bool :=
  match s.Match p [] with
  | some (true, _) => true
  | _ => false

/-- The parameters that the segment records when it matches the path component `p`. -/
def segment.captures (s : segment) (p : Str) : List PathParam :=
  match s.Match p [] with
  | some (true, ps) => ps
  | _ => []

/-- The components joined by `/`. -/
def joinPath : List Str → Str
  | [] => []
  | [c] => c
  | c :: d :: cs => c ++ '/' :: joinPath (d :: cs)

/-- The walk without backtracking over the components of a path: at every node the first
child in the child list (the earliest-inserted one) whose segment matches the current
component is taken, and no other child is tried afterwards. A catch-all child ends the
walk and records the remaining path under `*`; otherwise the walk ends on the child reached
with the last component. The result is the node and the recorded parameters, or `none`
when some component has no matching child. -/
def singleWalk : List Str → List node → List PathParam → Option (node × List PathParam)
  | [], _, _ => none
  | c :: cs, nodes, parms =>
    match nodes.find? (fun n => n.seg.accepts c) with
    | none => none
    | some n =>
      if n.seg.CatchAll then some (n, parms ++ [⟨['*'], joinPath (c :: cs)⟩])
      else if cs.isEmpty then some (n, parms ++ n.seg.captures c)
      else singleWalk cs n.nodes (parms ++ n.seg.captures c)

/-- A segment whose `Match` never panics. -/
def NeverPanics (s : segment) : Prop :=
  ∀ (p : Str) (parms : List PathParam), ∃ b ps, s.Match p parms = some (b, ps)

/-- A trie with a capture route registered before a literal route. -/
def trieCaptureThenLiteral : trie :=
  trie.empty.AddAll [some (mkRoute "xa" "/\x7bx\x7d/a" ["GET"]), some (mkRoute "bc" "/b/c" ["GET"])]

/-- The same routes registered in the other order. -/
def trieLiteralThenCapture : trie :=
  trie.empty.AddAll [some (mkRoute "bc" "/b/c" ["GET"]), some (mkRoute "xa" "/\x7bx\x7d/a" ["GET"])]

/-- A trie with the capture `/users/{uid}` registered before the literal `/users/me`. -/
def exampleCaptureFirstTrie : trie :=
  trie.empty.AddAll [some (mkRoute "user" "/users/\x7buid\x7d" ["GET"]),
    some (mkRoute "me" "/users/me" ["GET"])]

/-! ## Vocabulary of the statements: the shape of a trie -/

/-- The condition on the segments of the children of one node: either no child is a
catch-all, or there is exactly one child and it is a catch-all; and no two children have
equal comparable signatures. -/
def SegsOk (ss : List segment) : Prop :=
  ((∀ s ∈ ss, s.CatchAll = false) ∨ (∃ s, ss = [s] ∧ s.CatchAll = true)) ∧
  (ss.map segment.Comparable).Nodup

/-- The condition `SegsOk` on the children of a node. -/
def ChildrenOk (ns : List node) : Prop := SegsOk (ns.map node.seg)

/-- The condition on one node: its children satisfy `ChildrenOk`, and a catch-all node has
no children. -/
def NodeOk (n : node) : Prop := ChildrenOk n.nodes ∧ (n.seg.CatchAll = true → n.nodes = [])

/-- Every node of the subtree of a node satisfies `P`. -/
inductive node.Each (P : node → Prop) : node → Prop where
  | mk (s : segment) (m : Smux.Methods) (ns : List node) :
    P (node.mk s m ns) → (∀ c ∈ ns, node.Each P c) → node.Each P (node.mk s m ns)

/-- The condition on a whole trie, given by the children of its root. -/
def TrieOk (nodes : List node) : Prop := ChildrenOk nodes ∧ ∀ c ∈ nodes, c.Each NodeOk

/-- A trie built by six calls of `Add`, three of which fail: a route below a catch-all,
a catch-all next to existing children, and a method that is bound already. -/
def trieMixed : trie :=
  trie.empty.AddAll
    [some (mkRoute "files" "/static/\x7b*\x7d" ["GET"]),
     some (mkRoute "hidden" "/static/app.js" ["GET"]),
     some (mkRoute "user" "/users/\x7bid:uint\x7d" ["GET"]),
     some (mkRoute "overlap" "/users/\x7b*\x7d" ["GET"]),
     some (mkRoute "user2" "/users/\x7buid:uint\x7d" ["GET"]),
     some (mkRoute "me" "/users/me" ["GET", "HEAD"])]

/-! ## Vocabulary of the statements: lookups and contexts -/

/-- The result `r` of a lookup seen from a caller whose context is `ctx`: the fields that
the lookup writes (`pathParams`, and `RoutePath` on a match) come from `r`, the other
fields from `ctx`. -/
def GetResult.rebase (r : GetResult) (ctx : Context) : GetResult :=
  match r with
  | .found n c => .found n { ctx with pathParams := c.pathParams, RoutePath := c.RoutePath }
  | .notFound c => .notFound { ctx with pathParams := c.pathParams }
  | .panic => .panic
  | .outOfFuel => .outOfFuel

/-- The entry claims the request: its pattern matches the hostname and its trie yields a
match for the path. -/
def Claims (e : hostentry) (hostname path : Str) : Prop :=
  (∃ c, e.Match hostname Context.Reset = some (true, c)) ∧
  ∃ n c, e.t.Get path Context.Reset = .found n c

/-- The entry declines the request: its pattern does not match the hostname, or it matches
and the trie of the entry yields no match for the path. -/
def Declines (e : hostentry) (hostname path : Str) : Prop :=
  (∃ c, e.Match hostname Context.Reset = some (false, c)) ∨
  ((∃ c, e.Match hostname Context.Reset = some (true, c)) ∧
    ∃ c, e.t.Get path Context.Reset = .notFound c)

/-- A host `www.example.com` with the route `/a`, and the route `/b` for any host. -/
def exampleFallback : List HostOp :=
  [.addHostname "www.example.com".toList,
   .addRoute (some (mkHostRoute "a" "www.example.com" "/a" ["GET"])),
   .addRoute (some (mkHostRoute "b" "" "/b" ["GET"]))]

/-! ## mux.go: the router -/

/-- `ctx.Reset()` on a context taken from the pool. -/
def Context.reset (ctx : Context) : Context :=
  { ctx with pathParams := [], HostParams := [], RoutePath := [], Route := none }

/-- A `Router`; `hostRouter` is `none` for the nil pointer before `Compile`,
`NotFoundHandler` is `none` for a nil handler. The pool is the source of the context
argument of `ServeHTTP`. -/
structure Router where
  routes : List (Option Route)
  hosts : List Str
  NotFoundHandler : Option Nat
  hostRouter : Option HostRouter

/-- `NewRouter()`. -/
def NewRouter : Router := ⟨[], [], none, none⟩

def Router.AddRoute (router : Router) (route : Option Route) : Router :=
  { router with routes := router.routes ++ [route] }

def Router.SetRoutes (router : Router) (routes : List (Option Route)) : Router :=
  { router with routes := routes }

def Router.SetHostnames (router : Router) (hostnames : List Str) : Router :=
  { router with hosts := hostnames }

/-- The loop of `Compile` over the hostnames: the host router is mutated in place, the
first error ends the loop. -/
def compileHosts (h : HostRouter) : List Str → HostRouter × Option Err
  | [] => (h, none)
  | hn :: rest =>
    match h.AddHostname hn with
    | (h1, some e) => (h1, some e)
    | (h1, none) => compileHosts h1 rest

/-- The loop of `Compile` over the routes. -/
def compileRoutes (h : HostRouter) : List (Option Route) → HostRouter × Option Err
  | [] => (h, none)
  | r :: rest =>
    match h.AddRoute r with
    | (h1, some e) => (h1, some e)
    | (h1, none) => compileRoutes h1 rest

/-- `router.Compile()`: `router.hostRouter` is assigned first and filled afterwards, so it
is set also when an error is returned. -/
def Router.Compile (router : Router) : Router × Option Err :=
  match compileHosts NewHostRouter router.hosts with
  | (h1, some e) => ({ router with hostRouter := some h1 }, some e)
  | (h1, none) =>
    match compileRoutes h1 router.routes with
    | (h2, e) => ({ router with hostRouter := some h2 }, e)

/-- Index of the last occurrence of `c` in `s`. -/
def lastIndexByte (s : Str) (c : Char) : Option Nat :=
  match s.reverse.indexOf? c with
  | some k => some (s.length - 1 - k)
  | none => none

/-- `net.SplitHostPort`: host and port, `none` for an error. -/
def splitHostPort (hostport : Str) : Option (Str × Str) :=
  match lastIndexByte hostport ':' with
  | none => none
  | some i =>
    let bracketed : Option (Str × Nat × Nat) :=
      if hostport.head? = some '[' then
        match hostport.indexOf? ']' with
        | none => none
        | some e =>
          if e + 1 = hostport.length then none
          else if e + 1 = i then some (slice hostport 1 e, 1, e + 1)
          else none
      else if containsByte (hostport.take i) ':' then none
      else some (hostport.take i, 0, 0)
    match bracketed with
    | none => none
    | some (host, j, k) =>
      if containsByte (hostport.drop j) '[' then none
      else if containsByte (hostport.drop k) ']' then none
      else some (host, hostport.drop (i + 1))

/-- The fields of `*http.Request` that `ServeHTTP` reads. -/
structure Request where
  Host : Str
  Method : Str
  RawPath : Str
  Path : Str

/-- What `ServeHTTP` does with a request: the not-found handler (the one of the router or
the one of `net/http`), the answer 405 with the `Allow` header, or the handler of a route
called with the context; `panic` and `outOfFuel` are those of the lookup. -/
inductive Response where
  | notFound (custom : Option Nat)
  | methodNotAllowed (allow : List Str)
  | handled (rt : Route) (ctx : Context)
  | panic
  | outOfFuel

/-- `router.ServeHTTP(rw, r)`, with the context that the pool hands out. -/
def Router.ServeHTTP (router : Router) (pooled : Context) (r : Request) : Response :=
  let ctx := pooled.reset
  match router.hostRouter with
  | none => .notFound router.NotFoundHandler
  | some hr =>
    let hostname :=
      if containsByte r.Host ':' then
        match splitHostPort r.Host with
        | some hp => hp.1
        | none => []
      else r.Host
    let routePath :=
      if ctx.RoutePath = [] then (if r.RawPath ≠ [] then r.RawPath else r.Path)
      else ctx.RoutePath
    match hr.Get hostname routePath ctx with
    | .found n c =>
      match mapGet n.Methods r.Method with
      | none => .methodNotAllowed (n.Methods.map Prod.fst)
      | some rt => .handled rt { c with Route := some rt, RoutePath := routePath }
    | .notFound _ => .notFound router.NotFoundHandler
    | .panic => .panic
    | .outOfFuel => .outOfFuel

/-- The result of one call on a host router: the router after the call and the error. -/
def HostRouter.step (h : HostRouter) : HostOp → HostRouter × Option Err
  | .addHostname hostname => h.AddHostname hostname
  | .addRoute rt => h.AddRoute rt

/-- The calls that `Compile` makes on the host router, in order. -/
def Router.compileOps (router : Router) : List HostOp :=
  router.hosts.map HostOp.addHostname ++ router.routes.map HostOp.addRoute

/-- A router with an any-host route `/a` followed by a route without methods. -/
def routerHalfCompiled : Router :=
  (NewRouter.SetRoutes
    [some (mkRoute "a" "/a" ["GET"]), some (mkRoute "broken" "/b" []),
     some (mkRoute "c" "/c" ["GET"])])

/-- A sequence of calls on a host router that stops at the first error. -/
def HostRouter.runUntilError (h : HostRouter) : List HostOp → HostRouter × Option Err
  | [] => (h, none)
  | op :: ops =>
    match h.step op with
    | (h1, some e) => (h1, some e)
    | (h1, none) => HostRouter.runUntilError h1 ops

/-- Every call of the sequence returns nil. -/
def Succeeds : HostRouter → List HostOp → Prop
  | _, [] => True
  | h, op :: ops => (h.step op).2 = none ∧ Succeeds (h.apply op) ops

/-- The router of `TestAddGetUser` after `Compile`. -/
def routerUsers : Router :=
  ((NewRouter.AddRoute (some (mkRoute "user" "/users/\x7buserid\x7d" ["GET", "HEAD"]))).Compile).1

/-! ## Vocabulary of the statements: the steps of a lookup -/

/-- The hostname that `ServeHTTP` looks up: `r.Host` without its port. -/
def Request.hostname (r : Request) : Str :=
  if containsByte r.Host ':' then
    match splitHostPort r.Host with
    | some hp => hp.1
    | none => []
  else r.Host

/-- The path that `ServeHTTP` looks up, on a context that has been reset. -/
def Request.routePath (r : Request) : Str :=
  if r.RawPath ≠ [] then r.RawPath else r.Path

/-- The answer of `ServeHTTP` to the result of the lookup. -/
def Router.respond (router : Router) (r : Request) : GetResult → Response
  | .found n c =>
    match mapGet n.Methods r.Method with
    | none => .methodNotAllowed (n.Methods.map Prod.fst)
    | some rt => .handled rt { c with Route := some rt, RoutePath := r.routePath }
  | .notFound _ => .notFound router.NotFoundHandler
  | .panic => .panic
  | .outOfFuel => .outOfFuel

/-- The local state of a call of `HostRouter.Get` in progress: before the entry `rest[0]`
of the loop over the hosts (before the any-host trie when `rest` is empty); at the head of
the loop of `trie.Get`, in the trie of a host entry (`cont` holds the entries that follow)
or in the any-host trie (`cont = none`); or returned. -/
inductive LookupState where
  | atHost (rest : List hostentry) (ctx : Context)
  | inTrie (cont : Option (List hostentry)) (originalpath : Str) (nodes : List node)
      (path : Str) (ior : Int) (ctx : Context)
  | done (r : GetResult)

/-- The entry of `t.Get(path, ctx)`: the leading slash is stripped and `ctx.pathParams` is
replaced by an empty slice. -/
def trieStart (cont : Option (List hostentry)) (t : trie) (path : Str) (ctx : Context) :
    LookupState :=
  let stripped := hasPrefix path ['/']
  .inTrie cont path t.nodes (if stripped then path.drop 1 else path)
    (if stripped then 1 else 0) { ctx with pathParams := [] }

/-- The state after a trie lookup has returned `r`: `HostRouter.Get` goes on with the next
host entry on a nil result of the trie of a host, and returns otherwise. -/
def afterTrie (cont : Option (List hostentry)) (r : GetResult) : LookupState :=
  match cont, r with
  | some rest, .notFound c => .atHost rest c
  | _, r => .done r

/-- One step of a lookup: one call of `Match` on a host entry, or one iteration of the
loop of `trie.Get`. -/
def lookupStep (allhost : trie) (hostname path : Str) : LookupState → LookupState
  | .atHost [] ctx => trieStart none allhost path ctx
  | .atHost (e :: rest) ctx =>
    match e.Match hostname ctx with
    | none => .done .panic
    | some (false, ctx1) => .atHost rest ctx1
    | some (true, ctx1) => trieStart (some rest) e.t path ctx1
  | .inTrie cont originalpath nodes path ior ctx =>
    let comp := upTo path '/'
    match scanNodes comp nodes ctx.pathParams with
    | none => .done .panic
    | some (none, parms) => afterTrie cont (.notFound { ctx with pathParams := parms })
    | some (some n, parms) =>
      let ctx1 := { ctx with pathParams := parms }
      if n.seg.CatchAll then
        match sliceTo originalpath (ior - 1) with
        | none => .done .panic
        | some p => .done (.found n { ctx1.AddPathParam ['*'] path with RoutePath := p })
      else if !containsByte path '/' then .done (.found n { ctx1 with RoutePath := originalpath })
      else .inTrie cont originalpath n.nodes (path.drop (comp.length + 1))
        (ior + (comp.length + 1)) ctx1
  | .done r => .done r

/-- `k` steps of a lookup. -/
def lookupIter (allhost : trie) (hostname path : Str) : Nat → LookupState → LookupState
  | 0, s => s
  | k + 1, s => lookupIter allhost hostname path k (lookupStep allhost hostname path s)

/-- A compiled router with one host pattern and two templates whose typed captures
overlap: every text that `uint` accepts is accepted by `id`. -/
def routerOverlap : Router :=
  (((NewRouter.SetHostnames ["*.example.com".toList]).SetRoutes
    [some ⟨"bynumber".toList, "*.example.com".toList, "/items/\x7ba:uint\x7d".toList,
        ["GET".toList], 1⟩,
     some ⟨"byhex".toList, "*.example.com".toList, "/items/\x7bb:id\x7d".toList,
        ["GET".toList], 2⟩]).Compile).1

/-- Two requests to `routerOverlap`, one for each template. -/
def overlapRequests : List Request :=
  [⟨"a.example.com:8080".toList, "GET".toList, [], "/items/42".toList⟩,
   ⟨"b.example.com".toList, "GET".toList, [], "/items/ff".toList⟩]

/-- A context as an earlier request has left it in the pool. -/
def usedContext : Context :=
  ⟨some (mkRoute "old" "/old" ["GET"]), [⟨"a".toList, "7".toList⟩], ["old".toList],
    "/old".toList⟩

/-! ## Vocabulary of the statements: the parameter bound of a trie -/

/-- Along every chain of children that starts at the node, the values of `NumVars` of the
segments add up to at most `k`. -/
inductive node.Within : Nat → node → Prop where
  | mk (k : Nat) (s : segment) (m : Smux.Methods) (ns : List node) :
    s.NumVars ≤ k → (∀ c ∈ ns, node.Within (k - s.NumVars) c) →
    node.Within k (node.mk s m ns)

/-- The number of capture groups of a program. -/
def rxGroups : List rxpiece → Nat
  | [] => 0
  | .lit _ :: ps => rxGroups ps
  | .grp _ :: ps => rxGroups ps + 1

/-- A trie with a typed component of two placeholders, a catch-all and a shared literal. -/
def trieParams : trie :=
  trie.empty.AddAll
    [some (mkRoute "span" "/range/\x7ba:uint\x7d-\x7bb:uint\x7d/\x7bunit\x7d" ["GET"]),
     some (mkRoute "files" "/files/\x7b*\x7d" ["GET"]),
     some (mkRoute "broken" "/range/\x7ba:uint\x7d-\x7bb:uint\x7d/\x7bunit\x7d/x" []),
     some (mkRoute "range" "/range" ["GET"])]

/-! ## search.go: the search automaton

A `*searchnode` is the head of a chain linked by `next`. The chain is the list of its
nodes: `next` of a node is the node after it in the list, and `next == nil` holds on the
last one. `accepts`, `reset` and `search` write to the fields `all`, `idx` and `final` of
the nodes: they return the nodes after the call. A slice or index out of range is the
result `panic`. The loops `for _, b := range s.all` visit the bytes of the string, which is
what Go does on ASCII text. -/

/-- The fields of a `searchnode` other than `next`; `kind` is `none` for the zero value of
`searchkind`, which is none of its constants. -/
structure searchnode where
  kind : Option searchkind
  str : Str
  paramname : Str
  idx : Nat
  all : Str
  final : Bool
  compare : Str
  original : Str
  numvars : Nat
  deriving DecidableEq, Repr

/-- The value of a constant of `searchkind` (`iota + 1`). -/
def searchkind.code : searchkind → Nat
  | .searchstatic => 1
  | .searchany => 2
  | .searchnumber => 3
  | .searchsignednumber => 4
  | .searchuuid => 5
  | .searchuuidv4 => 6
  | .searchid => 7

/-- `searchPathSubstitute`: the field name and the kind of one bracket. -/
def searchPathSubstitute (s : Str) : Except Err (Str × Option searchkind) :=
  let splt := split s ':'
  let fieldName := splt.headD []
  let fieldName := if hasPrefix fieldName ['{'] then fieldName.drop 1 else fieldName
  if splt.length = 1 then
    let fieldName := if hasSuffix fieldName ['}'] then fieldName.dropLast else fieldName
    .ok (fieldName, some .searchany)
  else if splt.length = 2 then
    let t := (splt.getD 1 []).dropLast
    match searchPathTypesSubstitutions.lookup t with
    | none => .error .invalidType
    | some change => .ok (fieldName, some change)
  else .ok ([], none)

/-- The composite literal `&searchnode{kind: searchstatic, str: s}`. -/
def staticNode (s : Str) : searchnode :=
  ⟨some .searchstatic, s, [], 0, [], false, [], [], 0⟩

/-- The composite literal `&searchnode{kind: sub, paramname: fname}`. -/
def kindNode (sub : Option searchkind) (fname : Str) : searchnode :=
  ⟨sub, [], fname, 0, [], false, [], [], 0⟩

/-- `fmt.Sprintf("{%v}", sub)`: the number of the kind between brackets. -/
def kindText (sub : Option searchkind) : Str :=
  ['{'] ++ Nat.toDigits 10 (match sub with
    | some k => k.code
    | none => 0) ++ ['}']

/-- The loop of `newSearchNode` over the bracket matches, followed by the final literal:
the nodes linked from position `init` on, and the text added to `compare`. -/
def searchPieces (r : Str) : List (Nat × Nat) → Nat → Except Err (List searchnode × Str)
  | [], init =>
    if init < r.length then .ok ([staticNode (r.drop init)], r.drop init) else .ok ([], [])
  | (fi, fe) :: fs, init =>
    let lit := if fi > init then [staticNode (slice r init fi)] else []
    let littext := if fi > init then slice r init fi else []
    match searchPathSubstitute (slice r fi fe) with
    | .error e => .error e
    | .ok (fname, sub) =>
      match searchPieces r fs fe with
      | .error e => .error e
      | .ok (chain, compare) =>
        .ok (lit ++ kindNode sub fname :: chain, littext ++ kindText sub ++ compare)

/-- The end of `newSearchNode`: `compare`, `original` and `numvars` are set on the first
node of the chain. -/
def finishHead (r compare : Str) (chain : List searchnode) : List searchnode :=
  match chain with
  | [] => []
  | h :: rest =>
    { h with
      compare := compare
      original := r
      numvars := ((h :: rest).filter (fun n => n.kind ≠ some .searchstatic)).length } :: rest

/-- `newSearchNode(r)`: the chain behind the returned pointer `sn.next`, which is never
empty. -/
def newSearchNode (r : Str) : Except Err (List searchnode) :=
  if containsByte r '/' then .error .mustBeSegment
  else if !urlIsPath (bracketStrip r) then .error .invalidUrlPath
  else
    let findings := bracketFindAll r
    if findings.length = 0 then .ok (finishHead r r [staticNode r])
    else
      match searchPieces r findings 0 with
      | .error e => .error e
      | .ok (chain, compare) => .ok (finishHead r compare chain)

/-- The test `(b < '0' || b > '9') && (b < 'a' || b > 'f') && (b < 'A' || b > 'F')`. -/
def notHex (b : Char) : Bool :=
  (b < '0' || b > '9') && (b < 'a' || b > 'f') && (b < 'A' || b > 'F')

/-- `s.accepts(all)`: the node after the call and the returned length; `last` is
`s.next == nil`; `none` is an index out of range. -/
def searchnode.accepts (s : searchnode) (last : Bool) (all : Str) : Option (searchnode × Nat) :=
  let s := if s.all = [] then { s with all := all } else s
  match s.kind with
  | some .searchstatic =>
    if s.final then some (s, 0)
    else
      let l := s.str.length
      if all.length < l then some (s, 0)
      else if all.take l = s.str then some ({ s with final := true, idx := l }, l)
      else some (s, 0)
  | some .searchany =>
    if last then some ({ s with idx := s.all.length, final := true }, s.all.length)
    else some ({ s with idx := s.idx + 1, final := true }, 1)
  | some .searchnumber =>
    if last then
      if s.all.any (fun b => b < '0' || b > '9') then some (s, 0)
      else some ({ s with idx := s.all.length, final := true }, s.all.length)
    else
      match all with
      | [] => none
      | b :: _ =>
        if b < '0' || b > '9' then some (s, 0)
        else some ({ s with idx := s.idx + 1, final := true }, 1)
  | some .searchsignednumber =>
    if last then
      if s.all.enum.any (fun ib => (ib.2 < '0' || ib.2 > '9') && (ib.1 = 0 && ib.2 ≠ '-')) then
        some (s, 0)
      else some ({ s with idx := s.all.length, final := true }, s.all.length)
    else
      match all with
      | [] => none
      | b :: _ =>
        if (b < '0' || b > '9') && (s.idx = 0 && b ≠ '-') then some (s, 0)
        else some ({ s with idx := s.idx + 1, final := true }, 1)
  | some .searchuuid =>
    if s.final then some (s, 0)
    else if all.length < 36 then some (s, 0)
    else if all.getD 8 ' ' ≠ '-' || all.getD 13 ' ' ≠ '-' || all.getD 18 ' ' ≠ '-' ||
        all.getD 23 ' ' ≠ '-' then some (s, 0)
    else if (all.take 36).enum.any (fun ib =>
        !(ib.1 = 8 || ib.1 = 13 || ib.1 = 18 || ib.1 = 23) && notHex ib.2) then some (s, 0)
    else some ({ s with idx := 36, final := true }, 36)
  | some .searchuuidv4 =>
    if s.final then some (s, 0)
    else if all.length < 36 then some (s, 0)
    else if all.getD 14 ' ' ≠ '4' then some (s, 0)
    else
      let b := all.getD 19 ' '
      if (b < '8' || b > '9') && (b < 'a' && b > 'b') && (b < 'A' && b > 'B') then some (s, 0)
      else if all.getD 8 ' ' ≠ '-' || all.getD 13 ' ' ≠ '-' || all.getD 18 ' ' ≠ '-' ||
          all.getD 23 ' ' ≠ '-' then some (s, 0)
      else if (all.take 36).enum.any (fun ib =>
          !(ib.1 = 14 || ib.1 = 19 || ib.1 = 8 || ib.1 = 13 || ib.1 = 18 || ib.1 = 23) &&
            notHex ib.2) then some (s, 0)
      else some ({ s with idx := 36, final := true }, 36)
  | some .searchid =>
    if last then
      if s.all.any notHex then some (s, 0)
      else some ({ s with idx := s.all.length, final := true }, s.all.length)
    else
      match all with
      | [] => none
      | b :: _ =>
        if notHex b then some (s, 0)
        else some ({ s with idx := s.idx + 1, final := true }, 1)
  | none => some (s, 0)

/-- `s.reset()`. -/
def searchnode.reset (s : searchnode) : searchnode :=
  { s with final := false, idx := 0, all := [] }

/-- `s.saveparam(parms)` for a non-nil `parms`: the contents of `*parms` after the call;
`none` is the panic of `s.all[:s.idx]`. -/
def searchnode.saveparam (s : searchnode) (parms : List PathParam) : Option (List PathParam) :=
  if s.kind ≠ some .searchstatic then
    if s.idx ≤ s.all.length then some (parms ++ [⟨s.paramname, s.all.take s.idx⟩]) else none
  else some parms

/-- The outcome of `search`: the nodes of the chain after the call, the verdict and the
contents of `*parms`; or a panic; `outOfFuel` is the iteration budget of the embedding
running out. -/
inductive SearchResult where
  | done (chain : List searchnode) (verdict : Bool) (parms : List PathParam)
  | panic
  | outOfFuel
  deriving DecidableEq, Repr

/-- `input[i:]`, `none` when `i` is out of range. -/
def sliceFrom (input : Str) (i : Nat) : Option Str :=
  if i ≤ input.length then some (input.drop i) else none

/-- The loop `for { ... }` of `s.search(input, parms)`, from the index `i`; `rest` are
the nodes after `s` and `next` is `search` on them. `tryNext` is the attempt
`nx.accepts(input[i:])` followed by `nx.search(input[i+acc:], parms)`: the nodes after
`s`, whether both succeeded, and `*parms` after it. -/
def searchLoop (next : List searchnode → Str → List PathParam → SearchResult) :
    Nat → searchnode → List searchnode → Str → Nat → List PathParam → SearchResult
  | 0, _, _, _, _, _ => .outOfFuel
  | fuel + 1, s, rest, input, i, parms =>
    if i = input.length then
      if rest.isEmpty && s.final then
        match s.saveparam parms with
        | none => .panic
        | some parms1 => .done (s.reset :: rest) true parms1
      else .done (s.reset :: rest) false parms
    else
      let tryNext : SearchResult :=
        match rest with
        | nx :: more =>
          if s.final then
            match sliceFrom input i with
            | none => .panic
            | some tail =>
              match nx.accepts more.isEmpty tail with
              | none => .panic
              | some (nx1, acc) =>
                if acc > 0 then
                  match sliceFrom input (i + acc) with
                  | none => .panic
                  | some tail1 => next (nx1 :: more) tail1 parms
                else .done (nx1 :: more) false parms
          else .done rest false parms
        | [] => .done rest false parms
      match tryNext with
      | .panic => .panic
      | .outOfFuel => .outOfFuel
      | .done rest1 true parms1 =>
        match s.saveparam parms1 with
        | none => .panic
        | some parms2 => .done (s.reset :: rest1) true parms2
      | .done rest1 false parms1 =>
        match sliceFrom input i with
        | none => .panic
        | some tail =>
          match s.accepts rest.isEmpty tail with
          | none => .panic
          | some (s1, acc) =>
            if acc > 0 then searchLoop next fuel s1 rest1 input (i + acc) parms1
            else .done (s1.reset :: rest1) false parms1

/-- `s.search(input, parms)` on the chain that starts at `s`; `depth` bounds the length of
the chain. -/
def searchFrom : Nat → List searchnode → Str → List PathParam → SearchResult
  | 0, _, _, _ => .outOfFuel
  | _ + 1, [], _, _ => .panic
  | depth + 1, s :: rest, input, parms =>
    if rest.isEmpty && s.kind = some .searchany && input.length > 0 then
      .done (s :: rest) true (parms ++ [⟨s.paramname, input⟩])
    else searchLoop (searchFrom depth) (input.length + 2) s rest input 0 parms

/-- `s.Match(p, parms)` on the chain that starts at `s`. -/
def searchnode.Match (chain : List searchnode) (p : Str) (parms : List PathParam) :
    SearchResult :=
  searchFrom chain.length chain p parms

/-! ## Vocabulary of the statements: the names of the captures -/

/-- The keys under which the captures of a segment are recorded: the field names of a
regex segment, the field name of an untyped placeholder, `*` for the catch-all. -/
def segment.names : segment → List Str
  | .segmentstring _ => []
  | .segmentcatchallstring => [['*']]
  | .segmentregex _ _ fields => fields
  | .segmentany _ _ fieldname => [fieldname]

/-- The walk of `trie.Add` for the segments `segs` finds, at every level, a node that
declares the capture names of the segment. -/
def ownsPath : List segment → List node → Bool
  | [], _ => true
  | s :: rest, nodes =>
    match findNode s.Comparable nodes with
    | none => false
    | some x => decide (x.2.1.seg.names = s.names) && ownsPath rest x.2.1.nodes

/-- Every route bound in the method table of the node, or of a node below it, has a
template whose comparable signatures are those of the nodes from the root to the node
where it is bound; `pre` are the signatures above the node. -/
inductive node.Placed : List Str → node → Prop where
  | mk (pre : List Str) (s : segment) (m : Smux.Methods) (ns : List node) :
    (∀ k r, mapGet m k = some r →
      ∃ segs, ParsePath r.path = .ok segs ∧
        segs.map segment.Comparable = pre ++ [s.Comparable]) →
    (∀ c ∈ ns, node.Placed (pre ++ [s.Comparable]) c) →
    node.Placed pre (node.mk s m ns)

/-- A chain of nodes from the children `nodes` downwards: each node is a child of the one
before it. -/
inductive Chain : List node → List node → Prop where
  | last {nodes : List node} {c : node} : c ∈ nodes → Chain nodes [c]
  | step {nodes : List node} {c : node} {cs : List node} :
    c ∈ nodes → Chain c.nodes cs → Chain nodes (c :: cs)

/-- The route `/users/{id:uint}` for GET. -/
def routeById : Route := mkRoute "byid" "/users/\x7bid:uint\x7d" ["GET"]

/-- The route `/users/{uid:uint}` for POST. -/
def routeByUid : Route := mkRoute "byuid" "/users/\x7buid:uint\x7d" ["POST"]

/-- The trie after `Add` of `routeById` and then of `routeByUid`. -/
def trieTwoNames : trie := trie.empty.AddAll [some routeById, some routeByUid]

/-! ## Vocabulary of the statements: the split of a path at a catch-all -/

/-- The components `c1`, ..., `ck`, each followed by `/`, and then `rest`:
`c1/c2/.../ck/rest`. -/
def trailed : List Str → Str → Str
  | [], rest => rest
  | c :: cs, rest => c ++ '/' :: trailed cs rest

/-- The components `c1`, ..., `ck`, each behind a `/`: `/c1/c2/.../ck`. -/
def slashed : List Str → Str
  | [] => []
  | c :: cs => '/' :: c ++ slashed cs

/-! ## Vocabulary of the statements: a route held by a trie -/

/-- The trie holds the route: the walk from the root by the comparable signatures of the
segments of the route's template ends on a node whose method table sends every method of
the route to the route. -/
def trie.Holds (t : trie) (r : Route) : Prop :=
  ∃ segs n, ParsePath r.path = .ok segs ∧
    descend (segs.map segment.Comparable) t.nodes = some n ∧
    ∀ k ∈ r.methods, mapGet n.methods k = some r

/-- The route `/users` for GET on the host `api.example.com`. -/
def routeApiUsers : Route := mkHostRoute "r5" "api.example.com" "/users" ["GET"]

/-! ## Vocabulary of the statements: concurrent callers of one router

The memory that the callers of `ServeHTTP` share is the router, the `Context` objects that
`pool.New` has allocated (`heap`: a context is addressed by its index) and the pool itself
(`pool`: the addresses that `pool.Get` can hand out). A call of `ServeHTTP` is cut into
atomic steps: `pool.Get()`; `ctx.Reset()` with the test of `hostRouter`; one call of
`hostentry.Match`; one iteration of the loop of `trie.Get`; the answer with the deferred
`pool.Put(ctx)`. A step works on the context through the pointer `ctx` that the caller
holds: it reads the contents of `heap[ctx]` as they are at that moment, whoever wrote them,
and writes its result there. No function on this path assigns to a field of the router, of
a trie, of a node or of a segment (`trie.Get` and the `Match` methods have value
receivers), so no step writes to the router. -/

/-- The local variables of a call of `HostRouter.Get` in progress, the context apart (it
is the object behind the pointer `ctx`): before the entry `rest[0]` of the loop over the
hosts; at the head of the loop of `trie.Get`; or returned with a node, with nil, or by a
panic. -/
inductive Ctl where
  | atHost (rest : List hostentry)
  | inTrie (cont : Option (List hostentry)) (originalpath : Str) (nodes : List node)
      (path : Str) (ior : Int)
  | found (n : node)
  | notFound
  | panic

/-- One step of a lookup, given the contents of the context behind `ctx`: the new local
variables and the contents of the context after the step. -/
def ctlStep (allhost : trie) (hostname path : Str) : Ctl → Context → Ctl × Context
  | .atHost [], ctx =>
    let stripped := hasPrefix path ['/']
    (.inTrie none path allhost.nodes (if stripped then path.drop 1 else path)
      (if stripped then 1 else 0), { ctx with pathParams := [] })
  | .atHost (e :: rest), ctx =>
    match e.Match hostname ctx with
    | none => (.panic, ctx)
    | some (false, ctx1) => (.atHost rest, ctx1)
    | some (true, ctx1) =>
      let stripped := hasPrefix path ['/']
      (.inTrie (some rest) path e.t.nodes (if stripped then path.drop 1 else path)
        (if stripped then 1 else 0), { ctx1 with pathParams := [] })
  | .inTrie cont originalpath nodes path ior, ctx =>
    let comp := upTo path '/'
    match scanNodes comp nodes ctx.pathParams with
    | none => (.panic, ctx)
    | some (none, parms) =>
      (match cont with
        | some rest => .atHost rest
        | none => .notFound, { ctx with pathParams := parms })
    | some (some n, parms) =>
      let ctx1 := { ctx with pathParams := parms }
      if n.seg.CatchAll then
        match sliceTo originalpath (ior - 1) with
        | none => (.panic, ctx1.AddPathParam ['*'] path)
        | some p => (.found n, { ctx1.AddPathParam ['*'] path with RoutePath := p })
      else if !containsByte path '/' then (.found n, { ctx1 with RoutePath := originalpath })
      else (.inTrie cont originalpath n.nodes (path.drop (comp.length + 1))
        (ior + (comp.length + 1)), ctx1)
  | .found n, ctx => (.found n, ctx)
  | .notFound, ctx => (.notFound, ctx)
  | .panic, ctx => (.panic, ctx)

/-- The state of the lone lookup with the same local variables and the context `ctx`. -/
def Ctl.view : Ctl → Context → LookupState
  | .atHost rest, ctx => .atHost rest ctx
  | .inTrie cont originalpath nodes path ior, ctx =>
    .inTrie cont originalpath nodes path ior ctx
  | .found n, ctx => .done (.found n ctx)
  | .notFound, ctx => .done (.notFound ctx)
  | .panic, _ => .done .panic

/-- The answer of `ServeHTTP` once the lookup has returned, given the contents of the
context; `none` while the lookup is running. -/
def Router.answer (router : Router) (req : Request) : Ctl → Context → Option Response
  | .found n, c => some (router.respond req (.found n c))
  | .notFound, c => some (router.respond req (.notFound c))
  | .panic, _ => some .panic
  | _, _ => none

/-- The contents of the context after the answer: `ServeHTTP` assigns `ctx.Route` and
`ctx.RoutePath` before it calls the handler, and nothing on the other answers. -/
def Response.context (resp : Response) (old : Context) : Context :=
  match resp with
  | .handled _ c => c
  | _ => old

/-- A caller of `ServeHTTP`: it has not started; it holds the context at address `ctx`
that `pool.Get` returned; it is inside the lookup; or it has answered and returned. -/
inductive Caller where
  | waiting (req : Request)
  | holding (req : Request) (ctx : Nat)
  | running (req : Request) (ctx : Nat) (ctl : Ctl)
  | finished (req : Request) (resp : Response)

/-- The address of the context that the caller holds. -/
def Caller.addr : Caller → Option Nat
  | .holding _ a => some a
  | .running _ a _ => some a
  | _ => none

/-- The atomic steps of the callers. `get i j`: caller `i` runs `pool.Get()`, which hands
out the pooled context number `j` and takes it out of the pool or, for `none`, hands out a
context made by `pool.New`.
`reset i`: caller `i` runs `ctx.Reset()` and tests `hostRouter`. `step i`: caller `i` makes
one step of its lookup. `finish i`: caller `i` answers and returns, which runs the
deferred `pool.Put(ctx)`. -/
inductive Action where
  | get (i : Nat) (j : Option Nat)
  | reset (i : Nat)
  | step (i : Nat)
  | finish (i : Nat)

/-- The shared memory and the callers. -/
structure System where
  router : Router
  heap : List Context
  pool : List Nat
  callers : List Caller

/-- One atomic step of one caller; `none` when the step is not enabled. -/
def System.act (s : System) : Action → Option System
  | .get i none =>
    match s.callers[i]? with
    | some (.waiting req) =>
      some { s with
        heap := s.heap ++ [Context.Reset]
        callers := s.callers.set i (.holding req s.heap.length) }
    | _ => none
  | .get i (some j) =>
    match s.callers[i]?, s.pool[j]? with
    | some (.waiting req), some a =>
      some { s with
        pool := s.pool.erase a
        callers := s.callers.set i (.holding req a) }
    | _, _ => none
  | .reset i =>
    match s.callers[i]? with
    | some (.holding req a) =>
      match s.heap[a]? with
      | some c =>
        some { s with
          heap := s.heap.set a c.reset
          callers := s.callers.set i (.running req a
            (match s.router.hostRouter with
              | none => .notFound
              | some hr => .atHost hr.hosts)) }
      | none => none
    | _ => none
  | .step i =>
    match s.callers[i]?, s.router.hostRouter with
    | some (.running req a ctl), some hr =>
      match s.heap[a]? with
      | some c =>
        some { s with
          heap := s.heap.set a (ctlStep hr.allhost req.hostname req.routePath ctl c).2
          callers := s.callers.set i
            (.running req a (ctlStep hr.allhost req.hostname req.routePath ctl c).1) }
      | none => none
    | _, _ => none
  | .finish i =>
    match s.callers[i]? with
    | some (.running req a ctl) =>
      match s.heap[a]? with
      | some c =>
        match s.router.answer req ctl c with
        | some resp =>
          some { s with
            heap := s.heap.set a (resp.context c)
            pool := a :: s.pool
            callers := s.callers.set i (.finished req resp) }
        | none => none
      | none => none
    | _ => none

/-- An interleaving of steps of the callers. -/
def System.exec (s : System) : List Action → Option System
  | [] => some s
  | a :: rest =>
    match s.act a with
    | none => none
    | some s1 => System.exec s1 rest

/-- The callers of `router` before any of them has started, one for each request; the
pool holds the contexts `used`, as earlier requests have left them. -/
def System.start (router : Router) (used : List Context) (reqs : List Request) : System :=
  ⟨router, used, List.range used.length, reqs.map Caller.waiting⟩

/-- What holds of a caller at every moment of every interleaving: it serves the request it
was started with; the context it holds exists and is not in the pool; while it runs, its
local variables and the contents of its context are a state of the lone lookup of its
request on a reset context; when it has finished, its answer is the answer of the lone
call. -/
def Caller.Sound (router : Router) (heap : List Context) (pool : List Nat) (req0 : Request) :
    Caller → Prop
  | .waiting req => req = req0
  | .holding req a => req = req0 ∧ a ∉ pool ∧ ∃ c, heap[a]? = some c
  | .running req a ctl =>
    req = req0 ∧ a ∉ pool ∧ ∃ c, heap[a]? = some c ∧
      match router.hostRouter with
      | none => ctl = .notFound
      | some hr =>
        ∃ k, ctl.view c =
          lookupIter hr.allhost req.hostname req.routePath k (.atHost hr.hosts Context.Reset)
  | .finished req resp => req = req0 ∧ resp = router.ServeHTTP Context.Reset req

/-- The invariant of the interleavings: the router is the one the callers started with,
the pool has no address twice and only addresses of existing contexts, every caller is
sound, and no two callers hold the same context. -/
def System.Sound (router : Router) (reqs : List Request) (s : System) : Prop :=
  s.router = router ∧ s.callers.length = reqs.length ∧
    s.pool.Nodup ∧ (∀ a ∈ s.pool, a < s.heap.length) ∧
    (∀ (i : Nat) (c : Caller), s.callers[i]? = some c →
      ∃ req0, reqs[i]? = some req0 ∧ c.Sound router s.heap s.pool req0) ∧
    (∀ (i j : Nat) (ci cj : Caller) (a : Nat), i ≠ j → s.callers[i]? = some ci →
      s.callers[j]? = some cj → ci.addr = some a → cj.addr ≠ some a)

/-- An interleaving of the two callers of `overlapRequests`, step by step in turn; both
take a used context from the pool. -/
def overlapSchedule : List Action :=
  [.get 1 (some 0), .get 0 (some 0), .reset 0, .reset 1,
   .step 0, .step 1, .step 1, .step 0, .step 0, .step 1, .step 0, .step 1,
   .finish 1, .finish 0]

/-- The state of the callers after `overlapSchedule`. -/
def overlapFinal : System :=
  ((System.start routerOverlap [usedContext, usedContext] overlapRequests).exec
    overlapSchedule).getD (System.start routerOverlap [] [])

/-- A state that no interleaving reaches: the two callers of `overlapRequests` hold the
same context. -/
def sharedContext : System :=
  match routerOverlap.hostRouter with
  | some hr =>
    ⟨routerOverlap, [Context.Reset], [],
      [.running ⟨"a.example.com:8080".toList, "GET".toList, [], "/items/42".toList⟩ 0
          (.atHost hr.hosts),
       .running ⟨"b.example.com".toList, "GET".toList, [], "/items/ff".toList⟩ 0
          (.atHost hr.hosts)]⟩
  | none => ⟨routerOverlap, [], [], []⟩

/-! ## Properties -/

theorem node_eta (n : node) : node.mk n.seg n.methods n.nodes = n := by
  cases n; rfl

theorem findNode_some {c : Str} {nodes pre post : List node} {n : node}
    (h : findNode c nodes = some (pre, n, post)) :
    nodes = pre ++ n :: post ∧ n.seg.Comparable = c ∧ ∀ x ∈ pre, x.seg.Comparable ≠ c := by
  induction nodes generalizing pre with
  | nil => simp [findNode] at h
  | cons nn rest ih =>
    unfold findNode at h
    split at h
    · rename_i hc
      simp only [Option.some.injEq, Prod.mk.injEq] at h
      obtain ⟨rfl, rfl, rfl⟩ := h
      simp [hc]
    · rename_i hc
      cases hf : findNode c rest with
      | none => simp [hf] at h
      | some x =>
        obtain ⟨p1, n1, q1⟩ := x
        simp only [hf, Option.map_some', Option.some.injEq, Prod.mk.injEq] at h
        obtain ⟨rfl, rfl, rfl⟩ := h
        obtain ⟨h1, h2, h3⟩ := ih hf
        refine ⟨by simp [h1], h2, ?_⟩
        intro x hx
        rcases List.mem_cons.mp hx with rfl | hx
        · exact hc
        · exact h3 x hx

theorem findNode_none {c : Str} {nodes : List node} (h : findNode c nodes = none) :
    ∀ x ∈ nodes, x.seg.Comparable ≠ c := by
  induction nodes with
  | nil => simp
  | cons nn rest ih =>
    unfold findNode at h
    split at h
    · simp at h
    · rename_i hc
      simp only [Option.map_eq_none'] at h
      intro x hx
      rcases List.mem_cons.mp hx with rfl | hx
      · exact hc
      · exact ih h x hx

/-- One step of `addLoop`, once both catch-all guards have passed. -/
theorem addLoop_cons (r : Route) (s : segment) (rest : List segment) (nodes : List node)
    (h1 : nodes.any (fun c => c.seg.CatchAll) = false)
    (h2 : (decide (nodes.length > 0) && s.CatchAll) = false) :
    addLoop r (s :: rest) nodes =
      (let found := findNode s.Comparable nodes
       let n := match found with
        | some x => x.2.1
        | none => node.mk s [] []
       let visited : node × Except Err (Nat × Nat) :=
        if rest.isEmpty then
          match setValue r n with
          | (n1, some e) => (n1, .error e)
          | (n1, none) => (n1, .ok (0, 0))
        else
          match addLoop r rest n.nodes with
          | (sub, res) => (node.mk n.seg n.methods sub, res)
       let nodes1 := match found with
        | some x => x.1 ++ visited.1 :: x.2.2
        | none => nodes ++ [visited.1]
       match visited.2 with
       | .error e => (nodes1, .error e)
       | .ok dm => (nodes1, .ok (dm.1 + 1, dm.2 + n.seg.NumVars))) := by
  rw [addLoop]
  simp only [h1, h2]
  simp

theorem addLoop_step (r : Route) (s : segment) (rest : List segment) (nodes : List node)
    (h1 : nodes.any (fun c => c.seg.CatchAll) = false)
    (h2 : (decide (nodes.length > 0) && s.CatchAll) = false) :
    addLoop r (s :: rest) nodes =
      match findNode s.Comparable nodes with
      | some x => (x.1 ++ (visitNode r rest x.2.1).1 :: x.2.2,
                    bump x.2.1.seg.NumVars (visitNode r rest x.2.1).2)
      | none => (nodes ++ [(visitNode r rest (node.mk s [] [])).1],
                  bump s.NumVars (visitNode r rest (node.mk s [] [])).2) := by
  rw [addLoop_cons r s rest nodes h1 h2]
  cases hf : findNode s.Comparable nodes with
  | none =>
    simp only [visitNode, bump, node.seg]
    split <;> split <;> simp_all
  | some x =>
    simp only [visitNode, bump]
    split <;> split <;> simp_all

theorem visitNode_last (r : Route) (n : node) :
    visitNode r [] n =
      if alreadySet r n.methods then (n, .error .alreadyHandled)
      else (node.mk n.seg (setAll r n.methods) n.nodes, .ok (0, 0)) := by
  by_cases h : alreadySet r n.methods = true
  · simp only [visitNode, setValue, h, if_true, List.isEmpty_nil]
  · simp only [Bool.not_eq_true] at h
    simp [visitNode, setValue, h]

theorem visitNode_more (r : Route) (s : segment) (rest : List segment) (n : node) :
    visitNode r (s :: rest) n =
      (node.mk n.seg n.methods (addLoop r (s :: rest) n.nodes).1,
       (addLoop r (s :: rest) n.nodes).2) := by
  simp [visitNode]

theorem visitNode_fst_of_error (r : Route) (rest : List segment) (n : node)
    (ih : ∀ e, (addLoop r rest n.nodes).2 = .error e → (addLoop r rest n.nodes).1 = n.nodes)
    (e : Err) (h : (visitNode r rest n).2 = .error e) : (visitNode r rest n).1 = n := by
  cases rest with
  | nil =>
    rw [visitNode_last] at h ⊢
    split
    · rfl
    · rename_i hm
      simp [hm] at h
  | cons s rest =>
    rw [visitNode_more] at h ⊢
    simp only at h ⊢
    rw [ih e h]
    exact node_eta n

theorem bump_error {nv : Nat} {x : Except Err (Nat × Nat)} {e : Err}
    (h : bump nv x = .error e) : x = .error e := by
  cases x <;> simp_all [bump]

theorem visitNode_fresh_ok (r : Route) (s : segment) (rest : List segment)
    (ih : ∃ dm, (addLoop r rest []).2 = .ok dm) :
    ∃ dm, (visitNode r rest (node.mk s [] [])).2 = .ok dm := by
  cases rest with
  | nil => rw [visitNode_last]; simp [node.methods, alreadySet]
  | cons s1 rest => rw [visitNode_more]; simpa [node.nodes] using ih

theorem addLoop_nil_ok (r : Route) (segs : List segment) :
    ∃ dm, (addLoop r segs []).2 = .ok dm := by
  induction segs with
  | nil => exact ⟨_, rfl⟩
  | cons s rest ih =>
    rw [addLoop_step r s rest [] (by simp) (by simp)]
    simp only [findNode]
    obtain ⟨dm, h⟩ := visitNode_fresh_ok r s rest ih
    simp [h, bump]

/-- An error of the walk leaves the children as they were. -/
theorem addLoop_error_unchanged (r : Route) (segs : List segment) :
    ∀ (nodes : List node) (e : Err),
      (addLoop r segs nodes).2 = .error e → (addLoop r segs nodes).1 = nodes := by
  induction segs with
  | nil => intro nodes e h; simp [addLoop] at h
  | cons s rest ih =>
    intro nodes e h
    by_cases h1 : nodes.any (fun c => c.seg.CatchAll) = true
    · simp [addLoop, h1]
    · simp only [Bool.not_eq_true] at h1
      by_cases h2 : (decide (nodes.length > 0) && s.CatchAll) = true
      · rw [addLoop]; simp only [h1, h2]; simp
      · simp only [Bool.not_eq_true] at h2
        rw [addLoop_step r s rest nodes h1 h2] at h ⊢
        cases hf : findNode s.Comparable nodes with
        | none =>
          simp only [hf] at h ⊢
          obtain ⟨dm, hok⟩ := visitNode_fresh_ok r s rest (addLoop_nil_ok r rest)
          rw [hok] at h
          simp [bump] at h
        | some x =>
          obtain ⟨pre, n, post⟩ := x
          simp only [hf] at h ⊢
          have hv := visitNode_fst_of_error r rest n (ih n.nodes) e (bump_error h)
          rw [hv]
          exact (findNode_some hf).1.symm

theorem mapGet_mapSet (m : Methods) (k k1 : Str) (v : Route) :
    mapGet (mapSet m k v) k1 = if k = k1 then some v else mapGet m k1 := by
  induction m with
  | nil => simp [mapSet, mapGet]
  | cons kv rest ih =>
    obtain ⟨k2, v2⟩ := kv
    by_cases h : k2 = k
    · subst h
      by_cases h1 : k2 = k1 <;> simp [mapSet, mapGet, h1]
    · by_cases h1 : k2 = k1
      · subst h1
        have h2 : ¬ k = k2 := fun e => h e.symm
        simp [mapSet, mapGet, h, h2]
      · simp [mapSet, mapGet, h, h1, ih]

theorem mapGet_foldl_mapSet (r : Route) (ks : List Str) (m : Methods) (k1 : Str) :
    mapGet (ks.foldl (fun m k => mapSet m k r) m) k1 =
      if k1 ∈ ks then some r else mapGet m k1 := by
  induction ks generalizing m with
  | nil => simp
  | cons k ks ih =>
    simp only [List.foldl_cons, ih, mapGet_mapSet, List.mem_cons]
    by_cases h1 : k1 ∈ ks
    · simp [h1]
    · by_cases h2 : k = k1
      · subst h2; simp
      · have h3 : ¬ k1 = k := fun e => h2 e.symm
        simp [h1, h2, h3]

theorem mapGet_setAll (r : Route) (m : Methods) (k : Str) :
    mapGet (setAll r m) k = if k ∈ r.methods then some r else mapGet m k :=
  mapGet_foldl_mapSet r r.methods m k

theorem alreadySet_iff (r : Route) (m : Methods) :
    alreadySet r m = true ↔ ∃ k, k ∈ r.methods ∧ (mapGet m k).isSome = true := by
  induction m with
  | nil => simp [alreadySet, mapGet]
  | cons kv rest ih =>
    obtain ⟨k2, v2⟩ := kv
    have hcons : alreadySet r ((k2, v2) :: rest) =
        (r.methods.contains k2 || alreadySet r rest) := rfl
    rw [hcons, Bool.or_eq_true, ih]
    constructor
    · rintro (h | ⟨k, hk, hg⟩)
      · refine ⟨k2, ?_, by simp [mapGet]⟩
        simpa using h
      · refine ⟨k, hk, ?_⟩
        by_cases h1 : k2 = k
        · simp [mapGet, h1]
        · simpa [mapGet, h1] using hg
    · rintro ⟨k, hk, hg⟩
      by_cases h1 : k2 = k
      · subst h1; left; simpa using hk
      · right; exact ⟨k, hk, by simpa [mapGet, h1] using hg⟩

theorem methodsLe_refl (m : Methods) : MethodsLe m m := fun _ _ h => h

theorem methodsLe_setAll (r : Route) (m : Methods) (h : alreadySet r m = false) :
    MethodsLe m (setAll r m) := by
  intro k v hk
  rw [mapGet_setAll]
  by_cases hm : k ∈ r.methods
  · exfalso
    have : alreadySet r m = true := (alreadySet_iff r m).2 ⟨k, hm, by simp [hk]⟩
    simp [h] at this
  · simp [hm, hk]

theorem nodeLe_refl (n : node) : NodeLe n n :=
  ⟨rfl, methodsLe_refl _, List.prefix_refl _⟩

theorem nodeLe_trans {a b c : node} (h1 : NodeLe a b) (h2 : NodeLe b c) : NodeLe a c :=
  ⟨h2.seg_eq.trans h1.seg_eq, fun k v h => h2.methods_le k v (h1.methods_le k v h),
   h1.nodes_le.trans h2.nodes_le⟩

theorem grows_refl (nodes : List node) : Grows nodes nodes :=
  ⟨List.prefix_refl _, fun _ n h => ⟨n, h, nodeLe_refl n⟩⟩

theorem grows_trans {a b c : List node} (h1 : Grows a b) (h2 : Grows b c) : Grows a c := by
  refine ⟨h1.1.trans h2.1, ?_⟩
  intro cs n h
  obtain ⟨n1, hn1, le1⟩ := h1.2 cs n h
  obtain ⟨n2, hn2, le2⟩ := h2.2 cs n1 hn1
  exact ⟨n2, hn2, nodeLe_trans le1 le2⟩

theorem findNode_eq_find (c : Str) (nodes : List node) :
    (findNode c nodes).map (fun x => x.2.1) =
      nodes.find? (fun x => decide (x.seg.Comparable = c)) := by
  induction nodes with
  | nil => rfl
  | cons nn rest ih =>
    unfold findNode
    by_cases h : nn.seg.Comparable = c
    · simp [h]
    · simp only [h, if_false, List.find?_cons, decide_False]
      rw [← ih]
      cases findNode c rest <;> rfl

theorem descend_cons (c : Str) (cs : List Str) (nodes : List node) :
    descend (c :: cs) nodes =
      match nodes.find? (fun x => decide (x.seg.Comparable = c)) with
      | none => none
      | some x => if cs.isEmpty then some x else descend cs x.nodes := by
  rw [← findNode_eq_find, descend]
  cases findNode c nodes <;> rfl

/-- Replacing the visited child by a node that continues it lets the children grow. -/
theorem grows_replace (pre post : List node) (n v : node) (hv : NodeLe n v)
    (hg : Grows n.nodes v.nodes) : Grows (pre ++ n :: post) (pre ++ v :: post) := by
  constructor
  · simp [hv.seg_eq]
  · intro cs x hx
    cases cs with
    | nil => simp [descend] at hx
    | cons c cs =>
      rw [descend_cons] at hx ⊢
      rw [List.find?_append] at hx ⊢
      cases hp : pre.find? (fun x => decide (x.seg.Comparable = c)) with
      | some y =>
        simp only [hp, Option.or_some] at hx ⊢
        exact ⟨x, hx, nodeLe_refl x⟩
      | none =>
        simp only [hp, Option.none_or, List.find?_cons, hv.seg_eq] at hx ⊢
        by_cases hc : n.seg.Comparable = c
        · simp only [hc, decide_True] at hx ⊢
          by_cases he : cs.isEmpty = true
          · simp only [he, if_true, Option.some.injEq] at hx ⊢
            subst hx
            exact ⟨v, rfl, hv⟩
          · simp only [he] at hx ⊢
            exact hg.2 cs x hx
        · simp only [hc, decide_False] at hx ⊢
          exact ⟨x, hx, nodeLe_refl x⟩

/-- Appending a child lets the children grow. -/
theorem grows_append (nodes : List node) (v : node) : Grows nodes (nodes ++ [v]) := by
  constructor
  · simp
  · intro cs x hx
    cases cs with
    | nil => simp [descend] at hx
    | cons c cs =>
      rw [descend_cons] at hx ⊢
      rw [List.find?_append]
      cases hp : nodes.find? (fun x => decide (x.seg.Comparable = c)) with
      | some y =>
        simp only [hp, Option.or_some] at hx ⊢
        exact ⟨x, hx, nodeLe_refl x⟩
      | none => simp [hp] at hx

theorem visitNode_grows (r : Route) (rest : List segment) (n : node)
    (ih : Grows n.nodes (addLoop r rest n.nodes).1) :
    NodeLe n (visitNode r rest n).1 ∧ Grows n.nodes (visitNode r rest n).1.nodes := by
  cases rest with
  | nil =>
    rw [visitNode_last]
    by_cases h : alreadySet r n.methods = true
    · simp only [h, if_true]
      exact ⟨nodeLe_refl n, grows_refl _⟩
    · simp only [h, if_false]
      simp only [Bool.not_eq_true] at h
      exact ⟨⟨rfl, methodsLe_setAll r _ h, List.prefix_refl _⟩, grows_refl _⟩
  | cons s rest =>
    rw [visitNode_more]
    exact ⟨⟨rfl, methodsLe_refl _, ih.1⟩, ih⟩

/-- The walk of `trie.Add` only lets the children grow, whether it ends in an error or not. -/
theorem addLoop_grows (r : Route) (segs : List segment) :
    ∀ nodes : List node, Grows nodes (addLoop r segs nodes).1 := by
  induction segs with
  | nil => intro nodes; exact grows_refl nodes
  | cons s rest ih =>
    intro nodes
    by_cases h1 : nodes.any (fun c => c.seg.CatchAll) = true
    · rw [addLoop]; simp only [h1, if_true]; exact grows_refl nodes
    · simp only [Bool.not_eq_true] at h1
      by_cases h2 : (decide (nodes.length > 0) && s.CatchAll) = true
      · rw [addLoop]; simp only [h1, h2]; exact grows_refl nodes
      · simp only [Bool.not_eq_true] at h2
        rw [addLoop_step r s rest nodes h1 h2]
        cases hf : findNode s.Comparable nodes with
        | none => exact grows_append nodes _
        | some x =>
          obtain ⟨pre, n, post⟩ := x
          obtain ⟨hn, -, -⟩ := findNode_some hf
          have hv := visitNode_grows r rest n (ih n.nodes)
          simp only
          rw [hn]
          exact grows_replace pre post n _ hv.1 hv.2

theorem find_of_findNode_some {c : Str} {nodes pre post : List node} {n : node}
    (h : findNode c nodes = some (pre, n, post)) :
    nodes.find? (fun x => decide (x.seg.Comparable = c)) = some n := by
  rw [← findNode_eq_find, h]; rfl

theorem find_of_findNode_none {c : Str} {nodes : List node} (h : findNode c nodes = none) :
    nodes.find? (fun x => decide (x.seg.Comparable = c)) = none := by
  rw [← findNode_eq_find, h]; rfl

theorem findNode_of_find_some {c : Str} {nodes : List node} {n : node}
    (h : nodes.find? (fun x => decide (x.seg.Comparable = c)) = some n) :
    ∃ pre post, findNode c nodes = some (pre, n, post) := by
  rw [← findNode_eq_find] at h
  cases hf : findNode c nodes with
  | none => simp [hf] at h
  | some x =>
    obtain ⟨pre, m, post⟩ := x
    simp only [hf, Option.map_some', Option.some.injEq] at h
    subst h
    exact ⟨pre, post, rfl⟩

theorem visitNode_seg (r : Route) (rest : List segment) (n : node) :
    (visitNode r rest n).1.seg = n.seg := by
  cases rest with
  | nil => rw [visitNode_last]; split <;> rfl
  | cons s rest => rw [visitNode_more]; rfl

theorem bump_ok {nv : Nat} {x : Except Err (Nat × Nat)} {dm : Nat × Nat}
    (h : bump nv x = .ok dm) : ∃ dm0, x = .ok dm0 := by
  cases x with
  | error e => simp [bump] at h
  | ok d => exact ⟨d, rfl⟩

/-- The first child with the comparable of the visited node, after the visit. -/
theorem find_after_visit (c : Str) (nodes pre post : List node) (n v : node)
    (hf : findNode c nodes = some (pre, n, post)) (hv : v.seg = n.seg) :
    (pre ++ v :: post).find? (fun x => decide (x.seg.Comparable = c)) = some v := by
  obtain ⟨-, hc, hpre⟩ := findNode_some hf
  rw [List.find?_append]
  have : pre.find? (fun x => decide (x.seg.Comparable = c)) = none := by
    rw [List.find?_eq_none]
    intro x hx
    simpa using hpre x hx
  rw [this, Option.none_or, List.find?_cons, hv, hc]
  simp

theorem find_after_append (c : Str) (nodes : List node) (v : node)
    (hf : findNode c nodes = none) (hv : v.seg.Comparable = c) :
    (nodes ++ [v]).find? (fun x => decide (x.seg.Comparable = c)) = some v := by
  rw [List.find?_append, find_of_findNode_none hf, Option.none_or, List.find?_cons, hv]
  simp


theorem visit_terminal (r : Route) (s : segment) (rest : List segment) (n : node)
    (dm0 : Nat × Nat) (hv : (visitNode r rest n).2 = .ok dm0)
    (hsc : n.seg.CatchAll = s.CatchAll)
    (ih : ∀ nodes dm, rest ≠ [] → (addLoop r rest nodes).2 = .ok dm →
      Terminal r rest (addLoop r rest nodes).1) :
    ∃ t, (if (rest.map segment.Comparable).isEmpty then some (visitNode r rest n).1
          else descend (rest.map segment.Comparable) (visitNode r rest n).1.nodes) = some t ∧
      (∀ k ∈ r.methods, mapGet t.methods k = some r) ∧
      (∀ l, (s :: rest).getLast? = some l → t.seg.CatchAll = l.CatchAll) := by
  cases rest with
  | nil =>
    rw [visitNode_last] at hv ⊢
    by_cases h : alreadySet r n.methods = true
    · simp [h] at hv
    · simp only [h, if_false, List.map_nil, List.isEmpty_nil, if_true]
      refine ⟨_, rfl, ?_, ?_⟩
      · intro k hk
        simp [node.methods, mapGet_setAll, hk]
      · intro l hl
        simp only [List.getLast?_singleton, Option.some.injEq] at hl
        subst hl
        exact hsc
  | cons s1 rest =>
    rw [visitNode_more] at hv ⊢
    obtain ⟨t, ht, hb, hl⟩ := ih n.nodes dm0 (by simp) hv
    refine ⟨t, ?_, hb, ?_⟩
    · simpa [node.nodes] using ht
    · intro l hl1
      exact hl l (by simpa [List.getLast?_cons_cons] using hl1)

/-- A walk of `trie.Add` without error ends on a node that the signatures of the segments
lead to and that binds every method of the route to the route. -/
theorem addLoop_ok_terminal (r : Route) (segs : List segment) :
    ∀ nodes dm, segs ≠ [] → (addLoop r segs nodes).2 = .ok dm →
      Terminal r segs (addLoop r segs nodes).1 := by
  induction segs with
  | nil => intro nodes dm h; exact absurd rfl h
  | cons s rest ih =>
    intro nodes dm _ h
    by_cases h1 : nodes.any (fun c => c.seg.CatchAll) = true
    · rw [addLoop] at h; simp [h1] at h
    · simp only [Bool.not_eq_true] at h1
      by_cases h2 : (decide (nodes.length > 0) && s.CatchAll) = true
      · rw [addLoop] at h; simp only [h1, h2] at h; simp at h
      · simp only [Bool.not_eq_true] at h2
        rw [addLoop_step r s rest nodes h1 h2] at h ⊢
        cases hf : findNode s.Comparable nodes with
        | none =>
          simp only [hf] at h ⊢
          obtain ⟨dm0, hv⟩ := bump_ok h
          unfold Terminal
          simp only [List.map_cons]
          rw [descend_cons, find_after_append _ _ _ hf (by rw [visitNode_seg]; rfl)]
          exact visit_terminal r s rest _ dm0 hv rfl ih
        | some x =>
          obtain ⟨pre, n, post⟩ := x
          simp only [hf] at h ⊢
          obtain ⟨dm0, hv⟩ := bump_ok h
          obtain ⟨hn, -, -⟩ := findNode_some hf
          have hmem : n ∈ nodes := by rw [hn]; simp
          have hnc : n.seg.CatchAll = false := by
            have := List.any_eq_false.mp h1 n hmem
            simpa using this
          have hsc : s.CatchAll = false := by
            have hpos : nodes.length > 0 := List.length_pos_of_mem hmem
            simpa [hpos] using h2
          unfold Terminal
          simp only [List.map_cons]
          rw [descend_cons, find_after_visit _ _ _ _ _ _ hf (visitNode_seg r rest n)]
          exact visit_terminal r s rest n dm0 hv (by rw [hnc, hsc]) ih

/-- A walk that has to continue below a child whose own walk ends in an error ends in an
error. -/
theorem addLoop_error_of_child (r : Route) (s s1 : segment) (rest : List segment)
    (nodes : List node) (x : node)
    (hx : nodes.find? (fun y => decide (y.seg.Comparable = s.Comparable)) = some x)
    (he : ∃ e, (addLoop r (s1 :: rest) x.nodes).2 = .error e) :
    ∃ e, (addLoop r (s :: s1 :: rest) nodes).2 = .error e := by
  by_cases h1 : nodes.any (fun c => c.seg.CatchAll) = true
  · rw [addLoop]; simp [h1]
  · simp only [Bool.not_eq_true] at h1
    by_cases h2 : (decide (nodes.length > 0) && s.CatchAll) = true
    · rw [addLoop]; simp only [h1, h2]; simp
    · simp only [Bool.not_eq_true] at h2
      rw [addLoop_step r s (s1 :: rest) nodes h1 h2]
      obtain ⟨pre, post, hf⟩ := findNode_of_find_some hx
      obtain ⟨e, he⟩ := he
      simp only [hf, visitNode_more, he, bump]
      exact ⟨e, rfl⟩

/-- A walk that ends on a node which already binds one of the methods of the route ends in
an error. -/
theorem addLoop_conflict (r : Route) (segs : List segment) :
    ∀ (nodes : List node) (n : node),
      descend (segs.map segment.Comparable) nodes = some n → alreadySet r n.methods = true →
      ∃ e, (addLoop r segs nodes).2 = .error e := by
  induction segs with
  | nil => intro nodes n h; simp [descend] at h
  | cons s rest ih =>
    intro nodes n h hm
    simp only [List.map_cons] at h
    rw [descend_cons] at h
    cases hx : nodes.find? (fun y => decide (y.seg.Comparable = s.Comparable)) with
    | none => simp [hx] at h
    | some x =>
      simp only [hx] at h
      cases rest with
      | nil =>
        simp only [List.map_nil, List.isEmpty_nil, if_true, Option.some.injEq] at h
        subst h
        by_cases h1 : nodes.any (fun c => c.seg.CatchAll) = true
        · rw [addLoop]; simp [h1]
        · simp only [Bool.not_eq_true] at h1
          by_cases h2 : (decide (nodes.length > 0) && s.CatchAll) = true
          · rw [addLoop]; simp only [h1, h2]; simp
          · simp only [Bool.not_eq_true] at h2
            rw [addLoop_step r s [] nodes h1 h2]
            obtain ⟨pre, post, hf⟩ := findNode_of_find_some hx
            simp only [hf, visitNode_last, hm, if_true, bump]
            exact ⟨_, rfl⟩
      | cons s1 rest =>
        simp only [List.map_cons, List.isEmpty_cons] at h
        exact addLoop_error_of_child r s s1 rest nodes x hx (ih x.nodes n (by simpa using h) hm)

/-- A walk that has to pass a level where a child is a catch-all, or that brings a
catch-all to a level that has a child, ends in an error. -/
theorem addLoop_catchall_error (r : Route) (psegs : List segment) :
    ∀ (nodes : List node) (c : Str) (n : node) (s : segment) (rest : List segment),
      descend (psegs.map segment.Comparable ++ [c]) nodes = some n →
      (n.seg.CatchAll = true ∨ s.CatchAll = true) →
      ∃ e, (addLoop r (psegs ++ s :: rest) nodes).2 = .error e := by
  induction psegs with
  | nil =>
    intro nodes c n s rest h hc
    simp only [List.map_nil, List.nil_append] at h ⊢
    rw [descend_cons] at h
    cases hx : nodes.find? (fun y => decide (y.seg.Comparable = c)) with
    | none => simp [hx] at h
    | some x =>
      simp only [hx, List.isEmpty_nil, if_true, Option.some.injEq] at h
      subst h
      have hmem : x ∈ nodes := List.mem_of_find?_eq_some hx
      by_cases h1 : nodes.any (fun c => c.seg.CatchAll) = true
      · rw [addLoop]; simp [h1]
      · simp only [Bool.not_eq_true] at h1
        have hnc : x.seg.CatchAll = false := by
          simpa using List.any_eq_false.mp h1 x hmem
        have hs : s.CatchAll = true := by
          rcases hc with hc | hc
          · rw [hnc] at hc; exact absurd hc (by simp)
          · exact hc
        have hpos : nodes.length > 0 := List.length_pos_of_mem hmem
        rw [addLoop]
        simp only [h1, hs, hpos]
        simp
  | cons s0 ps ih =>
    intro nodes c n s rest h hc
    simp only [List.map_cons, List.cons_append] at h ⊢
    rw [descend_cons] at h
    cases hx : nodes.find? (fun y => decide (y.seg.Comparable = s0.Comparable)) with
    | none => simp [hx] at h
    | some x =>
      simp only [hx] at h
      have hne : (ps.map segment.Comparable ++ [c]).isEmpty = false := by
        cases ps <;> rfl
      simp only [hne] at h
      have := ih x.nodes c n s rest (by simpa using h) hc
      cases hps : ps ++ s :: rest with
      | nil => simp at hps
      | cons s1 rest1 =>
        rw [hps] at this
        exact addLoop_error_of_child r s0 s1 rest1 nodes x hx this

theorem split_ne_nil (s : Str) (c : Char) : split s c ≠ [] := by
  induction s with
  | nil => simp [split]
  | cons x xs ih =>
    unfold split
    split
    · simp
    · split <;> simp

theorem split_append (a b : Str) (c : Char) :
    split (a ++ c :: b) c = split a c ++ split b c := by
  induction a with
  | nil => simp [split]
  | cons x a ih =>
    by_cases hx : x = c
    · simp [split, hx, ih]
    · have h1 : split (x :: (a ++ c :: b)) c =
          match split (a ++ c :: b) c with
          | [] => [[x]]
          | piece :: pieces => (x :: piece) :: pieces := by
        rw [split]; simp [hx]
      have h2 : split (x :: a) c =
          match split a c with
          | [] => [[x]]
          | piece :: pieces => (x :: piece) :: pieces := by
        rw [split]; simp [hx]
      rw [List.cons_append, h1, h2, ih]
      cases hs : split a c with
      | nil => exact absurd hs (split_ne_nil a c)
      | cons piece pieces => rfl

theorem components_under (P X : Str) :
    components (P ++ '/' :: X) = prefixComponents P ++ split X '/' := by
  cases P with
  | nil => simp [components, prefixComponents, hasPrefix]
  | cons c rest =>
    by_cases hc : c = '/'
    · subst hc
      simp [components, prefixComponents, hasPrefix, split_append]
    · have : hasPrefix (c :: rest ++ '/' :: X) ['/'] = false := by
        have hc1 : ¬ '/' = c := fun e => hc e.symm
        simp [hasPrefix, List.isPrefixOf, hc1]
      simp only [components, prefixComponents, this, hc, if_false]
      rw [← split_append]
      simp

theorem ParsePath_eq (path : Str) (segs : List segment) (h : ParsePath path = .ok segs) :
    parseSegments (components path) = .ok segs := by
  unfold ParsePath at h
  split at h
  · simp at h
  · exact h

theorem parseSegments_length (xs : List Str) :
    ∀ segs, parseSegments xs = .ok segs → segs.length = xs.length := by
  induction xs with
  | nil => intro segs h; simp [parseSegments] at h; subst h; rfl
  | cons x xs ih =>
    intro segs h
    unfold parseSegments at h
    cases hc : createSegment x with
    | error e => simp [hc] at h
    | ok seg =>
      simp only [hc] at h
      split at h
      · simp at h
      · cases hp : parseSegments xs with
        | error e => simp [hp] at h
        | ok rest =>
          simp only [hp, Except.ok.injEq] at h
          subst h
          simp [ih rest hp]

/-- Parsing a component list that continues after `xs`: the segments of `xs` do not depend
on what follows. -/
theorem parseSegments_append (xs ys : List Str) :
    ∀ segs, parseSegments (xs ++ ys) = .ok segs →
      ∃ ps qs, segs = ps ++ qs ∧ parseSegments ys = .ok qs ∧
        List.Forall₂ (fun x p => createSegment x = .ok p) xs ps := by
  induction xs with
  | nil => intro segs h; exact ⟨[], segs, rfl, h, List.Forall₂.nil⟩
  | cons x xs ih =>
    intro segs h
    rw [List.cons_append, parseSegments] at h
    cases hc : createSegment x with
    | error e => simp [hc] at h
    | ok seg =>
      simp only [hc] at h
      split at h
      · simp at h
      · cases hp : parseSegments (xs ++ ys) with
        | error e => simp [hp] at h
        | ok rest =>
          simp only [hp, Except.ok.injEq] at h
          subst h
          obtain ⟨ps, qs, h1, h2, h3⟩ := ih rest hp
          exact ⟨seg :: ps, qs, by simp [h1], h2, List.Forall₂.cons hc h3⟩

theorem createSegment_forall₂_unique (xs : List Str) :
    ∀ ps qs, List.Forall₂ (fun x p => createSegment x = .ok p) xs ps →
      List.Forall₂ (fun x p => createSegment x = .ok p) xs qs → ps = qs := by
  induction xs with
  | nil => intro ps qs h1 h2; cases h1; cases h2; rfl
  | cons x xs ih =>
    intro ps qs h1 h2
    cases h1 with
    | cons ha ht =>
      cases h2 with
      | cons hb hu =>
        rw [ha] at hb
        simp only [Except.ok.injEq] at hb
        rw [hb, ih _ _ ht hu]

theorem ParsePath_ne_nil (path : Str) (segs : List segment) (h : ParsePath path = .ok segs) :
    segs ≠ [] := by
  have hl := parseSegments_length _ _ (ParsePath_eq path segs h)
  intro he
  subst he
  exact split_ne_nil _ _ (List.length_eq_zero.mp hl.symm)

theorem trie_Add_parse_error (t : trie) (r : Route) (e : Err)
    (hp : ParsePath r.path = .error e) : t.Add (some r) = (t, some e) := by
  simp [trie.Add, hp]

theorem trie_Add_no_method (t : trie) (r : Route) (segs : List segment)
    (hp : ParsePath r.path = .ok segs) (hm : r.methods.length = 0) :
    t.Add (some r) = (t, some .noMethodOnPath) := by
  simp [trie.Add, hp, hm]

theorem trie_Add_walk_error (t : trie) (r : Route) (segs : List segment) (nodes : List node)
    (e : Err) (hp : ParsePath r.path = .ok segs) (hm : ¬ r.methods.length = 0)
    (hl : addLoop r segs t.nodes = (nodes, .error e)) :
    t.Add (some r) = (⟨nodes, t.depth, t.maxparams⟩, some e) := by
  simp [trie.Add, hp, hm, hl]

theorem trie_Add_walk_ok (t : trie) (r : Route) (segs : List segment) (nodes : List node)
    (dm : Nat × Nat) (hp : ParsePath r.path = .ok segs) (hm : ¬ r.methods.length = 0)
    (hl : addLoop r segs t.nodes = (nodes, .ok dm)) :
    t.Add (some r) =
      (⟨nodes, if t.depth < dm.1 then dm.1 else t.depth,
        if t.maxparams < dm.2 then dm.2 else t.maxparams⟩, none) := by
  simp [trie.Add, hp, hm, hl]

/-- What a call of `trie.Add` without error has done. -/
theorem trie_Add_ok (t : trie) (r : Route) (h : (t.Add (some r)).2 = none) :
    ∃ segs dm, ParsePath r.path = .ok segs ∧ segs ≠ [] ∧
      (addLoop r segs t.nodes).2 = .ok dm ∧
      (t.Add (some r)).1.nodes = (addLoop r segs t.nodes).1 := by
  cases hp : ParsePath r.path with
  | error e => rw [trie_Add_parse_error t r e hp] at h; simp at h
  | ok segs =>
    by_cases hm : r.methods.length = 0
    · rw [trie_Add_no_method t r segs hp hm] at h; simp at h
    · cases hl : addLoop r segs t.nodes with
      | mk nodes res =>
        cases res with
        | error e => rw [trie_Add_walk_error t r segs nodes e hp hm hl] at h; simp at h
        | ok dm =>
          rw [trie_Add_walk_ok t r segs nodes dm hp hm hl]
          exact ⟨segs, dm, rfl, ParsePath_ne_nil _ _ hp, by rw [hl], by rw [hl]⟩

/-- A call of `trie.Add` whose walk ends in an error returns an error. -/
theorem trie_Add_error (t : trie) (r : Route) (segs : List segment)
    (hp : ParsePath r.path = .ok segs) (he : ∃ e, (addLoop r segs t.nodes).2 = .error e) :
    (t.Add (some r)).2 ≠ none := by
  obtain ⟨e, he⟩ := he
  by_cases hm : r.methods.length = 0
  · rw [trie_Add_no_method t r segs hp hm]; simp
  · cases hl : addLoop r segs t.nodes with
    | mk nodes res =>
      rw [hl] at he
      simp only at he
      subst he
      rw [trie_Add_walk_error t r segs nodes e hp hm hl]
      simp

theorem trie_Add_grows (t : trie) (r : Option Route) : Grows t.nodes (t.Add r).1.nodes := by
  cases r with
  | none => exact grows_refl _
  | some r =>
    cases hp : ParsePath r.path with
    | error e => rw [trie_Add_parse_error t r e hp]; exact grows_refl _
    | ok segs =>
      by_cases hm : r.methods.length = 0
      · rw [trie_Add_no_method t r segs hp hm]; exact grows_refl _
      · have hg := addLoop_grows r segs t.nodes
        cases hl : addLoop r segs t.nodes with
        | mk nodes res =>
          rw [hl] at hg
          cases res with
          | error e => rw [trie_Add_walk_error t r segs nodes e hp hm hl]; exact hg
          | ok dm => rw [trie_Add_walk_ok t r segs nodes dm hp hm hl]; exact hg

theorem trie_AddAll_grows (rs : List (Option Route)) :
    ∀ t : trie, Grows t.nodes (t.AddAll rs).nodes := by
  induction rs with
  | nil => intro t; exact grows_refl _
  | cons r rs ih =>
    intro t
    exact grows_trans (trie_Add_grows t r) (ih _)

theorem descend_initial (a : List Str) (ha : a ≠ []) :
    ∀ (b : List Str) (nodes : List node) (n : node),
      descend (a ++ b) nodes = some n → ∃ n0, descend a nodes = some n0 := by
  induction a with
  | nil => exact absurd rfl ha
  | cons c cs ih =>
    intro b nodes n h
    rw [List.cons_append, descend_cons] at h
    rw [descend_cons]
    cases hx : nodes.find? (fun y => decide (y.seg.Comparable = c)) with
    | none => simp [hx] at h
    | some x =>
      simp only [hx] at h ⊢
      cases cs with
      | nil => exact ⟨x, by simp⟩
      | cons c1 cs =>
        simp only [List.cons_append, List.isEmpty_cons] at h ⊢
        exact ih (by simp) b x.nodes n (by simpa using h)

/-- The segments of a template `P/X`: those of the components of `P`, which are the same
for every `X`, followed by those of the components of `X`. -/
theorem ParsePath_under (P X : Str) (segs : List segment)
    (h : ParsePath (P ++ '/' :: X) = .ok segs) :
    ∃ ps qs, segs = ps ++ qs ∧ qs ≠ [] ∧ parseSegments (split X '/') = .ok qs ∧
      List.Forall₂ (fun x p => createSegment x = .ok p) (prefixComponents P) ps := by
  have h1 := ParsePath_eq _ _ h
  rw [components_under] at h1
  obtain ⟨ps, qs, e, hq, hf⟩ := parseSegments_append _ _ segs h1
  refine ⟨ps, qs, e, ?_, hq, hf⟩
  intro hn
  subst hn
  have := parseSegments_length _ _ hq
  exact split_ne_nil _ _ (List.length_eq_zero.mp this.symm)

theorem parseSegments_catchall :
    parseSegments (split "\x7b*\x7d".toList '/') = .ok [segment.segmentcatchallstring] := by
  rfl

/-! ## The claims -/

/-- C1 (the code departs from the claim): after `Add` of a route for `/a/b` on the empty
trie, `Get` of `/a` returns the node of `a` as a match although its method table is empty;
the lookup is not reported as no-match. -/
theorem C1_Get_returns_node_without_methods :
    (trie.empty.Add (some (mkRoute "ab" "/a/b" ["GET"]))).2 = none ∧
    ∃ n ctx, trieAB.Get "/a".toList Context.Reset = .found n ctx ∧ n.Methods = [] :=
  ⟨rfl, _, _, rfl, rfl⟩

/-- C2 (the code departs from the claim): after `Add` of a route for `/{*}` on the empty
trie, `Get` of the empty path, and of a path without leading `/`, panics in
`originalpath[:ior-1]` with `ior = 0`. -/
theorem C2_Get_panics_on_catchall_without_slash :
    (trie.empty.Add (some (mkRoute "all" "/\x7b*\x7d" ["GET"]))).2 = none ∧
    trieRootCatchAll.Get [] Context.Reset = .panic ∧
    trieRootCatchAll.Get "a/b".toList Context.Reset = .panic :=
  ⟨rfl, rfl, rfl⟩

/-- After `Add` of `P/X` without error, and whatever is added afterwards, the signatures of
the components of `P` and of the first component of `X` lead to a node, which is a
catch-all when `X` is `{*}`. -/
theorem node_below_template (P X : Str) (t : trie) (r1 : Route) (rs : List (Option Route))
    (hp1 : r1.path = P ++ '/' :: X) (h1 : (t.Add (some r1)).2 = none) :
    ∃ ps c n, List.Forall₂ (fun x p => createSegment x = .ok p) (prefixComponents P) ps ∧
      descend (ps.map segment.Comparable ++ [c]) ((t.Add (some r1)).1.AddAll rs).nodes = some n ∧
      (X = "\x7b*\x7d".toList → n.seg.CatchAll = true) := by
  obtain ⟨segs, dm, hp, hne, hok, hnodes⟩ := trie_Add_ok t r1 h1
  have hterm := addLoop_ok_terminal r1 segs t.nodes dm hne hok
  rw [← hnodes] at hterm
  rw [hp1] at hp
  obtain ⟨ps, qs, hsegs, hq, hparse, hf⟩ := ParsePath_under P X segs hp
  obtain ⟨n, hd, -, hlast⟩ := hterm
  cases hqs : qs with
  | nil => exact absurd hqs hq
  | cons s rest =>
    subst hqs
    subst hsegs
    have hd1 : descend ((ps.map segment.Comparable ++ [s.Comparable]) ++
        rest.map segment.Comparable) (t.Add (some r1)).1.nodes = some n := by
      simpa using hd
    obtain ⟨n0, hn0⟩ := descend_initial _ (by simp) _ _ _ hd1
    obtain ⟨n1, hn1, hle⟩ := (trie_AddAll_grows rs (t.Add (some r1)).1).2 _ _ hn0
    refine ⟨ps, s.Comparable, n1, hf, hn1, ?_⟩
    intro hX
    subst hX
    rw [parseSegments_catchall] at hparse
    simp only [Except.ok.injEq, List.cons.injEq] at hparse
    obtain ⟨hs, hrest⟩ := hparse
    subst hrest
    have hn : n0 = n := by
      simp only [List.map_nil, List.append_nil] at hd1
      rw [hd1] at hn0
      exact (Option.some.inj hn0).symm
    rw [hle.seg_eq, hn, hlast s (by simp), ← hs]
    rfl

/-- C4: for every template prefix `P`, once `Add` of `P/{*}` has returned without error,
`Add` of every route whose template is `P/` followed by anything (in particular by a
non-catch-all component and anything after it) returns an error; and once `Add` of a
template `P/` followed by anything (in particular by a non-catch-all component) has
returned without error, `Add` of `P/{*}` returns an error. Both hold on every trie and
whatever other routes `rs` are added in between. -/
theorem C4_catchall_and_siblings_exclude_each_other (P X : Str) (t : trie) (r1 r2 : Route)
    (rs : List (Option Route)) (h1 : (t.Add (some r1)).2 = none)
    (hpaths : (r1.path = P ++ "/\x7b*\x7d".toList ∧ r2.path = P ++ '/' :: X) ∨
      (r1.path = P ++ '/' :: X ∧ r2.path = P ++ "/\x7b*\x7d".toList)) :
    (((t.Add (some r1)).1.AddAll rs).Add (some r2)).2 ≠ none := by
  rcases hpaths with ⟨hp1, hp2⟩ | ⟨hp1, hp2⟩
  · obtain ⟨ps, c, n, hf, hd, hca⟩ := node_below_template P _ t r1 rs hp1 h1
    cases hparse : ParsePath r2.path with
    | error e => rw [trie_Add_parse_error _ r2 e hparse]; simp
    | ok segs2 =>
      have hparse2 := hparse
      rw [hp2] at hparse2
      obtain ⟨ps2, qs2, hsegs2, hq2, -, hf2⟩ := ParsePath_under P X segs2 hparse2
      have hps : ps2 = ps := createSegment_forall₂_unique _ _ _ hf2 hf
      subst hps
      cases hqs : qs2 with
      | nil => exact absurd hqs hq2
      | cons s rest =>
        subst hqs
        subst hsegs2
        exact trie_Add_error _ r2 _ hparse
          (addLoop_catchall_error r2 ps2 _ c n s rest hd (Or.inl (hca rfl)))
  · obtain ⟨ps, c, n, hf, hd, -⟩ := node_below_template P X t r1 rs hp1 h1
    cases hparse : ParsePath r2.path with
    | error e => rw [trie_Add_parse_error _ r2 e hparse]; simp
    | ok segs2 =>
      have hparse2 := hparse
      rw [hp2] at hparse2
      obtain ⟨ps2, qs2, hsegs2, -, hq2, hf2⟩ := ParsePath_under P _ segs2 hparse2
      have hps : ps2 = ps := createSegment_forall₂_unique _ _ _ hf2 hf
      subst hps
      have hq3 := parseSegments_catchall.symm.trans hq2
      simp only [Except.ok.injEq] at hq3
      subst hq3
      subst hsegs2
      exact trie_Add_error _ r2 _ hparse
        (addLoop_catchall_error r2 ps2 _ c n _ [] hd (Or.inr rfl))

/-- The tests `TestCatchAllHidingPath` (with a route added in between) and
`TestCatchAllWillHidePath`: witness of C4 in both directions. -/
theorem C4_catchall_and_siblings_exclude_each_other_witness :
    ((trie.empty.Add (some (mkRoute "r1" "/path/\x7b*\x7d" ["GET"]))).2 = none ∧
     (((trie.empty.Add (some (mkRoute "r1" "/path/\x7b*\x7d" ["GET"]))).1.AddAll
        [some (mkRoute "r3" "/other" ["GET"])]).Add
        (some (mkRoute "r2" "/path/err" ["GET"]))).2 ≠ none) ∧
    ((trie.empty.Add (some (mkRoute "r2" "/path/err" ["GET"]))).2 = none ∧
     (((trie.empty.Add (some (mkRoute "r2" "/path/err" ["GET"]))).1.AddAll []).Add
        (some (mkRoute "r1" "/path/\x7b*\x7d" ["GET"]))).2 ≠ none) :=
  ⟨⟨rfl, C4_catchall_and_siblings_exclude_each_other "/path".toList "err".toList trie.empty
    (mkRoute "r1" "/path/\x7b*\x7d" ["GET"]) (mkRoute "r2" "/path/err" ["GET"])
    [some (mkRoute "r3" "/other" ["GET"])] rfl (Or.inl ⟨rfl, rfl⟩)⟩,
   ⟨rfl, C4_catchall_and_siblings_exclude_each_other "/path".toList "err".toList trie.empty
    (mkRoute "r2" "/path/err" ["GET"]) (mkRoute "r1" "/path/\x7b*\x7d" ["GET"])
    [] rfl (Or.inr ⟨rfl, rfl⟩)⟩⟩

/-- A call of `trie.Add` that returns an error leaves the trie as it was. -/
theorem trie_Add_unchanged_of_error (t : trie) (r : Option Route) (h : (t.Add r).2 ≠ none) :
    (t.Add r).1 = t := by
  cases r with
  | none => rfl
  | some r =>
    cases hparse : ParsePath r.path with
    | error e => rw [trie_Add_parse_error _ r e hparse]
    | ok segs =>
      by_cases hm : r.methods.length = 0
      · rw [trie_Add_no_method t r segs hparse hm]
      · cases hl : addLoop r segs t.nodes with
        | mk nodes res =>
          cases res with
          | ok dm => rw [trie_Add_walk_ok t r segs nodes dm hparse hm hl] at h; simp at h
          | error e =>
            rw [trie_Add_walk_error t r segs nodes e hparse hm hl]
            have := addLoop_error_unchanged r segs t.nodes e (by rw [hl])
            rw [hl] at this
            simp only at this
            subst this
            rfl

/-- C5: on every trie, for every route whose template leads, through segments of equal
comparable signature, to an existing node `n`, `Add` returns an error whenever a method of
the route is already bound at `n`; in particular, once `Add` of a route has returned
without error, `Add` of a route with the same template and a common method returns an
error, whatever other routes `rs` are added in between. -/
theorem C5_Add_rejects_bound_method :
    (∀ (t : trie) (r : Route) (segs : List segment) (n : node),
      ParsePath r.path = .ok segs →
      descend (segs.map segment.Comparable) t.nodes = some n →
      (∃ k, k ∈ r.methods ∧ (mapGet n.methods k).isSome = true) →
      (t.Add (some r)).2 ≠ none) ∧
    (∀ (t : trie) (r r2 : Route) (rs : List (Option Route)),
      (t.Add (some r)).2 = none → r2.path = r.path →
      (∃ k, k ∈ r.methods ∧ k ∈ r2.methods) →
      (((t.Add (some r)).1.AddAll rs).Add (some r2)).2 ≠ none) := by
  have first : ∀ (t : trie) (r : Route) (segs : List segment) (n : node),
      ParsePath r.path = .ok segs →
      descend (segs.map segment.Comparable) t.nodes = some n →
      (∃ k, k ∈ r.methods ∧ (mapGet n.methods k).isSome = true) →
      (t.Add (some r)).2 ≠ none := by
    intro t r segs n hp hd hk
    exact trie_Add_error t r segs hp
      (addLoop_conflict r segs t.nodes n hd ((alreadySet_iff r n.methods).2 hk))
  refine ⟨first, ?_⟩
  intro t r r2 rs h1 hpath ⟨k, hk, hk2⟩
  obtain ⟨segs, dm, hp, hne, hok, hnodes⟩ := trie_Add_ok t r h1
  obtain ⟨n, hd, hb, -⟩ := addLoop_ok_terminal r segs t.nodes dm hne hok
  rw [← hnodes] at hd
  obtain ⟨n1, hn1, hle⟩ := (trie_AddAll_grows rs (t.Add (some r)).1).2 _ _ hd
  refine first _ r2 segs n1 (by rw [hpath]; exact hp) hn1 ⟨k, hk2, ?_⟩
  rw [hle.methods_le k r (hb k hk)]
  rfl

/-- The second round of `TestTrieAdd` on one template, and the node-level statement on the
trie that holds `/a/b`: witness of C5. -/
theorem C5_Add_rejects_bound_method_witness :
    (trieAB.Add (some (mkRoute "again" "/a/b" ["GET", "POST"]))).2 ≠ none ∧
    (((trie.empty.Add (some (mkRoute "ab" "/a/b" ["GET"]))).1.AddAll
        [some (mkRoute "c" "/c" ["GET"])]).Add
      (some (mkRoute "again" "/a/b" ["POST", "GET"]))).2 ≠ none :=
  ⟨C5_Add_rejects_bound_method.1 trieAB (mkRoute "again" "/a/b" ["GET", "POST"])
      [.segmentstring ['a'], .segmentstring ['b']]
      (node.mk (.segmentstring ['b']) [("GET".toList, mkRoute "ab" "/a/b" ["GET"])] [])
      rfl rfl ⟨"GET".toList, by decide, rfl⟩,
   C5_Add_rejects_bound_method.2 trie.empty (mkRoute "ab" "/a/b" ["GET"])
      (mkRoute "again" "/a/b" ["POST", "GET"]) [some (mkRoute "c" "/c" ["GET"])]
      rfl rfl ⟨"GET".toList, by decide, by decide⟩⟩

/-- C7 (fails as stated): after `Add` of a `GET` route for `/static/{*}` on the empty trie,
`Add` of a `POST` route for the same template returns the error
`there is a catch all hiding that path`. -/
theorem C7_second_catchall_route_is_rejected :
    (trie.empty.Add (some (mkRoute "files" "/static/\x7b*\x7d" ["GET"]))).2 = none ∧
    (trieStatic.Add (some (mkRoute "upload" "/static/\x7b*\x7d" ["POST"]))).2 =
      some .catchAllHiding :=
  ⟨rfl, rfl⟩

/-- C7 (amended): for every template `P/{*}` that `Add` has registered in a trie without
error, and whatever other routes `rs` are added afterwards, `Add` of a second route with
the same template returns an error, whatever its method set, and leaves the trie as it
was: no method is bound at the existing catch-all node. -/
theorem C7_Add_same_catchall_template_fails (P : Str) (t : trie) (r1 r2 : Route)
    (rs : List (Option Route)) (hp1 : r1.path = P ++ "/\x7b*\x7d".toList)
    (hp2 : r2.path = r1.path) (h1 : (t.Add (some r1)).2 = none) :
    (((t.Add (some r1)).1.AddAll rs).Add (some r2)).2 ≠ none ∧
    (((t.Add (some r1)).1.AddAll rs).Add (some r2)).1 = (t.Add (some r1)).1.AddAll rs := by
  obtain ⟨ps, c, n, hf, hd, hca⟩ := node_below_template P _ t r1 rs hp1 h1
  have herr : (((t.Add (some r1)).1.AddAll rs).Add (some r2)).2 ≠ none := by
    cases hparse : ParsePath r2.path with
    | error e => rw [trie_Add_parse_error _ r2 e hparse]; simp
    | ok segs2 =>
      have hparse2 := hparse
      rw [hp2, hp1] at hparse2
      obtain ⟨ps2, qs2, hsegs2, hq2, -, hf2⟩ := ParsePath_under P _ segs2 hparse2
      have hps : ps2 = ps := createSegment_forall₂_unique _ _ _ hf2 hf
      subst hps
      cases hqs : qs2 with
      | nil => exact absurd hqs hq2
      | cons s rest =>
        subst hqs
        subst hsegs2
        exact trie_Add_error _ r2 _ hparse
          (addLoop_catchall_error r2 ps2 _ c n s rest hd (Or.inl (hca rfl)))
  exact ⟨herr, trie_Add_unchanged_of_error _ _ herr⟩

/-- Witness of the amended C7 on the trie of `TestCatchAllContextPath`. -/
theorem C7_Add_same_catchall_template_fails_witness :
    (trie.empty.Add (some (mkRoute "files" "/static/\x7b*\x7d" ["GET"]))).2 = none ∧
    (((trieStatic.AddAll []).Add (some (mkRoute "upload" "/static/\x7b*\x7d" ["POST"]))).2 ≠ none ∧
     ((trieStatic.AddAll []).Add (some (mkRoute "upload" "/static/\x7b*\x7d" ["POST"]))).1 =
        trieStatic.AddAll []) :=
  ⟨rfl, C7_Add_same_catchall_template_fails "/static".toList trie.empty
    (mkRoute "files" "/static/\x7b*\x7d" ["GET"]) (mkRoute "upload" "/static/\x7b*\x7d" ["POST"])
    [] rfl rfl rfl⟩

/-- C8: for every trie and every route (the nil route included), if `trie.Add` returns an
error then the trie after the call is the trie before the call: no node was created, no
method was bound, and `depth` and `maxparams` are unchanged. -/
theorem C8_Add_error_leaves_trie_unchanged (t : trie) (r : Option Route)
    (h : (t.Add r).2 ≠ none) : (t.Add r).1 = t := by
  cases r with
  | none => rfl
  | some r =>
    cases hparse : ParsePath r.path with
    | error e => rw [trie_Add_parse_error _ r e hparse]
    | ok segs =>
      by_cases hm : r.methods.length = 0
      · rw [trie_Add_no_method t r segs hparse hm]
      · cases hl : addLoop r segs t.nodes with
        | mk nodes res =>
          cases res with
          | ok dm => rw [trie_Add_walk_ok t r segs nodes dm hparse hm hl] at h; simp at h
          | error e =>
            rw [trie_Add_walk_error t r segs nodes e hparse hm hl]
            have := addLoop_error_unchanged r segs t.nodes e (by rw [hl])
            rw [hl] at this
            simp only at this
            subst this
            rfl

/-- Witness of C8: a route for `/a/b` with the methods `PUT` and `GET` meets the bound
method `GET` at the last segment, and a route for `/static/x/y` is stopped by the catch-all
below `static`; both failing calls leave the trie as it was. -/
theorem C8_Add_error_leaves_trie_unchanged_witness :
    (trieAB.Add (some (mkRoute "dup" "/a/b" ["PUT", "GET"]))).2 ≠ none ∧
    (trieAB.Add (some (mkRoute "dup" "/a/b" ["PUT", "GET"]))).1 = trieAB ∧
    (trieStatic.Add (some (mkRoute "deep" "/static/x/y" ["GET"]))).2 ≠ none ∧
    (trieStatic.Add (some (mkRoute "deep" "/static/x/y" ["GET"]))).1 = trieStatic :=
  ⟨by decide, C8_Add_error_leaves_trie_unchanged trieAB _ (by decide),
   by decide, C8_Add_error_leaves_trie_unchanged trieStatic _ (by decide)⟩

theorem findNode_singleton (v : node) :
    findNode v.seg.Comparable [v] = some ([], v, []) := by
  simp [findNode]

theorem alreadySet_setAll_nil (r1 r2 : Route) (hdis : ∀ k, k ∈ r1.methods → k ∉ r2.methods) :
    alreadySet r2 (setAll r1 []) = false := by
  cases h : alreadySet r2 (setAll r1 []) with
  | false => rfl
  | true =>
    obtain ⟨k, hk2, hs⟩ := (alreadySet_iff r2 _).1 h
    rw [mapGet_setAll] at hs
    by_cases hk1 : k ∈ r1.methods
    · exact absurd hk2 (hdis k hk1)
    · simp [hk1, mapGet] at hs

/-- On the chain that the walk of one route has built below a node without children, the
walk of a second route with the same segments, none of them a catch-all, and with
other methods ends without error. -/
theorem addLoop_again_ok (r1 r2 : Route) (hdis : ∀ k, k ∈ r1.methods → k ∉ r2.methods)
    (segs : List segment) (hnc : ∀ s ∈ segs, s.CatchAll = false) :
    ∃ dm, (addLoop r2 segs (addLoop r1 segs []).1).2 = .ok dm := by
  induction segs with
  | nil => exact ⟨_, rfl⟩
  | cons s rest ih =>
    have hs : s.CatchAll = false := hnc s (by simp)
    have hrest : ∀ x ∈ rest, x.CatchAll = false := fun x hx => hnc x (by simp [hx])
    rw [addLoop_step r1 s rest [] (by simp) (by simp)]
    simp only [findNode, List.nil_append]
    have hseg : (visitNode r1 rest (node.mk s [] [])).1.seg = s := visitNode_seg _ _ _
    rw [addLoop_step r2 s rest _ (by simp [hseg, hs]) (by simp [hs])]
    have hf := findNode_singleton (visitNode r1 rest (node.mk s [] [])).1
    rw [hseg] at hf
    simp only [hf]
    cases rest with
    | nil =>
      simp only [visitNode_last, node.methods, node.seg, node.nodes]
      have h0 : alreadySet r1 [] = false := rfl
      simp only [h0, alreadySet_setAll_nil r1 r2 hdis, Bool.false_eq_true, if_false, bump]
      exact ⟨_, rfl⟩
    | cons s1 rest =>
      obtain ⟨dm, hdm⟩ := ih hrest
      simp only [visitNode_more, node.nodes, hdm, bump]
      exact ⟨_, rfl⟩

/-- C6: for every template that `ParsePath` accepts and that contains no catch-all, and
every two routes with that template and non-empty, disjoint method sets, `Add` of the first
and then of the second on the empty trie both return without error; the signatures of the
template lead to one node before and after the second call, and after it that node binds
every method of each route to the route that registered it. -/
theorem C6_disjoint_methods_share_terminal_node (r1 r2 : Route) (segs : List segment)
    (hp : ParsePath r1.path = .ok segs) (hnc : ∀ s ∈ segs, s.CatchAll = false)
    (hpath : r2.path = r1.path) (hm1 : r1.methods ≠ []) (hm2 : r2.methods ≠ [])
    (hdis : ∀ k, k ∈ r1.methods → k ∉ r2.methods) :
    (trie.empty.Add (some r1)).2 = none ∧
    ((trie.empty.Add (some r1)).1.Add (some r2)).2 = none ∧
    ∃ n1 n, descend (segs.map segment.Comparable) (trie.empty.Add (some r1)).1.nodes = some n1 ∧
      descend (segs.map segment.Comparable)
        ((trie.empty.Add (some r1)).1.Add (some r2)).1.nodes = some n ∧
      NodeLe n1 n ∧
      (∀ k ∈ r1.methods, mapGet n.methods k = some r1) ∧
      (∀ k ∈ r2.methods, mapGet n.methods k = some r2) := by
  have hne := ParsePath_ne_nil _ _ hp
  have hl1 : ¬ r1.methods.length = 0 := fun h => hm1 (List.length_eq_zero.mp h)
  have hl2 : ¬ r2.methods.length = 0 := fun h => hm2 (List.length_eq_zero.mp h)
  obtain ⟨dm1, hok1⟩ := addLoop_nil_ok r1 segs
  have e1 := trie_Add_walk_ok trie.empty r1 segs (addLoop r1 segs []).1 dm1 hp hl1
    (by rw [← hok1]; rfl)
  obtain ⟨dm2, hok2⟩ := addLoop_again_ok r1 r2 hdis segs hnc
  have hp2 : ParsePath r2.path = .ok segs := by rw [hpath]; exact hp
  have e2 := trie_Add_walk_ok (trie.empty.Add (some r1)).1 r2 segs
    (addLoop r2 segs (addLoop r1 segs []).1).1 dm2 hp2 hl2
    (by rw [← hok2, e1])
  obtain ⟨n1, hd1, hb1, -⟩ := addLoop_ok_terminal r1 segs [] dm1 hne hok1
  obtain ⟨n, hd2, hb2, -⟩ := addLoop_ok_terminal r2 segs _ dm2 hne hok2
  obtain ⟨n', hd', hle⟩ := (addLoop_grows r2 segs (addLoop r1 segs []).1).2 _ _ hd1
  have hnn : n' = n := by rw [hd2] at hd'; exact (Option.some.inj hd').symm
  subst hnn
  refine ⟨by rw [e1], by rw [e2], n1, n', ?_, ?_, hle, ?_, hb2⟩
  · rw [e1]; exact hd1
  · rw [e2]; exact hd2
  · intro k hk
    exact hle.methods_le k r1 (hb1 k hk)

/-- The test `TestTrieUsersGETandPOST`: witness of C6. -/
theorem C6_disjoint_methods_share_terminal_node_witness :
    (trie.empty.Add (some (mkRoute "list" "/users" ["GET"]))).2 = none ∧
    ((trie.empty.Add (some (mkRoute "list" "/users" ["GET"]))).1.Add
      (some (mkRoute "create" "/users" ["POST"]))).2 = none :=
  have h := C6_disjoint_methods_share_terminal_node (mkRoute "list" "/users" ["GET"])
    (mkRoute "create" "/users" ["POST"]) [.segmentstring "users".toList] rfl (by decide) rfl
    (by decide) (by decide) (by decide)
  ⟨h.1, h.2.1⟩

theorem Intersects_eq (e1 e2 : hostentry) :
    e1.Intersects e2 = patternsIntersect e1.host e2.host := rfl

theorem intersectsLabels_comm (a : List Str) :
    ∀ b, intersectsLabels a b = intersectsLabels b a := by
  induction a with
  | nil => intro b; cases b <;> rfl
  | cons x xs ih =>
    intro b
    cases b with
    | nil => rfl
    | cons y ys =>
      simp only [intersectsLabels]
      rw [ih ys]
      by_cases h1 : x = y
      · subst h1; simp [Bool.or_comm]
      · have h2 : ¬ y = x := fun e => h1 e.symm
        simp only [h1, h2, decide_False, Bool.false_or]
        rw [Bool.or_comm]

theorem patternsIntersect_comm (a b : Str) : patternsIntersect a b = patternsIntersect b a := by
  show (if (split a '.').length ≠ (split b '.').length then false
      else intersectsLabels (split a '.') (split b '.')) =
    (if (split b '.').length ≠ (split a '.').length then false
      else intersectsLabels (split b '.') (split a '.'))
  by_cases h : (split a '.').length = (split b '.').length
  · rw [if_neg (fun e => e h), if_neg (fun e => e h.symm), intersectsLabels_comm]
  · rw [if_pos h, if_pos (fun e => h e.symm)]

theorem upTo_cons_ne (x c : Char) (xs : Str) (h : ¬ x = c) :
    upTo (x :: xs) c = x :: upTo xs c := by
  have hb : (x != c) = true := by simp [h]
  simp [upTo, List.takeWhile, hb]

theorem upTo_cons_eq (c : Char) (xs : Str) : upTo (c :: xs) c = [] := by
  simp [upTo, List.takeWhile]

theorem upTo_length_le (s : Str) (c : Char) : (upTo s c).length ≤ s.length := by
  unfold upTo
  exact (List.takeWhile_sublist _).length_le

/-- `strings.Split` as the Go loops compute it: the part before the first separator,
then the split of what follows the separator. -/
theorem split_upTo (s : Str) (c : Char) :
    split s c =
      if s.length = (upTo s c).length then [s]
      else upTo s c :: split (s.drop ((upTo s c).length + 1)) c := by
  induction s with
  | nil => rfl
  | cons x xs ih =>
    by_cases hx : x = c
    · subst hx
      simp [upTo_cons_eq, split]
    · rw [upTo_cons_ne x c xs hx]
      have h2 : split (x :: xs) c =
          match split xs c with
          | [] => [[x]]
          | piece :: pieces => (x :: piece) :: pieces := by
        rw [split]; simp [hx]
      rw [h2, ih]
      by_cases hl : xs.length = (upTo xs c).length
      · simp [hl]
      · simp [hl]

theorem matchLabels_cons (seg : Str) (rest : List Str) (hostname : Str) (si : Nat)
    (params : List Str) :
    matchLabels (seg :: rest) hostname si params =
      if ¬ seg = ['*'] ∧ ¬ seg = upTo hostname '.' then some (false, params)
      else
        match (if seg = ['*'] then
            (setIndex params si (upTo hostname '.')).map (fun ps => (ps, si + 1))
          else some (params, si)) with
        | none => none
        | some st =>
          if hostname.length = (upTo hostname '.').length then
            if rest = [] then some (true, st.1) else some (false, st.1)
          else matchLabels rest (hostname.drop ((upTo hostname '.').length + 1)) st.2 st.1 := by
  rw [matchLabels]
  simp only [ne_eq, Bool.and_eq_true, decide_eq_true_eq, decide_not, Bool.not_eq_true',
    decide_eq_false_iff_not, List.isEmpty_eq_true]
  split
  · rfl
  · split <;> simp_all

/-- A successful `Match`: the pattern labels and the labels of the hostname agree in
number, and every pattern label is `*` or the hostname label at its position. -/
theorem matchLabels_true (segs : List Str) :
    ∀ (hostname : Str) (si : Nat) (params params1 : List Str),
      matchLabels segs hostname si params = some (true, params1) →
      List.Forall₂ (fun s l => s = ['*'] ∨ s = l) segs (split hostname '.') := by
  induction segs with
  | nil => intro hostname si params params1 h; simp [matchLabels] at h
  | cons seg rest ih =>
    intro hostname si params params1 h
    rw [matchLabels_cons] at h
    by_cases hbad : ¬ seg = ['*'] ∧ ¬ seg = upTo hostname '.'
    · rw [if_pos hbad] at h; simp at h
    · rw [if_neg hbad] at h
      have hlab : seg = ['*'] ∨ seg = upTo hostname '.' := by
        by_cases h1 : seg = ['*']
        · exact Or.inl h1
        · by_cases h2 : seg = upTo hostname '.'
          · exact Or.inr h2
          · exact absurd ⟨h1, h2⟩ hbad
      rw [split_upTo]
      cases hst : (if seg = ['*'] then
          (setIndex params si (upTo hostname '.')).map (fun ps => (ps, si + 1))
          else some (params, si)) with
      | none => rw [hst] at h; simp at h
      | some st =>
        rw [hst] at h
        simp only at h
        by_cases hlen : hostname.length = (upTo hostname '.').length
        · rw [if_pos hlen] at h ⊢
          cases rest with
          | nil =>
            refine List.Forall₂.cons ?_ List.Forall₂.nil
            have : upTo hostname '.' = hostname := by
              unfold upTo at hlen ⊢
              exact (List.takeWhile_sublist _).eq_of_length hlen.symm
            rw [this] at hlab
            exact hlab
          | cons s1 rest => simp at h
        · rw [if_neg hlen] at h ⊢
          exact List.Forall₂.cons hlab (ih _ _ _ _ h)

theorem intersectsLabels_of_common (a : List Str) :
    ∀ (b l : List Str), List.Forall₂ (fun s l => s = ['*'] ∨ s = l) a l →
      List.Forall₂ (fun s l => s = ['*'] ∨ s = l) b l →
      a.length = b.length ∧ intersectsLabels a b = true := by
  induction a with
  | nil =>
    intro b l h1 h2
    cases h1
    cases h2
    exact ⟨rfl, rfl⟩
  | cons x xs ih =>
    intro b l h1 h2
    cases h1 with
    | cons hx hxs =>
      cases h2 with
      | cons hy hys =>
        obtain ⟨hl, hi⟩ := ih _ _ hxs hys
        refine ⟨by simp [hl], ?_⟩
        simp only [intersectsLabels, hi]
        rcases hx with hx | hx
        · simp [hx]
        · rcases hy with hy | hy
          · simp [hy]
          · simp [hx, hy]

/-- Two compiled patterns that both match one hostname intersect. -/
theorem intersect_of_both_match (e1 e2 : hostentry) (h1 : e1.Compiled) (h2 : e2.Compiled)
    (hostname : Str) (ctx1 ctx2 c1 c2 : Context)
    (m1 : e1.Match hostname ctx1 = some (true, c1))
    (m2 : e2.Match hostname ctx2 = some (true, c2)) : e1.Intersects e2 = true := by
  unfold hostentry.Match at m1 m2
  cases ha : matchLabels e1.segs hostname 0 (List.replicate e1.numwildcards []) with
  | none => simp [ha] at m1
  | some x =>
    cases hb : matchLabels e2.segs hostname 0 (List.replicate e2.numwildcards []) with
    | none => simp [hb] at m2
    | some y =>
      obtain ⟨b1, p1⟩ := x
      obtain ⟨b2, p2⟩ := y
      simp only [ha, hb, Option.map_some', Option.some.injEq, Prod.mk.injEq] at m1 m2
      obtain ⟨rfl, -⟩ := m1
      obtain ⟨rfl, -⟩ := m2
      have f1 := matchLabels_true _ _ _ _ _ ha
      have f2 := matchLabels_true _ _ _ _ _ hb
      rw [h1.1] at f1
      rw [h2.1] at f2
      obtain ⟨hl, hi⟩ := intersectsLabels_of_common _ _ _ f1 f2
      unfold hostentry.Intersects
      simp [hl, hi]

theorem addToHost_hosts (rt : Route) (hosts : List hostentry) :
    (addToHost rt hosts).1.map hostentry.host = hosts.map hostentry.host := by
  induction hosts with
  | nil => rfl
  | cons e rest ih =>
    unfold addToHost
    by_cases h : e.host = rt.host
    · simp [h]
    · simp [h, ih]

theorem addToHost_compiled (rt : Route) (hosts : List hostentry)
    (hc : ∀ e ∈ hosts, e.Compiled) : ∀ e ∈ (addToHost rt hosts).1, e.Compiled := by
  induction hosts with
  | nil => intro e he; simp [addToHost] at he
  | cons e0 rest ih =>
    intro e he
    unfold addToHost at he
    split at he
    · rcases List.mem_cons.mp he with rfl | he
      · exact hc e0 (by simp)
      · exact hc e (by simp [he])
    · rcases List.mem_cons.mp he with rfl | he
      · exact hc e (by simp)
      · exact ih (fun x hx => hc x (by simp [hx])) e he

theorem AddRoute_hosts (h : HostRouter) (rt : Option Route) :
    (h.AddRoute rt).1.hosts.map hostentry.host = h.hosts.map hostentry.host ∧
    ((∀ e ∈ h.hosts, e.Compiled) → ∀ e ∈ (h.AddRoute rt).1.hosts, e.Compiled) := by
  cases rt with
  | none => exact ⟨rfl, fun hc => hc⟩
  | some rt =>
    unfold HostRouter.AddRoute
    simp only
    split
    · exact ⟨rfl, fun hc => hc⟩
    · split
      · exact ⟨rfl, fun hc => hc⟩
      · split
        · exact ⟨rfl, fun hc => hc⟩
        · exact ⟨addToHost_hosts rt h.hosts, addToHost_compiled rt h.hosts⟩

theorem Compile_compiled (hostname : Str) :
    (hostentry.Compile ⟨hostname, [], 0, trie.empty⟩).Compiled ∧
    (hostentry.Compile ⟨hostname, [], 0, trie.empty⟩).host = hostname :=
  ⟨⟨rfl, rfl⟩, rfl⟩

theorem AddHostname_hostsOk (h : HostRouter) (hostname : Str) (hok : HostsOk h.hosts) :
    HostsOk (h.AddHostname hostname).1.hosts := by
  unfold HostRouter.AddHostname
  split
  · exact hok
  · simp only
    cases hf : h.hosts.find? (fun e => hostentry.Intersects ⟨hostname, [], 0, trie.empty⟩ e) with
    | some e => exact hok
    | none =>
      simp only
      constructor
      · intro e he
        rcases List.mem_append.mp he with he | he
        · exact hok.1 e he
        · simp only [List.mem_singleton] at he
          subst he
          exact (Compile_compiled hostname).1
      · rw [List.map_append, List.pairwise_append]
        refine ⟨hok.2, by simp, ?_⟩
        intro a ha b hb
        simp only [List.map_cons, List.map_nil, List.mem_singleton] at hb
        subst hb
        obtain ⟨e, he, rfl⟩ := List.mem_map.mp ha
        have := List.find?_eq_none.mp hf e he
        simpa [Intersects_eq] using this

theorem apply_hostsOk (h : HostRouter) (op : HostOp) (hok : HostsOk h.hosts) :
    HostsOk (h.apply op).hosts := by
  cases op with
  | addHostname hostname => exact AddHostname_hostsOk h hostname hok
  | addRoute rt =>
    obtain ⟨h1, h2⟩ := AddRoute_hosts h rt
    exact ⟨h2 hok.1, by unfold HostRouter.apply; rw [h1]; exact hok.2⟩

theorem run_hostsOk (ops : List HostOp) :
    ∀ h : HostRouter, HostsOk h.hosts → HostsOk (h.run ops).hosts := by
  induction ops with
  | nil => intro h hok; exact hok
  | cons op ops ih => intro h hok; exact ih _ (apply_hostsOk h op hok)

theorem hostsOk_new : HostsOk NewHostRouter.hosts :=
  ⟨fun e he => by simp [NewHostRouter] at he, by simp [NewHostRouter]⟩

/-- In a list of entries that `AddHostname` built, two entries at different positions do
not intersect. -/
theorem hostsOk_no_intersection (hosts : List hostentry) (hok : HostsOk hosts)
    (i j : Nat) (e1 e2 : hostentry) (h1 : hosts[i]? = some e1) (h2 : hosts[j]? = some e2)
    (hij : i ≠ j) : e1.Intersects e2 = false := by
  have hp := List.pairwise_iff_getElem.mp hok.2
  obtain ⟨hi, rfl⟩ := List.getElem?_eq_some.mp h1
  obtain ⟨hj, rfl⟩ := List.getElem?_eq_some.mp h2
  rw [Intersects_eq]
  rcases Nat.lt_or_gt_of_ne hij with hlt | hgt
  · have := hp i j (by simpa using hi) (by simpa using hj) hlt
    simp only [List.getElem_map] at this
    rw [patternsIntersect_comm]
    exact this
  · have := hp j i (by simpa using hj) (by simpa using hi) hgt
    simp only [List.getElem_map] at this
    exact this

/-- C3: for every host router obtained from `NewHostRouter` by any sequence of calls of
`AddHostname` (and of `AddRoute`), successful or failing, and every hostname: two entries
registered at different positions do not intersect; two compiled patterns whose `Match`
both succeed on the hostname intersect; hence at most one registered entry matches the
hostname. -/
theorem C3_at_most_one_host_entry_matches (ops : List HostOp) (hostname : Str) :
    (∀ (i j : Nat) (e1 e2 : hostentry), (NewHostRouter.run ops).hosts[i]? = some e1 →
      (NewHostRouter.run ops).hosts[j]? = some e2 → i ≠ j → e1.Intersects e2 = false) ∧
    (∀ (e1 e2 : hostentry) (ctx1 ctx2 c1 c2 : Context), e1.Compiled → e2.Compiled →
      e1.Match hostname ctx1 = some (true, c1) → e2.Match hostname ctx2 = some (true, c2) →
      e1.Intersects e2 = true) ∧
    (∀ (i j : Nat) (e1 e2 : hostentry) (ctx1 ctx2 c1 c2 : Context),
      (NewHostRouter.run ops).hosts[i]? = some e1 →
      (NewHostRouter.run ops).hosts[j]? = some e2 →
      e1.Match hostname ctx1 = some (true, c1) → e2.Match hostname ctx2 = some (true, c2) →
      i = j) := by
  have hok := run_hostsOk ops NewHostRouter hostsOk_new
  refine ⟨fun i j e1 e2 h1 h2 hij => hostsOk_no_intersection _ hok i j e1 e2 h1 h2 hij,
    fun e1 e2 ctx1 ctx2 c1 c2 k1 k2 m1 m2 =>
      intersect_of_both_match e1 e2 k1 k2 hostname ctx1 ctx2 c1 c2 m1 m2, ?_⟩
  intro i j e1 e2 ctx1 ctx2 c1 c2 h1 h2 m1 m2
  by_contra hij
  have hno := hostsOk_no_intersection _ hok i j e1 e2 h1 h2 hij
  have hyes := intersect_of_both_match e1 e2
    (hok.1 e1 (List.getElem?_mem h1)) (hok.1 e2 (List.getElem?_mem h2))
    hostname ctx1 ctx2 c1 c2 m1 m2
  rw [hno] at hyes
  exact absurd hyes (by simp)

/-- Witness of C3: of `www.example.com`, `*.example.com` (rejected) and `*.local.com`, the
two registered entries do not intersect; the patterns `*.local.com` and `api.*.com` both
match `api.local.com` and intersect; and the entry that matches `api.local.com` is found at
position 1 only. -/
theorem C3_at_most_one_host_entry_matches_witness :
    (NewHostRouter.run exampleHostOps).hosts.map hostentry.host =
      ["www.example.com".toList, "*.local.com".toList] ∧
    (compiledEntry "www.example.com").Intersects (compiledEntry "*.local.com") = false ∧
    (compiledEntry "*.local.com").Intersects (compiledEntry "api.*.com") = true ∧
    (compiledEntry "*.local.com").Match "api.local.com".toList Context.Reset =
      some (true, ⟨none, [], ["api".toList], []⟩) ∧
    1 = 1 :=
  ⟨rfl,
   (C3_at_most_one_host_entry_matches exampleHostOps "api.local.com".toList).1 0 1
     (compiledEntry "www.example.com") (compiledEntry "*.local.com") rfl rfl (by decide),
   (C3_at_most_one_host_entry_matches exampleHostOps "api.local.com".toList).2.1
     (compiledEntry "*.local.com") (compiledEntry "api.*.com")
     Context.Reset Context.Reset ⟨none, [], ["api".toList], []⟩ ⟨none, [], ["local".toList], []⟩
     ⟨rfl, rfl⟩ ⟨rfl, rfl⟩ rfl rfl,
   rfl,
   (C3_at_most_one_host_entry_matches exampleHostOps "api.local.com".toList).2.2 1 1
     (compiledEntry "*.local.com") (compiledEntry "*.local.com")
     Context.Reset Context.Reset ⟨none, [], ["api".toList], []⟩ ⟨none, [], ["api".toList], []⟩
     rfl rfl rfl rfl⟩

theorem containsByte_cons (x c : Char) (xs : Str) :
    containsByte (x :: xs) c = (decide (c = x) || containsByte xs c) := by
  simp [containsByte]

theorem upTo_eq_self_of_not_contains (s : Str) (c : Char) (h : containsByte s c = false) :
    upTo s c = s := by
  induction s with
  | nil => rfl
  | cons x xs ih =>
    rw [containsByte_cons, Bool.or_eq_false_iff] at h
    have hx : ¬ x = c := fun e => by simp [e] at h
    rw [upTo_cons_ne x c xs hx, ih h.2]

/-- A string that contains the separator: the part before the first separator, the
separator, the rest. -/
theorem upTo_append_drop (s : Str) (c : Char) (h : containsByte s c = true) :
    s = upTo s c ++ c :: s.drop ((upTo s c).length + 1) := by
  induction s with
  | nil => simp [containsByte] at h
  | cons x xs ih =>
    by_cases hx : x = c
    · subst hx
      simp [upTo_cons_eq]
    · have hx2 : ¬ c = x := fun e => hx e.symm
      rw [containsByte_cons] at h
      simp only [hx2, decide_False, Bool.false_or] at h
      rw [upTo_cons_ne x c xs hx]
      simp only [List.length_cons, List.drop_succ_cons, List.cons_append]
      exact congrArg (List.cons x) (ih h)

theorem sliceTo_some (s : Str) (hi : Int) (p : Str) (h : sliceTo s hi = some p) :
    0 ≤ hi ∧ p = s.take hi.toNat := by
  unfold sliceTo at h
  split at h
  · rename_i hc
    exact ⟨hc.1, (Option.some.inj h).symm⟩
  · simp at h

/-- The loop of `trie.Get`, started behind a `/` of the original path: when it ends on a
catch-all node, the last parameter is `*` with the rest of the path as its value, and the
original path is `RoutePath`, a `/`, and that rest. -/
theorem getLoop_catchall (originalpath : Str) (fuel : Nat) :
    ∀ (nodes : List node) (path pre : Str) (ior : Int) (ctx ctx1 : Context) (n : node),
      originalpath = pre ++ '/' :: path → ior = (pre.length : Int) + 1 →
      getLoop originalpath fuel nodes path ior ctx = .found n ctx1 →
      n.seg.CatchAll = true →
      ∃ rest earlier, ctx1.pathParams = earlier ++ [⟨['*'], rest⟩] ∧
        originalpath = ctx1.RoutePath ++ '/' :: rest ∧
        ∃ consumed, path = consumed ++ rest := by
  induction fuel with
  | zero => intro nodes path pre ior ctx ctx1 n _ _ h; simp [getLoop] at h
  | succ fuel ih =>
    intro nodes path pre ior ctx ctx1 n horig hior h hca
    rw [getLoop] at h
    simp only at h
    cases hscan : scanNodes (upTo path '/') nodes ctx.pathParams with
    | none => simp [hscan] at h
    | some res =>
      obtain ⟨found, parms⟩ := res
      cases found with
      | none => simp [hscan] at h
      | some n1 =>
        simp only [hscan] at h
        by_cases hc1 : n1.seg.CatchAll = true
        · simp only [hc1, if_true] at h
          cases hsl : sliceTo originalpath (ior - 1) with
          | none => simp [hsl] at h
          | some p =>
            simp only [hsl, GetResult.found.injEq] at h
            obtain ⟨-, rfl⟩ := h
            obtain ⟨-, hp⟩ := sliceTo_some _ _ _ hsl
            have hpre : p = pre := by
              rw [hp, hior, horig]
              simp
            subst hpre
            exact ⟨path, parms, rfl, horig, [], rfl⟩
        · simp only [hc1, Bool.false_eq_true, if_false] at h
          by_cases hlast : containsByte path '/' = true
          · simp only [hlast, Bool.not_true, Bool.false_eq_true, if_false] at h
            have hsplit := upTo_append_drop path '/' hlast
            obtain ⟨rest, earlier, h1, h2, consumed, h3⟩ := ih n1.nodes _ (pre ++ '/' :: upTo path '/')
              _ _ ctx1 n
              (by rw [horig]; simp only [List.append_assoc, List.cons_append]
                  exact congrArg _ (congrArg _ hsplit))
              (by rw [hior]; simp; omega) h hca
            refine ⟨rest, earlier, h1, h2, upTo path '/' ++ '/' :: consumed, ?_⟩
            rw [List.append_assoc, List.cons_append, ← h3]
            exact hsplit
          · simp only [hlast, Bool.not_false, if_true, GetResult.found.injEq] at h
            obtain ⟨rfl, -⟩ := h
            exact absurd hca hc1

theorem node_all_iff (P : segment → Prop) (n : node) :
    n.All P ↔ P n.seg ∧ ∀ c ∈ n.nodes, c.All P := by
  constructor
  · intro h
    cases h with
    | mk s m ns h1 h2 => exact ⟨h1, h2⟩
  · intro h
    cases n with
    | mk s m ns => exact node.All.mk s m ns h.1 h.2

theorem visitNode_all (P : segment → Prop) (r : Route) (rest : List segment) (n : node)
    (hn : n.All P)
    (ih : (∀ c ∈ n.nodes, c.All P) → ∀ c ∈ (addLoop r rest n.nodes).1, c.All P) :
    (visitNode r rest n).1.All P := by
  obtain ⟨h1, h2⟩ := (node_all_iff P n).1 hn
  cases rest with
  | nil =>
    rw [visitNode_last]
    split
    · exact hn
    · exact (node_all_iff P _).2 ⟨h1, h2⟩
  | cons s rest =>
    rw [visitNode_more]
    exact (node_all_iff P _).2 ⟨h1, ih h2⟩

/-- The walk of `trie.Add` keeps a property of all segments of the tree when the segments
of the route have it. -/
theorem addLoop_all (P : segment → Prop) (r : Route) (segs : List segment)
    (hs : ∀ s ∈ segs, P s) :
    ∀ nodes : List node, (∀ c ∈ nodes, c.All P) → ∀ c ∈ (addLoop r segs nodes).1, c.All P := by
  induction segs with
  | nil => intro nodes h; exact h
  | cons s rest ih =>
    intro nodes h
    have ihr := ih (fun x hx => hs x (by simp [hx]))
    by_cases h1 : nodes.any (fun c => c.seg.CatchAll) = true
    · rw [addLoop]; simp only [h1, if_true]; exact h
    · simp only [Bool.not_eq_true] at h1
      by_cases h2 : (decide (nodes.length > 0) && s.CatchAll) = true
      · rw [addLoop]; simp only [h1, h2]; exact h
      · simp only [Bool.not_eq_true] at h2
        rw [addLoop_step r s rest nodes h1 h2]
        cases hf : findNode s.Comparable nodes with
        | none =>
          simp only
          intro c hc
          rcases List.mem_append.mp hc with hc | hc
          · exact h c hc
          · simp only [List.mem_singleton] at hc
            subst hc
            exact visitNode_all P r rest _
              ((node_all_iff P _).2 ⟨hs s (by simp), by simp [node.nodes]⟩) (ihr _)
        | some x =>
          obtain ⟨pre, n, post⟩ := x
          obtain ⟨hn, -, -⟩ := findNode_some hf
          simp only
          intro c hc
          rcases List.mem_append.mp hc with hc | hc
          · exact h c (by rw [hn]; simp [hc])
          · rcases List.mem_cons.mp hc with rfl | hc
            · exact visitNode_all P r rest n (h n (by rw [hn]; simp)) (ihr _)
            · exact h c (by rw [hn]; simp [hc])

theorem parseSegments_created (xs : List Str) :
    ∀ segs, parseSegments xs = .ok segs → ∀ s ∈ segs, Created s := by
  induction xs with
  | nil => intro segs h; simp [parseSegments] at h; subst h; simp
  | cons x xs ih =>
    intro segs h
    unfold parseSegments at h
    cases hc : createSegment x with
    | error e => simp [hc] at h
    | ok seg =>
      simp only [hc] at h
      split at h
      · simp at h
      · cases hp : parseSegments xs with
        | error e => simp [hp] at h
        | ok rest =>
          simp only [hp, Except.ok.injEq] at h
          subst h
          intro s hs
          rcases List.mem_cons.mp hs with rfl | hs
          · exact ⟨x, hc⟩
          · exact ih rest hp s hs

theorem trie_Add_all (t : trie) (r : Option Route) (h : ∀ c ∈ t.nodes, c.All Created) :
    ∀ c ∈ (t.Add r).1.nodes, c.All Created := by
  cases r with
  | none => exact h
  | some r =>
    cases hp : ParsePath r.path with
    | error e => rw [trie_Add_parse_error t r e hp]; exact h
    | ok segs =>
      by_cases hm : r.methods.length = 0
      · rw [trie_Add_no_method t r segs hp hm]; exact h
      · have hg := addLoop_all Created r segs
          (parseSegments_created _ _ (ParsePath_eq _ _ hp)) t.nodes h
        cases hl : addLoop r segs t.nodes with
        | mk nodes res =>
          rw [hl] at hg
          cases res with
          | error e => rw [trie_Add_walk_error t r segs nodes e hp hm hl]; exact hg
          | ok dm => rw [trie_Add_walk_ok t r segs nodes dm hp hm hl]; exact hg

theorem trie_AddAll_all (rs : List (Option Route)) :
    ∀ t : trie, (∀ c ∈ t.nodes, c.All Created) → ∀ c ∈ (t.AddAll rs).nodes, c.All Created := by
  induction rs with
  | nil => intro t h; exact h
  | cons r rs ih => intro t h; exact ih _ (trie_Add_all t r h)

/-- Every segment of a trie built by `Add` comes from `createSegment`. -/
theorem built_all_created (t : trie) (h : t.Built) : ∀ c ∈ t.nodes, c.All Created := by
  obtain ⟨rs, rfl⟩ := h
  exact trie_AddAll_all rs trie.empty (by simp [trie.empty])

theorem zipFields_keys (fields : List Str) :
    ∀ (caps : List Str) (ps : List PathParam), segment.zipFields fields caps = some ps →
      ∀ q ∈ ps, q.Key ∈ fields := by
  induction fields with
  | nil =>
    intro caps ps h
    cases caps with
    | nil => simp [segment.zipFields] at h; subst h; simp
    | cons c cs => simp [segment.zipFields] at h
  | cons f fs ih =>
    intro caps ps h
    cases caps with
    | nil => simp [segment.zipFields] at h; subst h; simp
    | cons c cs =>
      simp only [segment.zipFields] at h
      cases hz : segment.zipFields fs cs with
      | none => simp [hz] at h
      | some qs =>
        simp only [hz, Option.map_some', Option.some.injEq] at h
        subst h
        intro q hq
        rcases List.mem_cons.mp hq with rfl | hq
        · simp
        · exact List.mem_cons_of_mem _ (ih cs qs hz q hq)

theorem bracketAt_some (s : Str) (len : Nat) (h : bracketAt s = some len) :
    ∃ c rest, s = '{' :: c :: rest ∧ isLetter c = true ∧ 2 ≤ len := by
  unfold bracketAt at h
  split at h
  · rename_i c rest
    by_cases hc : isLetter c = true
    · refine ⟨c, rest, rfl, hc, ?_⟩
      simp only [hc, if_true] at h
      split at h
      · simp only [Option.some.injEq] at h; omega
      · split at h
        · split at h
          · simp only [Option.some.injEq] at h; omega
          · simp at h
        · simp at h
      · simp at h
    · simp [hc] at h
  · simp at h

/-- Every match that `findBrackets` reports starts with `{` and a letter. -/
theorem findBrackets_starts (r : Str) (fuel : Nat) :
    ∀ (off : Nat) (s : Str), s = r.drop off →
      ∀ f ∈ findBrackets fuel off s, ∃ c rest, slice r f.1 f.2 = '{' :: c :: rest ∧
        isLetter c = true := by
  induction fuel with
  | zero => intro off s _ f hf; simp [findBrackets] at hf
  | succ fuel ih =>
    intro off s hs f hf
    cases s with
    | nil => simp [findBrackets] at hf
    | cons c0 rest0 =>
      rw [findBrackets] at hf
      cases hb : bracketAt (c0 :: rest0) with
      | none =>
        simp only [hb] at hf
        refine ih (off + 1) rest0 ?_ f hf
        rw [← List.drop_drop, ← hs]
        rfl
      | some len =>
        simp only [hb, List.mem_cons] at hf
        rcases hf with rfl | hf
        · obtain ⟨c, rest, he, hc, hl⟩ := bracketAt_some _ _ hb
          refine ⟨c, rest.take (len - 2), ?_, hc⟩
          simp only [slice, Nat.add_sub_cancel_left]
          rw [← hs, he]
          obtain ⟨k, rfl⟩ : ∃ k, len = k + 2 := ⟨len - 2, by omega⟩
          simp
        · refine ih (off + len) ((c0 :: rest0).drop len) ?_ f hf
          rw [hs, List.drop_drop]

theorem split_cons_ne (x c : Char) (xs : Str) (h : ¬ x = c) :
    ∃ piece pieces, split xs c = piece :: pieces ∧ split (x :: xs) c = (x :: piece) :: pieces := by
  cases hs : split xs c with
  | nil => exact absurd hs (split_ne_nil xs c)
  | cons piece pieces =>
    refine ⟨piece, pieces, rfl, ?_⟩
    rw [split]
    simp [h, hs]

theorem isLetter_ne (c : Char) (h : isLetter c = true) :
    c ≠ '*' ∧ c ≠ ':' ∧ c ≠ '{' ∧ c ≠ '}' := by
  refine ⟨?_, ?_, ?_, ?_⟩ <;> (intro e; subst e; revert h; decide)

/-- The field name that `pathSubstitute` extracts from a bracket match is not `*`. -/
theorem pathSubstitute_name (c : Char) (rest : Str) (hc : isLetter c = true)
    (name sub : Str) (h : pathSubstitute ('{' :: c :: rest) = .ok (name, sub)) :
    name ≠ ['*'] := by
  obtain ⟨hstar, hcolon, -, hclose⟩ := isLetter_ne c hc
  obtain ⟨piece, pieces, hp, hs⟩ := split_cons_ne c ':' rest hcolon
  obtain ⟨piece2, pieces2, hp2, hs2⟩ := split_cons_ne '{' ':' (c :: rest) (by decide)
  rw [hs] at hp2
  simp only [List.cons.injEq] at hp2
  obtain ⟨rfl, rfl⟩ := hp2
  unfold pathSubstitute at h
  simp only [hs2, List.headD_cons, hasPrefix, List.isPrefixOf, beq_self_eq_true, Bool.true_and,
    if_true, List.drop_succ_cons, List.drop_zero] at h
  split at h
  · split at h
    · simp only [Except.ok.injEq, Prod.mk.injEq] at h
      obtain ⟨rfl, -⟩ := h
      cases piece with
      | nil => simp
      | cons a as => simp [List.dropLast, hstar]
    · simp only [Except.ok.injEq, Prod.mk.injEq] at h
      obtain ⟨rfl, -⟩ := h
      simp [hstar]
  · split at h
    · split at h
      · simp at h
      · simp only [Except.ok.injEq, Prod.mk.injEq] at h
        obtain ⟨rfl, -⟩ := h
        simp [hstar]
    · simp only [Except.ok.injEq, Prod.mk.injEq] at h
      obtain ⟨rfl, -⟩ := h
      simp

theorem regexPieces_names (r : Str) (findings : List (Nat × Nat))
    (hf : ∀ f ∈ findings, ∃ c rest, slice r f.1 f.2 = '{' :: c :: rest ∧ isLetter c = true) :
    ∀ (init : Nat) (txt : Str) (prog : List rxpiece) (names : List Str),
      regexPieces r findings init = .ok (txt, prog, names) → ∀ n ∈ names, n ≠ ['*'] := by
  induction findings with
  | nil =>
    intro init txt prog names h
    simp only [regexPieces, Except.ok.injEq, Prod.mk.injEq] at h
    obtain ⟨-, -, rfl⟩ := h
    simp
  | cons f fs ih =>
    intro init txt prog names h
    obtain ⟨fi, fe⟩ := f
    rw [regexPieces] at h
    cases hps : pathSubstitute (slice r fi fe) with
    | error e => simp [hps] at h
    | ok ns =>
      obtain ⟨fname, sub⟩ := ns
      simp only [hps] at h
      cases hrec : regexPieces r fs fe with
      | error e => simp [hrec] at h
      | ok res =>
        obtain ⟨txt1, prog1, names1⟩ := res
        simp only [hrec, Except.ok.injEq, Prod.mk.injEq] at h
        obtain ⟨-, -, rfl⟩ := h
        intro n hn
        rcases List.mem_cons.mp hn with rfl | hn
        · obtain ⟨c, rest, he, hc⟩ := hf (fi, fe) (by simp)
          rw [he] at hps
          exact pathSubstitute_name c rest hc _ _ hps
        · exact ih (fun g hg => hf g (by simp [hg])) fe txt1 prog1 names1 hrec n hn

theorem regex_noStarKey (re : Regexp) (original : Str) (fields : List Str)
    (hf : ∀ f ∈ fields, f ≠ ['*']) : NoStarKey (.segmentregex re original fields) := by
  intro p parms b parms1 h
  simp only [segment.Match] at h
  split at h
  · rename_i caps _
    cases hz : segment.zipFields fields caps with
    | none => simp [hz] at h
    | some ps =>
      simp only [hz, Option.map_some', Option.some.injEq, Prod.mk.injEq] at h
      obtain ⟨-, rfl⟩ := h
      exact ⟨ps, rfl, fun q hq => hf _ (zipFields_keys fields caps ps hz q hq)⟩
  · simp only [Option.some.injEq, Prod.mk.injEq] at h
    obtain ⟨-, rfl⟩ := h
    exact ⟨[], by simp, by simp⟩

theorem any_fieldname (x : Str) (hx : x ≠ "\x7b*\x7d".toList)
    (hs : hasSuffix x ['}'] = true) (hp : hasPrefix x ['{'] = true) :
    slice x 1 (x.length - 1) ≠ ['*'] := by
  intro h
  apply hx
  match x, hs, hp, h with
  | [], _, hp, _ => simp [hasPrefix] at hp
  | [a], _, _, h => simp [slice] at h
  | [a, b], _, _, h => simp [slice] at h
  | [a, b, c], hs, hp, h =>
    simp only [slice, List.length_cons, List.length_nil, List.drop_succ_cons, List.drop_zero] at h
    simp only [hasPrefix, List.isPrefixOf, Bool.and_true, beq_iff_eq] at hp
    have h3 : c = '}' := by
      have : ['}'] <:+ [a, b, c] := List.isSuffixOf_iff_suffix.mp hs
      obtain ⟨t, ht⟩ := this
      have hl := congrArg List.length ht
      simp only [List.length_append, List.length_cons, List.length_nil] at hl
      match t, ht with
      | [u, v], ht => simp at ht; exact ht.2.2.symm
    simp at h
    subst h3
    rw [← hp, h]
    rfl
  | a :: b :: c :: d :: rest, _, _, h =>
    have := congrArg List.length h
    simp [slice] at this

/-- Whatever `createSegment` builds appends no parameter under the key `*`. -/
theorem created_noStarKey (s : segment) (h : Created s) : NoStarKey s := by
  obtain ⟨x, hx⟩ := h
  unfold createSegment at hx
  split at hx
  · simp only [Except.ok.injEq] at hx
    subst hx
    intro p parms b parms1 h
    simp only [segment.Match, Option.some.injEq, Prod.mk.injEq] at h
    exact ⟨[], by simp [h.2], by simp⟩
  · rename_i hne
    split at hx
    · split at hx
      · rename_i hcond
        simp only [Bool.and_eq_true, Bool.not_eq_true'] at hcond
        simp only [Except.ok.injEq] at hx
        subst hx
        intro p parms b parms1 h
        simp only [segment.Match, newSegmentAny] at h
        split at h
        · simp only [Option.some.injEq, Prod.mk.injEq] at h
          exact ⟨[], by simp [h.2], by simp⟩
        · simp only [Option.some.injEq, Prod.mk.injEq] at h
          obtain ⟨-, rfl⟩ := h
          refine ⟨_, rfl, ?_⟩
          intro q hq
          simp only [List.mem_singleton] at hq
          subst hq
          exact any_fieldname x hne hcond.1.2 hcond.1.1
      · unfold NewSegmentRegex at hx
        split at hx
        · simp at hx
        · split at hx
          · simp at hx
          · simp only at hx
            split at hx
            · simp only [Except.ok.injEq] at hx
              subst hx
              exact regex_noStarKey _ _ _ (by simp)
            · cases hrp : regexPieces x (bracketFindAll x) 0 with
              | error e => simp [hrp] at hx
              | ok res =>
                obtain ⟨txt, prog, names⟩ := res
                simp only [hrp, Except.ok.injEq] at hx
                subst hx
                exact regex_noStarKey _ _ _
                  (regexPieces_names x _ (findBrackets_starts x _ 0 x rfl) 0 txt prog names hrp)
    · simp only [Except.ok.injEq] at hx
      subst hx
      intro p parms b parms1 h
      simp only [segment.Match, Option.some.injEq, Prod.mk.injEq] at h
      exact ⟨[], by simp [h.2], by simp⟩

theorem scanNodes_keys (p : Str) (nodes : List node) (hn : ∀ c ∈ nodes, NoStarKey c.seg) :
    ∀ (parms : List PathParam) (res : Option node) (parms1 : List PathParam),
      scanNodes p nodes parms = some (res, parms1) →
      (∀ q ∈ parms, q.Key ≠ ['*']) →
      (∀ q ∈ parms1, q.Key ≠ ['*']) ∧ ∀ n, res = some n → n ∈ nodes := by
  induction nodes with
  | nil =>
    intro parms res parms1 h hk
    simp only [scanNodes, Option.some.injEq, Prod.mk.injEq] at h
    obtain ⟨rfl, rfl⟩ := h
    exact ⟨hk, by simp⟩
  | cons c rest ih =>
    intro parms res parms1 h hk
    rw [scanNodes] at h
    cases hm : c.seg.Match p parms with
    | none => simp [hm] at h
    | some x =>
      obtain ⟨b, ps⟩ := x
      obtain ⟨extra, rfl, hex⟩ := hn c (by simp) p parms b ps hm
      have hk2 : ∀ q ∈ parms ++ extra, q.Key ≠ ['*'] := by
        intro q hq
        rcases List.mem_append.mp hq with hq | hq
        · exact hk q hq
        · exact hex q hq
      cases b with
      | true =>
        simp only [hm, Option.some.injEq, Prod.mk.injEq] at h
        obtain ⟨rfl, rfl⟩ := h
        exact ⟨hk2, by simp⟩
      | false =>
        simp only [hm] at h
        obtain ⟨h1, h2⟩ := ih (fun x hx => hn x (by simp [hx])) _ _ _ h hk2
        exact ⟨h1, fun n hn => List.mem_cons_of_mem _ (h2 n hn)⟩

/-- In a tree whose segments come from `createSegment`, the parameters recorded before the
`*` of the catch-all carry other keys. -/
theorem getLoop_catchall_keys (originalpath : Str) (fuel : Nat) :
    ∀ (nodes : List node) (path : Str) (ior : Int) (ctx ctx1 : Context) (n : node),
      (∀ c ∈ nodes, c.All Created) → (∀ q ∈ ctx.pathParams, q.Key ≠ ['*']) →
      getLoop originalpath fuel nodes path ior ctx = .found n ctx1 →
      n.seg.CatchAll = true →
      ∀ earlier last, ctx1.pathParams = earlier ++ [last] → ∀ q ∈ earlier, q.Key ≠ ['*'] := by
  induction fuel with
  | zero => intro nodes path ior ctx ctx1 n _ _ h; simp [getLoop] at h
  | succ fuel ih =>
    intro nodes path ior ctx ctx1 n hall hk h hca earlier last hdec
    rw [getLoop] at h
    simp only at h
    cases hscan : scanNodes (upTo path '/') nodes ctx.pathParams with
    | none => simp [hscan] at h
    | some res =>
      obtain ⟨found, parms⟩ := res
      have hsegs : ∀ c ∈ nodes, NoStarKey c.seg := fun c hc =>
        created_noStarKey _ ((node_all_iff Created c).1 (hall c hc)).1
      obtain ⟨hk1, hmem⟩ := scanNodes_keys _ nodes hsegs _ _ _ hscan hk
      cases found with
      | none => simp [hscan] at h
      | some n1 =>
        simp only [hscan] at h
        have hn1 : ∀ c ∈ n1.nodes, c.All Created :=
          ((node_all_iff Created n1).1 (hall n1 (hmem n1 rfl))).2
        by_cases hc1 : n1.seg.CatchAll = true
        · simp only [hc1, if_true] at h
          cases hsl : sliceTo originalpath (ior - 1) with
          | none => simp [hsl] at h
          | some p =>
            simp only [hsl, GetResult.found.injEq] at h
            obtain ⟨-, rfl⟩ := h
            simp only [Context.AddPathParam] at hdec
            obtain ⟨rfl, -⟩ := List.append_inj' hdec rfl
            exact hk1
        · simp only [hc1, Bool.false_eq_true, if_false] at h
          by_cases hlast : containsByte path '/' = true
          · simp only [hlast, Bool.not_true, Bool.false_eq_true, if_false] at h
            exact ih n1.nodes _ _ _ ctx1 n hn1 hk1 h hca earlier last hdec
          · simp only [hlast, Bool.not_false, if_true, GetResult.found.injEq] at h
            obtain ⟨rfl, -⟩ := h
            exact absurd hca hc1

theorem pathParam_last (earlier : List PathParam) (key value : Str)
    (h : ∀ q ∈ earlier, q.Key ≠ key) (ctx : Context)
    (hp : ctx.pathParams = earlier ++ [⟨key, value⟩]) : ctx.PathParam key = value := by
  unfold Context.PathParam
  rw [hp, List.find?_append]
  have : earlier.find? (fun q => decide (q.Key = key)) = none := by
    rw [List.find?_eq_none]
    intro q hq
    simpa using h q hq
  simp [this]

/-- The verdict of `Match` and the parameters it appends do not depend on the parameters
recorded before. -/
theorem Match_parms (s : segment) (p : Str) (parms : List PathParam) :
    s.Match p parms = (s.Match p []).map (fun x => (x.1, parms ++ x.2)) := by
  cases s with
  | segmentstring t => simp [segment.Match]
  | segmentcatchallstring => simp [segment.Match]
  | segmentregex r original fields =>
    simp only [segment.Match]
    split
    · rename_i caps _
      cases segment.zipFields fields caps <;> simp
    · simp
  | segmentany comp original fieldname =>
    simp only [segment.Match]
    split <;> simp

theorem scanNodes_own (c : Str) (pre post : List node) (n : node) (parms : List PathParam)
    (hpre : pre.all (fun y => y.seg.Match c [] == some (false, [])) = true)
    (hn : n.seg.Match c [] = some (true, [])) :
    scanNodes c (pre ++ n :: post) parms = some (some n, parms) := by
  induction pre with
  | nil =>
    rw [List.nil_append, scanNodes, Match_parms, hn]
    simp
  | cons y ys ih =>
    simp only [List.all_cons, Bool.and_eq_true, beq_iff_eq] at hpre
    rw [List.cons_append, scanNodes, Match_parms, hpre.1]
    simp only [Option.map_some', List.append_nil]
    exact ih hpre.2

theorem contains_iff_upTo (s : Str) (c : Char) :
    containsByte s c = false ↔ s.length = (upTo s c).length := by
  constructor
  · intro h
    rw [upTo_eq_self_of_not_contains s c h]
  · intro h
    cases hc : containsByte s c with
    | false => rfl
    | true =>
      have := congrArg List.length (upTo_append_drop s c hc)
      simp only [List.length_append, List.length_cons] at this
      omega

/-- Under `reachesOwn`, the loop of `trie.Get` ends on the node that the walk by signatures
reaches, records no parameter and sets `RoutePath` to the original path. -/
theorem getLoop_own (originalpath : Str) (fuel : Nat) :
    ∀ (nodes : List node) (path : Str) (ior : Int) (ctx : Context) (n : node),
      path.length < fuel → reachesOwn (split path '/') nodes = true →
      descend (split path '/') nodes = some n →
      getLoop originalpath fuel nodes path ior ctx = .found n { ctx with RoutePath := originalpath } := by
  induction fuel with
  | zero => intro nodes path ior ctx n h; omega
  | succ fuel ih =>
    intro nodes path ior ctx n hfuel hr hd
    rw [split_upTo] at hr hd
    rw [getLoop]
    simp only
    by_cases hlen : path.length = (upTo path '/').length
    · have hc := (contains_iff_upTo path '/').2 hlen
      have hup := upTo_eq_self_of_not_contains path '/' hc
      simp only [hlen, if_true] at hr hd
      rw [reachesOwn] at hr
      rw [descend] at hd
      cases hf : findNode path nodes with
      | none => simp [hf] at hr
      | some x =>
        obtain ⟨pre, m, post⟩ := x
        simp only [hf, List.isEmpty_nil, if_true, Option.some.injEq, Bool.true_or,
          Bool.and_true, Bool.and_eq_true, beq_iff_eq, Bool.not_eq_true'] at hr hd
        subst hd
        obtain ⟨hnodes, -, -⟩ := findNode_some hf
        rw [hup, hnodes, scanNodes_own path pre post m _ hr.1.1 hr.1.2]
        simp [hr.2, hc]
    · have hc : containsByte path '/' = true := by
        cases h : containsByte path '/' with
        | true => rfl
        | false => exact absurd ((contains_iff_upTo path '/').1 h) hlen
      simp only [hlen, if_false] at hr hd
      rw [reachesOwn] at hr
      rw [descend] at hd
      cases hf : findNode (upTo path '/') nodes with
      | none => simp [hf] at hr
      | some x =>
        obtain ⟨pre, m, post⟩ := x
        have hne : (split (List.drop ((upTo path '/').length + 1) path) '/').isEmpty = false := by
          cases hs : split (List.drop ((upTo path '/').length + 1) path) '/' with
          | nil => exact absurd hs (split_ne_nil _ _)
          | cons a b => rfl
        simp only [hf, hne, Bool.false_or, Bool.and_eq_true, beq_iff_eq, Bool.not_eq_true',
          Bool.false_eq_true, if_false] at hr hd
        obtain ⟨hnodes, -, -⟩ := findNode_some hf
        rw [hnodes, scanNodes_own _ pre post m _ hr.1.1.1 hr.1.1.2]
        simp only [hr.1.2, Bool.false_eq_true, if_false, hc, Bool.not_true]
        have hlt : (List.drop ((upTo path '/').length + 1) path).length < fuel := by
          have hle := upTo_length_le path '/'
          simp only [List.length_drop]
          omega
        exact ih m.nodes _ _ _ n hlt hr.2 hd

/-- Under `reachesOwn`, `trie.Get` returns the node that the walk by signatures reaches,
whatever the context holds before the call. -/
theorem trie_Get_own (t : trie) (p : Str) (n : node)
    (hr : reachesOwn (components p) t.nodes = true)
    (hd : descend (components p) t.nodes = some n) (ctx : Context) :
    t.Get p ctx = .found n ⟨ctx.Route, [], ctx.HostParams, p⟩ := by
  unfold trie.Get
  simp only
  exact getLoop_own p _ t.nodes _ _ _ n (by omega) hr hd

theorem containsByte_iff (s : Str) (c : Char) : containsByte s c = true ↔ c ∈ s := by
  simp [containsByte]

theorem createSegment_literal (c : Str) (h : containsByte c '{' = false) :
    createSegment c = .ok (.segmentstring c) := by
  unfold createSegment
  have hne : ¬ c = "\x7b*\x7d".toList := by
    intro e
    subst e
    revert h
    decide
  have hne2 : ¬ c = ['{', '*', '}'] := hne
  simp [hne2, h]

theorem parseSegments_literal (cs : List Str) (h : ∀ c ∈ cs, containsByte c '{' = false) :
    parseSegments cs = .ok (cs.map segment.segmentstring) := by
  induction cs with
  | nil => rfl
  | cons c cs ih =>
    rw [parseSegments, createSegment_literal c (h c (by simp))]
    simp only [segment.CatchAll, Bool.false_and, Bool.false_eq_true, if_false]
    rw [ih (fun x hx => h x (by simp [hx]))]
    rfl

theorem split_mem (s : Str) (c : Char) : ∀ piece ∈ split s c, ∀ x ∈ piece, x ∈ s := by
  induction s with
  | nil => intro piece hp x hx; simp [split] at hp; subst hp; exact hx
  | cons y ys ih =>
    intro piece hp x hx
    by_cases hy : y = c
    · rw [split] at hp
      simp only [hy, if_true, List.mem_cons] at hp
      rcases hp with rfl | hp
      · simp at hx
      · exact List.mem_cons_of_mem _ (ih piece hp x hx)
    · obtain ⟨p0, ps, h1, h2⟩ := split_cons_ne y c ys hy
      rw [h2] at hp
      rcases List.mem_cons.mp hp with rfl | hp
      · rcases List.mem_cons.mp hx with rfl | hx
        · simp
        · exact List.mem_cons_of_mem _ (ih p0 (by rw [h1]; simp) x hx)
      · exact List.mem_cons_of_mem _ (ih piece (by rw [h1]; simp [hp]) x hx)

theorem components_literal (p : Str) (h : containsByte p '{' = false) :
    ∀ c ∈ components p, containsByte c '{' = false := by
  intro c hc
  cases hcc : containsByte c '{' with
  | false => rfl
  | true =>
    have hx : '{' ∈ c := (containsByte_iff c '{').1 hcc
    unfold components at hc
    have hmem := split_mem _ _ c hc '{' hx
    have : '{' ∈ p := by
      split at hmem
      · exact List.mem_of_mem_drop hmem
      · exact hmem
    rw [(containsByte_iff p '{').2 this] at h
    exact absurd h (by simp)

/-- The signatures of a template without `{` are its components. -/
theorem ParsePath_literal (p : Str) (segs : List segment) (h : containsByte p '{' = false)
    (hp : ParsePath p = .ok segs) : segs.map segment.Comparable = components p := by
  have h1 := ParsePath_eq p segs hp
  rw [parseSegments_literal _ (components_literal p h)] at h1
  simp only [Except.ok.injEq] at h1
  subst h1
  rw [List.map_map]
  induction components p with
  | nil => rfl
  | cons c cs ih => simp [segment.Comparable, ih]

theorem foldl_stars (segs : List Str) :
    ∀ a : Nat, segs.foldl (fun n s => if s = ['*'] then n + 1 else n) a =
      a + segs.foldl (fun n s => if s = ['*'] then n + 1 else n) 0 := by
  induction segs with
  | nil => intro a; rfl
  | cons s rest ih =>
    intro a
    simp only [List.foldl_cons]
    rw [ih, ih (if s = ['*'] then 0 + 1 else 0)]
    split <;> omega

/-- `Match` does not panic when `HostParams` has room for the wildcards that remain. -/
theorem matchLabels_total (segs : List Str) :
    ∀ (hostname : Str) (si : Nat) (params : List Str),
      si + segs.foldl (fun n s => if s = ['*'] then n + 1 else n) 0 ≤ params.length →
      ∃ b ps, matchLabels segs hostname si params = some (b, ps) := by
  induction segs with
  | nil => intro hostname si params _; exact ⟨false, params, rfl⟩
  | cons seg rest ih =>
    intro hostname si params hlen
    rw [List.foldl_cons, foldl_stars] at hlen
    rw [matchLabels_cons]
    by_cases hbad : ¬ seg = ['*'] ∧ ¬ seg = upTo hostname '.'
    · rw [if_pos hbad]; exact ⟨_, _, rfl⟩
    · rw [if_neg hbad]
      by_cases hstar : seg = ['*']
      · simp only [hstar, if_true] at hlen ⊢
        have hsi : si < params.length := by omega
        simp only [setIndex, hsi, if_true, Option.map_some']
        split
        · split <;> exact ⟨_, _, rfl⟩
        · exact ih _ _ _ (by simp only [List.length_set]; omega)
      · simp only [hstar, if_false] at hlen ⊢
        split
        · split <;> exact ⟨_, _, rfl⟩
        · exact ih _ _ _ (by omega)

/-- `Match` succeeds when the labels agree in number and every pattern label is `*` or the
hostname label at its position. -/
theorem matchLabels_complete (segs : List Str) :
    ∀ (hostname : Str) (si : Nat) (params : List Str),
      List.Forall₂ (fun s l => s = ['*'] ∨ s = l) segs (split hostname '.') →
      si + segs.foldl (fun n s => if s = ['*'] then n + 1 else n) 0 ≤ params.length →
      ∃ ps, matchLabels segs hostname si params = some (true, ps) := by
  induction segs with
  | nil =>
    intro hostname si params hf _
    cases hs : split hostname '.' with
    | nil => exact absurd hs (split_ne_nil _ _)
    | cons a b => rw [hs] at hf; cases hf
  | cons seg rest ih =>
    intro hostname si params hf hlen
    rw [List.foldl_cons, foldl_stars] at hlen
    rw [split_upTo] at hf
    rw [matchLabels_cons]
    by_cases hl : hostname.length = (upTo hostname '.').length
    · rw [if_pos hl] at hf
      cases hf with
      | cons hr hrest =>
        cases hrest
        have hup : upTo hostname '.' = hostname := by
          unfold upTo at hl ⊢
          exact (List.takeWhile_sublist _).eq_of_length hl.symm
        have hgood : ¬ (¬ seg = ['*'] ∧ ¬ seg = upTo hostname '.') := by
          rw [hup]
          rintro ⟨h1, h2⟩
          rcases hr with hr | hr
          · exact h1 hr
          · exact h2 hr
        rw [if_neg hgood]
        by_cases hstar : seg = ['*']
        · simp only [hstar, if_true] at hlen ⊢
          have hsi : si < params.length := by omega
          simp only [setIndex, hsi, if_true, Option.map_some', hl]
          exact ⟨_, rfl⟩
        · simp only [hstar, if_false, hl, if_true]
          exact ⟨_, rfl⟩
    · rw [if_neg hl] at hf
      cases hf with
      | cons hr hrest =>
        have hgood : ¬ (¬ seg = ['*'] ∧ ¬ seg = upTo hostname '.') := by
          rintro ⟨h1, h2⟩
          rcases hr with hr | hr
          · exact h1 hr
          · exact h2 hr
        rw [if_neg hgood]
        by_cases hstar : seg = ['*']
        · simp only [hstar, if_true] at hlen ⊢
          have hsi : si < params.length := by omega
          simp only [setIndex, hsi, if_true, Option.map_some', hl, if_false]
          exact ih _ _ _ hrest (by simp only [List.length_set]; omega)
        · simp only [hstar, if_false] at hlen ⊢
          simp only [hl, if_false]
          exact ih _ _ _ hrest (by omega)

theorem Match_total (e : hostentry) (he : e.Compiled) (hostname : Str) (ctx : Context) :
    ∃ b c, e.Match hostname ctx = some (b, c) := by
  obtain ⟨b, ps, h⟩ := matchLabels_total e.segs hostname 0 (List.replicate e.numwildcards [])
    (by rw [he.1, he.2]; simp)
  exact ⟨b, { ctx with HostParams := ps }, by simp [hostentry.Match, h]⟩

theorem forall₂_self (l : List Str) : List.Forall₂ (fun s l => s = ['*'] ∨ s = l) l l := by
  induction l with
  | nil => exact List.Forall₂.nil
  | cons a as ih => exact List.Forall₂.cons (Or.inr rfl) ih

/-- A compiled pattern matches the hostname that is spelled like the pattern. -/
theorem Match_self (e : hostentry) (he : e.Compiled) (ctx : Context) :
    ∃ c, e.Match e.host ctx = some (true, c) := by
  obtain ⟨ps, h⟩ := matchLabels_complete e.segs e.host 0 (List.replicate e.numwildcards [])
    (by rw [he.1]; exact forall₂_self _) (by rw [he.1, he.2]; simp)
  exact ⟨{ ctx with HostParams := ps }, by simp [hostentry.Match, h]⟩

theorem trie_Get_empty (t : trie) (h : t.nodes = []) (path : Str) (ctx : Context) :
    ∃ c, t.Get path ctx = .notFound c := by
  unfold trie.Get
  simp only [h]
  rw [getLoop]
  simp only [scanNodes]
  exact ⟨_, rfl⟩

/-- When every entry passes, the lookup is answered by the trie of the empty host. -/
theorem getHosts_skip (allhost : trie) (hostname path : Str) (n : node)
    (hfind : Finds allhost path n) (hosts : List hostentry) :
    (∀ x ∈ hosts, Passes x hostname) →
    ∀ ctx, ∃ c, getHosts allhost hostname path hosts ctx = .found n c := by
  induction hosts with
  | nil => intro _ ctx; exact hfind ctx
  | cons e rest ih =>
    intro hp ctx
    have ihr := ih (fun x hx => hp x (by simp [hx]))
    rw [getHosts]
    rcases hp e (by simp) with hno | ⟨htot, hempty⟩
    · obtain ⟨c, hc⟩ := hno ctx
      simp only [hc]
      exact ihr c
    · obtain ⟨b, c, hc⟩ := htot ctx
      cases b with
      | false => simp only [hc]; exact ihr c
      | true =>
        obtain ⟨c2, hc2⟩ := trie_Get_empty e.t hempty path c
        simp only [hc, hc2]
        exact ihr c2

/-- When the entries before `e` do not match and `e` matches, the lookup is answered by
the trie of `e` if that trie finds a node. -/
theorem getHosts_hit (allhost : trie) (hostname path : Str) (n : node) (e : hostentry)
    (post : List hostentry) (hmatch : ∀ ctx, ∃ c, e.Match hostname ctx = some (true, c))
    (hfind : Finds e.t path n) (pre : List hostentry) :
    (∀ x ∈ pre, ∀ ctx, ∃ c, x.Match hostname ctx = some (false, c)) →
    ∀ ctx, ∃ c, getHosts allhost hostname path (pre ++ e :: post) ctx = .found n c := by
  induction pre with
  | nil =>
    intro _ ctx
    rw [List.nil_append, getHosts]
    obtain ⟨c, hc⟩ := hmatch ctx
    obtain ⟨c2, hc2⟩ := hfind c
    simp only [hc, hc2]
    exact ⟨c2, rfl⟩
  | cons x xs ih =>
    intro hp ctx
    rw [List.cons_append, getHosts]
    obtain ⟨c, hc⟩ := hp x (by simp) ctx
    simp only [hc]
    exact ih (fun y hy => hp y (by simp [hy])) c

/-- In a list of entries that `AddHostname` built, no entry but `e` matches the hostname
that is spelled like the pattern of `e`. -/
theorem others_do_not_match (pre post : List hostentry) (e : hostentry)
    (hok : HostsOk (pre ++ e :: post)) :
    ∀ x, x ∈ pre ∨ x ∈ post → ∀ ctx, ∃ c, x.Match e.host ctx = some (false, c) := by
  intro x hx ctx
  have hxc : x.Compiled := hok.1 x (by
    rcases hx with hx | hx
    · simp [hx]
    · simp [hx])
  have hec : e.Compiled := hok.1 e (by simp)
  obtain ⟨b, c, hb⟩ := Match_total x hxc e.host ctx
  cases b with
  | false => exact ⟨c, hb⟩
  | true =>
    exfalso
    obtain ⟨c2, hc2⟩ := Match_self e hec ctx
    have hyes := intersect_of_both_match x e hxc hec e.host ctx ctx c c2 hb hc2
    rw [Intersects_eq] at hyes
    have hpw := hok.2
    rw [List.map_append, List.pairwise_append] at hpw
    obtain ⟨-, hpost, hcross⟩ := hpw
    rcases hx with hx | hx
    · have := hcross x.host (List.mem_map_of_mem _ hx) e.host (by simp)
      rw [patternsIntersect_comm, hyes] at this
      exact absurd this (by simp)
    · rw [List.map_cons, List.pairwise_cons] at hpost
      have := hpost.1 x.host (List.mem_map_of_mem _ hx)
      rw [hyes] at this
      exact absurd this (by simp)

/-- A call of `addToHost` without error has added the route to the trie of the first entry
of its host. -/
theorem addToHost_ok (rt : Route) (hosts : List hostentry) (h : (addToHost rt hosts).2 = none) :
    ∃ e, hosts.find? (fun x => decide (x.host = rt.host)) = some e ∧
      (e.t.Add (some rt)).2 = none ∧
      ((addToHost rt hosts).1.find? (fun x => decide (x.host = rt.host))).map hostentry.t =
        some (e.t.Add (some rt)).1 := by
  induction hosts with
  | nil => simp [addToHost] at h
  | cons e0 rest ih =>
    unfold addToHost at h ⊢
    by_cases he : e0.host = rt.host
    · simp only [he, if_true] at h ⊢
      exact ⟨e0, by simp [he], h, by simp [he]⟩
    · simp only [he, if_false] at h ⊢
      obtain ⟨e, h1, h2, h3⟩ := ih h
      exact ⟨e, by simp [he, h1], h2, by simp [he, h3]⟩

/-- The trie that a host finds after `addToHost` continues the one it found before. -/
theorem addToHost_find (rt : Route) (k : Str) (hosts : List hostentry) :
    ∀ e, hosts.find? (fun x => decide (x.host = k)) = some e →
      ∃ e1, (addToHost rt hosts).1.find? (fun x => decide (x.host = k)) = some e1 ∧
        Grows e.t.nodes e1.t.nodes := by
  induction hosts with
  | nil => intro e h; simp at h
  | cons e0 rest ih =>
    intro e h
    unfold addToHost
    rw [List.find?_cons] at h
    by_cases he : e0.host = rt.host
    · rw [if_pos he]
      by_cases hk : e0.host = k
      · simp only [hk, decide_True, Option.some.injEq] at h
        subst h
        refine ⟨{ e0 with t := (e0.t.Add (some rt)).1 }, ?_, trie_Add_grows _ _⟩
        rw [List.find?_cons]
        simp only [hk, decide_True]
      · simp only [hk, decide_False] at h
        refine ⟨e, ?_, grows_refl _⟩
        rw [List.find?_cons]
        simp only [hk, decide_False]
        exact h
    · rw [if_neg he]
      by_cases hk : e0.host = k
      · simp only [hk, decide_True, Option.some.injEq] at h
        subst h
        refine ⟨e0, ?_, grows_refl _⟩
        rw [List.find?_cons]
        simp only [hk, decide_True]
      · simp only [hk, decide_False] at h
        obtain ⟨e1, h1, h2⟩ := ih e h
        refine ⟨e1, ?_, h2⟩
        rw [List.find?_cons]
        simp only [hk, decide_False]
        exact h1

theorem addToHost_mem (rt : Route) (hosts : List hostentry) :
    ∀ x ∈ (addToHost rt hosts).1, x ∈ hosts ∨ x.host = rt.host := by
  induction hosts with
  | nil => intro x hx; simp [addToHost] at hx
  | cons e0 rest ih =>
    intro x hx
    unfold addToHost at hx
    by_cases he : e0.host = rt.host
    · simp only [he, if_true, List.mem_cons] at hx
      rcases hx with rfl | hx
      · exact Or.inr rfl
      · exact Or.inl (by simp [hx])
    · simp only [he, if_false, List.mem_cons] at hx
      rcases hx with rfl | hx
      · exact Or.inl (by simp)
      · rcases ih x hx with h | h
        · exact Or.inl (by simp [h])
        · exact Or.inr h

/-- What a call of `AddRoute` without error has done. -/
theorem AddRoute_ok (h : HostRouter) (r : Route) (hok : (h.AddRoute (some r)).2 = none) :
    ∃ t, h.trieFor r.host = some t ∧ (t.Add (some r)).2 = none ∧
      (h.AddRoute (some r)).1.trieFor r.host = some (t.Add (some r)).1 := by
  unfold HostRouter.AddRoute at hok ⊢
  simp only at hok ⊢
  by_cases hv : verifyPath r.path = true
  · by_cases hm : r.methods.length = 0
    · simp [hv, hm] at hok
    · by_cases hh : r.host = []
      · simp only [hv, hm, hh, Bool.not_true, Bool.false_eq_true, if_false, if_true] at hok ⊢
        exact ⟨h.allhost, by simp [HostRouter.trieFor], hok, by simp [HostRouter.trieFor]⟩
      · simp only [hv, hm, hh, Bool.not_true, Bool.false_eq_true, if_false] at hok ⊢
        obtain ⟨e, h1, h2, h3⟩ := addToHost_ok r h.hosts hok
        exact ⟨e.t, by simp [HostRouter.trieFor, hh, h1], h2,
          by simp only [HostRouter.trieFor, hh, if_false]; exact h3⟩
  · simp [hv] at hok

/-- The trie of a host after one more call continues the trie before the call. -/
theorem apply_trieFor (h : HostRouter) (op : HostOp) (host : Str) (t : trie)
    (ht : h.trieFor host = some t) :
    ∃ t1, (h.apply op).trieFor host = some t1 ∧ Grows t.nodes t1.nodes := by
  cases op with
  | addHostname hostname =>
    unfold HostRouter.apply HostRouter.AddHostname
    simp only
    split
    · exact ⟨t, ht, grows_refl _⟩
    · split
      · exact ⟨t, ht, grows_refl _⟩
      · refine ⟨t, ?_, grows_refl _⟩
        unfold HostRouter.trieFor at ht ⊢
        by_cases hh : host = []
        · simpa [hh] using ht
        · simp only [hh, if_false] at ht ⊢
          cases hf : h.hosts.find? (fun e => decide (e.host = host)) with
          | none => simp [hf] at ht
          | some e =>
            rw [List.find?_append, hf]
            simpa [hf] using ht
  | addRoute rt =>
    cases rt with
    | none => exact ⟨t, ht, grows_refl _⟩
    | some rt =>
      unfold HostRouter.apply HostRouter.AddRoute
      simp only
      split
      · exact ⟨t, ht, grows_refl _⟩
      · split
        · exact ⟨t, ht, grows_refl _⟩
        · split
          · rename_i hh
            unfold HostRouter.trieFor at ht ⊢
            by_cases hk : host = []
            · simp only [hk, if_true, Option.some.injEq] at ht ⊢
              subst ht
              exact ⟨_, rfl, trie_Add_grows _ _⟩
            · simp only [hk, if_false] at ht ⊢
              exact ⟨t, ht, grows_refl _⟩
          · unfold HostRouter.trieFor at ht ⊢
            by_cases hk : host = []
            · simp only [hk, if_true, Option.some.injEq] at ht ⊢
              exact ⟨t, ht, grows_refl _⟩
            · simp only [hk, if_false] at ht ⊢
              cases hf : h.hosts.find? (fun e => decide (e.host = host)) with
              | none => simp [hf] at ht
              | some e =>
                simp only [hf, Option.map_some', Option.some.injEq] at ht
                subst ht
                obtain ⟨e1, h1, h2⟩ := addToHost_find rt host h.hosts e hf
                exact ⟨e1.t, by simp [h1], h2⟩

theorem run_trieFor (ops : List HostOp) :
    ∀ (h : HostRouter) (host : Str) (t : trie), h.trieFor host = some t →
      ∃ t1, (h.run ops).trieFor host = some t1 ∧ Grows t.nodes t1.nodes := by
  induction ops with
  | nil => intro h host t ht; exact ⟨t, ht, grows_refl _⟩
  | cons op ops ih =>
    intro h host t ht
    obtain ⟨t1, h1, g1⟩ := apply_trieFor h op host t ht
    obtain ⟨t2, h2, g2⟩ := ih _ host t1 h1
    exact ⟨t2, h2, grows_trans g1 g2⟩

/-- The entries of the empty pattern keep an empty trie: `AddRoute` sends the routes of
the empty host to `allhost`. -/
theorem apply_empty_host (h : HostRouter) (op : HostOp)
    (hinv : ∀ e ∈ h.hosts, e.host = [] → e.t.nodes = []) :
    ∀ e ∈ (h.apply op).hosts, e.host = [] → e.t.nodes = [] := by
  cases op with
  | addHostname hostname =>
    unfold HostRouter.apply HostRouter.AddHostname
    simp only
    split
    · exact hinv
    · split
      · exact hinv
      · intro e he hh
        rcases List.mem_append.mp he with he | he
        · exact hinv e he hh
        · simp only [List.mem_singleton] at he
          subst he
          rfl
  | addRoute rt =>
    cases rt with
    | none => exact hinv
    | some rt =>
      unfold HostRouter.apply HostRouter.AddRoute
      simp only
      split
      · exact hinv
      · split
        · exact hinv
        · split
          · exact hinv
          · rename_i hh
            intro e he hempty
            rcases addToHost_mem rt h.hosts e he with hm | hm
            · exact hinv e hm hempty
            · exact absurd (hm.symm.trans hempty) hh

theorem run_empty_host (ops : List HostOp) :
    ∀ h : HostRouter, (∀ e ∈ h.hosts, e.host = [] → e.t.nodes = []) →
      ∀ e ∈ (h.run ops).hosts, e.host = [] → e.t.nodes = [] := by
  induction ops with
  | nil => intro h hinv; exact hinv
  | cons op ops ih => intro h hinv; exact ih _ (apply_empty_host h op hinv)

/-- C10 (fails as stated): with the capture route `/{id}` registered for
`api.example.com` before the route `/users`, both with `GET`, `AddRoute` of `/users`
returns without error, and `Get("api.example.com", "/users")` returns the node of the
capture, whose method map sends `GET` to the capture route and not to the route `/users`. -/
theorem C10_earlier_capture_shadows_literal_route :
    ((NewHostRouter.run exampleCaptureFirst).AddRoute
      (some (mkHostRoute "users" "api.example.com" "/users" ["GET"]))).2 = none ∧
    (∃ n c, (routerWith exampleCaptureFirst
        (mkHostRoute "users" "api.example.com" "/users" ["GET"]) []).Get
        "api.example.com".toList "/users".toList Context.Reset = .found n c ∧
      mapGet n.Methods "GET".toList =
        some (mkHostRoute "item" "api.example.com" "/\x7bid\x7d" ["GET"])) ∧
    mkHostRoute "item" "api.example.com" "/\x7bid\x7d" ["GET"] ≠
      mkHostRoute "users" "api.example.com" "/users" ["GET"] :=
  ⟨rfl, ⟨_, _, rfl, rfl⟩, by decide⟩

theorem routerWith_hostsOk (ops1 : List HostOp) (r : Route) (ops2 : List HostOp) :
    HostsOk (routerWith ops1 r ops2).hosts :=
  run_hostsOk ops2 _
    (apply_hostsOk _ (.addRoute (some r)) (run_hostsOk ops1 NewHostRouter hostsOk_new))

theorem routerWith_empty_host (ops1 : List HostOp) (r : Route) (ops2 : List HostOp) :
    ∀ e ∈ (routerWith ops1 r ops2).hosts, e.host = [] → e.t.nodes = [] :=
  run_empty_host ops2 _
    (apply_empty_host _ (.addRoute (some r))
      (run_empty_host ops1 NewHostRouter (by simp [NewHostRouter])))

/-- After `AddRoute` of `r` without error and whatever calls follow, the signatures of the
template of `r` lead, in the trie of its host, to a node that binds the methods of `r`
to `r`. -/
theorem routerWith_binds (ops1 : List HostOp) (r : Route) (ops2 : List HostOp)
    (hadd : ((NewHostRouter.run ops1).AddRoute (some r)).2 = none) :
    ∃ t segs n, (routerWith ops1 r ops2).trieFor r.host = some t ∧
      ParsePath r.path = .ok segs ∧
      descend (segs.map segment.Comparable) t.nodes = some n ∧
      ∀ k ∈ r.methods, mapGet n.methods k = some r := by
  obtain ⟨t0, -, h2, h3⟩ := AddRoute_ok _ r hadd
  obtain ⟨segs, dm, hp, hne, hok, hnodes⟩ := trie_Add_ok t0 r h2
  obtain ⟨n1, hd1, hb1, -⟩ := addLoop_ok_terminal r segs t0.nodes dm hne hok
  rw [← hnodes] at hd1
  obtain ⟨t, ht, hg⟩ := run_trieFor ops2 _ r.host _ h3
  obtain ⟨n, hd, hle⟩ := hg.2 _ _ hd1
  exact ⟨t, segs, n, ht, hp, hd, fun k hk => hle.methods_le k r (hb1 k hk)⟩

/-- C10 (amended): for every host router built by calls of `AddHostname` and `AddRoute`
and every route `r` added without error whose host is a registered host pattern, whose
template contains no placeholder and which has the method `m`: provided that, on the walk
of the template through the trie of the host, no child registered before the own child of
the template matches the component (`reachesOwn`), every `Get` of the host and the
template, whatever the context holds, returns one and the same node, and the method map of
that node sends `m` to `r`. -/
theorem C10_Get_returns_registered_route (ops1 ops2 : List HostOp) (r : Route) (m : Str)
    (t : trie) (hadd : ((NewHostRouter.run ops1).AddRoute (some r)).2 = none)
    (hreg : r.host ∈ (routerWith ops1 r ops2).hosts.map hostentry.host)
    (hlit : containsByte r.path '{' = false) (hm : m ∈ r.methods)
    (ht : (routerWith ops1 r ops2).trieFor r.host = some t)
    (hown : reachesOwn (components r.path) t.nodes = true) :
    ∃ n, (∀ ctx, ∃ c, (routerWith ops1 r ops2).Get r.host r.path ctx = .found n c) ∧
      mapGet n.Methods m = some r := by
  obtain ⟨t1, segs, n, ht1, hp, hd, hb⟩ := routerWith_binds ops1 r ops2 hadd
  rw [ht] at ht1
  simp only [Option.some.injEq] at ht1
  subst ht1
  rw [ParsePath_literal r.path segs hlit hp] at hd
  have hfind : Finds t r.path n := fun ctx => ⟨_, trie_Get_own t r.path n hown hd ctx⟩
  refine ⟨n, ?_, hb m hm⟩
  have hok := routerWith_hostsOk ops1 r ops2
  have hempty := routerWith_empty_host ops1 r ops2
  unfold HostRouter.Get
  generalize routerWith ops1 r ops2 = h at hreg ht hok hempty ⊢
  obtain ⟨e, he, hhost⟩ := List.mem_map.mp hreg
  by_cases hh : r.host = []
  · have hall : t = h.allhost := by
      simp only [HostRouter.trieFor, hh, if_true, Option.some.injEq] at ht
      exact ht.symm
    subst hall
    obtain ⟨pre, post, hdec⟩ := List.append_of_mem he
    refine getHosts_skip _ _ _ n hfind _ ?_
    intro x hx
    by_cases hxh : x.host = []
    · exact Or.inr ⟨fun ctx => Match_total x (hok.1 x hx) _ ctx, hempty x hx hxh⟩
    · left
      have hxm : x ∈ pre ∨ x ∈ post := by
        rw [hdec] at hx
        rcases List.mem_append.mp hx with hx | hx
        · exact Or.inl hx
        · rcases List.mem_cons.mp hx with rfl | hx
          · exact absurd (hhost.trans hh) hxh
          · exact Or.inr hx
      rw [hdec] at hok
      have := others_do_not_match pre post e hok x hxm
      rw [hhost] at this
      exact this
  · simp only [HostRouter.trieFor, hh, if_false] at ht
    cases hf : h.hosts.find? (fun x => decide (x.host = r.host)) with
    | none => simp [hf] at ht
    | some e1 =>
      simp only [hf, Option.map_some', Option.some.injEq] at ht
      subst ht
      obtain ⟨hpe, pre, post, hdec, -⟩ := List.find?_eq_some.mp hf
      have he1 : e1.host = r.host := by simpa using hpe
      rw [hdec] at hok ⊢
      have hno := others_do_not_match pre post e1 hok
      rw [he1] at hno
      have hself : ∀ ctx, ∃ c, e1.Match r.host ctx = some (true, c) := by
        intro ctx
        have := Match_self e1 (hok.1 e1 (by simp)) ctx
        rw [he1] at this
        exact this
      exact getHosts_hit _ _ _ n e1 post hself hfind pre (fun x hx => hno x (Or.inl hx))

/-- Witness of the amended C10 on the router of `TestAddHostAndRouteWithGet`: the route
`/users` of host `api.example.com`, with a capture route registered after it. -/
theorem C10_Get_returns_registered_route_witness :
    ∃ n, (∀ ctx, ∃ c, (routerWith exampleHosts
        (mkHostRoute "users" "api.example.com" "/users" ["GET"])
        [.addRoute (some (mkHostRoute "item" "api.example.com" "/\x7bid\x7d" ["GET"]))]).Get
        "api.example.com".toList "/users".toList ctx = .found n c) ∧
      mapGet n.Methods "GET".toList =
        some (mkHostRoute "users" "api.example.com" "/users" ["GET"]) :=
  C10_Get_returns_registered_route exampleHosts
    [.addRoute (some (mkHostRoute "item" "api.example.com" "/\x7bid\x7d" ["GET"]))]
    (mkHostRoute "users" "api.example.com" "/users" ["GET"]) "GET".toList
    ⟨[node.mk (.segmentstring "users".toList)
        [("GET".toList, mkHostRoute "users" "api.example.com" "/users" ["GET"])] [],
      node.mk (.segmentany "(.+?)".toList "\x7bid\x7d".toList "id".toList)
        [("GET".toList, mkHostRoute "item" "api.example.com" "/\x7bid\x7d" ["GET"])] []], 1, 1⟩
    rfl (by decide) rfl (by decide) rfl rfl

/-- The iteration budget of `getLoop` suffices: every iteration that goes on drops at least
one byte of the path. -/
theorem getLoop_fuel (originalpath : Str) (fuel : Nat) :
    ∀ (nodes : List node) (path : Str) (ior : Int) (ctx : Context),
      path.length < fuel → getLoop originalpath fuel nodes path ior ctx ≠ .outOfFuel := by
  induction fuel with
  | zero => intro nodes path ior ctx h; omega
  | succ fuel ih =>
    intro nodes path ior ctx hlen
    rw [getLoop]
    simp only
    cases hscan : scanNodes (upTo path '/') nodes ctx.pathParams with
    | none => simp
    | some res =>
      obtain ⟨found, parms⟩ := res
      cases found with
      | none => simp
      | some n =>
        simp only
        split
        · split <;> simp
        · split
          · simp
          · rename_i hc
            have hc1 : containsByte path '/' = true := by simpa using hc
            have := congrArg List.length (upTo_append_drop path '/' hc1)
            simp only [List.length_append, List.length_cons] at this
            exact ih _ _ _ _ (by omega)

/-- `trie.Get` always returns: with a node, with the nil result, or with a panic. -/
theorem trie_Get_terminates (t : trie) (path : Str) (ctx : Context) :
    t.Get path ctx ≠ .outOfFuel := by
  unfold trie.Get
  exact getLoop_fuel _ _ _ _ _ _ (by omega)

theorem getHosts_terminates (allhost : trie) (hostname path : Str) (hosts : List hostentry) :
    ∀ ctx, getHosts allhost hostname path hosts ctx ≠ .outOfFuel := by
  induction hosts with
  | nil => intro ctx; exact trie_Get_terminates _ _ _
  | cons e rest ih =>
    intro ctx
    rw [getHosts]
    cases hm : e.Match hostname ctx with
    | none => simp
    | some x =>
      obtain ⟨b, c⟩ := x
      cases b with
      | false => exact ih c
      | true =>
        simp only
        have ht := trie_Get_terminates e.t path c
        cases hg : e.t.Get path c with
        | found n c2 => simp
        | notFound c2 => exact ih c2
        | panic => simp
        | outOfFuel => exact absurd hg ht

theorem all_take_iff (P : Char → Bool) (p : Str) :
    ∀ k, k ≤ p.length → ((p.take k).all P = true ↔ k ≤ (p.takeWhile P).length) := by
  induction p with
  | nil => intro k hk; simp at hk; subst hk; simp
  | cons c cs ih =>
    intro k hk
    cases k with
    | zero => simp
    | succ j =>
      have hj : j ≤ cs.length := by simpa using hk
      by_cases hc : P c = true
      · simp only [List.take_succ_cons, List.all_cons, hc, Bool.true_and, List.takeWhile_cons,
          if_true, List.length_cons, Nat.add_le_add_iff_right]
        exact ih j hj
      · simp [List.takeWhile_cons, hc]

theorem mem_range_rev (k m : Nat) : k ∈ (List.range' 1 m).reverse ↔ 1 ≤ k ∧ k ≤ m := by
  simp only [List.mem_reverse, List.mem_range'_1]
  omega

theorem take_isEmpty (p : Str) (k : Nat) (hk : k ≤ p.length) :
    (p.take k).isEmpty = decide (k = 0) := by
  cases k with
  | zero => simp
  | succ j =>
    cases p with
    | nil => simp at hk
    | cons c cs => simp

theorem takeWhile_length_le (P : Char → Bool) (p : Str) : (p.takeWhile P).length ≤ p.length := by
  induction p with
  | nil => simp
  | cons c cs ih =>
    rw [List.takeWhile_cons]
    split
    · simpa using ih
    · simp

/-- A run of a class: the prefixes of `p` that consist of one or more members of `P`. -/
theorem run_candidates (P : Char → Bool) (p : Str) (k : Nat) :
    (1 ≤ k ∧ k ≤ (p.takeWhile P).length) ↔
      k ≤ p.length ∧ (!(p.take k).isEmpty && (p.take k).all P) = true := by
  constructor
  · rintro ⟨h1, h2⟩
    have hk : k ≤ p.length := le_trans h2 (takeWhile_length_le P p)
    refine ⟨hk, ?_⟩
    rw [take_isEmpty p k hk]
    simp only [Bool.and_eq_true, Bool.not_eq_true', decide_eq_false_iff_not]
    exact ⟨by omega, (all_take_iff P p k hk).mpr h2⟩
  · rintro ⟨hk, h⟩
    rw [take_isEmpty p k hk] at h
    simp only [Bool.and_eq_true, Bool.not_eq_true', decide_eq_false_iff_not] at h
    exact ⟨by omega, (all_take_iff P p k hk).mp h.2⟩

theorem variant_chars (c : Char) :
    (∃ x ∈ "89abAB".toList, c = x) ↔ ("89aAbB".toList.any fun x => c == x) = true := by
  have e1 : "89abAB".toList = ['8', '9', 'a', 'b', 'A', 'B'] := rfl
  have e2 : "89aAbB".toList = ['8', '9', 'a', 'A', 'b', 'B'] := rfl
  rw [e1, e2]
  simp only [List.mem_cons, List.mem_singleton, List.not_mem_nil, or_false, List.any_cons,
    List.any_nil, Bool.or_false, Bool.or_eq_true, beq_iff_eq]
  constructor
  · rintro ⟨x, hx, rfl⟩; tauto
  · intro h
    exact ⟨c, by tauto, rfl⟩

theorem isUuidv4Text_eq (p : Str) : isUuidv4Text p = (p.length == 36 && uuidv4Prefix p) := by
  rw [Bool.eq_iff_iff]
  simp only [isUuidv4Text, uuidv4Prefix, Bool.and_eq_true, beq_iff_eq, List.all_eq_true,
    List.mem_range, List.mem_filter, decide_eq_true_eq, Bool.not_eq_true', List.contains_eq_any_beq,
    List.any_eq_false, List.any_eq_true, List.mem_cons, List.mem_singleton, List.not_mem_nil, or_false]
  constructor
  · rintro ⟨⟨⟨⟨hl, h1⟩, h2⟩, h3⟩, h4⟩
    refine ⟨hl, by omega, ?_⟩
    intro i hi
    by_cases c1 : i = 8 ∨ i = 13 ∨ i = 18 ∨ i = 23
    · rw [if_pos c1]
      simpa using h1 i c1
    · rw [if_neg c1]
      by_cases c2 : i = 14
      · rw [if_pos c2, c2]; simpa using h2
      · rw [if_neg c2]
        by_cases c3 : i = 19
        · rw [if_pos c3, c3]; exact (variant_chars _).mp h3
        · rw [if_neg c3]
          refine h4 i ⟨hi, ?_⟩
          intro x hx
          omega
  · rintro ⟨hl, -, h⟩
    refine ⟨⟨⟨⟨hl, ?_⟩, ?_⟩, ?_⟩, ?_⟩
    · intro i hi
      have := h i (by omega)
      rw [if_pos hi] at this
      simpa using this
    · have := h 14 (by omega)
      rw [if_neg (by omega), if_pos rfl] at this
      simpa using this
    · have := h 19 (by omega)
      rw [if_neg (by omega), if_neg (by omega), if_pos rfl] at this
      exact (variant_chars _).mpr this
    · rintro i ⟨hi, hn⟩
      have := h i hi
      have e8 := hn 8; have e13 := hn 13; have e14 := hn 14; have e18 := hn 18
      have e19 := hn 19; have e23 := hn 23
      simp only [true_or, or_true, forall_const] at e8 e13 e14 e18 e19 e23
      rwa [if_neg (by omega), if_neg (by omega), if_neg (by omega)] at this

theorem getD_take (p : Str) (n i : Nat) (d : Char) (h : i < n) :
    (p.take n).getD i d = p.getD i d := by
  simp only [List.getD_eq_getElem?_getD, List.getElem?_take, h, if_true]

theorem uuidv4Prefix_take (p : Str) (h : 36 ≤ p.length) :
    uuidv4Prefix (p.take 36) = uuidv4Prefix p := by
  rw [Bool.eq_iff_iff]
  simp only [uuidv4Prefix, Bool.and_eq_true, decide_eq_true_eq, List.all_eq_true, List.mem_range,
    List.length_take]
  constructor
  · rintro ⟨-, h1⟩
    refine ⟨h, fun i hi => ?_⟩
    have := h1 i hi
    rwa [getD_take p 36 i ' ' hi] at this
  · rintro ⟨-, h1⟩
    refine ⟨by omega, fun i hi => ?_⟩
    rw [getD_take p 36 i ' ' hi]
    exact h1 i hi

theorem candidates_int_other (c : Char) (q : Str) (hc : ¬ c = '-') :
    rxgroup.candidates .int (c :: q) = (List.range' 1 ((c :: q).takeWhile isDigit).length).reverse := by
  simp only [rxgroup.candidates]
  split
  · rename_i h
    simp only [List.cons.injEq] at h
    exact absurd h.1 hc
  · rfl

theorem isIntText_other (c : Char) (q : Str) (hc : ¬ c = '-') :
    isIntText (c :: q) = isUintText (c :: q) := by
  unfold isIntText
  split
  · rename_i h
    simp only [List.cons.injEq] at h
    exact absurd h.1 hc
  · rfl

/-- The candidate lengths of a group are exactly the lengths of the prefixes of `p` that
conform to the grammar of the group. -/
theorem candidates_iff (g : rxgroup) (p : Str) (k : Nat) :
    k ∈ g.candidates p ↔ k ≤ p.length ∧ g.conforms (p.take k) = true := by
  cases g with
  | any =>
    simp only [rxgroup.candidates, rxgroup.conforms, isAnyText, List.mem_range'_1]
    rw [← run_candidates]
    omega
  | uint =>
    simp only [rxgroup.candidates, rxgroup.conforms, isUintText]
    rw [mem_range_rev, run_candidates]
  | id =>
    simp only [rxgroup.candidates, rxgroup.conforms, isIdText]
    rw [mem_range_rev, run_candidates]
  | uuidv4 =>
    simp only [rxgroup.candidates, rxgroup.conforms, isUuidv4Text_eq]
    by_cases hk : k ≤ p.length
    · by_cases h36 : k = 36
      · subst h36
        rw [uuidv4Prefix_take p hk]
        by_cases hu : uuidv4Prefix p = true
        · simp [hu, hk]
        · simp [hu]
      · have hl : (p.take k).length = k := by simp [hk]
        by_cases hu : uuidv4Prefix p = true
        · simp [hu, hl, h36]
        · simp [hu, hl, h36]
    · have hl : p.length < 36 ∨ 36 ≤ p.length := by omega
      by_cases hu : uuidv4Prefix p = true
      · have : 36 ≤ p.length := by
          simp only [uuidv4Prefix, Bool.and_eq_true, decide_eq_true_eq] at hu
          exact hu.1
        simp only [hu, if_true, List.mem_singleton, hk, false_and, iff_false]
        omega
      · simp [hu, hk]
  | int =>
    simp only [rxgroup.conforms]
    cases p with
    | nil =>
      simp [rxgroup.candidates, isIntText, isUintText]
    | cons c q =>
      by_cases hc : c = '-'
      · subst hc
        simp only [rxgroup.candidates, List.mem_map, mem_range_rev]
        cases k with
        | zero => simp [isIntText, isUintText]
        | succ j =>
          simp only [List.take_succ_cons, isIntText, isUintText, List.length_cons,
            Nat.add_le_add_iff_right]
          rw [← run_candidates]
          constructor
          · rintro ⟨a, ha, e⟩
            have : a = j := by omega
            subst this
            exact ha
          · intro h
            exact ⟨j, h, rfl⟩
      · cases k with
        | zero =>
          rw [candidates_int_other c q hc]
          simp [isIntText, isUintText, mem_range_rev]
        | succ j =>
          rw [candidates_int_other c q hc, List.take_succ_cons, isIntText_other c _ hc,
            ← List.take_succ_cons, mem_range_rev]
          simp only [isUintText]
          rw [run_candidates]

theorem rxRun_sound (prog : List rxpiece) :
    ∀ (p : Str) (caps : List Str), rxRun prog p = some caps → Parses prog p caps := by
  induction prog with
  | nil =>
    intro p caps h
    simp only [rxRun] at h
    split at h
    · rename_i he
      simp only [Option.some.injEq] at h
      subst h
      have : p = [] := by simpa using he
      subst this
      exact Parses.nil
    · simp at h
  | cons x ps ih =>
    intro p caps h
    cases x with
    | lit s =>
      simp only [rxRun] at h
      split at h
      · rename_i hp
        obtain ⟨t, rfl⟩ := List.isPrefixOf_iff_prefix.mp hp
        rw [List.drop_left] at h
        exact Parses.lit s (ih t caps h)
      · simp at h
    | grp g =>
      simp only [rxRun] at h
      obtain ⟨k, hk, hf⟩ := List.exists_of_findSome?_eq_some h
      cases hr : rxRun ps (p.drop k) with
      | none => simp [hr] at hf
      | some caps1 =>
        simp only [hr, Option.map_some', Option.some.injEq] at hf
        subst hf
        have := Parses.grp g (p.take k) ((candidates_iff g p k).mp hk).2 (ih _ _ hr)
        rwa [List.take_append_drop] at this

theorem rxRun_complete (prog : List rxpiece) (p : Str) (caps : List Str)
    (h : Parses prog p caps) : ∃ caps1, rxRun prog p = some caps1 := by
  induction h with
  | nil => exact ⟨[], by simp [rxRun]⟩
  | lit s hps ih =>
    obtain ⟨caps1, h1⟩ := ih
    refine ⟨caps1, ?_⟩
    simp only [rxRun]
    rw [if_pos (List.isPrefixOf_iff_prefix.mpr (List.prefix_append _ _)), List.drop_left]
    exact h1
  | grp g v hc hps ih =>
    rename_i ps rest caps0
    obtain ⟨caps1, h1⟩ := ih
    simp only [rxRun]
    have hk : v.length ∈ g.candidates (v ++ rest) := by
      rw [candidates_iff]
      simp [hc]
    have hs : ((g.candidates (v ++ rest)).findSome? (fun k =>
        (rxRun ps ((v ++ rest).drop k)).map (fun caps => (v ++ rest).take k :: caps))).isSome = true := by
      rw [List.findSome?_isSome_iff]
      exact ⟨v.length, hk, by simp [h1]⟩
    exact Option.isSome_iff_exists.mp hs

/-- The verdict of a segment compiled to an anchored expression. -/
theorem Match_anchored (expr : Str) (prog : List rxpiece) (original : Str) (fields : List Str)
    (p : Str) (parms : List PathParam) :
    (segment.segmentregex ⟨expr, true, prog⟩ original fields).Match p parms =
      match rxRun prog p with
      | some caps => (segment.zipFields fields caps).map (fun ps => (true, parms ++ ps))
      | none => some (false, parms) := by
  simp only [segment.Match, Regexp.FindAllStringSubmatch, if_true]
  cases rxRun prog p <;> rfl

/-- One capture group between two empty literals: the whole of `p` is the value. -/
theorem rxRun_single (g : rxgroup) (p : Str) :
    rxRun [.lit [], .grp g, .lit []] p = if g.conforms p then some [p] else none := by
  by_cases hc : g.conforms p = true
  · rw [if_pos hc]
    have hp : Parses [.lit [], .grp g, .lit []] p [p] := by
      have := Parses.lit [] (Parses.grp g p hc (Parses.lit [] Parses.nil))
      simpa using this
    obtain ⟨caps1, h1⟩ := rxRun_complete _ _ _ hp
    rw [h1]
    have h2 := rxRun_sound _ _ _ h1
    cases h2 with
    | lit _ h3 =>
      cases h3 with
      | grp _ v _ h4 =>
        cases h4 with
        | lit _ h5 =>
          cases h5
          simp
  · rw [if_neg hc]
    cases hr : rxRun [.lit [], .grp g, .lit []] p with
    | none => rfl
    | some caps =>
      exfalso
      have h2 := rxRun_sound _ _ _ hr
      generalize hq : p = q at h2
      cases h2 with
      | lit _ h3 =>
        cases h3 with
        | grp _ v hv h4 =>
          cases h4 with
          | lit _ h5 =>
            cases h5
            simp only [List.nil_append, List.append_nil] at hq
            subst hq
            exact hc hv

theorem takeWhile_stop (P : Char → Bool) (xs : Str) (c : Char) (rest : Str)
    (hx : xs.all P = true) (hc : P c = false) : (xs ++ c :: rest).takeWhile P = xs := by
  induction xs with
  | nil => simp [List.takeWhile_cons, hc]
  | cons a as ih =>
    simp only [List.all_cons, Bool.and_eq_true] at hx
    simp [List.takeWhile_cons, hx.1, ih hx.2]

theorem isWord_ne (c : Char) (h : isWord c = true) :
    c ≠ ':' ∧ c ≠ '{' ∧ c ≠ '}' ∧ c ≠ '/' := by
  refine ⟨?_, ?_, ?_, ?_⟩ <;> (intro e; subst e; revert h; decide)

theorem isLetter_isWord (c : Char) (h : isLetter c = true) : isWord c = true := by
  simp [isWord, h]

theorem isName_cases (x : Str) (h : isName x = true) :
    ∃ c xs, x = c :: xs ∧ isLetter c = true ∧ xs.all isWord = true := by
  cases x with
  | nil => simp [isName] at h
  | cons c xs =>
    simp only [isName, Bool.and_eq_true] at h
    exact ⟨c, xs, rfl, h.1, h.2⟩

theorem isName_all (x : Str) (h : isName x = true) : x.all isWord = true := by
  obtain ⟨c, xs, rfl, hc, hxs⟩ := isName_cases x h
  simp [isLetter_isWord c hc, hxs]

theorem all_isWord_free (xs : Str) (h : xs.all isWord = true) (c : Char)
    (hc : isWord c = false) : containsByte xs c = false := by
  rw [← Bool.not_eq_true, containsByte_iff]
  intro hm
  have := List.all_eq_true.mp h c hm
  rw [hc] at this
  exact absurd this (by simp)

theorem bracketAt_typed (c d : Char) (xs ts tail : Str) (hc : isLetter c = true)
    (hxs : xs.all isWord = true) (hd : isLetter d = true) (hts : ts.all isWord = true) :
    bracketAt ('{' :: c :: (xs ++ ':' :: d :: (ts ++ '}' :: tail))) =
      some (xs.length + ts.length + 5) := by
  simp only [bracketAt, hc, if_true, takeWhile_stop isWord xs ':' _ hxs (by decide),
    List.drop_left, hd, takeWhile_stop isWord ts '}' _ hts (by decide)]

theorem bracketAt_untyped (c : Char) (xs tail : Str) (hc : isLetter c = true)
    (hxs : xs.all isWord = true) :
    bracketAt ('{' :: c :: (xs ++ '}' :: tail)) = some (xs.length + 3) := by
  simp only [bracketAt, hc, if_true, takeWhile_stop isWord xs '}' _ hxs (by decide),
    List.drop_left]

theorem split_free (s : Str) (c : Char) (h : containsByte s c = false) : split s c = [s] := by
  rw [split_upTo, upTo_eq_self_of_not_contains s c h]
  simp

theorem split_two (a b : Str) (c : Char) (ha : containsByte a c = false)
    (hb : containsByte b c = false) : split (a ++ c :: b) c = [a, b] := by
  rw [split_append, split_free a c ha, split_free b c hb]
  rfl

theorem findBrackets_nil (fuel off : Nat) : findBrackets fuel off [] = [] := by
  cases fuel <;> rfl

theorem typedHole_cons (c d : Char) (xs ts : Str) :
    typedHole (c :: xs) (d :: ts) = '{' :: c :: (xs ++ ':' :: d :: (ts ++ '}' :: [])) := by
  simp [typedHole]

theorem bracketFindAll_typed (x T : Str) (hx : isName x = true) (hT : isName T = true) :
    bracketFindAll (typedHole x T) = [(0, (typedHole x T).length)] := by
  obtain ⟨c, xs, rfl, hc, hxs⟩ := isName_cases x hx
  obtain ⟨d, ts, rfl, hd, hts⟩ := isName_cases T hT
  have hb := bracketAt_typed c d xs ts [] hc hxs hd hts
  have hl : (typedHole (c :: xs) (d :: ts)).length = xs.length + ts.length + 5 := by
    simp [typedHole]; omega
  rw [bracketFindAll, hl, typedHole_cons, findBrackets, hb]
  simp only [Nat.zero_add, List.cons.injEq, true_and]
  have hl2 : ('{' :: c :: (xs ++ ':' :: d :: (ts ++ ['}']))).length = xs.length + ts.length + 5 := by
    rw [← typedHole_cons, hl]
  rw [← hl2, List.drop_length, findBrackets_nil]

theorem pathSubstitute_typed (x T : Str) (hx : isName x = true) (hT : isName T = true) :
    pathSubstitute (typedHole x T) =
      match pathTypesSubstitutions.lookup T with
      | none => .error .invalidType
      | some change => .ok (x, "(".toList ++ change ++ ")".toList) := by
  have h1 : containsByte ('{' :: x) ':' = false := by
    rw [containsByte_cons]
    simp [all_isWord_free x (isName_all x hx) ':' (by decide)]
  have h2 : containsByte (T ++ ['}']) ':' = false := by
    have := all_isWord_free T (isName_all T hT) ':' (by decide)
    simp only [containsByte, List.contains_eq_any_beq, List.any_append, List.any_cons, List.any_nil,
      Bool.or_false] at this ⊢
    simp [this]
  have hs : split (typedHole x T) ':' = ['{' :: x, T ++ ['}']] := by
    have := split_two ('{' :: x) (T ++ ['}']) ':' h1 h2
    simpa [typedHole] using this
  simp [pathSubstitute, hs, hasPrefix]

theorem slice_all (s : Str) : slice s 0 s.length = s := by
  simp [slice]

theorem containsByte_append (a b : Str) (c : Char) :
    containsByte (a ++ b) c = (containsByte a c || containsByte b c) := by
  simp [containsByte, List.contains_eq_any_beq]

/-- The segment that `createSegment` builds for the component `{x:T}`. -/
theorem createSegment_typed (x T : Str) (hx : isName x = true) (hT : isName T = true) :
    createSegment (typedHole x T) =
      match pathTypesSubstitutions.lookup T with
      | none => .error .invalidType
      | some change =>
        .ok (.segmentregex
          ⟨'^' :: ("(".toList ++ change ++ ")".toList) ++ ['$'], true,
            .lit [] :: compileSub ("(".toList ++ change ++ ")".toList) ++ [.lit []]⟩
          (typedHole x T) [x]) := by
  have hfind := bracketFindAll_typed x T hx hT
  have hsub := pathSubstitute_typed x T hx hT
  obtain ⟨c, xs, rfl, hc, hxs⟩ := isName_cases x hx
  have h0 : typedHole (c :: xs) T ≠ "\x7b*\x7d".toList := by
    intro h
    have : c = '*' := by
      simp only [typedHole, List.cons_append] at h
      exact (List.cons.inj (List.cons.inj h).2).1
    exact (isLetter_ne c hc).1 this
  have hopen : containsByte (typedHole (c :: xs) T) '{' = true := by
    simp [typedHole, containsByte]
  have hcolon : containsByte (typedHole (c :: xs) T) ':' = true := by
    simp [typedHole, containsByte]
  have hslash : containsByte (typedHole (c :: xs) T) '/' = false := by
    have h1 := all_isWord_free _ (isName_all _ hx) '/' (by decide)
    have h2 := all_isWord_free _ (isName_all _ hT) '/' (by decide)
    have e : typedHole (c :: xs) T = ['{'] ++ (c :: xs) ++ [':'] ++ T ++ ['}'] := by
      simp [typedHole]
    rw [e]
    simp only [containsByte_append, h1, h2]
    decide
  have hstrip : bracketStrip (typedHole (c :: xs) T) = [] := by
    simp [bracketStrip, hfind, cutOut]
  unfold createSegment
  rw [if_neg h0, if_pos hopen, hcolon]
  simp only [Bool.not_true, Bool.and_false, Bool.false_eq_true, if_false]
  unfold NewSegmentRegex
  rw [if_neg (by simp [hslash]), hstrip, if_neg (by decide)]
  simp only [hfind, List.length_singleton, one_ne_zero, if_false, regexPieces, slice_all, hsub]
  cases pathTypesSubstitutions.lookup T with
  | none => rfl
  | some change => simp [slice, quoteMeta]

/-- The segment of a component `{x:T}` whose type compiles to the capture group `g`: it
accepts exactly the values of the grammar of `g` and appends the parameter `(x, p)`. -/
theorem typed_single (x T change : Str) (g : rxgroup) (hx : isName x = true)
    (hT : isName T = true) (hl : pathTypesSubstitutions.lookup T = some change)
    (hg : compileSub ("(".toList ++ change ++ ")".toList) = [.grp g]) :
    ∃ seg, createSegment (typedHole x T) = .ok seg ∧ ∀ (p : Str) (parms : List PathParam),
      seg.Match p parms =
        if g.conforms p then some (true, parms ++ [⟨x, p⟩]) else some (false, parms) := by
  refine ⟨_, by rw [createSegment_typed x T hx hT, hl], ?_⟩
  intro p parms
  rw [Match_anchored, hg]
  have := rxRun_single g p
  simp only [List.cons_append, List.nil_append] at this ⊢
  rw [this]
  by_cases hc : g.conforms p = true
  · simp [hc, segment.zipFields]
  · simp [hc]

/-- C12: for every placeholder name `x`, `createSegment` builds a segment for `{x:int}`,
for `{x:uint}` and for `{x:id}`. The first accepts `p` iff `p` is an optional `-` followed
by one or more ASCII digits, the second iff `p` is one or more ASCII digits, the third iff
`p` is one or more hexadecimal digits. On acceptance exactly the parameter `(x, p)` is
appended, on rejection none. -/
theorem C12_typed_placeholder_grammars (x : Str) (hx : isName x = true) :
    (∃ seg, createSegment (typedHole x "int".toList) = .ok seg ∧
      ∀ (p : Str) (parms : List PathParam), seg.Match p parms =
        if isIntText p then some (true, parms ++ [⟨x, p⟩]) else some (false, parms)) ∧
    (∃ seg, createSegment (typedHole x "uint".toList) = .ok seg ∧
      ∀ (p : Str) (parms : List PathParam), seg.Match p parms =
        if isUintText p then some (true, parms ++ [⟨x, p⟩]) else some (false, parms)) ∧
    (∃ seg, createSegment (typedHole x "id".toList) = .ok seg ∧
      ∀ (p : Str) (parms : List PathParam), seg.Match p parms =
        if isIdText p then some (true, parms ++ [⟨x, p⟩]) else some (false, parms)) :=
  ⟨typed_single x "int".toList "-?\\d+".toList .int hx (by decide) (by decide) (by decide),
   typed_single x "uint".toList "\\d+".toList .uint hx (by decide) (by decide) (by decide),
   typed_single x "id".toList "[[:xdigit:]]+".toList .id hx (by decide) (by decide) (by decide)⟩

/-- The values `-17`, `0`, `1-7` and the empty string against `{n:int}`, and one value
each against `{n:uint}` and `{n:id}`: witness of C12. -/
theorem C12_typed_placeholder_grammars_witness :
    (∃ seg, createSegment "\x7bn:int\x7d".toList = .ok seg ∧
      seg.Match "-17".toList [] = some (true, [⟨"n".toList, "-17".toList⟩]) ∧
      seg.Match "0".toList [] = some (true, [⟨"n".toList, "0".toList⟩]) ∧
      seg.Match "1-7".toList [] = some (false, []) ∧
      seg.Match [] [] = some (false, [])) ∧
    (∃ seg, createSegment "\x7bn:uint\x7d".toList = .ok seg ∧
      seg.Match "-17".toList [] = some (false, []) ∧
      seg.Match "17".toList [] = some (true, [⟨"n".toList, "17".toList⟩])) ∧
    (∃ seg, createSegment "\x7bn:id\x7d".toList = .ok seg ∧
      seg.Match "c0FFee".toList [] = some (true, [⟨"n".toList, "c0FFee".toList⟩]) ∧
      seg.Match "coffee".toList [] = some (false, [])) := by
  obtain ⟨⟨s1, h1, m1⟩, ⟨s2, h2, m2⟩, ⟨s3, h3, m3⟩⟩ :=
    C12_typed_placeholder_grammars "n".toList (by decide)
  refine ⟨⟨s1, h1, ?_, ?_, ?_, ?_⟩, ⟨s2, h2, ?_, ?_⟩, ⟨s3, h3, ?_, ?_⟩⟩
  · rw [m1]; rfl
  · rw [m1]; rfl
  · rw [m1]; rfl
  · rw [m1]; rfl
  · rw [m2]; rfl
  · rw [m2]; rfl
  · rw [m3]; rfl
  · rw [m3]; rfl

/-- C13: for every placeholder name `x`, `createSegment` builds a segment for `{x:uuidv4}`
that accepts `p` iff `p` has exactly 36 characters, with `-` at the offsets 8, 13, 18 and
23, the character `4` at offset 14, one of `8`, `9`, `a`, `b`, `A`, `B` at offset 19 and
hexadecimal digits at every other offset; on acceptance it appends `(x, p)`. -/
theorem C13_uuidv4_placeholder_grammar (x : Str) (hx : isName x = true) :
    ∃ seg, createSegment (typedHole x "uuidv4".toList) = .ok seg ∧
      ∀ (p : Str) (parms : List PathParam), seg.Match p parms =
        if isUuidv4Text p then some (true, parms ++ [⟨x, p⟩]) else some (false, parms) :=
  typed_single x "uuidv4".toList (pathTypesSubstitutions.getD 2 ([], [])).2 .uuidv4 hx
    (by decide) (by decide) (by decide)

/-- A version 4 value, a version 1 value, an upper-case value, a value with a bad variant
and a value that is one character too long: witness of C13. -/
theorem C13_uuidv4_placeholder_grammar_witness :
    ∃ seg, createSegment "\x7bid:uuidv4\x7d".toList = .ok seg ∧
      seg.Match "550e8400-e29b-41d4-a716-446655440000".toList [] =
        some (true, [⟨"id".toList, "550e8400-e29b-41d4-a716-446655440000".toList⟩]) ∧
      seg.Match "550e8400-e29b-11d4-a716-446655440000".toList [] = some (false, []) ∧
      seg.Match "550E8400-E29B-41D4-B716-446655440000".toList [] =
        some (true, [⟨"id".toList, "550E8400-E29B-41D4-B716-446655440000".toList⟩]) ∧
      seg.Match "550e8400-e29b-41d4-c716-446655440000".toList [] = some (false, []) ∧
      seg.Match "550e8400-e29b-41d4-a716-4466554400000".toList [] = some (false, []) := by
  obtain ⟨s1, h1, m1⟩ := C13_uuidv4_placeholder_grammar "id".toList (by decide)
  refine ⟨s1, h1, ?_, ?_, ?_, ?_, ?_⟩
  · rw [m1]; rfl
  · rw [m1]; rfl
  · rw [m1]; rfl
  · rw [m1]; rfl
  · rw [m1]; rfl

/-- C14: the table `pathTypesSubstitutions` of the live path has no entry `uuid`, although
the table of the search automaton has one: `createSegment` rejects the component
`{x:uuid}` with the error "invalid type", and so do `ParsePath` and `trie.Add`. -/
theorem C14_uuid_type_is_rejected :
    pathTypesSubstitutions.lookup "uuid".toList = none ∧
    searchPathTypesSubstitutions.lookup "uuid".toList = some .searchuuid ∧
    createSegment "\x7bx:uuid\x7d".toList = .error .invalidType ∧
    ParsePath "/\x7bx:uuid\x7d".toList = .error .invalidType ∧
    (trie.empty.Add (some (mkRoute "u" "/\x7bx:uuid\x7d" ["GET"]))).2 = some .invalidType := by
  refine ⟨by decide, by decide, rfl, rfl, by decide⟩

/-- The segment that `createSegment` builds for the component `{x}`. -/
theorem createSegment_untyped (x : Str) (hstar : x ≠ ['*'])
    (hcolon : containsByte x ':' = false) :
    createSegment (untypedHole x) =
      .ok (.segmentany "(.+?)".toList (untypedHole x) x) := by
  have h0 : untypedHole x ≠ "\x7b*\x7d".toList := by
    intro h
    apply hstar
    have h1 : x ++ ['}'] = ['*'] ++ ['}'] := (List.cons.inj h).2
    exact List.append_cancel_right h1
  have hopen : containsByte (untypedHole x) '{' = true := by
    simp [untypedHole, containsByte]
  have hpre : hasPrefix (untypedHole x) ['{'] = true := by
    simp [untypedHole, hasPrefix]
  have hsuf : hasSuffix (untypedHole x) ['}'] = true := by
    simp only [hasSuffix, untypedHole, List.isSuffixOf_iff_suffix]
    exact ⟨'{' :: x, rfl⟩
  have hc : containsByte (untypedHole x) ':' = false := by
    have e : untypedHole x = ['{'] ++ x ++ ['}'] := rfl
    rw [e]
    simp only [containsByte_append, hcolon]
    decide
  have hslice : slice (untypedHole x) 1 ((untypedHole x).length - 1) = x := by
    simp [slice, untypedHole]
  unfold createSegment
  rw [if_neg h0, if_pos hopen, hpre, hsuf, hc]
  simp only [Bool.and_self, Bool.not_false, if_true, newSegmentAny, hslice]

/-- C15: for every name `x` (other than `*`, without a colon) the segment built for the
component `{x}` accepts a path component `p` iff `p` is non-empty, and on acceptance it
appends exactly the parameter `(x, p)`. -/
theorem C15_untyped_placeholder_accepts_nonempty (x : Str) (hstar : x ≠ ['*'])
    (hcolon : containsByte x ':' = false) :
    ∃ seg, createSegment (untypedHole x) = .ok seg ∧
      ∀ (p : Str) (parms : List PathParam), seg.Match p parms =
        if p = [] then some (false, parms) else some (true, parms ++ [⟨x, p⟩]) := by
  refine ⟨_, createSegment_untyped x hstar hcolon, ?_⟩
  intro p parms
  simp only [segment.Match, List.length_eq_zero]

/-- The template `/users/{userid}` of `TestAddGetUser`: `/users/1234` is found with
`userid = 1234`, `/users/` is not found: witness of C15. -/
theorem C15_untyped_placeholder_accepts_nonempty_witness :
    (∃ seg, createSegment "\x7buserid\x7d".toList = .ok seg ∧
      seg.Match "1234".toList [] = some (true, [⟨"userid".toList, "1234".toList⟩]) ∧
      seg.Match [] [] = some (false, [])) ∧
    (∃ n ctx, trieUsers.Get "/users/1234".toList Context.Reset = .found n ctx ∧
      ctx.pathParams = [⟨"userid".toList, "1234".toList⟩] ∧
      ctx.PathParam "userid".toList = "1234".toList) ∧
    (∃ ctx, trieUsers.Get "/users/".toList Context.Reset = .notFound ctx) := by
  obtain ⟨s1, h1, m1⟩ :=
    C15_untyped_placeholder_accepts_nonempty "userid".toList (by decide) (by decide)
  refine ⟨⟨s1, h1, ?_, ?_⟩, ⟨_, _, rfl, rfl, rfl⟩, ⟨_, rfl⟩⟩
  · rw [m1]; rfl
  · rw [m1]; rfl

/-- C17: `createSegment` sends the component `{a}-{b}` to `newSegmentAny`, because it
starts with an opening bracket, ends with a closing one and has no colon. The segment
accepts every non-empty component, `zzz` included, which has no `-`, and records one
parameter under the key `a}-{b`. `NewSegmentRegex` on the same component rejects `zzz` and
records `a` and `b` on `x-y`, as `createSegment` does for `from-{from}-to-{to}`. -/
theorem C17_two_untyped_placeholders_become_one_capture :
    createSegment "\x7ba\x7d-\x7bb\x7d".toList =
      .ok (.segmentany "(.+?)".toList "\x7ba\x7d-\x7bb\x7d".toList "a\x7d-\x7bb".toList) ∧
    (∃ seg, createSegment "\x7ba\x7d-\x7bb\x7d".toList = .ok seg ∧
      seg.Match "zzz".toList [] = some (true, [⟨"a\x7d-\x7bb".toList, "zzz".toList⟩]) ∧
      seg.Match "x-y".toList [] = some (true, [⟨"a\x7d-\x7bb".toList, "x-y".toList⟩])) ∧
    (∃ seg, NewSegmentRegex "\x7ba\x7d-\x7bb\x7d".toList = .ok seg ∧
      seg.Match "zzz".toList [] = some (false, []) ∧
      seg.Match "x-y".toList [] =
        some (true, [⟨"a".toList, "x".toList⟩, ⟨"b".toList, "y".toList⟩])) ∧
    (∃ seg, createSegment "from-\x7bfrom\x7d-to-\x7bto\x7d".toList = .ok seg ∧
      seg.Match "from-canoas-to-poa".toList [] =
        some (true, [⟨"from".toList, "canoas".toList⟩, ⟨"to".toList, "poa".toList⟩])) ∧
    (∃ n ctx, ((trie.empty.Add (some (mkRoute "ab" "/\x7ba\x7d-\x7bb\x7d" ["GET"]))).1).Get
        "/zzz".toList Context.Reset = .found n ctx ∧
      ctx.pathParams = [⟨"a\x7d-\x7bb".toList, "zzz".toList⟩]) :=
  ⟨rfl, ⟨_, rfl, rfl, rfl⟩, ⟨_, rfl, rfl, rfl⟩, ⟨_, rfl, rfl⟩, ⟨_, _, rfl, rfl⟩⟩

theorem take_takeWhile_length (P : Char → Bool) (s : Str) :
    s.take (s.takeWhile P).length = s.takeWhile P := by
  induction s with
  | nil => simp
  | cons c cs ih =>
    rw [List.takeWhile_cons]
    split
    · simp [ih]
    · simp

theorem all_takeWhile (P : Char → Bool) (s : Str) : (s.takeWhile P).all P = true := by
  induction s with
  | nil => simp
  | cons c cs ih =>
    rw [List.takeWhile_cons]
    split
    · rename_i h; simp [h, ih]
    · simp

theorem takeWhile_append_drop (P : Char → Bool) (s : Str) :
    s = s.takeWhile P ++ s.drop (s.takeWhile P).length := by
  conv_lhs => rw [← List.take_append_drop (s.takeWhile P).length s]
  rw [take_takeWhile_length]

theorem bracketAt_shape (s : Str) (len : Nat) (h : bracketAt s = some len) :
    BracketShaped (s.take len) := by
  unfold bracketAt at h
  split at h
  · rename_i c rest
    by_cases hc : isLetter c = true
    · simp only [hc, if_true] at h
      have hrest := takeWhile_append_drop isWord rest
      have hname := all_takeWhile isWord rest
      split at h
      · rename_i tl heq
        simp only [Option.some.injEq] at h
        subst h
        left
        refine ⟨c :: rest.takeWhile isWord, by simp [isName, hc, hname], ?_⟩
        rw [heq] at hrest
        generalize rest.takeWhile isWord = name at hrest hname ⊢
        subst hrest
        have e : '{' :: c :: (name ++ '}' :: tl) = untypedHole (c :: name) ++ tl := by
          simp [untypedHole]
        have el : name.length + 3 = (untypedHole (c :: name)).length := by
          simp [untypedHole]
        rw [e, el, List.take_left]
      · rename_i d rest2 heq
        by_cases hd : isLetter d = true
        · simp only [hd, if_true] at h
          have hrest2 := takeWhile_append_drop isWord rest2
          have hty := all_takeWhile isWord rest2
          split at h
          · rename_i tl2 heq2
            simp only [Option.some.injEq] at h
            subst h
            right
            refine ⟨c :: rest.takeWhile isWord, d :: rest2.takeWhile isWord,
              by simp [isName, hc, hname], by simp [isName, hd, hty], ?_⟩
            rw [heq2] at hrest2
            rw [heq] at hrest
            generalize rest.takeWhile isWord = name at hrest hname ⊢
            generalize rest2.takeWhile isWord = ty at hrest2 hty ⊢
            subst hrest2
            subst hrest
            have e : '{' :: c :: (name ++ ':' :: d :: (ty ++ '}' :: tl2)) =
                typedHole (c :: name) (d :: ty) ++ tl2 := by
              simp [typedHole]
            have el : name.length + ty.length + 5 = (typedHole (c :: name) (d :: ty)).length := by
              simp [typedHole]; omega
            rw [e, el, List.take_left]
          · simp at h
        · simp [hd] at h
      · simp at h
    · simp [hc] at h
  · simp at h

/-- Every match that `findBrackets` reports has the text `{x}` or `{x:T}`. -/
theorem findBrackets_shape (r : Str) (fuel : Nat) :
    ∀ (off : Nat) (s : Str), s = r.drop off →
      ∀ f ∈ findBrackets fuel off s, BracketShaped (slice r f.1 f.2) := by
  induction fuel with
  | zero => intro off s _ f hf; simp [findBrackets] at hf
  | succ fuel ih =>
    intro off s hs f hf
    cases s with
    | nil => simp [findBrackets] at hf
    | cons c0 rest0 =>
      rw [findBrackets] at hf
      cases hb : bracketAt (c0 :: rest0) with
      | none =>
        simp only [hb] at hf
        refine ih (off + 1) rest0 ?_ f hf
        rw [← List.drop_drop, ← hs]
        rfl
      | some len =>
        simp only [hb, List.mem_cons] at hf
        rcases hf with rfl | hf
        · have := bracketAt_shape _ _ hb
          simp only [slice, Nat.add_sub_cancel_left]
          rw [← hs]
          exact this
        · refine ih (off + len) ((c0 :: rest0).drop len) ?_ f hf
          rw [hs, List.drop_drop]

theorem lookup_types (T change : Str) (h : pathTypesSubstitutions.lookup T = some change) :
    ∃ g, compileSub ("(".toList ++ change ++ ")".toList) = [.grp g] ∧
      (∀ v, g.conforms v = grammar T v) ∧
      ["int".toList, "uint".toList, "id".toList, "uuidv4".toList].contains T = true := by
  by_cases h1 : T = "int".toList
  · subst h1
    have : change = "-?\\d+".toList := by
      have e : pathTypesSubstitutions.lookup "int".toList = some "-?\\d+".toList := by decide
      rw [e] at h
      exact (Option.some.inj h).symm
    subst this
    exact ⟨.int, by decide, fun v => rfl, by decide⟩
  · by_cases h2 : T = "uint".toList
    · subst h2
      have : change = "\\d+".toList := by
        have e : pathTypesSubstitutions.lookup "uint".toList = some "\\d+".toList := by decide
        rw [e] at h
        exact (Option.some.inj h).symm
      subst this
      exact ⟨.uint, by decide, fun v => rfl, by decide⟩
    · by_cases h3 : T = "uuidv4".toList
      · subst h3
        have : change = (pathTypesSubstitutions.getD 2 ([], [])).2 := by
          have e : pathTypesSubstitutions.lookup "uuidv4".toList =
              some (pathTypesSubstitutions.getD 2 ([], [])).2 := by decide
          rw [e] at h
          exact (Option.some.inj h).symm
        subst this
        exact ⟨.uuidv4, by decide, fun v => rfl, by decide⟩
      · by_cases h4 : T = "id".toList
        · subst h4
          have : change = "[[:xdigit:]]+".toList := by
            have e : pathTypesSubstitutions.lookup "id".toList = some "[[:xdigit:]]+".toList := by
              decide
            rw [e] at h
            exact (Option.some.inj h).symm
          subst this
          exact ⟨.id, by decide, fun v => rfl, by decide⟩
        · exfalso
          have b1 : (T == "int".toList) = false := by simpa using h1
          have b2 : (T == "uint".toList) = false := by simpa using h2
          have b3 : (T == "uuidv4".toList) = false := by simpa using h3
          have b4 : (T == "id".toList) = false := by simpa using h4
          simp only [pathTypesSubstitutions, List.lookup, b1, b2, b3, b4] at h
          exact absurd h (by simp)

theorem pathSubstitute_untyped (x : Str) (hx : isName x = true) :
    pathSubstitute (untypedHole x) = .ok (x, "(.+?)".toList) := by
  have h1 : containsByte (untypedHole x) ':' = false := by
    have e : untypedHole x = ['{'] ++ x ++ ['}'] := rfl
    rw [e]
    simp only [containsByte_append, all_isWord_free x (isName_all x hx) ':' (by decide)]
    decide
  have hs : split (untypedHole x) ':' = [untypedHole x] := split_free _ _ h1
  have hsuf : hasSuffix (x ++ ['}']) ['}'] = true := by
    simp only [hasSuffix, List.isSuffixOf_iff_suffix]
    exact ⟨x, rfl⟩
  simp only [pathSubstitute, hs, List.headD_cons, List.length_singleton, if_true]
  simp only [untypedHole, hasPrefix, List.isPrefixOf, beq_self_eq_true, Bool.true_and, if_true,
    List.cons_append, List.drop_succ_cons, List.drop_zero, hsuf, List.dropLast_concat]

theorem holeOf_untyped (x : Str) (hx : isName x = true) : holeOf (untypedHole x) = .hole x [] := by
  have h1 := all_isWord_free x (isName_all x hx) ':' (by decide)
  simp [holeOf, untypedHole, upTo_eq_self_of_not_contains x ':' h1]

theorem holeOf_typed (x T : Str) (hx : isName x = true) :
    holeOf (typedHole x T) = .hole x T := by
  have h1 := all_isWord_free x (isName_all x hx) ':' (by decide)
  have hall : x.all (fun c => c != ':') = true := by
    rw [List.all_eq_true]
    intro c hc
    have := (isWord_ne c (List.all_eq_true.mp (isName_all x hx) c hc)).1
    simpa using this
  have e : ((typedHole x T).drop 1).dropLast = x ++ ':' :: T := by
    have : typedHole x T = '{' :: ((x ++ ':' :: T) ++ ['}']) := by simp [typedHole]
    rw [this, List.drop_succ_cons, List.drop_zero, List.dropLast_concat]
  simp only [holeOf, e, upTo, takeWhile_stop _ x ':' T hall (by decide)]
  simp

/-- One bracket of a component: the name that `pathSubstitute` extracts is the name of the
placeholder, and the group that it selects has the grammar of the placeholder type. -/
theorem hole_compiles (b : Str) (hb : BracketShaped b) (fname sub : Str)
    (h : pathSubstitute b = .ok (fname, sub)) :
    ∃ ty g, holeOf b = .hole fname ty ∧ compileSub sub = [.grp g] ∧
      ∀ v, g.conforms v = grammar ty v := by
  rcases hb with ⟨x, hx, rfl⟩ | ⟨x, T, hx, hT, rfl⟩
  · rw [pathSubstitute_untyped x hx] at h
    simp only [Except.ok.injEq, Prod.mk.injEq] at h
    obtain ⟨rfl, rfl⟩ := h
    exact ⟨[], .any, holeOf_untyped x hx, by decide, fun v => rfl⟩
  · rw [pathSubstitute_typed x T hx hT] at h
    cases hl : pathTypesSubstitutions.lookup T with
    | none => simp [hl] at h
    | some change =>
      simp only [hl, Except.ok.injEq, Prod.mk.injEq] at h
      obtain ⟨rfl, rfl⟩ := h
      obtain ⟨g, hg, hgr, -⟩ := lookup_types T change hl
      exact ⟨T, g, holeOf_typed x T hx, hg, hgr⟩

/-- The program that `NewSegmentRegex` assembles parses exactly the texts that fit the
template, and the field names are the placeholder names in order. -/
theorem regexPieces_fits (r : Str) (fs : List (Nat × Nat))
    (hfs : ∀ f ∈ fs, BracketShaped (slice r f.1 f.2)) :
    ∀ (init : Nat) (txt : Str) (prog : List rxpiece) (names : List Str),
      regexPieces r fs init = .ok (txt, prog, names) →
      (∀ p caps, Parses prog p caps →
        ∃ ps, Fits (templateFrom r fs init) p ps ∧ segment.zipFields names caps = some ps) ∧
      (∀ p ps, Fits (templateFrom r fs init) p ps → ∃ caps, Parses prog p caps) := by
  induction fs with
  | nil =>
    intro init txt prog names h
    simp only [regexPieces, Except.ok.injEq, Prod.mk.injEq] at h
    obtain ⟨-, rfl, rfl⟩ := h
    constructor
    · intro p caps hp
      cases hp with
      | lit _ h1 =>
        cases h1
        exact ⟨[], Fits.text _ Fits.nil, rfl⟩
    · intro p ps hp
      simp only [templateFrom] at hp
      cases hp with
      | text _ h1 =>
        cases h1
        exact ⟨[], Parses.lit _ Parses.nil⟩
  | cons f fs ih =>
    intro init txt prog names h
    obtain ⟨fi, fe⟩ := f
    rw [regexPieces] at h
    cases hps : pathSubstitute (slice r fi fe) with
    | error e => simp [hps] at h
    | ok ns =>
      obtain ⟨fname, sub⟩ := ns
      simp only [hps] at h
      cases hrec : regexPieces r fs fe with
      | error e => simp [hrec] at h
      | ok res =>
        obtain ⟨txt1, prog1, names1⟩ := res
        simp only [hrec, Except.ok.injEq, Prod.mk.injEq] at h
        obtain ⟨-, rfl, rfl⟩ := h
        obtain ⟨ty, g, hhole, hg, hgr⟩ := hole_compiles _ (hfs (fi, fe) (by simp)) fname sub hps
        obtain ⟨ih1, ih2⟩ := ih (fun g hg => hfs g (by simp [hg])) fe txt1 prog1 names1 hrec
        simp only [templateFrom, hhole, hg, List.singleton_append]
        constructor
        · intro p caps hp
          cases hp with
          | lit _ h1 =>
            cases h1 with
            | grp _ v hv h2 =>
              obtain ⟨ps, hfit, hz⟩ := ih1 _ _ h2
              refine ⟨⟨fname, v⟩ :: ps, Fits.text _ (Fits.hole fname ty v ?_ hfit), ?_⟩
              · rw [← hgr]; exact hv
              · simp [segment.zipFields, hz]
        · intro p ps hp
          cases hp with
          | text _ h1 =>
            cases h1 with
            | hole _ _ v hv h2 =>
              obtain ⟨caps, hc⟩ := ih2 _ _ h2
              exact ⟨v :: caps, Parses.lit _ (Parses.grp g v (by rw [hgr]; exact hv) hc)⟩

theorem templateFrom_holes (r : Str) (fs : List (Nat × Nat)) :
    ∀ (init : Nat), ∀ f ∈ fs, holeOf (slice r f.1 f.2) ∈ templateFrom r fs init := by
  induction fs with
  | nil => intro init f hf; simp at hf
  | cons g fs ih =>
    intro init f hf
    obtain ⟨gi, ge⟩ := g
    simp only [templateFrom]
    rcases List.mem_cons.mp hf with rfl | hf
    · simp
    · exact List.mem_cons_of_mem _ (List.mem_cons_of_mem _ (ih ge f hf))

theorem slice_mem (r : Str) (lo hi : Nat) (c : Char) (h : c ∈ slice r lo hi) : c ∈ r :=
  List.mem_of_mem_drop (List.mem_of_mem_take h)

/-- A component template with a typed placeholder goes to `NewSegmentRegex`. -/
theorem typedTemplate_regex (r : Str) (ht : isTypedTemplate r = true) :
    createSegment r = NewSegmentRegex r ∧ bracketFindAll r ≠ [] := by
  simp only [isTypedTemplate, Bool.and_eq_true] at ht
  obtain ⟨hany, hall⟩ := ht
  have hne : bracketFindAll r ≠ [] := by
    intro he
    simp [templateOf, he, templateFrom] at hany
  obtain ⟨f, fs, hf⟩ := List.exists_cons_of_ne_nil hne
  have hshape := findBrackets_shape r r.length 0 r rfl f (by
    have : f ∈ bracketFindAll r := by rw [hf]; simp
    exact this)
  have hmem := templateFrom_holes r (bracketFindAll r) 0 f (by rw [hf]; simp)
  have htyped := List.all_eq_true.mp hall _ hmem
  have hcolon : ':' ∈ r ∧ '{' ∈ r := by
    rcases hshape with ⟨x, hx, hb⟩ | ⟨x, T, hx, hT, hb⟩
    · rw [hb, holeOf_untyped x hx] at htyped
      have : (["int".toList, "uint".toList, "id".toList, "uuidv4".toList].contains
          ([] : Str)) = false := by decide
      simp only [this] at htyped
      exact absurd htyped (by simp)
    · constructor
      · exact slice_mem r f.1 f.2 ':' (by rw [hb]; simp [typedHole])
      · exact slice_mem r f.1 f.2 '{' (by rw [hb]; simp [typedHole])
  have h1 : containsByte r ':' = true := (containsByte_iff r ':').mpr hcolon.1
  have h2 : containsByte r '{' = true := (containsByte_iff r '{').mpr hcolon.2
  have h0 : r ≠ "\x7b*\x7d".toList := by
    intro h
    rw [h] at h1
    exact absurd h1 (by decide)
  refine ⟨?_, hne⟩
  unfold createSegment
  rw [if_neg h0, if_pos h2, h1]
  simp

theorem NewSegmentRegex_ok (r : Str) (seg : segment) (h : NewSegmentRegex r = .ok seg)
    (hne : bracketFindAll r ≠ []) :
    ∃ txt prog names, regexPieces r (bracketFindAll r) 0 = .ok (txt, prog, names) ∧
      seg = .segmentregex ⟨'^' :: txt ++ ['$'], true, prog⟩ r names := by
  unfold NewSegmentRegex at h
  split at h
  · simp at h
  · split at h
    · simp at h
    · simp only at h
      split at h
      · rename_i hl
        exact absurd (List.length_eq_zero.mp hl) hne
      · cases hrp : regexPieces r (bracketFindAll r) 0 with
        | error e => simp [hrp] at h
        | ok res =>
          obtain ⟨txt, prog, names⟩ := res
          simp only [hrp, Except.ok.injEq] at h
          exact ⟨txt, prog, names, rfl, h.symm⟩

/-- C16: for every component template with at least one placeholder, all of them typed
with `int`, `uint`, `id` or `uuidv4`, that `createSegment` accepts, the compiled segment
accepts `p` iff `p` is the concatenation, in template order, of the literal pieces and of
values that conform to the grammars of the placeholders. On acceptance it appends one
parameter per placeholder, in template order, keyed by the name of the placeholder and
holding the matched value; on rejection it appends none. -/
theorem C16_typed_template_accepts_concatenations (r : Str) (seg : segment)
    (hc : createSegment r = .ok seg) (ht : isTypedTemplate r = true) :
    (∀ (p : Str) (parms parms1 : List PathParam), seg.Match p parms = some (true, parms1) →
      ∃ ps, Fits (templateOf r) p ps ∧ parms1 = parms ++ ps) ∧
    (∀ (p : Str) (parms : List PathParam), (∃ ps, Fits (templateOf r) p ps) →
      ∃ ps, Fits (templateOf r) p ps ∧ seg.Match p parms = some (true, parms ++ ps)) ∧
    (∀ (p : Str) (parms : List PathParam), (¬ ∃ ps, Fits (templateOf r) p ps) →
      seg.Match p parms = some (false, parms)) := by
  obtain ⟨hre, hne⟩ := typedTemplate_regex r ht
  rw [hre] at hc
  obtain ⟨txt, prog, names, hrp, rfl⟩ := NewSegmentRegex_ok r seg hc hne
  obtain ⟨h1, h2⟩ := regexPieces_fits r (bracketFindAll r)
    (findBrackets_shape r r.length 0 r rfl) 0 txt prog names hrp
  have key : ∀ (p : Str) (caps : List Str), rxRun prog p = some caps →
      ∃ ps, Fits (templateOf r) p ps ∧ segment.zipFields names caps = some ps :=
    fun p caps hr => h1 p caps (rxRun_sound prog p caps hr)
  refine ⟨?_, ?_, ?_⟩
  · intro p parms parms1 hm
    rw [Match_anchored] at hm
    cases hr : rxRun prog p with
    | none => simp [hr] at hm
    | some caps =>
      obtain ⟨ps, hfit, hz⟩ := key p caps hr
      simp only [hr, hz, Option.map_some', Option.some.injEq, Prod.mk.injEq, true_and] at hm
      exact ⟨ps, hfit, hm.symm⟩
  · rintro p parms ⟨ps0, hfit0⟩
    obtain ⟨caps0, hp0⟩ := h2 p ps0 hfit0
    obtain ⟨caps, hr⟩ := rxRun_complete prog p caps0 hp0
    obtain ⟨ps, hfit, hz⟩ := key p caps hr
    refine ⟨ps, hfit, ?_⟩
    rw [Match_anchored]
    simp only [hr, hz, Option.map_some']
  · intro p parms hno
    rw [Match_anchored]
    cases hr : rxRun prog p with
    | none => rfl
    | some caps =>
      obtain ⟨ps, hfit, -⟩ := key p caps hr
      exact absurd ⟨ps, hfit⟩ hno

/-- The template `from-{init:uint}-to-{end:uint}` of `TestCreateRegex2`: witness of C16. -/
theorem C16_typed_template_accepts_concatenations_witness :
    ∃ seg, createSegment "from-\x7binit:uint\x7d-to-\x7bend:uint\x7d".toList = .ok seg ∧
      templateOf "from-\x7binit:uint\x7d-to-\x7bend:uint\x7d".toList =
        [.text "from-".toList, .hole "init".toList "uint".toList, .text "-to-".toList,
         .hole "end".toList "uint".toList, .text []] ∧
      seg.Match "from-10-to-25".toList [] =
        some (true, [⟨"init".toList, "10".toList⟩, ⟨"end".toList, "25".toList⟩]) ∧
      seg.Match "from-10-to-".toList [] = some (false, []) ∧
      seg.Match "From-10-to-25".toList [] = some (false, []) ∧
      ((∀ (p : Str) (parms parms1 : List PathParam), seg.Match p parms = some (true, parms1) →
        ∃ ps, Fits (templateOf "from-\x7binit:uint\x7d-to-\x7bend:uint\x7d".toList) p ps ∧
          parms1 = parms ++ ps) ∧
      (∀ (p : Str) (parms : List PathParam),
        (∃ ps, Fits (templateOf "from-\x7binit:uint\x7d-to-\x7bend:uint\x7d".toList) p ps) →
        ∃ ps, Fits (templateOf "from-\x7binit:uint\x7d-to-\x7bend:uint\x7d".toList) p ps ∧
          seg.Match p parms = some (true, parms ++ ps)) ∧
      (∀ (p : Str) (parms : List PathParam),
        (¬ ∃ ps, Fits (templateOf "from-\x7binit:uint\x7d-to-\x7bend:uint\x7d".toList) p ps) →
        seg.Match p parms = some (false, parms))) :=
  ⟨_, rfl, rfl, rfl, rfl, rfl,
    C16_typed_template_accepts_concatenations
      "from-\x7binit:uint\x7d-to-\x7bend:uint\x7d".toList _ rfl rfl⟩

theorem stars_eq_count (segs : List Str) :
    segs.foldl (fun n s => if s = ['*'] then n + 1 else n) 0 = wildcardCount segs := by
  induction segs with
  | nil => rfl
  | cons s rest ih =>
    rw [List.foldl_cons, foldl_stars, ih]
    by_cases h : s = ['*']
    · simp [wildcardCount, h]; omega
    · simp [wildcardCount, h]

theorem take_succ_set (l : List Str) (a : Str) :
    ∀ i, i < l.length → (l.set i a).take (i + 1) = l.take i ++ [a] := by
  induction l with
  | nil => intro i h; simp at h
  | cons x xs ih =>
    intro i h
    cases i with
    | zero => simp
    | succ j =>
      simp only [List.set_cons_succ, List.take_succ_cons, List.cons_append, List.cons.injEq, true_and]
      exact ih j (by simpa using h)

theorem drop_set_lt (l : List Str) (a : Str) :
    ∀ i j, i < j → (l.set i a).drop j = l.drop j := by
  induction l with
  | nil => intro i j _; simp
  | cons x xs ih =>
    intro i j h
    cases j with
    | zero => omega
    | succ k =>
      cases i with
      | zero => simp
      | succ m =>
        simp only [List.set_cons_succ, List.drop_succ_cons]
        exact ih m k (by omega)

/-- The contents of `HostParams` after a successful `Match`: the slots before `si` are
kept, the slots from `si` on hold the hostname labels at the wildcard positions. -/
theorem matchLabels_params (segs : List Str) :
    ∀ (hostname : Str) (si : Nat) (params ps : List Str),
      matchLabels segs hostname si params = some (true, ps) →
      si + wildcardCount segs ≤ params.length →
      ps = params.take si ++ wildcardLabels segs (split hostname '.') ++
        params.drop (si + wildcardCount segs) := by
  induction segs with
  | nil => intro hostname si params ps h; simp [matchLabels] at h
  | cons seg rest ih =>
    intro hostname si params ps h hlen
    rw [matchLabels_cons] at h
    by_cases hbad : ¬ seg = ['*'] ∧ ¬ seg = upTo hostname '.'
    · rw [if_pos hbad] at h; simp at h
    · rw [if_neg hbad] at h
      rw [split_upTo]
      by_cases h1 : seg = ['*']
      · subst h1
        have hc : wildcardCount (['*'] :: rest) = wildcardCount rest + 1 := by
          simp [wildcardCount]
        rw [hc] at hlen ⊢
        have hsi : si < params.length := by omega
        simp only [if_true, setIndex, hsi, Option.map_some'] at h
        by_cases hl : hostname.length = (upTo hostname '.').length
        · rw [if_pos hl] at h ⊢
          cases rest with
          | nil =>
            simp only [if_true, Option.some.injEq, Prod.mk.injEq, true_and] at h
            subst h
            have : upTo hostname '.' = hostname := by
              unfold upTo at hl ⊢
              exact (List.takeWhile_sublist _).eq_of_length hl.symm
            rw [this]
            simp [wildcardLabels, wildcardCount, List.set_eq_take_append_cons_drop, hsi]
          | cons s1 rest => simp at h
        · rw [if_neg hl] at h ⊢
          have := ih _ _ _ _ h (by simp; omega)
          rw [this]
          simp only [wildcardLabels, List.zip_cons_cons, List.filterMap_cons, if_true]
          rw [take_succ_set params _ si hsi, drop_set_lt params _ si _ (by omega)]
          simp only [List.append_assoc, List.singleton_append]
          rw [show si + 1 + wildcardCount rest = si + (wildcardCount rest + 1) by omega]
      · have h2 : seg = upTo hostname '.' := by
          by_cases h2 : seg = upTo hostname '.'
          · exact h2
          · exact absurd ⟨h1, h2⟩ hbad
        have hc : wildcardCount (seg :: rest) = wildcardCount rest := by
          simp [wildcardCount, h1]
        rw [hc] at hlen ⊢
        simp only [h1, if_false] at h
        by_cases hl : hostname.length = (upTo hostname '.').length
        · rw [if_pos hl] at h ⊢
          cases rest with
          | nil =>
            simp only [if_true, Option.some.injEq, Prod.mk.injEq, true_and] at h
            subst h
            simp [wildcardLabels, wildcardCount, h1]
          | cons s1 rest => simp at h
        · rw [if_neg hl] at h ⊢
          have := ih _ _ _ _ h hlen
          rw [this]
          simp [wildcardLabels, h1]

theorem labelsAgree_iff (segs labels : List Str) :
    List.Forall₂ (fun s l => s = ['*'] ∨ s = l) segs labels ↔
      (segs.length = labels.length ∧ ∀ sl ∈ segs.zip labels, sl.1 ≠ ['*'] → sl.1 = sl.2) := by
  rw [List.forall₂_iff_zip]
  constructor
  · rintro ⟨hl, h⟩
    refine ⟨hl, ?_⟩
    rintro ⟨a, b⟩ hm hne
    rcases h hm with h1 | h1
    · exact absurd h1 hne
    · exact h1
  · rintro ⟨hl, h⟩
    refine ⟨hl, ?_⟩
    intro a b hm
    by_cases h1 : a = ['*']
    · exact Or.inl h1
    · exact Or.inr (h (a, b) hm h1)

theorem wildcardLabels_length (segs : List Str) :
    ∀ labels : List Str, segs.length = labels.length →
      (wildcardLabels segs labels).length = wildcardCount segs := by
  induction segs with
  | nil => intro labels _; rfl
  | cons s rest ih =>
    intro labels hl
    cases labels with
    | nil => simp at hl
    | cons l ls =>
      have := ih ls (by simpa using hl)
      by_cases h : s = ['*']
      · simp only [wildcardLabels, List.zip_cons_cons, List.filterMap_cons, h, if_true,
          List.length_cons, wildcardCount, List.filter_cons, decide_True] at this ⊢
        rw [this]
      · simp only [wildcardLabels, List.zip_cons_cons, List.filterMap_cons, h, if_false,
          wildcardCount, List.filter_cons, decide_False] at this ⊢
        simpa using this

/-- C20: for every compiled host entry and every hostname, `Match` returns true iff the
hostname has exactly as many labels as the pattern and every literal pattern label equals
the hostname label at its position. When it returns true, `ctx.HostParams` is the list of
the hostname labels at the wildcard positions of the pattern, from left to right, and its
length is the wildcard count of the pattern. `Match` never panics on a compiled entry. -/
theorem C20_host_match_labels_and_params (e : hostentry) (he : e.Compiled) (hostname : Str)
    (ctx : Context) :
    ((∃ c, e.Match hostname ctx = some (true, c)) ↔
      ((split e.host '.').length = (split hostname '.').length ∧
        ∀ sl ∈ (split e.host '.').zip (split hostname '.'), sl.1 ≠ ['*'] → sl.1 = sl.2)) ∧
    (∀ c, e.Match hostname ctx = some (true, c) →
      c.HostParams = wildcardLabels (split e.host '.') (split hostname '.') ∧
      c.HostParams.length = wildcardCount (split e.host '.')) ∧
    (∃ b c, e.Match hostname ctx = some (b, c)) := by
  have hroom : 0 + (split e.host '.').foldl (fun n s => if s = ['*'] then n + 1 else n) 0 ≤
      (List.replicate e.numwildcards ([] : Str)).length := by
    rw [he.2]; simp
  have hmatch : ∀ c, e.Match hostname ctx = some (true, c) →
      ∃ ps, matchLabels (split e.host '.') hostname 0 (List.replicate e.numwildcards []) =
        some (true, ps) ∧ c.HostParams = ps := by
    intro c hc
    simp only [hostentry.Match, he.1] at hc
    cases hm : matchLabels (split e.host '.') hostname 0 (List.replicate e.numwildcards []) with
    | none => simp [hm] at hc
    | some x =>
      obtain ⟨b, ps⟩ := x
      simp only [hm, Option.map_some', Option.some.injEq, Prod.mk.injEq] at hc
      obtain ⟨rfl, rfl⟩ := hc
      exact ⟨ps, rfl, rfl⟩
  refine ⟨⟨?_, ?_⟩, ?_, Match_total e he hostname ctx⟩
  · rintro ⟨c, hc⟩
    obtain ⟨ps, hm, -⟩ := hmatch c hc
    exact (labelsAgree_iff _ _).mp (matchLabels_true _ _ _ _ _ hm)
  · intro h
    obtain ⟨ps, hm⟩ := matchLabels_complete (split e.host '.') hostname 0
      (List.replicate e.numwildcards []) ((labelsAgree_iff _ _).mpr h) hroom
    exact ⟨{ ctx with HostParams := ps }, by simp [hostentry.Match, he.1, hm]⟩
  · intro c hc
    obtain ⟨ps, hm, hps⟩ := hmatch c hc
    have hagree := (labelsAgree_iff _ _).mp (matchLabels_true _ _ _ _ _ hm)
    have hcount : e.numwildcards = wildcardCount (split e.host '.') := by
      rw [he.2, stars_eq_count]
    have := matchLabels_params _ _ _ _ _ hm (by rw [← hcount]; simp)
    rw [← hcount] at this
    simp only [List.take_zero, List.nil_append, Nat.zero_add] at this
    rw [List.drop_eq_nil_of_le (by simp), List.append_nil] at this
    rw [hps, this]
    exact ⟨rfl, wildcardLabels_length _ _ hagree.1⟩

/-- The patterns of `TestMatch1` and `TestMatch2`: witness of C20. -/
theorem C20_host_match_labels_and_params_witness :
    (compiledEntry "*.example.com").Match "www.example.com".toList Context.Reset =
      some (true, { Context.Reset with HostParams := ["www".toList] }) ∧
    (compiledEntry "*.*.example.com").Match "opendata.api.example.com".toList Context.Reset =
      some (true, { Context.Reset with HostParams := ["opendata".toList, "api".toList] }) ∧
    (compiledEntry "*.example.com").Match "www.Example.com".toList Context.Reset =
      some (false, { Context.Reset with HostParams := ["www".toList] }) ∧
    (compiledEntry "*.example.com").Match "example.com".toList Context.Reset =
      some (false, { Context.Reset with HostParams := ["example".toList] }) ∧
    (∀ c, (compiledEntry "*.*.example.com").Match "www.a.example.com".toList Context.Reset =
        some (true, c) →
      c.HostParams =
        wildcardLabels (split (compiledEntry "*.*.example.com").host '.')
          (split "www.a.example.com".toList '.') ∧
      c.HostParams.length = wildcardCount (split (compiledEntry "*.*.example.com").host '.')) :=
  ⟨rfl, rfl, rfl, rfl,
    (C20_host_match_labels_and_params (compiledEntry "*.*.example.com") ⟨rfl, rfl⟩
      "www.a.example.com".toList Context.Reset).2.1⟩

theorem alnum_iff (c : Char) :
    (isLetter c || isDigit c) = ((isLetter c || isDigit c || c == '-') && !(c == '-')) := by
  by_cases h : c = '-'
  · subst h; decide
  · have : (c == '-') = false := by simpa using h
    simp [this]

theorem hasSuffix_concat (init : Str) (last c : Char) :
    hasSuffix (init ++ [last]) [c] = (last == c) := by
  rw [Bool.eq_iff_iff]
  simp only [hasSuffix, List.isSuffixOf_iff_suffix, beq_iff_eq]
  constructor
  · rintro ⟨t, ht⟩
    have := List.append_inj' ht rfl
    exact (List.cons.inj this.2).1.symm
  · rintro rfl
    exact ⟨init, rfl⟩

/-- The expression `hostSegmentRegex` accepts exactly the literal host labels. -/
theorem hostSegmentRegex_eq (s : Str) : hostSegmentRegex s = isHostLabel s := by
  cases s with
  | nil => rfl
  | cons c rest =>
    rcases List.eq_nil_or_concat rest with rfl | ⟨init, last, rfl⟩
    · simp only [hostSegmentRegex, isHostLabel, hasPrefix, hasSuffix]
      rw [alnum_iff c]
      by_cases h : c = '-'
      · subst h; decide
      · have : (c == '-') = false := by simpa using h
        simp [this, List.isSuffixOf, List.isPrefixOf]
        exact fun _ e => h e.symm
    · rw [List.concat_eq_append]
      have e1 : hostSegmentRegex (c :: (init ++ [last])) =
          ((isLetter c || isDigit c) && decide ((init ++ [last]).length ≤ 62) &&
            (isLetter last || isDigit last) &&
            init.all (fun x => isLetter x || isDigit x || x == '-')) := by
        cases init with
        | nil => simp [hostSegmentRegex]
        | cons a as =>
          have hd : (a :: (as ++ [last])).dropLast = a :: as := by
            rw [← List.cons_append, List.dropLast_concat]
          simp [hostSegmentRegex, List.getLastD, hd]
      have e2 : hasSuffix (c :: (init ++ [last])) ['-'] = (last == '-') := by
        rw [← List.cons_append, hasSuffix_concat]
      rw [e1]
      simp only [isHostLabel, e2, hasPrefix, List.isPrefixOf, Bool.and_true, List.all_cons,
        List.all_append, List.all_nil, List.length_cons, List.length_append, List.length_nil]
      have hc : isLetter c = true ∨ isDigit c = true → ¬ c = '-' := by
        intro h e; subst e; revert h; decide
      have hlast : isLetter last = true ∨ isDigit last = true → ¬ last = '-' := by
        intro h e; subst e; revert h; decide
      have hlen : (init.length + (0 + 1) ≤ 62) ↔
          (1 ≤ init.length + (0 + 1) + 1 ∧ init.length + (0 + 1) + 1 ≤ 63) := by omega
      rw [Bool.eq_iff_iff]
      simp only [Bool.and_eq_true, decide_eq_true_eq, Bool.not_eq_true', Bool.or_eq_true,
        beq_iff_eq, beq_eq_false_iff_ne, ne_eq]
      rw [hlen]
      tauto

theorem verifyLabels_cons (s : Str) (rest : List Str) (allowStar : Bool) :
    verifyLabels (s :: rest) allowStar =
      if s = ['*'] then (allowStar && verifyLabels rest allowStar)
      else (isHostLabel s && verifyLabels rest false) := by
  rw [verifyLabels, hostSegmentRegex_eq]
  by_cases h : s = ['*']
  · subst h
    cases allowStar <;> simp
  · cases hl : isHostLabel s <;> simp [h]

/-- After a literal label only literal labels are accepted. -/
theorem verifyLabels_literals (ls : List Str) :
    verifyLabels ls false = true ↔ ∀ l ∈ ls, isHostLabel l = true := by
  induction ls with
  | nil => simp [verifyLabels]
  | cons s rest ih =>
    rw [verifyLabels_cons]
    by_cases h : s = ['*']
    · subst h
      simp only [if_true, Bool.false_and, Bool.false_eq_true, false_iff]
      intro hall
      exact absurd (hall ['*'] (by simp)) (by decide)
    · simp [h, ih]

theorem verifyLabels_stars (ls : List Str) :
    verifyLabels ls true = true ↔
      ∃ k lits, ls = List.replicate k ['*'] ++ lits ∧ ∀ l ∈ lits, isHostLabel l = true := by
  induction ls with
  | nil =>
    simp only [verifyLabels, true_iff]
    exact ⟨0, [], rfl, by simp⟩
  | cons s rest ih =>
    rw [verifyLabels_cons]
    by_cases h : s = ['*']
    · subst h
      simp only [if_true, Bool.true_and]
      rw [ih]
      constructor
      · rintro ⟨k, lits, rfl, hl⟩
        exact ⟨k + 1, lits, rfl, hl⟩
      · rintro ⟨k, lits, he, hl⟩
        cases k with
        | zero =>
          simp only [List.replicate_zero, List.nil_append] at he
          exact absurd (hl ['*'] (by rw [← he]; simp)) (by decide)
        | succ k =>
          simp only [List.replicate_succ, List.cons_append, List.cons.injEq, true_and] at he
          exact ⟨k, lits, he, hl⟩
    · simp only [h, if_false, Bool.and_eq_true]
      rw [verifyLabels_literals]
      constructor
      · rintro ⟨h1, h2⟩
        refine ⟨0, s :: rest, rfl, ?_⟩
        intro l hl
        rcases List.mem_cons.mp hl with rfl | hl
        · exact h1
        · exact h2 l hl
      · rintro ⟨k, lits, he, hl⟩
        cases k with
        | zero =>
          simp only [List.replicate_zero, List.nil_append] at he
          subst he
          exact ⟨hl s (by simp), fun l hm => hl l (List.mem_cons_of_mem _ hm)⟩
        | succ k =>
          simp only [List.replicate_succ, List.cons_append, List.cons.injEq] at he
          exact absurd he.1 h

/-- C19: `verifyHostname` accepts a pattern iff its `.`-separated labels are zero or more
`*` labels followed by zero or more literal labels, each literal label of 1 to 63 letters,
digits and `-` that neither starts nor ends with `-`. A `*` right of a literal label is
rejected (`www.example.*`, `*.example.*.com`), and so are the labels `{}`, `example*`,
`**` and a label of 64 characters. -/
theorem C19_verifyHostname_grammar :
    (∀ host : Str, verifyHostname host = true ↔
      ∃ k lits, split host '.' = List.replicate k ['*'] ++ lits ∧
        ∀ l ∈ lits, isHostLabel l = true) ∧
    verifyHostname "www.example.com".toList = true ∧
    verifyHostname "*.example.com".toList = true ∧
    verifyHostname "*.*.example.com".toList = true ∧
    verifyHostname "www.example.*".toList = false ∧
    verifyHostname "*.example.*.com".toList = false ∧
    verifyHostname "www.\x7b\x7d.com".toList = false ∧
    verifyHostname "www.example*.com".toList = false ∧
    verifyHostname "www.**.com".toList = false ∧
    verifyHostname "-a.com".toList = false ∧
    verifyHostname "a-.com".toList = false ∧
    verifyHostname (List.replicate 63 'a' ++ ".com".toList) = true ∧
    verifyHostname (List.replicate 64 'a' ++ ".com".toList) = false := by
  refine ⟨fun host => verifyLabels_stars _, ?_, ?_, ?_, ?_, ?_, ?_, ?_, ?_, ?_, ?_, ?_, ?_⟩ <;>
    decide

theorem dropWhile_append_keep (p : Char → Bool) (c : Char) (M : Str) (hc : p c = false) :
    ∀ L : Str, List.dropWhile p (L ++ c :: M) = List.dropWhile p L ++ c :: M := by
  intro L
  induction L with
  | nil => simp [List.dropWhile_cons, hc]
  | cons x xs ih =>
    by_cases hx : p x = true
    · simp [List.dropWhile_cons, hx, ih]
    · simp [List.dropWhile_cons, hx]

/-- `TrimRight` stops at a byte outside the cutset. -/
theorem trimRight_keep (X Y cutset : Str) (c : Char) (hc : cutset.contains c = false) :
    trimRight (X ++ c :: Y) cutset = X ++ c :: trimRight Y cutset := by
  simp only [trimRight, List.reverse_append, List.reverse_cons, List.append_assoc,
    List.singleton_append]
  rw [dropWhile_append_keep _ c _ hc]
  simp only [List.reverse_append, List.reverse_cons, List.reverse_reverse, List.append_assoc,
    List.singleton_append, List.nil_append]

/-- Two neighbouring pieces of `strings.Split` are separated by the separator. -/
theorem split_decompose (c : Char) (x y : Str) (ys : List Str) (xs : List Str) :
    ∀ s : Str, split s c = xs ++ x :: y :: ys → ∃ A B, s = A ++ x ++ c :: B := by
  induction xs with
  | nil =>
    intro s h
    rw [split_upTo] at h
    split at h
    · simp at h
    · rename_i hl
      simp only [List.nil_append, List.cons.injEq] at h
      have hcont : containsByte s c = true := by
        cases hcb : containsByte s c with
        | true => rfl
        | false => exact absurd ((contains_iff_upTo s c).mp hcb) hl
      refine ⟨[], s.drop ((upTo s c).length + 1), ?_⟩
      rw [← h.1]
      exact upTo_append_drop s c hcont
  | cons x0 xs ih =>
    intro s h
    rw [split_upTo] at h
    split at h
    · have := congrArg List.length h
      simp at this
    · rename_i hl
      simp only [List.cons_append, List.cons.injEq] at h
      have hcont : containsByte s c = true := by
        cases hcb : containsByte s c with
        | true => rfl
        | false => exact absurd ((contains_iff_upTo s c).mp hcb) hl
      obtain ⟨A, B, hAB⟩ := ih _ h.2
      refine ⟨upTo s c ++ c :: A, B, ?_⟩
      have := upTo_append_drop s c hcont
      rw [hAB] at this
      rw [List.append_assoc, List.append_assoc, List.cons_append, ← List.append_assoc A]
      exact this

theorem shape_tail (b : Str) (hb : BracketShaped b) : '{' ∉ b.drop 1 := by
  rcases hb with ⟨x, hx, rfl⟩ | ⟨x, T, hx, hT, rfl⟩
  · have h1 := (containsByte_iff x '{').not.mp
      (by rw [all_isWord_free x (isName_all x hx) '{' (by decide)]; simp)
    simp [untypedHole, h1]
  · have h1 := (containsByte_iff x '{').not.mp
      (by rw [all_isWord_free x (isName_all x hx) '{' (by decide)]; simp)
    have h2 := (containsByte_iff T '{').not.mp
      (by rw [all_isWord_free T (isName_all T hT) '{' (by decide)]; simp)
    simp [typedHole, h1, h2]

theorem findBrackets_ge (fuel : Nat) :
    ∀ (off : Nat) (s : Str), ∀ f ∈ findBrackets fuel off s, off ≤ f.1 := by
  induction fuel with
  | zero => intro off s f hf; simp [findBrackets] at hf
  | succ fuel ih =>
    intro off s f hf
    cases s with
    | nil => simp [findBrackets] at hf
    | cons c0 rest0 =>
      rw [findBrackets] at hf
      cases hb : bracketAt (c0 :: rest0) with
      | none =>
        simp only [hb] at hf
        have := ih _ _ f hf
        omega
      | some len =>
        simp only [hb, List.mem_cons] at hf
        rcases hf with rfl | hf
        · exact Nat.le_refl _
        · have := ih _ _ f hf
          omega

theorem cutOut_step (r : Str) (off : Nat) (c : Char) (rest : Str) (fs : List (Nat × Nat))
    (hr : r.drop off = c :: rest) (hfs : ∀ f ∈ fs, off + 1 ≤ f.1) :
    cutOut r off fs = c :: cutOut r (off + 1) fs := by
  have hd : r.drop (off + 1) = rest := by
    rw [← List.drop_drop, hr]
    rfl
  cases fs with
  | nil => simp [cutOut, hr, hd]
  | cons f fs =>
    obtain ⟨fi, fe⟩ := f
    have := hfs (fi, fe) (by simp)
    simp only at this
    obtain ⟨k, rfl⟩ : ∃ k, fi = off + 1 + k := ⟨fi - (off + 1), by omega⟩
    simp only [cutOut, hr, hd]
    rw [show off + 1 + k - off = k + 1 by omega, show off + 1 + k - (off + 1) = k by omega]
    simp

/-- `bracketSimplistic.ReplaceAllString(r, "")` keeps the opening bracket of every `{*`:
no match starts there, and no match extends over an opening bracket. -/
theorem cutOut_keeps_brace (r : Str) (fuel : Nat) :
    ∀ (off : Nat) (s : Str), s = r.drop off → s.length ≤ fuel →
      ∀ A B : Str, s = A ++ '{' :: '*' :: B →
        '{' ∈ cutOut r off (findBrackets fuel off s) := by
  induction fuel with
  | zero =>
    intro off s _ hlen A B hA
    have : s = [] := List.length_eq_zero.mp (Nat.le_zero.mp hlen)
    rw [this] at hA
    simp at hA
  | succ fuel ih =>
    intro off s hs hlen A B hA
    cases s with
    | nil => simp at hA
    | cons c rest =>
      rw [findBrackets]
      cases hb : bracketAt (c :: rest) with
      | none =>
        simp only
        have hrest : rest = r.drop (off + 1) := by
          rw [← List.drop_drop, ← hs]
          rfl
        rw [cutOut_step r off c rest _ hs.symm (fun f hf => findBrackets_ge fuel _ _ f hf)]
        cases A with
        | nil =>
          simp only [List.nil_append, List.cons.injEq] at hA
          rw [hA.1]
          exact List.mem_cons_self _ _
        | cons a A1 =>
          simp only [List.cons_append, List.cons.injEq] at hA
          exact List.mem_cons_of_mem _
            (ih (off + 1) rest hrest (by simpa using hlen) A1 B hA.2)
      | some len =>
        simp only [cutOut, Nat.sub_self, List.take_zero, List.nil_append]
        obtain ⟨c1, rest1, he, hc1, hl2⟩ := bracketAt_some _ _ hb
        have hshape := shape_tail _ (bracketAt_shape _ _ hb)
        have hAne : A ≠ [] := by
          intro h0
          rw [h0, he] at hA
          simp only [List.nil_append, List.cons.injEq, true_and] at hA
          rw [hA.1] at hc1
          exact absurd hc1 (by decide)
        have hle : len ≤ A.length := by
          by_contra hgt
          apply hshape
          obtain ⟨a, A1, rfl⟩ := List.exists_cons_of_ne_nil hAne
          obtain ⟨k, hk⟩ : ∃ k, len = (a :: A1).length + (k + 1) := ⟨len - (a :: A1).length - 1, by omega⟩
          rw [hA, hk, List.take_append, List.take_succ_cons]
          simp
        refine ih (off + len) ((c :: rest).drop len) ?_ ?_ (A.drop len) B ?_
        · rw [hs, List.drop_drop]
        · simp only [List.length_drop]
          omega
        · rw [hA, List.drop_append_of_le_length hle]

theorem validEncodedPath_brace : ∀ s : Str, '{' ∈ s → validEncodedPath s = false
  | [], h => by simp at h
  | ['%'], _ => rfl
  | ['%', _], _ => rfl
  | '%' :: a :: b :: rest, h => by
    rw [validEncodedPath]
    simp only [List.mem_cons] at h
    rcases h with h | h | h | h
    · exact absurd h (by decide)
    · subst h; rfl
    · subst h; simp [show isXDigit '{' = false by decide]
    · simp [validEncodedPath_brace rest h]
  | c :: rest, h => by
    by_cases hc : c = '%'
    · subst hc
      match rest, h with
      | [], _ => rfl
      | [_], _ => rfl
      | a :: b :: rest2, h =>
        rw [validEncodedPath]
        simp only [List.mem_cons] at h
        rcases h with h | h | h | h
        · exact absurd h (by decide)
        · subst h; rfl
        · subst h; simp [show isXDigit '{' = false by decide]
        · simp [validEncodedPath_brace rest2 h]
    · have e : validEncodedPath (c :: rest) = (isPathByte c && validEncodedPath rest) := by
        rw [validEncodedPath]
        · intro a b r2 h2 _
          exact hc h2
        · intro h2
          exact hc h2
      rw [e]
      simp only [List.mem_cons] at h
      rcases h with h | h
      · subst h; rfl
      · simp [validEncodedPath_brace rest h]

theorem strip_brace_rejected (r1 A B : Str) (h : r1 = A ++ '{' :: '*' :: B) :
    requestURIIsPath (bracketStrip r1) = false := by
  have hm : '{' ∈ bracketStrip r1 :=
    cutOut_keeps_brace r1 r1.length 0 r1 rfl (Nat.le_refl _) A B h
  have h1 : (bracketStrip r1 == ['*']) = false := by
    rw [beq_eq_false_iff_ne]
    intro he
    rw [he] at hm
    simp at hm
  simp [requestURIIsPath, h1, validEncodedPath_brace _ hm]

/-- A template with `{*}/` inside does not pass `verifyPath`. -/
theorem verifyPath_inner_catchall (A B : Str) :
    verifyPath (A ++ "\x7b*\x7d".toList ++ '/' :: B) = false := by
  have hslash : "\x7b*\x7d".toList.contains '/' = false := by decide
  have e1 : A ++ "\x7b*\x7d".toList ++ '/' :: B = A ++ '{' :: '*' :: ('}' :: '/' :: B) := by
    simp
  have e2 : trimRight (A ++ "\x7b*\x7d".toList ++ '/' :: B) "\x7b*\x7d".toList =
      A ++ '{' :: '*' :: ('}' :: '/' :: trimRight B "\x7b*\x7d".toList) := by
    rw [trimRight_keep _ _ _ _ hslash]
    simp
  unfold verifyPath
  simp only
  split
  · exact strip_brace_rejected _ A _ e2
  · exact strip_brace_rejected _ A _ e1

theorem components_decompose (T : Str) (pre post : List Str) (x : Str)
    (h : components T = pre ++ x :: post) (hp : post ≠ []) :
    ∃ A B, T = A ++ x ++ '/' :: B := by
  obtain ⟨y, ys, rfl⟩ := List.exists_cons_of_ne_nil hp
  unfold components at h
  split at h
  · rename_i hpre
    obtain ⟨A, B, hAB⟩ := split_decompose '/' x y ys pre _ h
    cases T with
    | nil => simp [hasPrefix] at hpre
    | cons c rest =>
      simp only [hasPrefix, List.isPrefixOf, Bool.and_true, beq_iff_eq] at hpre
      simp only [List.drop_succ_cons, List.drop_zero] at hAB
      refine ⟨'/' :: A, B, ?_⟩
      rw [hAB, ← hpre]
      simp
  · exact split_decompose '/' x y ys pre _ h

theorem parseSegments_catchall_last (xs : List Str) :
    ∀ segs, parseSegments xs = .ok segs → ∀ s ∈ segs.dropLast, s.CatchAll = false := by
  induction xs with
  | nil =>
    intro segs h
    simp only [parseSegments, Except.ok.injEq] at h
    subst h
    simp
  | cons p ps ih =>
    intro segs h
    rw [parseSegments] at h
    cases hc : createSegment p with
    | error e => simp [hc] at h
    | ok seg =>
      simp only [hc] at h
      split at h
      · simp at h
      · rename_i hguard
        cases hr : parseSegments ps with
        | error e => simp [hr] at h
        | ok segs1 =>
          simp only [hr, Except.ok.injEq] at h
          subst h
          have hlen := parseSegments_length ps segs1 hr
          intro s hs
          cases segs1 with
          | nil => simp at hs
          | cons s1 rest1 =>
            rw [List.dropLast_cons₂] at hs
            rcases List.mem_cons.mp hs with rfl | hs
            · have hne : ps.isEmpty = false := by
                cases ps with
                | nil => simp at hlen
                | cons a b => rfl
              simp only [hne, Bool.not_false, Bool.and_true, Bool.not_eq_true] at hguard
              exact hguard
            · exact ih _ hr s hs

/-- C18: for every template in which a component equal to `{*}` is followed by at least
one further component, `ParsePath` returns an error, `trie.Add` returns that error for
every route with this template and leaves the trie as it was, and `RouteBuilder.Path`
records an error that `Build` returns. For every template that `ParsePath` accepts, no
segment but the last is a catch-all. -/
theorem C18_catchall_must_be_last :
    (∀ (T : Str) (pre post : List Str),
      components T = pre ++ "\x7b*\x7d".toList :: post → post ≠ [] →
      ParsePath T = .error .invalidPath ∧
      (∀ (t : trie) (r : Route), r.path = T → t.Add (some r) = (t, some .invalidPath)) ∧
      (∀ (rb : RouteBuilder) (ms : List Str) (h : Option Nat),
        (rb.Path T).err ≠ none ∧
        (∃ e, (rb.Path T).Build = .error e) ∧
        (∃ e, (((rb.Path T).Methods ms).Handler h).Build = .error e))) ∧
    (∀ (T : Str) (segs : List segment), ParsePath T = .ok segs →
      ∀ s ∈ segs.dropLast, s.CatchAll = false) := by
  constructor
  · intro T pre post hc hp
    obtain ⟨A, B, hT⟩ := components_decompose T pre post _ hc hp
    have hv : verifyPath T = false := by
      rw [hT]
      exact verifyPath_inner_catchall A B
    have hparse : ParsePath T = .error .invalidPath := by
      simp [ParsePath, hv]
    refine ⟨hparse, ?_, ?_⟩
    · intro t r hr
      exact trie_Add_parse_error t r _ (by rw [hr]; exact hparse)
    · intro rb ms h
      have herr : (rb.Path T).err ≠ none := by
        unfold RouteBuilder.Path
        split
        · assumption
        · simp [hv]
      refine ⟨herr, ?_, ?_⟩
      · cases he : (rb.Path T).err with
        | none => exact absurd he herr
        | some e => exact ⟨e, by simp [RouteBuilder.Build, he]⟩
      · cases he : (rb.Path T).err with
        | none => exact absurd he herr
        | some e =>
          refine ⟨e, ?_⟩
          simp [RouteBuilder.Build, RouteBuilder.Handler, RouteBuilder.Methods, he]
  · intro T segs h
    exact parseSegments_catchall_last _ segs (ParsePath_eq T segs h)

/-- The template `/path/{*}/error` of `TestInvalidCatchAll`, and the accepted template
`/static/{*}`: witness of C18. -/
theorem C18_catchall_must_be_last_witness :
    (components "/path/\x7b*\x7d/error".toList =
        ["path".toList] ++ "\x7b*\x7d".toList :: ["error".toList] ∧
      ParsePath "/path/\x7b*\x7d/error".toList = .error .invalidPath ∧
      (trie.empty.Add (some (mkRoute "bad" "/path/\x7b*\x7d/error" ["GET"]))).2 =
        some .invalidPath ∧
      (∃ e, (((NewRoute.Path "/path/\x7b*\x7d/error".toList).Methods ["GET".toList]).Handler
        (some 0)).Build = .error e)) ∧
    (ParsePath "/static/\x7b*\x7d".toList =
        .ok [.segmentstring "static".toList, .segmentcatchallstring] ∧
      ∀ s ∈ [segment.segmentstring "static".toList, segment.segmentcatchallstring].dropLast,
        s.CatchAll = false) := by
  have h := C18_catchall_must_be_last
  have h1 := h.1 "/path/\x7b*\x7d/error".toList ["path".toList] ["error".toList] rfl (by simp)
  refine ⟨⟨rfl, h1.1, ?_, (h1.2.2 NewRoute ["GET".toList] (some 0)).2.2⟩,
    rfl, h.2 "/static/\x7b*\x7d".toList _ rfl⟩
  rw [h1.2.1 trie.empty (mkRoute "bad" "/path/\x7b*\x7d/error" ["GET"]) rfl]

/-- No segment that `createSegment` builds panics in `Match`: a compiled expression has as
many field names as capture groups. -/
theorem created_total (s : segment) (h : Created s) : NeverPanics s := by
  obtain ⟨x, hx⟩ := h
  intro p parms
  unfold createSegment at hx
  split at hx
  · simp only [Except.ok.injEq] at hx
    subst hx
    exact ⟨true, parms, rfl⟩
  · split at hx
    · split at hx
      · simp only [Except.ok.injEq] at hx
        subst hx
        simp only [segment.Match, newSegmentAny]
        split
        · exact ⟨_, _, rfl⟩
        · exact ⟨_, _, rfl⟩
      · by_cases hne : bracketFindAll x = []
        · unfold NewSegmentRegex at hx
          split at hx
          · simp at hx
          · split at hx
            · simp at hx
            · simp only [hne, List.length_nil, if_true, Except.ok.injEq] at hx
              subst hx
              simp only [segment.Match, Regexp.FindAllStringSubmatch, Bool.false_eq_true, if_false]
              split
              · rename_i caps hcaps
                split at hcaps
                · simp only [List.cons.injEq, and_true] at hcaps
                  subst hcaps
                  exact ⟨_, _, rfl⟩
                · simp at hcaps
              · exact ⟨_, _, rfl⟩
        · obtain ⟨txt, prog, names, hrp, rfl⟩ := NewSegmentRegex_ok x s hx hne
          obtain ⟨h1, -⟩ := regexPieces_fits x (bracketFindAll x)
            (findBrackets_shape x x.length 0 x rfl) 0 txt prog names hrp
          rw [Match_anchored]
          cases hr : rxRun prog p with
          | none => exact ⟨_, _, rfl⟩
          | some caps =>
            obtain ⟨ps, -, hz⟩ := h1 p caps (rxRun_sound prog p caps hr)
            exact ⟨true, parms ++ ps, by simp [hz]⟩
    · simp only [Except.ok.injEq] at hx
      subst hx
      exact ⟨_, _, rfl⟩

/-- A failing `Match` leaves the parameters as they were. -/
theorem Match_false_parms (s : segment) (p : Str) (parms ps : List PathParam)
    (h : s.Match p parms = some (false, ps)) : ps = parms := by
  cases s with
  | segmentstring t =>
    simp only [segment.Match, Option.some.injEq, Prod.mk.injEq] at h
    exact h.2.symm
  | segmentcatchallstring => simp [segment.Match] at h
  | segmentregex r original fields =>
    simp only [segment.Match] at h
    split at h
    · rename_i caps _
      cases hz : segment.zipFields fields caps with
      | none => simp [hz] at h
      | some qs => simp [hz] at h
    · simp only [Option.some.injEq, Prod.mk.injEq] at h
      exact h.2.symm
  | segmentany comp original fieldname =>
    simp only [segment.Match] at h
    split at h
    · simp only [Option.some.injEq, Prod.mk.injEq] at h
      exact h.2.symm
    · simp at h

/-- The scan of `trie.Get` over the children takes the first child whose segment accepts
the component, and records the parameters of that child only. -/
theorem scanNodes_find (comp : Str) (nodes : List node)
    (hn : ∀ c ∈ nodes, NeverPanics c.seg) (parms : List PathParam) :
    scanNodes comp nodes parms =
      match nodes.find? (fun n => n.seg.accepts comp) with
      | some n => some (some n, parms ++ n.seg.captures comp)
      | none => some (none, parms) := by
  induction nodes with
  | nil => rfl
  | cons c rest ih =>
    obtain ⟨b, ps, hm⟩ := hn c (by simp) comp []
    have hm2 := Match_parms c.seg comp parms
    rw [hm] at hm2
    simp only [Option.map_some'] at hm2
    rw [scanNodes, hm2]
    cases b with
    | true =>
      simp [List.find?_cons, segment.accepts, segment.captures, hm]
    | false =>
      have := Match_false_parms _ _ _ _ hm
      subst this
      simp only [List.append_nil]
      rw [ih (fun d hd => hn d (List.mem_cons_of_mem _ hd))]
      simp [List.find?_cons, segment.accepts, hm]

theorem joinPath_split (s : Str) : joinPath (split s '/') = s := by
  induction s with
  | nil => rfl
  | cons x xs ih =>
    by_cases hx : x = '/'
    · subst hx
      obtain ⟨a, b, hab⟩ := List.exists_cons_of_ne_nil (split_ne_nil xs '/')
      simp only [split, if_true]
      rw [hab] at ih ⊢
      simp only [joinPath, List.nil_append]
      rw [ih]
    · obtain ⟨piece, pieces, hp, hs⟩ := split_cons_ne x '/' xs hx
      rw [hs]
      rw [hp] at ih
      cases pieces with
      | nil =>
        simp only [joinPath] at ih ⊢
        rw [ih]
      | cons d ds =>
        simp only [joinPath, List.cons_append] at ih ⊢
        rw [ih]

theorem catchall_captures (s : segment) (h : s.CatchAll = true) (p : Str) :
    s.captures p = [] := by
  cases s <;> simp [segment.CatchAll] at h
  rfl

theorem split_head (path : Str) :
    ∃ cs, split path '/' = upTo path '/' :: cs ∧
      (containsByte path '/' = false → cs = []) ∧
      (containsByte path '/' = true →
        cs = split (path.drop ((upTo path '/').length + 1)) '/' ∧ cs.isEmpty = false) := by
  rw [split_upTo]
  by_cases hlen : path.length = (upTo path '/').length
  · have hc := (contains_iff_upTo path '/').2 hlen
    refine ⟨[], ?_, fun _ => rfl, ?_⟩
    · rw [if_pos hlen, upTo_eq_self_of_not_contains path '/' hc]
    · intro h; rw [hc] at h; exact absurd h (by simp)
  · have hc : containsByte path '/' = true := by
      cases h : containsByte path '/' with
      | true => rfl
      | false => exact absurd ((contains_iff_upTo path '/').1 h) hlen
    refine ⟨_, by rw [if_neg hlen], ?_, fun _ => ⟨rfl, ?_⟩⟩
    · intro h; rw [hc] at h; exact absurd h (by simp)
    · cases hs : split (List.drop ((upTo path '/').length + 1) path) '/' with
      | nil => exact absurd hs (split_ne_nil _ _)
      | cons a b => rfl

/-- The loop of `trie.Get` is the single walk over the components of the path. -/
theorem getLoop_walk (originalpath : Str) (fuel : Nat) :
    ∀ (nodes : List node) (path : Str) (ior : Int) (ctx : Context),
      path.length < fuel → 0 ≤ ior → ior + path.length = originalpath.length →
      (∀ c ∈ nodes, c.All NeverPanics) →
      (∀ n ps, singleWalk (split path '/') nodes ctx.pathParams = some (n, ps) →
        (1 ≤ ior ∨ n.seg.CatchAll = false) →
        ∃ c, getLoop originalpath fuel nodes path ior ctx = .found n c ∧ c.pathParams = ps) ∧
      (singleWalk (split path '/') nodes ctx.pathParams = none →
        ∃ c, getLoop originalpath fuel nodes path ior ctx = .notFound c) := by
  induction fuel with
  | zero => intro nodes path ior ctx h; omega
  | succ fuel ih =>
    intro nodes path ior ctx hfuel hior hinv hall
    obtain ⟨cs, hs, hcs0, hcs1⟩ := split_head path
    have hjoin : joinPath (upTo path '/' :: cs) = path := by
      rw [← hs, joinPath_split]
    have hn : ∀ c ∈ nodes, NeverPanics c.seg := fun c hc =>
      ((node_all_iff NeverPanics c).mp (hall c hc)).1
    rw [hs, getLoop]
    simp only
    rw [scanNodes_find _ nodes hn, singleWalk]
    cases hf : nodes.find? (fun n => n.seg.accepts (upTo path '/')) with
    | none =>
      simp only
      exact ⟨fun n ps h _ => absurd h (by simp), fun _ => ⟨_, rfl⟩⟩
    | some m =>
      simp only
      have hm : m ∈ nodes := List.mem_of_find?_eq_some hf
      have hsub : ∀ c ∈ m.nodes, c.All NeverPanics :=
        ((node_all_iff NeverPanics m).mp (hall m hm)).2
      by_cases hca : m.seg.CatchAll = true
      · simp only [hca, if_true, hjoin, catchall_captures m.seg hca, List.append_nil]
        refine ⟨?_, fun h => absurd h (by simp)⟩
        intro n ps h hcond
        simp only [Option.some.injEq, Prod.mk.injEq] at h
        obtain ⟨rfl, rfl⟩ := h
        have h1 : 1 ≤ ior := by
          rcases hcond with h1 | h1
          · exact h1
          · rw [hca] at h1; exact absurd h1 (by simp)
        have hslice : sliceTo originalpath (ior - 1) =
            some (originalpath.take (ior - 1).toNat) := by
          unfold sliceTo
          rw [if_pos]
          constructor <;> omega
        rw [hslice]
        exact ⟨_, rfl, rfl⟩
      · simp only [hca, Bool.false_eq_true, if_false]
        cases hc : containsByte path '/' with
        | false =>
          have := hcs0 hc
          subst this
          simp only [List.isEmpty_nil, if_true, Bool.not_false]
          refine ⟨?_, fun h => absurd h (by simp)⟩
          intro n ps h _
          simp only [Option.some.injEq, Prod.mk.injEq] at h
          obtain ⟨rfl, rfl⟩ := h
          exact ⟨_, rfl, rfl⟩
        | true =>
          obtain ⟨hcs, hne⟩ := hcs1 hc
          simp only [hne, Bool.false_eq_true, if_false, Bool.not_true]
          have hlt : (upTo path '/').length < path.length := by
            have hle := upTo_length_le path '/'
            have hneq : ¬ path.length = (upTo path '/').length := by
              intro h
              rw [(contains_iff_upTo path '/').2 h] at hc
              exact absurd hc (by simp)
            omega
          have := ih m.nodes (path.drop ((upTo path '/').length + 1))
            (ior + ((upTo path '/').length + 1))
            { ctx with pathParams := ctx.pathParams ++ m.seg.captures (upTo path '/') }
            (by simp only [List.length_drop]; omega) (by omega)
            (by simp only [List.length_drop]; omega) hsub
          rw [← hcs] at this
          exact ⟨fun n ps h _ => this.1 n ps h (Or.inl (by omega)), this.2⟩

theorem node_all_mono (P Q : segment → Prop) (hPQ : ∀ s, P s → Q s) (n : node)
    (h : n.All P) : n.All Q := by
  induction h with
  | mk s m ns h1 _ ih => exact node.All.mk s m ns (hPQ s h1) ih

/-- C11: on every trie built by `Add` and for every path, the result of `trie.Get` is the
result of the single walk that takes, at every node, the first child in insertion order
whose segment matches the current component and never returns to another child: `Get`
finds the node and the parameters of that walk, and reports no match when that walk gets
stuck, whatever a later-inserted sibling would have matched. (On a path without a leading
`/` the statement leaves out the walks that end on a catch-all, where `Get` may panic.)
`Add` keeps the children in insertion order: the children present before a call stay in
place, a new child is appended behind them. -/
theorem C11_Get_is_single_first_match_walk (t : trie) (hb : t.Built) (path : Str)
    (ctx : Context) :
    (∀ n ps, singleWalk (components path) t.nodes [] = some (n, ps) →
      (hasPrefix path ['/'] = true ∨ n.seg.CatchAll = false) →
      ∃ c, t.Get path ctx = .found n c ∧ c.pathParams = ps) ∧
    (singleWalk (components path) t.nodes [] = none →
      ∃ c, t.Get path ctx = .notFound c) ∧
    (∀ r, Grows t.nodes (t.Add r).1.nodes) := by
  have hall : ∀ c ∈ t.nodes, c.All NeverPanics := fun c hc =>
    node_all_mono Created NeverPanics created_total c (built_all_created t hb c hc)
  refine ⟨?_, ?_, fun r => trie_Add_grows t r⟩
  · intro n ps hwalk hcond
    unfold components at hwalk
    unfold trie.Get
    simp only
    by_cases hp : hasPrefix path ['/'] = true
    · simp only [hp, if_true] at hwalk ⊢
      have hlen : 1 ≤ path.length := by
        cases path with
        | nil => simp [hasPrefix] at hp
        | cons a b => simp
      exact (getLoop_walk path _ t.nodes (path.drop 1) 1 { ctx with pathParams := [] }
        (by omega) (by omega) (by simp only [List.length_drop]; omega) hall).1 n ps hwalk
        (Or.inl (by omega))
    · simp only [hp, Bool.false_eq_true, if_false] at hwalk ⊢
      have hca : n.seg.CatchAll = false := by
        rcases hcond with h | h
        · exact absurd h hp
        · exact h
      exact (getLoop_walk path _ t.nodes path 0 { ctx with pathParams := [] }
        (by omega) (by omega) (by omega) hall).1 n ps hwalk (Or.inr hca)
  · intro hwalk
    unfold components at hwalk
    unfold trie.Get
    simp only
    by_cases hp : hasPrefix path ['/'] = true
    · simp only [hp, if_true] at hwalk ⊢
      have hlen : 1 ≤ path.length := by
        cases path with
        | nil => simp [hasPrefix] at hp
        | cons a b => simp
      exact (getLoop_walk path _ t.nodes (path.drop 1) 1 { ctx with pathParams := [] }
        (by omega) (by omega) (by simp only [List.length_drop]; omega) hall).2 hwalk
    · simp only [hp, Bool.false_eq_true, if_false] at hwalk ⊢
      exact (getLoop_walk path _ t.nodes path 0 { ctx with pathParams := [] }
        (by omega) (by omega) (by omega) hall).2 hwalk

/-- A capture `/{x}/a` registered before the literal `/b/c`: the lookup of `/b/c` descends
into the capture and fails, although the literal sibling leads to a match (the same routes
registered in the other order find it), and `/users/me` is served by the capture
registered before the literal `me`: witness of C11. -/
theorem C11_Get_is_single_first_match_walk_witness :
    (∃ c, trieCaptureThenLiteral.Get "/b/c".toList Context.Reset = .notFound c) ∧
    (∃ n c, trieLiteralThenCapture.Get "/b/c".toList Context.Reset = .found n c ∧
      n.seg = .segmentstring "c".toList ∧ c.pathParams = []) ∧
    (∃ n c, exampleCaptureFirstTrie.Get "/users/me".toList Context.Reset = .found n c ∧
      n.seg.String = "\x7buid\x7d".toList ∧ c.pathParams = [⟨"uid".toList, "me".toList⟩]) := by
  refine ⟨?_, ⟨_, _, rfl, rfl, rfl⟩, ?_⟩
  · exact (C11_Get_is_single_first_match_walk trieCaptureThenLiteral ⟨_, rfl⟩ "/b/c".toList
      Context.Reset).2.1 rfl
  · obtain ⟨c, h1, h2⟩ := (C11_Get_is_single_first_match_walk exampleCaptureFirstTrie ⟨_, rfl⟩
      "/users/me".toList Context.Reset).1 _ _ rfl (Or.inl rfl)
    exact ⟨_, c, h1, rfl, h2⟩

theorem intersectsLabels_iff (a : List Str) :
    ∀ b : List Str, a.length = b.length →
      (intersectsLabels a b = true ↔
        ∀ xy ∈ a.zip b, xy.1 = xy.2 ∨ xy.1 = ['*'] ∨ xy.2 = ['*']) := by
  induction a with
  | nil =>
    intro b _
    cases b <;> simp [intersectsLabels]
  | cons x xs ih =>
    intro b hl
    cases b with
    | nil => simp at hl
    | cons y ys =>
      have hl1 : xs.length = ys.length := by simpa using hl
      simp only [intersectsLabels, List.zip_cons_cons, List.mem_cons, forall_eq_or_imp]
      by_cases hc : x = y ∨ x = ['*'] ∨ y = ['*']
      · have hb : (decide (x = y) || decide (x = ['*']) || decide (y = ['*'])) = true := by
          rcases hc with h | h | h <;> simp [h]
        rw [if_pos hb, ih ys hl1]
        exact ⟨fun h => ⟨hc, h⟩, fun h => h.2⟩
      · have hb : ¬ (decide (x = y) || decide (x = ['*']) || decide (y = ['*'])) = true := by
          intro h
          apply hc
          simp only [Bool.or_eq_true, decide_eq_true_eq] at h
          tauto
        rw [if_neg hb]
        constructor
        · intro h; exact absurd h (by simp)
        · intro h; exact absurd h.1 hc

/-- C21: for all host patterns, `Intersects` is true iff the two patterns have the same
number of `.`-separated labels and at every position the two labels are equal or one of
them is `*`. Patterns with different label counts never intersect, and `Intersects` is
symmetric. -/
theorem C21_Intersects_labelwise :
    (∀ h1 h2 : hostentry, h1.Intersects h2 = true ↔
      ((split h1.host '.').length = (split h2.host '.').length ∧
        ∀ xy ∈ (split h1.host '.').zip (split h2.host '.'),
          xy.1 = xy.2 ∨ xy.1 = ['*'] ∨ xy.2 = ['*'])) ∧
    (∀ h1 h2 : hostentry, (split h1.host '.').length ≠ (split h2.host '.').length →
      h1.Intersects h2 = false) ∧
    (∀ h1 h2 : hostentry, h1.Intersects h2 = h2.Intersects h1) ∧
    patternsIntersect "*.example.com".toList "*.com".toList = false ∧
    patternsIntersect "*.example.com".toList "*.*.example.com".toList = false ∧
    patternsIntersect "*.example".toList "*.local".toList = false ∧
    patternsIntersect "*.example".toList "*.*".toList = true ∧
    patternsIntersect "*.example.com".toList "*.*.com".toList = true ∧
    patternsIntersect "*.*.com".toList "*.example.com".toList = true := by
  refine ⟨?_, ?_, ?_, by decide, by decide, by decide, by decide, by decide, by decide⟩
  · intro h1 h2
    unfold hostentry.Intersects
    simp only
    by_cases hl : (split h1.host '.').length = (split h2.host '.').length
    · rw [if_neg (fun e => e hl), intersectsLabels_iff _ _ hl]
      exact ⟨fun h => ⟨hl, h⟩, fun h => h.2⟩
    · rw [if_pos hl]
      constructor
      · intro h; exact absurd h (by simp)
      · intro h; exact absurd h.1 hl
  · intro h1 h2 hl
    unfold hostentry.Intersects
    simp only
    rw [if_pos hl]
  · intro h1 h2
    rw [Intersects_eq, Intersects_eq, patternsIntersect_comm]

/-- C22 (the code departs from the claim): on a fresh `HostRouter`, `AddHostname` of
`*.com` after `*.example.com` returns nil: the two patterns have different label counts,
so `Intersects` is false. -/
theorem C22_shorter_pattern_does_not_conflict :
    (NewHostRouter.AddHostname "*.example.com".toList).2 = none ∧
    ((NewHostRouter.AddHostname "*.example.com".toList).1.AddHostname "*.com".toList).2 = none ∧
    ((NewHostRouter.AddHostname "*.example.com".toList).1.AddHostname "*.com".toList).1.hosts.map
      hostentry.host = ["*.example.com".toList, "*.com".toList] := by
  refine ⟨by decide, by decide, by decide⟩

/-- C22, amended: on a fresh `HostRouter`, after `AddHostname` of `*.example.com` succeeds,
`AddHostname` of `*.com` succeeds as well, while `AddHostname` of `*.*.com`, which has the
same number of labels, fails with the error "host in intersection with *.example.com" and
registers nothing; `*.example.com` followed by `*.local` both succeed. -/
theorem C22_same_length_pattern_conflicts :
    (NewHostRouter.AddHostname "*.example.com".toList).2 = none ∧
    ((NewHostRouter.AddHostname "*.example.com".toList).1.AddHostname "*.com".toList).2 = none ∧
    ((NewHostRouter.AddHostname "*.example.com".toList).1.AddHostname "*.*.com".toList).2 =
      some (.hostIntersection "*.example.com".toList) ∧
    ((NewHostRouter.AddHostname "*.example.com".toList).1.AddHostname "*.*.com".toList).1.hosts.map
      hostentry.host = ["*.example.com".toList] ∧
    ((NewHostRouter.AddHostname "*.example.com".toList).1.AddHostname "*.local".toList).2 = none ∧
    ((NewHostRouter.AddHostname "*.example.com".toList).1.AddHostname "*.local".toList).1.hosts.map
      hostentry.host = ["*.example.com".toList, "*.local".toList] := by
  refine ⟨by decide, by decide, by decide, by decide, by decide, by decide⟩

theorem split_singleton (b x : Str) (c : Char) (h : split b c = [x]) : x = b := by
  rw [split_upTo] at h
  split at h
  · simpa using h.symm
  · simp only [List.cons.injEq] at h
    exact absurd h.2 (split_ne_nil _ _)

/-- The empty pattern intersects exactly the empty pattern and the pattern `*`. -/
theorem empty_pattern_intersects (b : Str) :
    patternsIntersect [] b = true ↔ (b = [] ∨ b = ['*']) := by
  have h0 : patternsIntersect [] b =
      (if (split ([] : Str) '.').length ≠ (split b '.').length then false
        else intersectsLabels (split [] '.') (split b '.')) := rfl
  rw [h0]
  have hs : split ([] : Str) '.' = [[]] := rfl
  rw [hs]
  cases hb : split b '.' with
  | nil => exact absurd hb (split_ne_nil _ _)
  | cons x rest =>
    cases rest with
    | nil =>
      have hx := split_singleton b x '.' hb
      subst hx
      simp only [List.length_singleton, ne_eq, not_true_eq_false, if_false, intersectsLabels]
      by_cases h1 : x = []
      · simp [h1]
      · by_cases h2 : x = ['*']
        · simp [h2]
        · have h3 : ¬ [] = x := fun e => h1 e.symm
          simp [h1, h2, h3]
    | cons y ys =>
      simp only [List.length_cons, List.length_nil]
      rw [if_pos (by omega)]
      constructor
      · intro h; exact absurd h (by simp)
      · rintro (h | h)
        · rw [h] at hb; simp [split] at hb
        · rw [h] at hb
          have : split ['*'] '.' = [['*']] := by decide
          rw [this] at hb
          simp at hb

theorem AddHostname_error (h : HostRouter) (p : Str) :
    (h.AddHostname p).2 =
      if !verifyHost p then some .invalidHost
      else (h.hosts.find? (fun e => patternsIntersect p e.host)).map
        (fun e => Err.hostIntersection e.host) := by
  unfold HostRouter.AddHostname
  split
  · rfl
  · have : (fun e : hostentry => hostentry.Intersects ⟨p, [], 0, trie.empty⟩ e) =
        (fun e => patternsIntersect p e.host) := by
      funext e; rfl
    simp only [this]
    cases h.hosts.find? (fun e => patternsIntersect p e.host) <;> rfl

theorem find_filter_irrelevant (P Q : hostentry → Bool) (hosts : List hostentry)
    (h : ∀ e ∈ hosts, Q e = false → P e = false) :
    hosts.find? P = (hosts.filter Q).find? P := by
  induction hosts with
  | nil => rfl
  | cons e rest ih =>
    have ih1 := ih (fun x hx => h x (List.mem_cons_of_mem _ hx))
    by_cases hq : Q e = true
    · simp only [List.filter_cons, hq, if_true, List.find?_cons]
      rw [ih1]
    · have hq2 : Q e = false := by simpa using hq
      have hp := h e (by simp) hq2
      simp only [List.filter_cons, hq2, Bool.false_eq_true, if_false, List.find?_cons, hp]
      exact ih1

/-- C23 (the code departs from the claim): the empty pattern is checked for intersection
like every other pattern. It has the single label `""`, so `AddHostname("")` fails when
`*` is registered, fails when the empty pattern is registered already, and a registered
empty pattern makes `AddHostname("*")` fail. -/
theorem C23_empty_pattern_conflicts :
    ((NewHostRouter.AddHostname ['*']).1.AddHostname []).2 = some (.hostIntersection ['*']) ∧
    (NewHostRouter.AddHostname []).2 = none ∧
    ((NewHostRouter.AddHostname []).1.AddHostname []).2 = some (.hostIntersection []) ∧
    ((NewHostRouter.AddHostname []).1.AddHostname ['*']).2 = some (.hostIntersection []) := by
  refine ⟨by decide, by decide, by decide, by decide⟩

/-- C23, amended: for every `HostRouter`, `AddHostname("")` fails, with a conflict, exactly
when a registered pattern is `*` or empty; and for every pattern `p` other than `*` and the
empty pattern, registered empty patterns do not change the outcome of `AddHostname(p)`: it
returns what it returns on the router without the empty patterns. -/
theorem C23_empty_pattern_conflicts_only_with_star (h : HostRouter) (p : Str)
    (hp1 : p ≠ []) (hp2 : p ≠ ['*']) :
    ((h.AddHostname []).2 ≠ none ↔ ∃ e ∈ h.hosts, e.host = [] ∨ e.host = ['*']) ∧
    (∀ e, (h.AddHostname []).2 = some e → ∃ x, e = .hostIntersection x) ∧
    ((∃ e ∈ h.hosts, e.host = []) → (h.AddHostname ['*']).2 ≠ none) ∧
    (h.AddHostname p).2 =
      (HostRouter.AddHostname ⟨h.hosts.filter (fun e => decide (e.host ≠ [])), h.allhost⟩ p).2 := by
  refine ⟨?_, ?_, ?_, ?_⟩
  · rw [AddHostname_error]
    have hv : verifyHost [] = true := by decide
    simp only [hv, Bool.not_true, Bool.false_eq_true, if_false, ne_eq, Option.map_eq_none',
      List.find?_eq_none, not_forall, Bool.not_eq_true, Bool.not_eq_false]
    constructor
    · rintro ⟨e, he, hi⟩
      exact ⟨e, he, (empty_pattern_intersects e.host).mp (by simpa using hi)⟩
    · rintro ⟨e, he, hi⟩
      exact ⟨e, he, by simpa using (empty_pattern_intersects e.host).mpr hi⟩
  · intro e he
    rw [AddHostname_error] at he
    have hv : verifyHost [] = true := by decide
    simp only [hv, Bool.not_true, Bool.false_eq_true, if_false, Option.map_eq_some'] at he
    obtain ⟨x, -, rfl⟩ := he
    exact ⟨_, rfl⟩
  · rintro ⟨e, he, h0⟩
    rw [AddHostname_error]
    have hv : verifyHost ['*'] = true := by decide
    simp only [hv, Bool.not_true, Bool.false_eq_true, if_false, ne_eq, Option.map_eq_none',
      List.find?_eq_none, not_forall, Bool.not_eq_true, Bool.not_eq_false]
    refine ⟨e, he, ?_⟩
    rw [h0]
    decide
  · rw [AddHostname_error, AddHostname_error]
    split
    · rfl
    · congr 1
      apply find_filter_irrelevant
      intro e _ hq
      have he : e.host = [] := by simpa using hq
      rw [he, patternsIntersect_comm]
      cases hpi : patternsIntersect [] p with
      | false => rfl
      | true =>
        rcases (empty_pattern_intersects p).mp hpi with h1 | h1
        · exact absurd h1 hp1
        · exact absurd h1 hp2

/-- The router with the patterns `""` and `*.example.com`: `AddHostname` of `""` fails,
`AddHostname` of `www.example.com` fails as it does without the empty pattern: witness of
the amended C23. -/
theorem C23_empty_pattern_conflicts_only_with_star_witness :
    (((NewHostRouter.run [.addHostname [], .addHostname "*.example.com".toList]).AddHostname
        []).2 ≠ none ↔
      ∃ e ∈ (NewHostRouter.run [.addHostname [], .addHostname "*.example.com".toList]).hosts,
        e.host = [] ∨ e.host = ['*']) ∧
    ((NewHostRouter.run [.addHostname [], .addHostname "*.example.com".toList]).AddHostname
        "www.example.com".toList).2 = some (.hostIntersection "*.example.com".toList) ∧
    ((NewHostRouter.run [.addHostname [], .addHostname "*.example.com".toList]).AddHostname
        "www.example.com".toList).2 =
      (HostRouter.AddHostname
        ⟨(NewHostRouter.run [.addHostname [], .addHostname "*.example.com".toList]).hosts.filter
          (fun e => decide (e.host ≠ [])),
         (NewHostRouter.run [.addHostname [], .addHostname "*.example.com".toList]).allhost⟩
        "www.example.com".toList).2 :=
  have h := C23_empty_pattern_conflicts_only_with_star
    (NewHostRouter.run [.addHostname [], .addHostname "*.example.com".toList])
    "www.example.com".toList (by decide) (by decide)
  ⟨h.1, by decide, h.2.2.2⟩

theorem addToHost_absent (rt : Route) (hosts : List hostentry)
    (h : ∀ e ∈ hosts, e.host ≠ rt.host) : addToHost rt hosts = (hosts, some .hostNotFound) := by
  induction hosts with
  | nil => rfl
  | cons e rest ih =>
    rw [addToHost, if_neg (h e (by simp)), ih (fun x hx => h x (List.mem_cons_of_mem _ hx))]

theorem addToHost_at (rt : Route) (e : hostentry) (post : List hostentry)
    (he : e.host = rt.host) (pre : List hostentry) (h : ∀ x ∈ pre, x.host ≠ rt.host) :
    addToHost rt (pre ++ e :: post) =
      (pre ++ { e with t := (e.t.Add (some rt)).1 } :: post, (e.t.Add (some rt)).2) := by
  induction pre with
  | nil => simp [addToHost, he]
  | cons x rest ih =>
    rw [List.cons_append, addToHost, if_neg (h x (by simp)),
      ih (fun y hy => h y (List.mem_cons_of_mem _ hy))]
    rfl

theorem AddRoute_no_methods (h : HostRouter) (r : Route) (hm : r.methods = []) :
    ∃ e, h.AddRoute (some r) = (h, some e) := by
  unfold HostRouter.AddRoute
  simp only
  split
  · exact ⟨_, rfl⟩
  · rw [if_pos (by simp [hm])]
    exact ⟨_, rfl⟩

/-- C27: for every non-nil route whose method set is empty, `trie.Add` and
`HostRouter.AddRoute` return an error and leave the trie and the router as they were,
whatever the path and the host of the route. -/
theorem C27_no_method_is_rejected (r : Route) (hm : r.methods = []) :
    (∀ t : trie, ∃ e, t.Add (some r) = (t, some e)) ∧
    (∀ h : HostRouter, ∃ e, h.AddRoute (some r) = (h, some e)) := by
  constructor
  · intro t
    cases hp : ParsePath r.path with
    | error e => exact ⟨e, trie_Add_parse_error t r e hp⟩
    | ok segs => exact ⟨_, trie_Add_no_method t r segs hp (by simp [hm])⟩
  · intro h
    exact AddRoute_no_methods h r hm

/-- The routes of `TestAddNoMathod` and `TestNoMethods`: witness of C27. -/
theorem C27_no_method_is_rejected_witness :
    trie.empty.Add (some (mkRoute "none" "/users" [])) = (trie.empty, some .noMethodOnPath) ∧
    NewHostRouter.AddRoute (some (mkRoute "none" "/foobar" [])) =
      (NewHostRouter, some .noMethodOnRoute) ∧
    ((∀ t : trie, ∃ e, t.Add (some (mkRoute "none" "/foobar" [])) = (t, some e)) ∧
      (∀ h : HostRouter, ∃ e, h.AddRoute (some (mkRoute "none" "/foobar" [])) = (h, some e))) :=
  ⟨rfl, rfl, C27_no_method_is_rejected (mkRoute "none" "/foobar" []) rfl⟩

theorem node_each_iff (P : node → Prop) (n : node) :
    n.Each P ↔ P n ∧ ∀ c ∈ n.nodes, c.Each P := by
  constructor
  · intro h
    cases h with
    | mk s m ns h1 h2 => exact ⟨h1, h2⟩
  · intro h
    cases n with
    | mk s m ns => exact node.Each.mk s m ns h.1 h.2

theorem visitNode_each (r : Route) (rest : List segment) (n : node)
    (hn : n.Each NodeOk) (hca : rest ≠ [] → n.seg.CatchAll = false)
    (ih : TrieOk n.nodes → TrieOk (addLoop r rest n.nodes).1) :
    (visitNode r rest n).1.Each NodeOk := by
  obtain ⟨h1, h2⟩ := (node_each_iff NodeOk n).1 hn
  cases rest with
  | nil =>
    rw [visitNode_last]
    split
    · exact hn
    · exact (node_each_iff NodeOk _).2 ⟨h1, h2⟩
  | cons s rest =>
    rw [visitNode_more]
    have hsub := ih ⟨h1.1, h2⟩
    refine (node_each_iff NodeOk _).2 ⟨⟨hsub.1, ?_⟩, hsub.2⟩
    intro hc
    have := hca (by simp)
    have hc2 : n.seg.CatchAll = true := hc
    rw [this] at hc2
    exact absurd hc2 (by simp)

theorem findNode_none_comparable {c : Str} {nodes : List node} (h : findNode c nodes = none) :
    ∀ x ∈ nodes, x.seg.Comparable ≠ c := by
  induction nodes with
  | nil => intro x hx; simp at hx
  | cons a rest ih =>
    intro x hx
    rw [findNode] at h
    split at h
    · simp at h
    · rename_i hne
      rcases List.mem_cons.mp hx with rfl | hx
      · exact hne
      · refine ih ?_ x hx
        cases hf : findNode c rest with
        | none => rfl
        | some y => simp [hf] at h

/-- The walk of `trie.Add` keeps the shape of the trie, when only the last segment of the
route can be a catch-all. -/
theorem addLoop_trieOk (r : Route) (segs : List segment)
    (hlast : ∀ s ∈ segs.dropLast, s.CatchAll = false) :
    ∀ nodes : List node, TrieOk nodes → TrieOk (addLoop r segs nodes).1 := by
  induction segs with
  | nil => intro nodes h; exact h
  | cons s rest ih =>
    intro nodes h
    have hrest : rest ≠ [] → s.CatchAll = false := by
      intro hne
      obtain ⟨a, b, rfl⟩ := List.exists_cons_of_ne_nil hne
      exact hlast s (by simp [List.dropLast])
    have ihr : ∀ ns, TrieOk ns → TrieOk (addLoop r rest ns).1 := by
      apply ih
      intro x hx
      cases rest with
      | nil => simp at hx
      | cons a b => exact hlast x (by rw [List.dropLast_cons₂]; exact List.mem_cons_of_mem _ hx)
    by_cases h1 : nodes.any (fun c => c.seg.CatchAll) = true
    · rw [addLoop]; simp only [h1, if_true]; exact h
    · simp only [Bool.not_eq_true] at h1
      by_cases h2 : (decide (nodes.length > 0) && s.CatchAll) = true
      · rw [addLoop]; simp only [h1, h2]; exact h
      · simp only [Bool.not_eq_true] at h2
        have hnoca : ∀ c ∈ nodes, c.seg.CatchAll = false := by
          intro c hc
          have := List.any_eq_false.mp h1 c hc
          simpa using this
        rw [addLoop_step r s rest nodes h1 h2]
        cases hf : findNode s.Comparable nodes with
        | none =>
          simp only
          have hfresh : (node.mk s [] []).Each NodeOk :=
            (node_each_iff NodeOk _).2
              ⟨⟨⟨Or.inl (by simp [node.nodes]), by simp [node.nodes]⟩, fun _ => rfl⟩,
                by simp [node.nodes]⟩
          have hv := visitNode_each r rest (node.mk s [] []) hfresh hrest (ihr _)
          have hvseg : (visitNode r rest (node.mk s [] [])).1.seg = s := visitNode_seg r rest _
          refine ⟨⟨?_, ?_⟩, ?_⟩
          · by_cases hs : s.CatchAll = true
            · right
              have hnil : nodes = [] := by
                cases nodes with
                | nil => rfl
                | cons a b => simp [hs] at h2
              subst hnil
              exact ⟨s, by simp [hvseg], hs⟩
            · left
              intro x hx
              simp only [List.map_append, List.map_cons, List.map_nil, List.mem_append,
                List.mem_map, List.mem_singleton] at hx
              rcases hx with ⟨c, hc, rfl⟩ | hx
              · exact hnoca c hc
              · rw [hx, hvseg]; simpa using hs
          · simp only [List.map_append, List.map_cons, List.map_nil, hvseg, List.map_map]
            rw [List.nodup_append]
            refine ⟨?_, by simp, ?_⟩
            · have := h.1.2
              simpa [List.map_map] using this
            · intro a ha
              simp only [List.mem_map, Function.comp] at ha
              obtain ⟨c, hc, rfl⟩ := ha
              simp only [List.mem_singleton]
              intro b
              exact findNode_none_comparable hf c hc b
          · intro c hc
            rcases List.mem_append.mp hc with hc | hc
            · exact h.2 c hc
            · simp only [List.mem_singleton] at hc
              subst hc
              exact hv
        | some x =>
          obtain ⟨pre, n, post⟩ := x
          obtain ⟨hn, -, -⟩ := findNode_some hf
          simp only
          have hnin : n ∈ nodes := by rw [hn]; simp
          have hv := visitNode_each r rest n (h.2 n hnin) (fun _ => hnoca n hnin) (ihr _)
          have hvseg : (visitNode r rest n).1.seg = n.seg := visitNode_seg r rest _
          have hmap : (pre ++ (visitNode r rest n).1 :: post).map node.seg = nodes.map node.seg := by
            rw [hn]
            simp [hvseg]
          refine ⟨?_, ?_⟩
          · unfold ChildrenOk
            rw [hmap]
            exact h.1
          · intro c hc
            rcases List.mem_append.mp hc with hc | hc
            · exact h.2 c (by rw [hn]; simp [hc])
            · rcases List.mem_cons.mp hc with rfl | hc
              · exact hv
              · exact h.2 c (by rw [hn]; simp [hc])

theorem trie_Add_trieOk (t : trie) (r : Option Route) (h : TrieOk t.nodes) :
    TrieOk (t.Add r).1.nodes := by
  cases r with
  | none => exact h
  | some r =>
    cases hp : ParsePath r.path with
    | error e => rw [trie_Add_parse_error t r e hp]; exact h
    | ok segs =>
      by_cases hm : r.methods.length = 0
      · rw [trie_Add_no_method t r segs hp hm]; exact h
      · have hg := addLoop_trieOk r segs
          (parseSegments_catchall_last _ segs (ParsePath_eq _ _ hp)) t.nodes h
        cases hl : addLoop r segs t.nodes with
        | mk nodes res =>
          rw [hl] at hg
          cases res with
          | error e => rw [trie_Add_walk_error t r segs nodes e hp hm hl]; exact hg
          | ok dm => rw [trie_Add_walk_ok t r segs nodes dm hp hm hl]; exact hg

theorem trie_AddAll_trieOk (rs : List (Option Route)) :
    ∀ t : trie, TrieOk t.nodes → TrieOk (t.AddAll rs).nodes := by
  induction rs with
  | nil => intro t h; exact h
  | cons r rs ih => intro t h; exact ih _ (trie_Add_trieOk t r h)

/-- C30: every trie reached from the empty trie by calls of `Add`, successful or failing,
satisfies at the root and at every node: either no child is a catch-all, or the node has
exactly one child and it is a catch-all; no two children have equal comparable signatures;
and a catch-all node has no children. -/
theorem C30_built_trie_shape (t : trie) (hb : t.Built) :
    ChildrenOk t.nodes ∧ ∀ c ∈ t.nodes, c.Each NodeOk := by
  obtain ⟨rs, rfl⟩ := hb
  exact trie_AddAll_trieOk rs trie.empty
    ⟨⟨Or.inl (by simp [trie.empty]), by simp [trie.empty]⟩, by simp [trie.empty]⟩

/-- A trie built by successful and failing calls: witness of C30. -/
theorem C30_built_trie_shape_witness :
    (trieMixed.nodes.map (fun c => c.seg.String) = ["static".toList, "users".toList]) ∧
    (trie.empty.Add (some (mkRoute "files" "/static/\x7b*\x7d" ["GET"]))).1.Add
      (some (mkRoute "hidden" "/static/app.js" ["GET"])) =
      ((trie.empty.Add (some (mkRoute "files" "/static/\x7b*\x7d" ["GET"]))).1,
        some .catchAllHiding) ∧
    (ChildrenOk trieMixed.nodes ∧ ∀ c ∈ trieMixed.nodes, c.Each NodeOk) :=
  ⟨rfl, rfl, C30_built_trie_shape trieMixed ⟨_, rfl⟩⟩

theorem rebase_congr (r : GetResult) (a b : Context) (h1 : a.Route = b.Route)
    (h2 : a.HostParams = b.HostParams) (h3 : a.RoutePath = b.RoutePath) :
    r.rebase a = r.rebase b := by
  cases r <;> simp [GetResult.rebase, h1, h2, h3]

/-- The loop of `trie.Get` reads and writes only `pathParams` and `RoutePath` of the
context. -/
theorem getLoop_rebase (originalpath : Str) (fuel : Nat) :
    ∀ (nodes : List node) (path : Str) (ior : Int) (ctx : Context),
      getLoop originalpath fuel nodes path ior ctx =
        (getLoop originalpath fuel nodes path ior
          { Context.Reset with pathParams := ctx.pathParams }).rebase ctx := by
  induction fuel with
  | zero => intro nodes path ior ctx; rfl
  | succ fuel ih =>
    intro nodes path ior ctx
    rw [getLoop, getLoop]
    simp only
    cases hs : scanNodes (upTo path '/') nodes ctx.pathParams with
    | none => rfl
    | some x =>
      obtain ⟨res, parms⟩ := x
      cases res with
      | none => rfl
      | some n =>
        simp only
        by_cases hca : n.seg.CatchAll = true
        · simp only [hca, if_true]
          cases sliceTo originalpath (ior - 1) <;> rfl
        · simp only [hca, Bool.false_eq_true, if_false]
          by_cases hc : containsByte path '/' = true
          · simp only [hc, Bool.not_true, Bool.false_eq_true, if_false]
            rw [ih]
            conv_rhs => rw [ih]
            simp only
            generalize getLoop originalpath fuel n.nodes _ _
              { Context.Reset with pathParams := parms } = r
            cases r <;> simp [GetResult.rebase]
          · simp only [hc, Bool.not_false, if_true]
            simp [GetResult.rebase, Context.Reset]

/-- `trie.Get` on a context `ctx` is `trie.Get` on a fresh context, with the fields that
`Get` does not write taken from `ctx`: the node, the path parameters and the route path do
not depend on what the context holds before the call. -/
theorem trie_Get_rebase (t : trie) (path : Str) (ctx : Context) :
    t.Get path ctx = (t.Get path Context.Reset).rebase ctx := by
  unfold trie.Get
  simp only
  rw [getLoop_rebase]
  conv_rhs => rw [getLoop_rebase]
  simp only
  generalize getLoop path _ t.nodes _ _ _ = r
  cases r <;> simp [GetResult.rebase, Context.Reset]

/-- `hostentry.Match` writes only `HostParams`, whatever the context holds before. -/
theorem Match_rebase (e : hostentry) (hostname : Str) (ctx : Context) :
    e.Match hostname ctx =
      (e.Match hostname Context.Reset).map
        (fun x => (x.1, { ctx with HostParams := x.2.HostParams })) := by
  unfold hostentry.Match
  cases matchLabels e.segs hostname 0 (List.replicate e.numwildcards []) <;> rfl

/-- The loop of `HostRouter.Get` passes the entries that decline the request; only
`HostParams` and `pathParams` of the context change on the way. -/
theorem getHosts_declined (allhost : trie) (hostname path : Str) (pre : List hostentry) :
    (∀ x ∈ pre, Declines x hostname path) →
    ∀ (rest : List hostentry) (ctx : Context),
      ∃ ctx1, getHosts allhost hostname path (pre ++ rest) ctx =
          getHosts allhost hostname path rest ctx1 ∧
        ctx1.Route = ctx.Route ∧ ctx1.RoutePath = ctx.RoutePath := by
  induction pre with
  | nil => intro _ rest ctx; exact ⟨ctx, rfl, rfl, rfl⟩
  | cons x pre ih =>
    intro hd rest ctx
    have ihp := ih (fun y hy => hd y (List.mem_cons_of_mem _ hy))
    rw [List.cons_append, getHosts, Match_rebase]
    rcases hd x (by simp) with ⟨c, hm⟩ | ⟨⟨c, hm⟩, ⟨c2, hg⟩⟩
    · rw [hm]
      simp only [Option.map_some']
      obtain ⟨ctx1, h1, h2, h3⟩ := ihp rest { ctx with HostParams := c.HostParams }
      exact ⟨ctx1, h1, h2, h3⟩
    · rw [hm]
      simp only [Option.map_some']
      rw [trie_Get_rebase, hg]
      simp only [GetResult.rebase]
      obtain ⟨ctx1, h1, h2, h3⟩ := ihp rest
        { ctx with HostParams := c.HostParams, pathParams := c2.pathParams }
      exact ⟨ctx1, h1, h2, h3⟩

/-- C25: for every `HostRouter`, hostname, path and context: when the entries before an
entry `e` decline the request (their pattern does not match, or it matches and their trie
has no match for the path) and `e` claims it, `HostRouter.Get` returns the result of the
trie of `e`, with the host parameters of the match of `e`; when every entry declines, it
returns the result of the any-host trie. The node, the path parameters and the route path
are those that the trie returns on a fresh context. -/
theorem C25_Get_first_claiming_entry (h : HostRouter) (hostname path : Str) (ctx : Context) :
    (∀ (pre post : List hostentry) (e : hostentry), h.hosts = pre ++ e :: post →
      (∀ x ∈ pre, Declines x hostname path) → Claims e hostname path →
      ∃ cm n c, e.Match hostname Context.Reset = some (true, cm) ∧
        e.t.Get path Context.Reset = .found n c ∧
        h.Get hostname path ctx =
          (e.t.Get path Context.Reset).rebase { ctx with HostParams := cm.HostParams } ∧
        h.Get hostname path ctx =
          .found n { ctx with HostParams := cm.HostParams, pathParams := c.pathParams,
                              RoutePath := c.RoutePath }) ∧
    ((∀ x ∈ h.hosts, Declines x hostname path) →
      ∃ hp, h.Get hostname path ctx =
        (h.allhost.Get path Context.Reset).rebase { ctx with HostParams := hp }) := by
  constructor
  · intro pre post e hh hpre hcl
    obtain ⟨⟨cm, hm⟩, ⟨n, c, hg⟩⟩ := hcl
    obtain ⟨ctx1, h1, h2, h3⟩ := getHosts_declined h.allhost hostname path pre hpre (e :: post) ctx
    have hget : h.Get hostname path ctx =
        (e.t.Get path Context.Reset).rebase { ctx with HostParams := cm.HostParams } := by
      unfold HostRouter.Get
      rw [hh, h1, getHosts, Match_rebase, hm]
      simp only [Option.map_some']
      rw [trie_Get_rebase, hg]
      simp only [GetResult.rebase, h2, h3]
    refine ⟨cm, n, c, hm, hg, hget, ?_⟩
    rw [hget, hg]
    rfl
  · intro hall
    obtain ⟨ctx1, h1, h2, h3⟩ := getHosts_declined h.allhost hostname path h.hosts hall [] ctx
    refine ⟨ctx1.HostParams, ?_⟩
    unfold HostRouter.Get
    rw [← List.append_nil h.hosts, h1, getHosts, trie_Get_rebase]
    exact rebase_congr _ _ _ h2 rfl h3

/-- The host `www.example.com` with the route `/a` and the any-host route `/b`: the lookup
of `/b` for `www.example.com` passes the matching entry, whose trie has no match, and is
answered by the any-host trie: witness of C25. -/
theorem C25_Get_first_claiming_entry_witness :
    (∃ n c, (NewHostRouter.run exampleFallback).Get "www.example.com".toList "/b".toList
        Context.Reset = .found n c ∧
      mapGet n.methods "GET".toList = some (mkHostRoute "b" "" "/b" ["GET"])) ∧
    (∃ hp, (NewHostRouter.run exampleFallback).Get "www.example.com".toList "/b".toList
        Context.Reset =
      ((NewHostRouter.run exampleFallback).allhost.Get "/b".toList Context.Reset).rebase
        { Context.Reset with HostParams := hp }) ∧
    (∃ n c, (NewHostRouter.run exampleFallback).Get "www.example.com".toList "/a".toList
        Context.Reset = .found n c ∧
      mapGet n.methods "GET".toList = some (mkHostRoute "a" "www.example.com" "/a" ["GET"])) :=
  ⟨⟨_, _, rfl, rfl⟩,
    (C25_Get_first_claiming_entry (NewHostRouter.run exampleFallback) "www.example.com".toList
      "/b".toList Context.Reset).2 (by
        intro x hx
        have hx2 : x ∈ [(NewHostRouter.run exampleFallback).hosts.headD
            (compiledEntry "www.example.com")] := hx
        simp only [List.mem_singleton] at hx2
        subst hx2
        exact Or.inr ⟨⟨_, rfl⟩, ⟨_, rfl⟩⟩),
    ⟨_, _, rfl, rfl⟩⟩

theorem addToHost_unchanged_of_error (rt : Route) (hosts : List hostentry)
    (h : (addToHost rt hosts).2 ≠ none) : (addToHost rt hosts).1 = hosts := by
  induction hosts with
  | nil => rfl
  | cons e rest ih =>
    rw [addToHost] at h ⊢
    split
    · rename_i he
      simp only [he, if_true] at h
      simp only [trie_Add_unchanged_of_error e.t (some rt) h]
    · rename_i he
      simp only [he, if_false] at h
      simp only [ih h]

theorem AddRoute_unchanged_of_error (h : HostRouter) (rt : Option Route)
    (he : (h.AddRoute rt).2 ≠ none) : (h.AddRoute rt).1 = h := by
  cases rt with
  | none => rfl
  | some rt =>
    unfold HostRouter.AddRoute at he ⊢
    simp only at he ⊢
    split
    · rfl
    · split
      · rfl
      · split
        · rename_i h1 h2 h3
          simp only [h1, h2, h3, if_false, if_true] at he
          simp only [trie_Add_unchanged_of_error h.allhost (some rt) he]
        · rename_i h1 h2 h3
          simp only [h1, h2, h3, if_false] at he
          simp only [addToHost_unchanged_of_error rt h.hosts he]

theorem AddHostname_unchanged_of_error (h : HostRouter) (p : Str)
    (he : (h.AddHostname p).2 ≠ none) : (h.AddHostname p).1 = h := by
  unfold HostRouter.AddHostname at he ⊢
  by_cases hv : verifyHost p = true
  · simp only [hv, Bool.not_true, Bool.false_eq_true, if_false] at he ⊢
    cases hf : h.hosts.find?
        (fun e => hostentry.Intersects ⟨p, [], 0, trie.empty⟩ e) with
    | none => rw [hf] at he; exact absurd rfl he
    | some e => rfl
  · simp only [hv, Bool.not_false, if_true]

theorem step_unchanged_of_error (h : HostRouter) (op : HostOp) (he : (h.step op).2 ≠ none) :
    (h.step op).1 = h := by
  cases op with
  | addHostname p => exact AddHostname_unchanged_of_error h p he
  | addRoute rt => exact AddRoute_unchanged_of_error h rt he

theorem step_fst (h : HostRouter) (op : HostOp) : (h.step op).1 = h.apply op := by
  cases op <;> rfl

theorem compileHosts_eq (hosts : List Str) :
    ∀ h : HostRouter, compileHosts h hosts = h.runUntilError (hosts.map HostOp.addHostname) := by
  induction hosts with
  | nil => intro h; rfl
  | cons hn rest ih =>
    intro h
    simp only [compileHosts, List.map_cons, HostRouter.runUntilError, HostRouter.step]
    cases hr : h.AddHostname hn with
    | mk h1 e =>
      cases e with
      | none => exact ih h1
      | some e => rfl

theorem compileRoutes_eq (routes : List (Option Route)) :
    ∀ h : HostRouter, compileRoutes h routes = h.runUntilError (routes.map HostOp.addRoute) := by
  induction routes with
  | nil => intro h; rfl
  | cons r rest ih =>
    intro h
    simp only [compileRoutes, List.map_cons, HostRouter.runUntilError, HostRouter.step]
    cases hr : h.AddRoute r with
    | mk h1 e =>
      cases e with
      | none => exact ih h1
      | some e => rfl

theorem runUntilError_append (a b : List HostOp) :
    ∀ h : HostRouter, h.runUntilError (a ++ b) =
      match h.runUntilError a with
      | (h1, some e) => (h1, some e)
      | (h1, none) => h1.runUntilError b := by
  induction a with
  | nil => intro h; rfl
  | cons op ops ih =>
    intro h
    simp only [List.cons_append, HostRouter.runUntilError]
    cases hs : h.step op with
    | mk h1 e =>
      cases e with
      | none => exact ih h1
      | some e => rfl

/-- `Compile` makes the calls of `compileOps` on a new host router until the first error,
and keeps the host router in both cases. -/
theorem Compile_eq (router : Router) :
    router.Compile =
      ({ router with hostRouter := some (NewHostRouter.runUntilError router.compileOps).1 },
        (NewHostRouter.runUntilError router.compileOps).2) := by
  unfold Router.Compile Router.compileOps
  rw [runUntilError_append, compileHosts_eq]
  cases h1 : NewHostRouter.runUntilError (router.hosts.map HostOp.addHostname) with
  | mk h1 e =>
    cases e with
    | some e => rfl
    | none =>
      simp only
      rw [compileRoutes_eq]

/-- A sequence of calls that stops with an error: the calls before the failing one have
succeeded, and the router is the one that they have built. -/
theorem runUntilError_error (ops : List HostOp) :
    ∀ (h : HostRouter) (err : Err), (h.runUntilError ops).2 = some err →
      ∃ done failing rest, ops = done ++ failing :: rest ∧ Succeeds h done ∧
        ((h.run done).step failing).2 = some err ∧ (h.runUntilError ops).1 = h.run done := by
  induction ops with
  | nil => intro h err he; simp [HostRouter.runUntilError] at he
  | cons op ops ih =>
    intro h err he
    rw [HostRouter.runUntilError] at he ⊢
    cases hs : h.step op with
    | mk h1 e =>
      rw [hs] at he
      cases e with
      | some e =>
        simp only [Option.some.injEq] at he
        subst he
        refine ⟨[], op, ops, rfl, trivial, by simp [HostRouter.run, hs], ?_⟩
        have := step_unchanged_of_error h op (by rw [hs]; simp)
        rw [hs] at this
        simpa [HostRouter.run] using this
      | none =>
        simp only at he ⊢
        obtain ⟨done, failing, rest, rfl, hok, hfail, hrun⟩ := ih h1 err he
        have h1eq : h1 = h.apply op := by
          rw [← step_fst, hs]
        refine ⟨op :: done, failing, rest, rfl, ⟨by rw [hs], by rw [← h1eq]; exact hok⟩, ?_, ?_⟩
        · simp only [HostRouter.run]; rw [← h1eq]; exact hfail
        · simp only [HostRouter.run]; rw [← h1eq]; exact hrun

/-- C28 (the code departs from the claim): `Compile` assigns the host router before it
registers anything and does not clear it when a registration fails. With the routes `/a`
(GET), a route without methods and `/c`, `Compile` returns "no method on route", and the
router still serves `/a`; `/c` is not registered. -/
theorem C28_failed_Compile_still_serves :
    (routerHalfCompiled.Compile).2 = some .noMethodOnRoute ∧
    (routerHalfCompiled.Compile).1.ServeHTTP Context.Reset
        ⟨"example.com".toList, "GET".toList, [], "/a".toList⟩ =
      .handled (mkRoute "a" "/a" ["GET"])
        ⟨some (mkRoute "a" "/a" ["GET"]), [], [], "/a".toList⟩ ∧
    (routerHalfCompiled.Compile).1.ServeHTTP Context.Reset
        ⟨"example.com".toList, "GET".toList, [], "/c".toList⟩ = .notFound none := by
  refine ⟨rfl, rfl, rfl⟩

/-- C28, amended: if `Router.Compile` returns an error, the router keeps the host router
built by the registrations before the failing one, which have all succeeded: the failing
registration and the later ones are not registered, and `ServeHTTP` answers every request
from the hostnames and routes registered before the failing one. -/
theorem C28_failed_Compile_keeps_earlier_registrations (router : Router) (err : Err)
    (hc : (router.Compile).2 = some err) :
    ∃ done failing rest, router.compileOps = done ++ failing :: rest ∧
      Succeeds NewHostRouter done ∧
      ((NewHostRouter.run done).step failing).2 = some err ∧
      (router.Compile).1.hostRouter = some (NewHostRouter.run done) ∧
      ∀ (pooled : Context) (req : Request),
        (router.Compile).1.ServeHTTP pooled req =
          Router.ServeHTTP { router with hostRouter := some (NewHostRouter.run done) } pooled req := by
  rw [Compile_eq] at hc ⊢
  obtain ⟨done, failing, rest, hops, hok, hfail, hrun⟩ :=
    runUntilError_error router.compileOps NewHostRouter err hc
  refine ⟨done, failing, rest, hops, hok, hfail, ?_, ?_⟩
  · simp only [hrun]
  · intro pooled req
    simp only [hrun]

/-- The router with the routes `/a`, a route without methods and `/c`: witness of the
amended C28. -/
theorem C28_failed_Compile_keeps_earlier_registrations_witness :
    ∃ done failing rest, routerHalfCompiled.compileOps = done ++ failing :: rest ∧
      Succeeds NewHostRouter done ∧
      ((NewHostRouter.run done).step failing).2 = some .noMethodOnRoute ∧
      (routerHalfCompiled.Compile).1.hostRouter = some (NewHostRouter.run done) ∧
      ∀ (pooled : Context) (req : Request),
        (routerHalfCompiled.Compile).1.ServeHTTP pooled req =
          Router.ServeHTTP
            { routerHalfCompiled with hostRouter := some (NewHostRouter.run done) } pooled req :=
  C28_failed_Compile_keeps_earlier_registrations routerHalfCompiled .noMethodOnRoute rfl

theorem scanNodes_mem (p : Str) (nodes : List node) :
    ∀ (parms parms1 : List PathParam) (n : node),
      scanNodes p nodes parms = some (some n, parms1) → n ∈ nodes := by
  induction nodes with
  | nil => intro parms parms1 n h; simp [scanNodes] at h
  | cons c rest ih =>
    intro parms parms1 n h
    rw [scanNodes] at h
    cases hm : c.seg.Match p parms with
    | none => simp [hm] at h
    | some x =>
      obtain ⟨b, ps⟩ := x
      cases b with
      | true =>
        simp only [hm, Option.some.injEq, Prod.mk.injEq] at h
        rw [← h.1]
        exact List.mem_cons_self _ _
      | false =>
        simp only [hm] at h
        exact List.mem_cons_of_mem _ (ih _ _ _ h)

/-- A node that `trie.Get` returns has every property that all nodes of the trie have. -/
theorem getLoop_found_each (P : node → Prop) (originalpath : Str) (fuel : Nat) :
    ∀ (nodes : List node) (path : Str) (ior : Int) (ctx c : Context) (n : node),
      (∀ x ∈ nodes, x.Each P) →
      getLoop originalpath fuel nodes path ior ctx = .found n c → P n := by
  induction fuel with
  | zero => intro nodes path ior ctx c n _ h; simp [getLoop] at h
  | succ fuel ih =>
    intro nodes path ior ctx c n hall h
    rw [getLoop] at h
    simp only at h
    cases hs : scanNodes (upTo path '/') nodes ctx.pathParams with
    | none => simp [hs] at h
    | some x =>
      obtain ⟨res, parms⟩ := x
      cases res with
      | none => simp [hs] at h
      | some m =>
        simp only [hs] at h
        have hm := (node_each_iff P m).1 (hall m (scanNodes_mem _ _ _ _ _ hs))
        split at h
        · split at h
          · simp at h
          · simp only [GetResult.found.injEq] at h
            rw [← h.1]; exact hm.1
        · split at h
          · simp only [GetResult.found.injEq] at h
            rw [← h.1]; exact hm.1
          · exact ih _ _ _ _ _ _ hm.2 h

theorem trie_Get_found_each (P : node → Prop) (t : trie) (h : ∀ x ∈ t.nodes, x.Each P)
    (path : Str) (ctx c : Context) (n : node) (hg : t.Get path ctx = .found n c) : P n :=
  getLoop_found_each P _ _ _ _ _ _ _ _ h hg

/-- The walk of `trie.Add` on an empty child list: every node it creates has an empty
method table, or binds the methods of the route to the route and nothing else. -/
theorem addLoop_fresh_methods (r : Route) (segs : List segment) :
    ∀ x ∈ (addLoop r segs []).1,
      x.Each (fun n => n.methods = [] ∨ n.methods = setAll r []) := by
  induction segs with
  | nil => intro x hx; simp [addLoop] at hx
  | cons s rest ih =>
    intro x hx
    rw [addLoop_step r s rest [] (by simp) (by simp)] at hx
    simp only [findNode, List.nil_append, List.mem_singleton] at hx
    subst hx
    cases rest with
    | nil =>
      rw [visitNode_last]
      have : alreadySet r (node.mk s [] []).methods = false := by simp [alreadySet, node.methods]
      simp only [this, Bool.false_eq_true, if_false]
      exact (node_each_iff _ _).2 ⟨Or.inr rfl, by simp [node.nodes]⟩
    | cons s2 rest2 =>
      rw [visitNode_more]
      exact (node_each_iff _ _).2 ⟨Or.inl rfl, ih⟩

/-- A trie with a single route: the method table of a node that `trie.Get` returns is
empty, or it binds exactly the methods of the route, each to the route. -/
theorem single_route_methods (r : Route) (path : Str) (ctx c : Context) (n : node)
    (hg : (trie.empty.Add (some r)).1.Get path ctx = .found n c) :
    n.methods = [] ∨ ∀ k, mapGet n.methods k = if k ∈ r.methods then some r else none := by
  have hall : ∀ x ∈ (trie.empty.Add (some r)).1.nodes,
      x.Each (fun n => n.methods = [] ∨ n.methods = setAll r []) := by
    cases hp : ParsePath r.path with
    | error e => rw [trie_Add_parse_error _ r e hp]; simp [trie.empty]
    | ok segs =>
      by_cases hm : r.methods.length = 0
      · rw [trie_Add_no_method _ r segs hp hm]; simp [trie.empty]
      · have hf := addLoop_fresh_methods r segs
        cases hl : addLoop r segs trie.empty.nodes with
        | mk nodes res =>
          have hl2 : addLoop r segs [] = (nodes, res) := hl
          rw [hl2] at hf
          cases res with
          | error e => rw [trie_Add_walk_error _ r segs nodes e hp hm hl]; exact hf
          | ok dm => rw [trie_Add_walk_ok _ r segs nodes dm hp hm hl]; exact hf
  rcases trie_Get_found_each _ _ hall path ctx c n hg with h | h
  · exact Or.inl h
  · right
    intro k
    rw [h, mapGet_setAll]
    split <;> rfl

/-- C26 (the code departs from the claim): with the single route `/users/{userid}` for GET
and HEAD, `trie.Get` returns a match on `/users`, the node of the first component, whose
method map is empty: its key set is not the method set of the route, and `ServeHTTP`
answers 405 with an empty `Allow` list. On `/users/42` the map binds GET and HEAD to the
route: GET is served with `userid = 42`, POST is answered 405 with `Allow` GET, HEAD. -/
theorem C26_match_with_empty_method_map :
    (trie.empty.Add (some (mkRoute "user" "/users/\x7buserid\x7d" ["GET", "HEAD"]))).2 = none ∧
    (∃ n c, trieUsers.Get "/users".toList Context.Reset = .found n c ∧ n.methods = []) ∧
    (∃ n c, trieUsers.Get "/users/42".toList Context.Reset = .found n c ∧
      n.methods.map Prod.fst = ["GET".toList, "HEAD".toList] ∧
      mapGet n.methods "GET".toList =
        some (mkRoute "user" "/users/\x7buserid\x7d" ["GET", "HEAD"]) ∧
      mapGet n.methods "HEAD".toList =
        some (mkRoute "user" "/users/\x7buserid\x7d" ["GET", "HEAD"]) ∧
      mapGet n.methods "POST".toList = none ∧
      c.PathParam "userid".toList = "42".toList) ∧
    routerUsers.ServeHTTP Context.Reset ⟨"example.com".toList, "GET".toList, [], "/users".toList⟩ =
      .methodNotAllowed [] ∧
    routerUsers.ServeHTTP Context.Reset
        ⟨"example.com".toList, "POST".toList, [], "/users/42".toList⟩ =
      .methodNotAllowed ["GET".toList, "HEAD".toList] ∧
    routerUsers.ServeHTTP Context.Reset
        ⟨"example.com".toList, "GET".toList, [], "/users/42".toList⟩ =
      .handled (mkRoute "user" "/users/\x7buserid\x7d" ["GET", "HEAD"])
        ⟨some (mkRoute "user" "/users/\x7buserid\x7d" ["GET", "HEAD"]),
          [⟨"userid".toList, "42".toList⟩], [], "/users/42".toList⟩ := by
  refine ⟨rfl, ⟨_, _, rfl, rfl⟩, ⟨_, _, rfl, rfl, rfl, rfl, rfl, rfl⟩, rfl, rfl, rfl⟩

theorem reset_eq (ctx : Context) : ctx.reset = Context.Reset := rfl

/-- `ServeHTTP` is the lookup on a reset context followed by the answer, whatever the
context from the pool holds. -/
theorem ServeHTTP_eq (router : Router) (pooled : Context) (r : Request) :
    router.ServeHTTP pooled r =
      match router.hostRouter with
      | none => .notFound router.NotFoundHandler
      | some hr => router.respond r (hr.Get r.hostname r.routePath Context.Reset) := by
  unfold Router.ServeHTTP
  cases hh : router.hostRouter with
  | none => rfl
  | some hr =>
    simp only [reset_eq]
    have hrp : (if Context.Reset.RoutePath = [] then (if r.RawPath ≠ [] then r.RawPath else r.Path)
        else Context.Reset.RoutePath) = r.routePath := rfl
    rw [hrp]
    have hhn : (if containsByte r.Host ':' = true then
        match splitHostPort r.Host with
        | some hp => hp.1
        | none => []
        else r.Host) = r.hostname := rfl
    rw [hhn]
    cases hr.Get r.hostname r.routePath Context.Reset <;> rfl

theorem lookupIter_add (allhost : trie) (hostname path : Str) (a b : Nat) :
    ∀ s, lookupIter allhost hostname path (a + b) s =
      lookupIter allhost hostname path b (lookupIter allhost hostname path a s) := by
  induction a with
  | zero => intro s; simp [lookupIter]
  | succ a ih =>
    intro s
    rw [Nat.succ_add, lookupIter, lookupIter, ih]

theorem lookupIter_done (allhost : trie) (hostname path : Str) (r : GetResult) :
    ∀ k, lookupIter allhost hostname path k (.done r) = .done r := by
  intro k
  induction k with
  | zero => rfl
  | succ k ih => rw [lookupIter, lookupStep, ih]

/-- The steps inside a trie compute the loop of `trie.Get`. -/
theorem lookup_inTrie (allhost : trie) (hostname path : Str) (cont : Option (List hostentry))
    (originalpath : Str) (fuel : Nat) :
    ∀ (nodes : List node) (p : Str) (ior : Int) (ctx : Context), p.length < fuel →
      ∃ k, lookupIter allhost hostname path k (.inTrie cont originalpath nodes p ior ctx) =
        afterTrie cont (getLoop originalpath fuel nodes p ior ctx) := by
  induction fuel with
  | zero => intro nodes p ior ctx h; omega
  | succ fuel ih =>
    intro nodes p ior ctx hlen
    rw [getLoop]
    simp only
    cases hs : scanNodes (upTo p '/') nodes ctx.pathParams with
    | none => exact ⟨1, by simp [lookupIter, lookupStep, hs, afterTrie]⟩
    | some x =>
      obtain ⟨res, parms⟩ := x
      cases res with
      | none => exact ⟨1, by simp [lookupIter, lookupStep, hs]⟩
      | some n =>
        simp only
        by_cases hca : n.seg.CatchAll = true
        · refine ⟨1, ?_⟩
          simp only [lookupIter, lookupStep, hs, hca, if_true]
          cases sliceTo originalpath (ior - 1) <;> simp [afterTrie]
        · simp only [hca, Bool.false_eq_true, if_false]
          by_cases hc : containsByte p '/' = true
          · simp only [hc, Bool.not_true, Bool.false_eq_true, if_false]
            have hlt : (p.drop ((upTo p '/').length + 1)).length < fuel := by
              have := congrArg List.length (upTo_append_drop p '/' hc)
              simp only [List.length_append, List.length_cons] at this
              omega
            obtain ⟨k, hk⟩ := ih n.nodes (p.drop ((upTo p '/').length + 1))
              (ior + ((upTo p '/').length + 1)) { ctx with pathParams := parms } hlt
            refine ⟨k + 1, ?_⟩
            rw [lookupIter]
            simp only [lookupStep, hs, hca, Bool.false_eq_true, if_false, hc, Bool.not_true]
            exact hk
          · refine ⟨1, ?_⟩
            simp [lookupIter, lookupStep, hs, hca, hc, afterTrie]

theorem lookup_trieStart (allhost : trie) (hostname path : Str) (cont : Option (List hostentry))
    (t : trie) (ctx : Context) :
    ∃ k, lookupIter allhost hostname path k (trieStart cont t path ctx) =
      afterTrie cont (t.Get path ctx) := by
  unfold trieStart trie.Get
  simp only
  apply lookup_inTrie
  omega

/-- A lone caller: the steps of a lookup, run one after the other, end with the result of
`HostRouter.Get`. -/
theorem lookup_atHost (allhost : trie) (hostname path : Str) (hosts : List hostentry) :
    ∀ ctx, ∃ k, lookupIter allhost hostname path k (.atHost hosts ctx) =
      .done (getHosts allhost hostname path hosts ctx) := by
  induction hosts with
  | nil =>
    intro ctx
    obtain ⟨k, hk⟩ := lookup_trieStart allhost hostname path none allhost ctx
    refine ⟨k + 1, ?_⟩
    rw [lookupIter, lookupStep, hk, getHosts]
    cases allhost.Get path ctx <;> rfl
  | cons e rest ih =>
    intro ctx
    rw [getHosts]
    cases hm : e.Match hostname ctx with
    | none => exact ⟨1, by simp [lookupIter, lookupStep, hm]⟩
    | some x =>
      obtain ⟨b, ctx1⟩ := x
      cases b with
      | false =>
        obtain ⟨k, hk⟩ := ih ctx1
        refine ⟨k + 1, ?_⟩
        rw [lookupIter]
        simp only [lookupStep, hm]
        exact hk
      | true =>
        obtain ⟨k1, hk1⟩ := lookup_trieStart allhost hostname path (some rest) e.t ctx1
        simp only
        cases hg : e.t.Get path ctx1 with
        | notFound c2 =>
          obtain ⟨k2, hk2⟩ := ih c2
          refine ⟨(k1 + k2) + 1, ?_⟩
          rw [lookupIter]
          simp only [lookupStep, hm]
          rw [lookupIter_add, hk1, hg]
          exact hk2
        | found n c =>
          refine ⟨k1 + 1, ?_⟩
          rw [lookupIter]
          simp only [lookupStep, hm]
          rw [hk1, hg]
          rfl
        | panic =>
          refine ⟨k1 + 1, ?_⟩
          rw [lookupIter]
          simp only [lookupStep, hm]
          rw [hk1, hg]
          rfl
        | outOfFuel =>
          refine ⟨k1 + 1, ?_⟩
          rw [lookupIter]
          simp only [lookupStep, hm]
          rw [hk1, hg]
          rfl

theorem lookupIter_succ (allhost : trie) (hostname path : Str) (k : Nat) (s : LookupState) :
    lookupIter allhost hostname path (k + 1) s =
      lookupStep allhost hostname path (lookupIter allhost hostname path k s) := by
  rw [lookupIter_add]
  rfl

/-- A lookup that has returned, after any number of steps from its start, has returned the
result of `HostRouter.Get`. -/
theorem lookup_done_eq (hr : HostRouter) (hostname path : Str) (ctx : Context) (k : Nat)
    (r : GetResult)
    (h : lookupIter hr.allhost hostname path k (.atHost hr.hosts ctx) = .done r) :
    r = hr.Get hostname path ctx := by
  obtain ⟨k0, hk0⟩ := lookup_atHost hr.allhost hostname path hr.hosts ctx
  have h1 := lookupIter_add hr.allhost hostname path k k0 (.atHost hr.hosts ctx)
  have h2 := lookupIter_add hr.allhost hostname path k0 k (.atHost hr.hosts ctx)
  rw [h, lookupIter_done] at h1
  rw [hk0, lookupIter_done, Nat.add_comm, h1] at h2
  injection h2

theorem getElem?_set_same {α : Type} (l : List α) (i : Nat) (a b : α)
    (h : l[i]? = some a) : (l.set i b)[i]? = some b := by
  have hi : i < l.length := by
    by_contra hn
    rw [List.getElem?_eq_none (by omega)] at h
    cases h
  rw [List.getElem?_set]
  simp [hi]

theorem within_iff (k : Nat) (n : node) :
    n.Within k ↔ n.seg.NumVars ≤ k ∧ ∀ c ∈ n.nodes, c.Within (k - n.seg.NumVars) := by
  constructor
  · intro h
    cases h with
    | mk _ s m ns h1 h2 => exact ⟨h1, h2⟩
  · intro h
    cases n with
    | mk s m ns => exact node.Within.mk k s m ns h.1 h.2

theorem within_mono (n : node) (k : Nat) (h : n.Within k) : ∀ K, k ≤ K → n.Within K := by
  induction h with
  | mk k s m ns h1 _ ih =>
    intro K hK
    exact node.Within.mk K s m ns (by omega) (fun c hc => ih c hc _ (by omega))

theorem rxRun_length (prog : List rxpiece) :
    ∀ (p : Str) (caps : List Str), rxRun prog p = some caps → caps.length = rxGroups prog := by
  induction prog with
  | nil =>
    intro p caps h
    rw [rxRun] at h
    split at h
    · injection h with h; subst h; rfl
    · cases h
  | cons x ps ih =>
    intro p caps h
    cases x with
    | lit s =>
      rw [rxRun] at h
      split at h
      · exact ih _ _ h
      · cases h
    | grp g =>
      rw [rxRun] at h
      obtain ⟨k, -, hk⟩ := List.exists_of_findSome?_eq_some h
      cases hr : rxRun ps (p.drop k) with
      | none => simp [hr] at hk
      | some c0 =>
        simp only [hr, Option.map_some', Option.some.injEq] at hk
        subst hk
        simp [rxGroups, ih _ _ hr]

theorem compileSub_groups (sub : Str) : rxGroups (compileSub sub) ≤ 1 := by
  unfold compileSub
  split
  · simp [rxGroups]
  · split
    · simp [rxGroups]
    · split
      · simp [rxGroups]
      · split
        · simp [rxGroups]
        · split <;> simp [rxGroups]

theorem rxGroups_append (a b : List rxpiece) : rxGroups (a ++ b) = rxGroups a + rxGroups b := by
  induction a with
  | nil => simp [rxGroups]
  | cons x a ih =>
    cases x with
    | lit s => simp [rxGroups, ih]
    | grp g => simp [rxGroups, ih]; omega

theorem regexPieces_groups (r : Str) (findings : List (Nat × Nat)) :
    ∀ (init : Nat) (txt : Str) (prog : List rxpiece) (names : List Str),
      regexPieces r findings init = .ok (txt, prog, names) → rxGroups prog ≤ findings.length := by
  induction findings with
  | nil =>
    intro init txt prog names h
    simp only [regexPieces, Except.ok.injEq, Prod.mk.injEq] at h
    obtain ⟨-, rfl, -⟩ := h
    simp [rxGroups]
  | cons f fs ih =>
    intro init txt prog names h
    obtain ⟨fi, fe⟩ := f
    rw [regexPieces] at h
    cases hp : pathSubstitute (slice r fi fe) with
    | error e => simp [hp] at h
    | ok x =>
      obtain ⟨fname, sub⟩ := x
      simp only [hp] at h
      cases hq : regexPieces r fs fe with
      | error e => simp [hq] at h
      | ok y =>
        obtain ⟨txt1, prog1, names1⟩ := y
        simp only [hq, Except.ok.injEq, Prod.mk.injEq] at h
        obtain ⟨-, rfl, -⟩ := h
        have h1 := ih fe txt1 prog1 names1 hq
        have h2 := compileSub_groups sub
        rw [rxGroups_append, rxGroups, List.length_cons]
        omega

theorem count_drop_le (s : Str) (c : Char) (k : Nat) : (s.drop k).count c ≤ s.count c := by
  have h := congrArg (List.count c) (List.take_append_drop k s)
  rw [List.count_append] at h
  omega

/-- The matches of `bracketSimplistic` are disjoint and each starts with an opening brace. -/
theorem findBrackets_count (fuel : Nat) :
    ∀ (off : Nat) (s : Str), (findBrackets fuel off s).length ≤ countByte s '{' := by
  induction fuel with
  | zero => intro off s; simp [findBrackets]
  | succ fuel ih =>
    intro off s
    cases s with
    | nil => simp [findBrackets]
    | cons c rest =>
      rw [findBrackets]
      cases hb : bracketAt (c :: rest) with
      | none =>
        simp only
        have h1 := ih (off + 1) rest
        unfold countByte at h1 ⊢
        have h2 : rest.count '{' ≤ (c :: rest).count '{' := by
          rw [List.count_cons]; omega
        omega
      | some len =>
        simp only [List.length_cons]
        obtain ⟨c1, rest1, hs, -, hlen⟩ := bracketAt_some _ _ hb
        have hc : c = '{' := by
          injection hs with h1 _
        subst hc
        have h1 := ih (off + len) (('{' :: rest).drop len)
        unfold countByte at h1 ⊢
        have h2 : (('{' :: rest).drop len).count '{' ≤ rest.count '{' := by
          obtain ⟨l, rfl⟩ : ∃ l, len = l + 1 := ⟨len - 1, by omega⟩
          rw [List.drop_succ_cons]
          exact count_drop_le _ _ _
        rw [List.count_cons_self]
        omega

theorem zipFields_length (fields : List Str) :
    ∀ (caps : List Str) (ps : List PathParam), segment.zipFields fields caps = some ps →
      ps.length = caps.length := by
  induction fields with
  | nil =>
    intro caps ps h
    cases caps with
    | nil => simp only [segment.zipFields, Option.some.injEq] at h; subst h; rfl
    | cons c cs => simp [segment.zipFields] at h
  | cons f fs ih =>
    intro caps ps h
    cases caps with
    | nil => simp only [segment.zipFields, Option.some.injEq] at h; subst h; rfl
    | cons c cs =>
      rw [segment.zipFields] at h
      cases hz : segment.zipFields fs cs with
      | none => simp [hz] at h
      | some ps0 =>
        simp only [hz, Option.map_some', Option.some.injEq] at h
        subst h
        simp [ih cs ps0 hz]

/-- A segment that `NewSegmentRegex` builds has at most `NumVars` capture groups. -/
theorem NewSegmentRegex_groups (x : Str) (re : Regexp) (original : Str) (fields : List Str)
    (h : NewSegmentRegex x = .ok (.segmentregex re original fields)) :
    (re.anchored = true → rxGroups re.prog ≤ countByte original '{') := by
  intro ha
  unfold NewSegmentRegex at h
  split at h
  · cases h
  · split at h
    · cases h
    · simp only at h
      split at h
      · simp only [Except.ok.injEq, segment.segmentregex.injEq] at h
        obtain ⟨rfl, -, -⟩ := h
        simp at ha
      · cases hq : regexPieces x (bracketFindAll x) 0 with
        | error e => simp [hq] at h
        | ok y =>
          obtain ⟨txt, prog, names⟩ := y
          simp only [hq, Except.ok.injEq, segment.segmentregex.injEq] at h
          obtain ⟨rfl, rfl, -⟩ := h
          have h1 := regexPieces_groups x (bracketFindAll x) 0 txt prog names hq
          have h2 := findBrackets_count x.length 0 x
          unfold bracketFindAll at h1
          simp only
          omega

/-- A successful `Match` of a created segment appends at most `NumVars` parameters; on a
catch-all it appends none, which leaves room for the parameter `*` of `trie.Get`. -/
theorem Match_count (s : segment) (hs : Created s) (p : Str) (parms ps : List PathParam)
    (h : s.Match p parms = some (true, ps)) :
    ps.length + (if s.CatchAll = true then 1 else 0) ≤ parms.length + s.NumVars := by
  obtain ⟨x, hx⟩ := hs
  cases s with
  | segmentstring t =>
    simp only [segment.Match, Option.some.injEq, Prod.mk.injEq] at h
    obtain ⟨-, rfl⟩ := h
    simp [segment.CatchAll, segment.NumVars]
  | segmentcatchallstring =>
    simp only [segment.Match, Option.some.injEq, Prod.mk.injEq] at h
    obtain ⟨-, rfl⟩ := h
    simp [segment.CatchAll, segment.NumVars]
  | segmentany comp original fieldname =>
    simp only [segment.Match] at h
    split at h
    · simp at h
    · simp only [Option.some.injEq, Prod.mk.injEq, true_and] at h
      subst h
      simp [segment.CatchAll, segment.NumVars]
  | segmentregex re original fields =>
    have hnew : NewSegmentRegex x = .ok (.segmentregex re original fields) := by
      unfold createSegment at hx
      split at hx
      · cases hx
      · split at hx
        · split at hx
          · simp [newSegmentAny] at hx
          · exact hx
        · cases hx
    have hg := NewSegmentRegex_groups x re original fields hnew
    simp only [segment.Match] at h
    simp only [segment.CatchAll, segment.NumVars, Bool.false_eq_true, if_false, Nat.add_zero]
    split at h
    · rename_i caps hfind
      cases hz : segment.zipFields fields caps with
      | none => simp [hz] at h
      | some ps0 =>
        simp only [hz, Option.map_some', Option.some.injEq, Prod.mk.injEq, true_and] at h
        subst h
        have hl := zipFields_length fields caps ps0 hz
        have hcaps : caps.length ≤ countByte original '{' := by
          unfold Regexp.FindAllStringSubmatch at hfind
          by_cases ha : re.anchored = true
          · simp only [ha, if_true] at hfind
            cases hr : rxRun re.prog p with
            | none => simp [hr] at hfind
            | some c0 =>
              simp only [hr, List.cons.injEq, and_true] at hfind
              subst hfind
              rw [rxRun_length _ _ _ hr]
              exact hg ha
          · simp only [ha, Bool.false_eq_true, if_false] at hfind
            split at hfind
            · split at hfind
              · simp only [List.cons.injEq, and_true] at hfind
                subst hfind
                simp
              · cases hfind
            · cases hfind
        simp only [List.length_append]
        omega
    · simp at h

theorem scanNodes_count (p : Str) (nodes : List node) (hn : ∀ c ∈ nodes, Created c.seg) :
    ∀ (parms parms1 : List PathParam) (res : Option node),
      scanNodes p nodes parms = some (res, parms1) →
      (res = none → parms1 = parms) ∧
      (∀ n, res = some n → n ∈ nodes ∧
        parms1.length + (if n.seg.CatchAll = true then 1 else 0) ≤
          parms.length + n.seg.NumVars) := by
  induction nodes with
  | nil =>
    intro parms parms1 res h
    simp only [scanNodes, Option.some.injEq, Prod.mk.injEq] at h
    obtain ⟨rfl, rfl⟩ := h
    exact ⟨fun _ => rfl, fun n hn => by cases hn⟩
  | cons c rest ih =>
    intro parms parms1 res h
    rw [scanNodes] at h
    cases hm : c.seg.Match p parms with
    | none => simp [hm] at h
    | some x =>
      obtain ⟨b, ps⟩ := x
      cases b with
      | true =>
        simp only [hm, Option.some.injEq, Prod.mk.injEq] at h
        obtain ⟨rfl, rfl⟩ := h
        constructor
        · intro hno
          cases hno
        · intro n hn1
          injection hn1 with hn1
          subst hn1
          exact ⟨List.mem_cons_self _ _,
            Match_count _ (hn _ (List.mem_cons_self _ _)) p parms _ hm⟩
      | false =>
        simp only [hm] at h
        have hps := Match_false_parms _ _ _ _ hm
        subst hps
        obtain ⟨h1, h2⟩ := ih (fun c hc => hn c (List.mem_cons_of_mem _ hc)) _ _ _ h
        exact ⟨h1, fun n hn1 => ⟨List.mem_cons_of_mem _ (h2 n hn1).1, (h2 n hn1).2⟩⟩

/-- The loop of `trie.Get` below children that are within the bound `k`: whatever the
outcome, at most `k` parameters are added. -/
theorem getLoop_count (originalpath : Str) (fuel : Nat) :
    ∀ (nodes : List node) (path : Str) (ior : Int) (ctx : Context) (k : Nat),
      (∀ c ∈ nodes, c.Within k) → (∀ c ∈ nodes, c.All Created) →
      (∀ n c, getLoop originalpath fuel nodes path ior ctx = .found n c →
        c.pathParams.length ≤ ctx.pathParams.length + k) ∧
      (∀ c, getLoop originalpath fuel nodes path ior ctx = .notFound c →
        c.pathParams.length ≤ ctx.pathParams.length + k) := by
  induction fuel with
  | zero =>
    intro nodes path ior ctx k _ _
    simp [getLoop]
  | succ fuel ih =>
    intro nodes path ior ctx k hw hc
    rw [getLoop]
    simp only
    cases hs : scanNodes (upTo path '/') nodes ctx.pathParams with
    | none => simp
    | some x =>
      obtain ⟨res, parms⟩ := x
      obtain ⟨h1, h2⟩ := scanNodes_count _ nodes
        (fun c hc1 => ((node_all_iff Created c).1 (hc c hc1)).1) _ _ _ hs
      cases res with
      | none =>
        constructor
        · intro n1 c1 hg
          cases hg
        · intro c1 hg
          injection hg with hg
          subst hg
          simp only
          rw [h1 rfl]
          omega
      | some n =>
        obtain ⟨hmem, hlen⟩ := h2 n rfl
        have hwn := (within_iff k n).1 (hw n hmem)
        have hcn := (node_all_iff Created n).1 (hc n hmem)
        simp only
        by_cases hca : n.seg.CatchAll = true
        · simp only [hca, if_true] at hlen ⊢
          cases sliceTo originalpath (ior - 1) with
          | none => simp
          | some q =>
            constructor
            · intro n1 c1 hg
              injection hg with _ hg
              subst hg
              simp only [Context.AddPathParam, List.length_append, List.length_singleton]
              omega
            · intro c1 hg
              cases hg
        · simp only [hca, Bool.false_eq_true, if_false, Nat.add_zero] at hlen ⊢
          by_cases hcb : containsByte path '/' = true
          · simp only [hcb, Bool.not_true, Bool.false_eq_true, if_false]
            obtain ⟨i1, i2⟩ := ih n.nodes (path.drop ((upTo path '/').length + 1))
              (ior + ((upTo path '/').length + 1)) { ctx with pathParams := parms }
              (k - n.seg.NumVars) hwn.2 hcn.2
            constructor
            · intro n1 c1 hg
              have := i1 n1 c1 hg
              simp only at this
              omega
            · intro c1 hg
              have := i2 c1 hg
              simp only at this
              omega
          · simp only [hcb, Bool.not_false, if_true]
            constructor
            · intro n1 c1 hg
              injection hg with _ hg
              subst hg
              simp only
              omega
            · intro c1 hg
              cases hg
theorem visitNode_within (r : Route) (rest : List segment) (n : node) (k K : Nat)
    (dm : Nat × Nat) (hn : n.Within k) (hk : k ≤ K) (hv : (visitNode r rest n).2 = .ok dm)
    (hK : dm.2 + n.seg.NumVars ≤ K)
    (ih : ∀ k0 K0 nodes1 dm0, (∀ c ∈ n.nodes, c.Within k0) →
      addLoop r rest n.nodes = (nodes1, .ok dm0) → k0 ≤ K0 → dm0.2 ≤ K0 →
      ∀ c ∈ nodes1, c.Within K0) :
    (visitNode r rest n).1.Within K := by
  have hw := (within_iff k n).1 hn
  have hseg := visitNode_seg r rest n
  refine (within_iff K _).2 ⟨by rw [hseg]; omega, ?_⟩
  rw [hseg]
  cases rest with
  | nil =>
    rw [visitNode_last] at hv ⊢
    by_cases hset : alreadySet r n.methods = true
    · simp [hset] at hv
    · simp only [hset, if_false]
      intro c hc
      exact within_mono c _ (hw.2 c hc) _ (by omega)
  | cons s rest1 =>
    rw [visitNode_more] at hv ⊢
    intro c hc
    exact ih (k - n.seg.NumVars) (K - n.seg.NumVars) _ dm hw.2
      (Prod.ext rfl hv) (by omega) (by omega) c hc

/-- A walk of `trie.Add` without error keeps the children within every bound that covers
the old bound and the sum of `NumVars` that the walk has computed. -/
theorem addLoop_within (r : Route) (segs : List segment) :
    ∀ (k K : Nat) (nodes nodes1 : List node) (dm : Nat × Nat),
      (∀ c ∈ nodes, c.Within k) → addLoop r segs nodes = (nodes1, .ok dm) →
      k ≤ K → dm.2 ≤ K → ∀ c ∈ nodes1, c.Within K := by
  induction segs with
  | nil =>
    intro k K nodes nodes1 dm hw h hk _ c hc
    simp only [addLoop, Prod.mk.injEq] at h
    obtain ⟨rfl, -⟩ := h
    exact within_mono c k (hw c hc) K hk
  | cons s rest ih =>
    intro k K nodes nodes1 dm hw h hk hdm c hc
    by_cases h1 : nodes.any (fun c => c.seg.CatchAll) = true
    · rw [addLoop] at h; simp [h1] at h
    · simp only [Bool.not_eq_true] at h1
      by_cases h2 : (decide (nodes.length > 0) && s.CatchAll) = true
      · rw [addLoop] at h; simp only [h1, h2] at h; simp at h
      · simp only [Bool.not_eq_true] at h2
        rw [addLoop_step r s rest nodes h1 h2] at h
        cases hf : findNode s.Comparable nodes with
        | none =>
          simp only [hf, Prod.mk.injEq] at h
          obtain ⟨rfl, hb⟩ := h
          obtain ⟨dm0, hv⟩ := bump_ok hb
          rw [hv] at hb
          simp only [bump, Except.ok.injEq] at hb
          subst hb
          simp only at hdm
          rcases List.mem_append.mp hc with hc | hc
          · exact within_mono c k (hw c hc) K hk
          · simp only [List.mem_singleton] at hc
            subst hc
            have hfresh : (node.mk s [] []).Within s.NumVars :=
              (within_iff _ _).2 ⟨by simp [node.seg], by simp [node.nodes]⟩
            exact visitNode_within r rest _ s.NumVars K dm0 hfresh (by omega) hv
              (by simp only [node.seg]; omega)
              (fun k0 K0 nodes1 dm1 a b c d => ih k0 K0 _ nodes1 dm1 a b c d)
        | some x =>
          obtain ⟨pre, n, post⟩ := x
          obtain ⟨hn, -, -⟩ := findNode_some hf
          simp only [hf, Prod.mk.injEq] at h
          obtain ⟨rfl, hb⟩ := h
          obtain ⟨dm0, hv⟩ := bump_ok hb
          rw [hv] at hb
          simp only [bump, Except.ok.injEq] at hb
          subst hb
          simp only at hdm
          have hold : ∀ y ∈ nodes, y.Within K := fun y hy => within_mono y k (hw y hy) K hk
          rcases List.mem_append.mp hc with hc | hc
          · exact hold c (by rw [hn]; simp [hc])
          · rcases List.mem_cons.mp hc with rfl | hc
            · exact visitNode_within r rest n k K dm0 (hw n (by rw [hn]; simp)) hk hv
                (by omega) (fun k0 K0 nodes1 dm1 a b c d => ih k0 K0 _ nodes1 dm1 a b c d)
            · exact hold c (by rw [hn]; simp [hc])

theorem trie_Add_within (t : trie) (r : Option Route)
    (h : ∀ c ∈ t.nodes, c.Within t.maxparams) :
    ∀ c ∈ (t.Add r).1.nodes, c.Within (t.Add r).1.maxparams := by
  cases r with
  | none => exact h
  | some r =>
    cases hp : ParsePath r.path with
    | error e => rw [trie_Add_parse_error t r e hp]; exact h
    | ok segs =>
      by_cases hm : r.methods.length = 0
      · rw [trie_Add_no_method t r segs hp hm]; exact h
      · cases hl : addLoop r segs t.nodes with
        | mk nodes res =>
          cases res with
          | error e =>
            rw [trie_Add_walk_error t r segs nodes e hp hm hl]
            have hu := addLoop_error_unchanged r segs t.nodes e (by rw [hl])
            rw [hl] at hu
            simp only at hu ⊢
            rw [hu]
            exact h
          | ok dm =>
            rw [trie_Add_walk_ok t r segs nodes dm hp hm hl]
            simp only
            exact addLoop_within r segs t.maxparams _ t.nodes nodes dm h hl
              (by split <;> omega) (by split <;> omega)

theorem trie_AddAll_within (rs : List (Option Route)) :
    ∀ t : trie, (∀ c ∈ t.nodes, c.Within t.maxparams) →
      ∀ c ∈ (t.AddAll rs).nodes, c.Within (t.AddAll rs).maxparams := by
  induction rs with
  | nil => intro t h; exact h
  | cons r rs ih => intro t h; exact ih _ (trie_Add_within t r h)

/-- C31: on every trie built from the empty trie by calls of `Add`, successful or failing,
and for every path, the number of path parameters in the context after `trie.Get`, on a
match (the parameter `*` of a catch-all included) and on the nil result alike, is at most
the `maxparams` of the trie, the capacity of the slice that `Get` allocates. -/
theorem C31_Get_records_at_most_maxparams (t : trie) (hb : t.Built) (path : Str)
    (ctx : Context) :
    (∀ n c, t.Get path ctx = .found n c → c.pathParams.length ≤ t.maxparams) ∧
    (∀ c, t.Get path ctx = .notFound c → c.pathParams.length ≤ t.maxparams) := by
  have hc := built_all_created t hb
  have hw : ∀ c ∈ t.nodes, c.Within t.maxparams := by
    obtain ⟨rs, rfl⟩ := hb
    exact trie_AddAll_within rs trie.empty (by simp [trie.empty])
  have h := getLoop_count path
    ((if hasPrefix path ['/'] then path.drop 1 else path).length + 1) t.nodes
    (if hasPrefix path ['/'] then path.drop 1 else path)
    (if hasPrefix path ['/'] then 1 else 0) { ctx with pathParams := [] } t.maxparams hw hc
  simp only [List.length_nil, Nat.zero_add] at h
  exact h

/-- C31 on `trieParams`, whose `maxparams` is 3: the path `/range/10-20/km` is resolved
with the three parameters `a`, `b` and `unit`. -/
theorem C31_Get_records_at_most_maxparams_witness :
    trieParams.maxparams = 3 ∧
    (∃ n c, trieParams.Get "/range/10-20/km".toList Context.Reset = .found n c ∧
      c.pathParams = [⟨"a".toList, "10".toList⟩, ⟨"b".toList, "20".toList⟩,
        ⟨"unit".toList, "km".toList⟩]) ∧
    ((∀ n c, trieParams.Get "/range/10-20/km".toList Context.Reset = .found n c →
        c.pathParams.length ≤ trieParams.maxparams) ∧
      (∀ c, trieParams.Get "/range/10-20/km".toList Context.Reset = .notFound c →
        c.pathParams.length ≤ trieParams.maxparams)) :=
  ⟨rfl, ⟨_, _, rfl, rfl⟩,
    C31_Get_records_at_most_maxparams trieParams ⟨_, rfl⟩ "/range/10-20/km".toList
      Context.Reset⟩

/-- C32: the component templates `{a}x{b}` and `{a}y{b}` differ in their literal text
only, `createSegment` accepts both, and their comparable signatures are equal: both start
with an opening bracket, end with a closing one and have no colon, so `createSegment`
sends them to `newSegmentAny`, whose signature is `(.+?)` whatever the text. `trie.Add` of
`/{a}y{b}` after `/{a}x{b}` therefore reaches the node of the first route and fails with
`Path segment already handled`. `NewSegmentRegex` gives the two templates different
signatures. The other pairs are as claimed: `wait-{t:uint}` and `wait-{tt:uint}`, and `{a}`
and `{b}`, have equal signatures; `{a:int}` and `{a:uint}`, `a-{x:int}` and `b-{x:int}`,
and `{a}` and `{a:id}` have different ones. -/
theorem C32_templates_with_different_text_share_signature :
    templateOf "\x7ba\x7dx\x7bb\x7d".toList =
      [.text [], .hole ['a'] [], .text ['x'], .hole ['b'] [], .text []] ∧
    templateOf "\x7ba\x7dy\x7bb\x7d".toList =
      [.text [], .hole ['a'] [], .text ['y'], .hole ['b'] [], .text []] ∧
    (∃ s1 s2, createSegment "\x7ba\x7dx\x7bb\x7d".toList = .ok s1 ∧
      createSegment "\x7ba\x7dy\x7bb\x7d".toList = .ok s2 ∧
      s1.Comparable = "(.+?)".toList ∧ s2.Comparable = "(.+?)".toList) ∧
    (∃ t, trie.empty.Add (some (mkRoute "x" "/\x7ba\x7dx\x7bb\x7d" ["GET"])) = (t, none) ∧
      (t.Add (some (mkRoute "y" "/\x7ba\x7dy\x7bb\x7d" ["GET"]))).2 =
        some .alreadyHandled) ∧
    (∃ s1 s2, NewSegmentRegex "\x7ba\x7dx\x7bb\x7d".toList = .ok s1 ∧
      NewSegmentRegex "\x7ba\x7dy\x7bb\x7d".toList = .ok s2 ∧
      s1.Comparable = "^(.+?)x(.+?)$".toList ∧ s2.Comparable = "^(.+?)y(.+?)$".toList) ∧
    (∃ s1 s2, createSegment "wait-\x7bt:uint\x7d".toList = .ok s1 ∧
      createSegment "wait-\x7btt:uint\x7d".toList = .ok s2 ∧
      s1.Comparable = s2.Comparable) ∧
    (∃ s1 s2, createSegment "\x7ba\x7d".toList = .ok s1 ∧
      createSegment "\x7bb\x7d".toList = .ok s2 ∧ s1.Comparable = s2.Comparable) ∧
    (∃ s1 s2, createSegment "\x7ba:int\x7d".toList = .ok s1 ∧
      createSegment "\x7ba:uint\x7d".toList = .ok s2 ∧ s1.Comparable ≠ s2.Comparable) ∧
    (∃ s1 s2, createSegment "a-\x7bx:int\x7d".toList = .ok s1 ∧
      createSegment "b-\x7bx:int\x7d".toList = .ok s2 ∧ s1.Comparable ≠ s2.Comparable) ∧
    (∃ s1 s2, createSegment "\x7ba\x7d".toList = .ok s1 ∧
      createSegment "\x7ba:id\x7d".toList = .ok s2 ∧ s1.Comparable ≠ s2.Comparable) :=
  ⟨rfl, rfl, ⟨_, _, rfl, rfl, rfl, rfl⟩, ⟨_, rfl, rfl⟩, ⟨_, _, rfl, rfl, rfl, rfl⟩,
    ⟨_, _, rfl, rfl, rfl⟩, ⟨_, _, rfl, rfl, rfl⟩, ⟨_, _, rfl, rfl, by decide⟩,
    ⟨_, _, rfl, rfl, by decide⟩, ⟨_, _, rfl, rfl, by decide⟩⟩

/-- C33: a rejected input changes the outcome of the later calls. On the automaton that
`newSearchNode` builds for `x{b:uint}`, the call `Match("x12")` is a match with `b = 12`
and leaves every node reset. The call `Match("xab")` is no match and leaves `all = "ab"`
on the node of the placeholder: `search` on the first node calls `nx.accepts("ab")`, which
stores its argument in `nx.all` and returns 0, and then resets the first node only. From
then on `nx.accepts` tests the stored text instead of its argument, so `Match("x12")` is no
match, on this call and on every repetition. -/
theorem C33_rejected_input_changes_later_match :
    newSearchNode "x\x7bb:uint\x7d".toList =
      .ok [⟨some .searchstatic, ['x'], [], 0, [], false, "x\x7b3\x7d".toList,
              "x\x7bb:uint\x7d".toList, 1⟩,
           ⟨some .searchnumber, [], ['b'], 0, [], false, [], [], 0⟩] ∧
    (∃ fresh, newSearchNode "x\x7bb:uint\x7d".toList = .ok fresh ∧
      searchnode.Match fresh "x12".toList [] = .done fresh true [⟨['b'], "12".toList⟩]) ∧
    (∃ fresh stale, newSearchNode "x\x7bb:uint\x7d".toList = .ok fresh ∧
      searchnode.Match fresh "xab".toList [] = .done stale false [] ∧
      stale =
        [⟨some .searchstatic, ['x'], [], 0, [], false, "x\x7b3\x7d".toList,
            "x\x7bb:uint\x7d".toList, 1⟩,
         ⟨some .searchnumber, [], ['b'], 0, "ab".toList, false, [], [], 0⟩] ∧
      searchnode.Match stale "x12".toList [] = .done stale false []) :=
  ⟨rfl, ⟨_, rfl, rfl⟩, ⟨_, _, rfl, rfl, rfl, rfl⟩⟩

/-- C34: the automaton and the regex matcher disagree. Both constructors accept the
templates `{n:int}`, `{u:uuidv4}` and `{a:uint}-{b:uint}`. On `{n:int}` the freshly built
automaton accepts `1a` and `-` (the loop of the last `searchsignednumber` node looks at
the first byte only), the regex segment rejects them. On `{u:uuidv4}` the automaton
accepts a text with `c` at offset 19 (the test of that byte can never fail), the regex
segment rejects it. On `{a:uint}-{b:uint}` both accept `1-2`, the automaton appends `b`
before `a`, the regex segment `a` before `b`. -/
theorem C34_automaton_and_regex_disagree :
    (∃ chain seg, newSearchNode "\x7bn:int\x7d".toList = .ok chain ∧
      NewSegmentRegex "\x7bn:int\x7d".toList = .ok seg ∧
      searchnode.Match chain "1a".toList [] = .done chain true [⟨['n'], "1a".toList⟩] ∧
      seg.Match "1a".toList [] = some (false, []) ∧
      searchnode.Match chain "-".toList [] = .done chain true [⟨['n'], "-".toList⟩] ∧
      seg.Match "-".toList [] = some (false, []) ∧
      searchnode.Match chain "-12".toList [] = .done chain true [⟨['n'], "-12".toList⟩] ∧
      seg.Match "-12".toList [] = some (true, [⟨['n'], "-12".toList⟩])) ∧
    (∃ chain seg, newSearchNode "\x7bu:uuidv4\x7d".toList = .ok chain ∧
      NewSegmentRegex "\x7bu:uuidv4\x7d".toList = .ok seg ∧
      searchnode.Match chain "12345678-1234-4123-c123-123456789abc".toList [] =
        .done chain true [⟨['u'], "12345678-1234-4123-c123-123456789abc".toList⟩] ∧
      seg.Match "12345678-1234-4123-c123-123456789abc".toList [] = some (false, [])) ∧
    (∃ chain seg, newSearchNode "\x7ba:uint\x7d-\x7bb:uint\x7d".toList = .ok chain ∧
      NewSegmentRegex "\x7ba:uint\x7d-\x7bb:uint\x7d".toList = .ok seg ∧
      searchnode.Match chain "1-2".toList [] =
        .done chain true [⟨['b'], ['2']⟩, ⟨['a'], ['1']⟩] ∧
      seg.Match "1-2".toList [] = some (true, [⟨['a'], ['1']⟩, ⟨['b'], ['2']⟩])) :=
  ⟨⟨_, _, rfl, rfl, rfl, rfl, rfl, rfl, rfl, rfl⟩, ⟨_, _, rfl, rfl, rfl, rfl⟩,
    ⟨_, _, rfl, rfl, rfl, rfl⟩⟩

theorem placed_iff (pre : List Str) (n : node) :
    n.Placed pre ↔
      (∀ k r, mapGet n.methods k = some r →
        ∃ segs, ParsePath r.path = .ok segs ∧
          segs.map segment.Comparable = pre ++ [n.seg.Comparable]) ∧
      ∀ c ∈ n.nodes, c.Placed (pre ++ [n.seg.Comparable]) := by
  constructor
  · intro h
    cases h with
    | mk _ s m ns h1 h2 => exact ⟨h1, h2⟩
  · intro h
    cases n with
    | mk s m ns => exact node.Placed.mk pre s m ns h.1 h.2

/-- The walk of `trie.Add` binds the route where its signatures lead. -/
theorem addLoop_placed (r : Route) (full : List segment) (hp : ParsePath r.path = .ok full)
    (segs : List segment) :
    ∀ (pre : List Str) (nodes : List node),
      full.map segment.Comparable = pre ++ segs.map segment.Comparable →
      (∀ x ∈ nodes, x.Placed pre) → ∀ x ∈ (addLoop r segs nodes).1, x.Placed pre := by
  induction segs with
  | nil => intro pre nodes _ h; exact h
  | cons s rest ih =>
    intro pre nodes hsig h
    by_cases h1 : nodes.any (fun c => c.seg.CatchAll) = true
    · rw [addLoop]; simp only [h1, if_true]; exact h
    · simp only [Bool.not_eq_true] at h1
      by_cases h2 : (decide (nodes.length > 0) && s.CatchAll) = true
      · rw [addLoop]; simp only [h1, h2]; exact h
      · simp only [Bool.not_eq_true] at h2
        rw [addLoop_step r s rest nodes h1 h2]
        have hvisit : ∀ n : node, n.seg.Comparable = s.Comparable → n.Placed pre →
            (visitNode r rest n).1.Placed pre := by
          intro n hc hn
          obtain ⟨hm, hch⟩ := (placed_iff pre n).1 hn
          cases rest with
          | nil =>
            rw [visitNode_last]
            by_cases hset : alreadySet r n.methods = true
            · simp only [hset, if_true]; exact hn
            · rw [if_neg hset]
              show node.Placed pre (node.mk n.seg (setAll r n.methods) n.nodes)
              refine (placed_iff pre _).2 ⟨?_, hch⟩
              intro k r1 hk
              have hk1 : mapGet (setAll r n.methods) k = some r1 := hk
              rw [mapGet_setAll] at hk1
              show ∃ segs, ParsePath r1.path = .ok segs ∧
                segs.map segment.Comparable = pre ++ [n.seg.Comparable]
              split at hk1
              · injection hk1 with hk1
                subst hk1
                refine ⟨full, hp, ?_⟩
                rw [hsig, hc]
                rfl
              · exact hm k r1 hk1
          | cons s1 rest1 =>
            rw [visitNode_more]
            show node.Placed pre (node.mk n.seg n.methods (addLoop r (s1 :: rest1) n.nodes).1)
            refine (placed_iff pre _).2 ⟨hm, ?_⟩
            show ∀ c ∈ (addLoop r (s1 :: rest1) n.nodes).1, c.Placed (pre ++ [n.seg.Comparable])
            apply ih
            · rw [hsig, hc]; simp
            · exact hch
        cases hf : findNode s.Comparable nodes with
        | none =>
          simp only
          intro x hx
          rcases List.mem_append.mp hx with hx | hx
          · exact h x hx
          · simp only [List.mem_singleton] at hx
            subst hx
            apply hvisit (node.mk s [] []) rfl
            refine (placed_iff pre _).2 ⟨?_, ?_⟩
            · intro k r1 hk
              simp [node.methods, mapGet] at hk
            · intro c hc
              simp [node.nodes] at hc
        | some y =>
          obtain ⟨pre1, n, post⟩ := y
          obtain ⟨hn, hcn, -⟩ := findNode_some hf
          simp only
          intro x hx
          rcases List.mem_append.mp hx with hx | hx
          · exact h x (by rw [hn]; simp [hx])
          · rcases List.mem_cons.mp hx with rfl | hx
            · exact hvisit n hcn (h n (by rw [hn]; simp))
            · exact h x (by rw [hn]; simp [hx])

theorem trie_Add_placed (t : trie) (r : Option Route) (h : ∀ x ∈ t.nodes, x.Placed []) :
    ∀ x ∈ (t.Add r).1.nodes, x.Placed [] := by
  cases r with
  | none => exact h
  | some r =>
    cases hp : ParsePath r.path with
    | error e => rw [trie_Add_parse_error t r e hp]; exact h
    | ok segs =>
      by_cases hm : r.methods.length = 0
      · rw [trie_Add_no_method t r segs hp hm]; exact h
      · have hg := addLoop_placed r segs hp segs [] t.nodes (by simp) h
        cases hl : addLoop r segs t.nodes with
        | mk nodes res =>
          rw [hl] at hg
          cases res with
          | error e => rw [trie_Add_walk_error t r segs nodes e hp hm hl]; exact hg
          | ok dm => rw [trie_Add_walk_ok t r segs nodes dm hp hm hl]; exact hg

theorem trie_AddAll_placed (rs : List (Option Route)) :
    ∀ t : trie, (∀ x ∈ t.nodes, x.Placed []) → ∀ x ∈ (t.AddAll rs).nodes, x.Placed [] := by
  induction rs with
  | nil => intro t h; exact h
  | cons r rs ih => intro t h; exact ih _ (trie_Add_placed t r h)

/-- A route bound at the end of a chain of nodes has the signatures of the chain. -/
theorem chain_placed {nodes cs : List node} (hc : Chain nodes cs) :
    ∀ (pre : List Str), (∀ x ∈ nodes, x.Placed pre) →
      ∀ n, cs.getLast? = some n → ∀ m r, mapGet n.methods m = some r →
        ∃ segs, ParsePath r.path = .ok segs ∧
          segs.map segment.Comparable = pre ++ cs.map (fun x => x.seg.Comparable) := by
  induction hc with
  | last hmem =>
    intro pre hpl n hn m r hm
    simp only [List.getLast?_singleton, Option.some.injEq] at hn
    subst hn
    exact ((placed_iff pre _).1 (hpl _ hmem)).1 m r hm
  | step hmem hrest ih =>
    intro pre hpl n hn m r hm
    rename_i nodes0 c cs0
    have hne : cs0 ≠ [] := by
      cases hrest <;> simp
    have hlast : (c :: cs0).getLast? = cs0.getLast? := by
      cases cs0 with
      | nil => exact absurd rfl hne
      | cons a b => rw [List.getLast?_cons_cons]
    rw [hlast] at hn
    obtain ⟨segs, h1, h2⟩ := ih _ ((placed_iff pre _).1 (hpl _ hmem)).2 n hn m r hm
    exact ⟨segs, h1, by rw [h2]; simp⟩
theorem regexPieces_arity (r : Str) (fs : List (Nat × Nat))
    (hfs : ∀ f ∈ fs, BracketShaped (slice r f.1 f.2)) :
    ∀ (init : Nat) (txt : Str) (prog : List rxpiece) (names : List Str),
      regexPieces r fs init = .ok (txt, prog, names) → rxGroups prog = names.length := by
  induction fs with
  | nil =>
    intro init txt prog names h
    simp only [regexPieces, Except.ok.injEq, Prod.mk.injEq] at h
    obtain ⟨-, rfl, rfl⟩ := h
    simp [rxGroups]
  | cons f fs ih =>
    intro init txt prog names h
    obtain ⟨fi, fe⟩ := f
    rw [regexPieces] at h
    cases hp : pathSubstitute (slice r fi fe) with
    | error e => simp [hp] at h
    | ok x =>
      obtain ⟨fname, sub⟩ := x
      simp only [hp] at h
      cases hq : regexPieces r fs fe with
      | error e => simp [hq] at h
      | ok y =>
        obtain ⟨txt1, prog1, names1⟩ := y
        simp only [hq, Except.ok.injEq, Prod.mk.injEq] at h
        obtain ⟨-, rfl, rfl⟩ := h
        have h1 := ih (fun f hf => hfs f (List.mem_cons_of_mem _ hf)) fe txt1 prog1 names1 hq
        obtain ⟨ty, g, -, hg, -⟩ :=
          hole_compiles (slice r fi fe) (hfs (fi, fe) (List.mem_cons_self _ _)) fname sub hp
        rw [rxGroups_append, rxGroups, hg, List.length_cons, h1]
        simp only [rxGroups]
        omega

theorem createSegment_regex (x : Str) (re : Regexp) (original : Str) (fields : List Str)
    (hx : createSegment x = .ok (.segmentregex re original fields)) :
    NewSegmentRegex x = .ok (.segmentregex re original fields) := by
  unfold createSegment at hx
  split at hx
  · cases hx
  · split at hx
    · split at hx
      · simp [newSegmentAny] at hx
      · exact hx
    · cases hx

/-- A created regex segment captures as many groups as it has field names. -/
theorem created_regex_arity (re : Regexp) (original : Str) (fields : List Str)
    (hs : Created (.segmentregex re original fields)) (p : Str) (caps : List Str)
    (hfind : re.FindAllStringSubmatch p = [caps]) : caps.length = fields.length := by
  obtain ⟨x, hx⟩ := hs
  have hnew := createSegment_regex x re original fields hx
  by_cases hne : bracketFindAll x = []
  · unfold NewSegmentRegex at hnew
    split at hnew
    · cases hnew
    · split at hnew
      · cases hnew
      · simp only [hne, List.length_nil, if_true, Except.ok.injEq,
          segment.segmentregex.injEq] at hnew
        obtain ⟨rfl, -, rfl⟩ := hnew
        unfold Regexp.FindAllStringSubmatch at hfind
        simp only [Bool.false_eq_true, if_false] at hfind
        split at hfind
        · simp only [List.cons.injEq, and_true] at hfind
          subst hfind
          rfl
        · cases hfind
  · obtain ⟨txt, prog, names, hq, hseg⟩ := NewSegmentRegex_ok x _ hnew hne
    simp only [segment.segmentregex.injEq] at hseg
    obtain ⟨rfl, -, rfl⟩ := hseg
    have hshape : ∀ f ∈ bracketFindAll x, BracketShaped (slice x f.1 f.2) :=
      findBrackets_shape x x.length 0 x (by simp)
    have har := regexPieces_arity x (bracketFindAll x) hshape 0 txt prog fields hq
    unfold Regexp.FindAllStringSubmatch at hfind
    simp only [if_true] at hfind
    cases hr : rxRun prog p with
    | none => simp [hr] at hfind
    | some c0 =>
      simp only [hr, List.cons.injEq, and_true] at hfind
      subst hfind
      rw [rxRun_length _ _ _ hr, har]

theorem zipFields_keys_eq (fields : List Str) :
    ∀ (caps : List Str) (ps : List PathParam), segment.zipFields fields caps = some ps →
      caps.length = fields.length → ps.map (fun q => q.Key) = fields := by
  induction fields with
  | nil =>
    intro caps ps h hl
    cases caps with
    | nil => simp only [segment.zipFields, Option.some.injEq] at h; subst h; rfl
    | cons c cs => simp at hl
  | cons f fs ih =>
    intro caps ps h hl
    cases caps with
    | nil => simp at hl
    | cons c cs =>
      rw [segment.zipFields] at h
      cases hz : segment.zipFields fs cs with
      | none => simp [hz] at h
      | some ps0 =>
        simp only [hz, Option.map_some', Option.some.injEq] at h
        subst h
        simp only [List.length_cons, Nat.add_right_cancel_iff] at hl
        simp [ih cs ps0 hz hl]

/-- A successful `Match` of a created segment other than the catch-all keeps the
parameters recorded before and records a parameter under every name of the segment. -/
theorem Match_names (s : segment) (hs : Created s) (hca : s.CatchAll = false) (p : Str)
    (parms ps : List PathParam) (h : s.Match p parms = some (true, ps)) :
    (∀ q ∈ parms, q ∈ ps) ∧ ∀ k ∈ s.names, ∃ q ∈ ps, q.Key = k := by
  cases s with
  | segmentstring t =>
    simp only [segment.Match, Option.some.injEq, Prod.mk.injEq] at h
    obtain ⟨-, rfl⟩ := h
    exact ⟨fun q hq => hq, fun k hk => by simp [segment.names] at hk⟩
  | segmentcatchallstring => simp [segment.CatchAll] at hca
  | segmentany comp original fieldname =>
    simp only [segment.Match] at h
    split at h
    · simp at h
    · simp only [Option.some.injEq, Prod.mk.injEq, true_and] at h
      subst h
      refine ⟨fun q hq => List.mem_append_left _ hq, ?_⟩
      intro k hk
      simp only [segment.names, List.mem_singleton] at hk
      subst hk
      exact ⟨⟨k, p⟩, by simp, rfl⟩
  | segmentregex re original fields =>
    simp only [segment.Match] at h
    split at h
    · rename_i caps hfind
      have har := created_regex_arity re original fields hs p caps hfind
      cases hz : segment.zipFields fields caps with
      | none => simp [hz] at h
      | some ps0 =>
        simp only [hz, Option.map_some', Option.some.injEq, Prod.mk.injEq, true_and] at h
        subst h
        refine ⟨fun q hq => List.mem_append_left _ hq, ?_⟩
        intro k hk
        have hkeys := zipFields_keys_eq fields caps ps0 hz har
        simp only [segment.names] at hk
        rw [← hkeys] at hk
        obtain ⟨q, hq, rfl⟩ := List.mem_map.mp hk
        exact ⟨q, List.mem_append_right _ hq, rfl⟩
    · simp at h

theorem scanNodes_names (p : Str) (nodes : List node) (hn : ∀ c ∈ nodes, Created c.seg) :
    ∀ (parms parms1 : List PathParam) (n : node),
      scanNodes p nodes parms = some (some n, parms1) →
      n ∈ nodes ∧ (∀ q ∈ parms, q ∈ parms1) ∧
        (n.seg.CatchAll = false → ∀ k ∈ n.seg.names, ∃ q ∈ parms1, q.Key = k) := by
  induction nodes with
  | nil =>
    intro parms parms1 n h
    simp [scanNodes] at h
  | cons c rest ih =>
    intro parms parms1 n h
    rw [scanNodes] at h
    cases hm : c.seg.Match p parms with
    | none => simp [hm] at h
    | some x =>
      obtain ⟨b, ps⟩ := x
      cases b with
      | true =>
        simp only [hm, Option.some.injEq, Prod.mk.injEq] at h
        obtain ⟨hn1, rfl⟩ := h
        subst hn1
        refine ⟨List.mem_cons_self _ _, ?_, ?_⟩
        · by_cases hca : c.seg.CatchAll = true
          · cases hseg : c.seg with
            | segmentcatchallstring =>
              rw [hseg] at hm
              simp only [segment.Match, Option.some.injEq, Prod.mk.injEq, true_and] at hm
              subst hm
              exact fun q hq => hq
            | segmentstring t => rw [hseg] at hca; simp [segment.CatchAll] at hca
            | segmentany a b d => rw [hseg] at hca; simp [segment.CatchAll] at hca
            | segmentregex a b d => rw [hseg] at hca; simp [segment.CatchAll] at hca
          · exact (Match_names _ (hn _ (List.mem_cons_self _ _)) (by simpa using hca)
              p parms ps hm).1
        · intro hca
          exact (Match_names _ (hn _ (List.mem_cons_self _ _)) hca p parms ps hm).2
      | false =>
        simp only [hm] at h
        have hps := Match_false_parms _ _ _ _ hm
        subst hps
        obtain ⟨h1, h2, h3⟩ := ih (fun c hc => hn c (List.mem_cons_of_mem _ hc)) _ _ _ h
        exact ⟨List.mem_cons_of_mem _ h1, h2, h3⟩

theorem chain_ne_nil {nodes cs : List node} (h : Chain nodes cs) : cs ≠ [] := by
  cases h <;> simp

/-- A lookup that finds a node has walked a chain of nodes that ends on it, has kept the
parameters recorded before, and has recorded a parameter under every name of every node of
the chain. -/
theorem getLoop_chain (originalpath : Str) (fuel : Nat) :
    ∀ (nodes : List node) (path : Str) (ior : Int) (ctx c : Context) (n : node),
      (∀ x ∈ nodes, x.All Created) →
      getLoop originalpath fuel nodes path ior ctx = .found n c →
      ∃ cs, Chain nodes cs ∧ cs.getLast? = some n ∧
        (∀ q ∈ ctx.pathParams, q ∈ c.pathParams) ∧
        ∀ x ∈ cs, ∀ k ∈ x.seg.names, ∃ q ∈ c.pathParams, q.Key = k := by
  induction fuel with
  | zero => intro nodes path ior ctx c n _ h; simp [getLoop] at h
  | succ fuel ih =>
    intro nodes path ior ctx c n hc h
    rw [getLoop] at h
    simp only at h
    cases hs : scanNodes (upTo path '/') nodes ctx.pathParams with
    | none => simp [hs] at h
    | some x =>
      obtain ⟨res, parms⟩ := x
      cases res with
      | none => simp [hs] at h
      | some n1 =>
        simp only [hs] at h
        obtain ⟨hmem, hkeep, hnames⟩ := scanNodes_names _ nodes
          (fun c hc1 => ((node_all_iff Created c).1 (hc c hc1)).1) _ _ _ hs
        have hcn := (node_all_iff Created n1).1 (hc n1 hmem)
        by_cases hca : n1.seg.CatchAll = true
        · simp only [hca, if_true] at h
          cases hsl : sliceTo originalpath (ior - 1) with
          | none => simp [hsl] at h
          | some q0 =>
            simp only [hsl, GetResult.found.injEq] at h
            obtain ⟨rfl, rfl⟩ := h
            refine ⟨[n1], Chain.last hmem, rfl, ?_, ?_⟩
            · intro q hq
              simp only [Context.AddPathParam]
              exact List.mem_append_left _ (hkeep q hq)
            · intro x hx k hk
              simp only [List.mem_singleton] at hx
              subst hx
              cases hseg : x.seg with
              | segmentcatchallstring =>
                rw [hseg] at hk
                simp only [segment.names, List.mem_singleton] at hk
                subst hk
                exact ⟨⟨['*'], path⟩, by simp [Context.AddPathParam], rfl⟩
              | segmentstring t => rw [hseg] at hca; simp [segment.CatchAll] at hca
              | segmentany a b d => rw [hseg] at hca; simp [segment.CatchAll] at hca
              | segmentregex a b d => rw [hseg] at hca; simp [segment.CatchAll] at hca
        · simp only [hca, Bool.false_eq_true, if_false] at h
          have hca1 : n1.seg.CatchAll = false := by simpa using hca
          by_cases hcb : containsByte path '/' = true
          · simp only [hcb, Bool.not_true, Bool.false_eq_true, if_false] at h
            obtain ⟨cs, hch, hlast, hkeep1, hall⟩ := ih _ _ _ _ c n hcn.2 h
            have hne := chain_ne_nil hch
            refine ⟨n1 :: cs, Chain.step hmem hch, ?_, ?_, ?_⟩
            · cases cs with
              | nil => exact absurd rfl hne
              | cons a b => rw [List.getLast?_cons_cons]; exact hlast
            · intro q hq
              exact hkeep1 q (hkeep q hq)
            · intro x hx k hk
              rcases List.mem_cons.mp hx with rfl | hx
              · obtain ⟨q, hq, hqk⟩ := hnames hca1 k hk
                exact ⟨q, hkeep1 q hq, hqk⟩
              · exact hall x hx k hk
          · simp only [hcb, Bool.not_false, if_true, GetResult.found.injEq] at h
            obtain ⟨rfl, rfl⟩ := h
            refine ⟨[n1], Chain.last hmem, rfl, hkeep, ?_⟩
            intro x hx k hk
            simp only [List.mem_singleton] at hx
            subst hx
            exact hnames hca1 k hk

theorem same_child (nodes : List node) (h : ChildrenOk nodes) (a b : node) (ha : a ∈ nodes)
    (hb : b ∈ nodes) (hab : a.seg.Comparable = b.seg.Comparable) : a = b := by
  have hnd : (nodes.map (fun x => x.seg.Comparable)).Nodup := by
    have := h.2
    rw [List.map_map] at this
    exact this
  exact List.inj_on_of_nodup_map hnd ha hb hab

/-- On a path that the walk of `trie.Add` owns, the nodes of a chain with the signatures of
the segments declare the names of the segments. -/
theorem chain_owns {nodes cs : List node} (hc : Chain nodes cs) :
    ∀ segs : List segment, TrieOk nodes → ownsPath segs nodes = true →
      segs.map segment.Comparable = cs.map (fun x => x.seg.Comparable) →
      List.Forall₂ (fun (x : node) (s : segment) => x.seg.names = s.names) cs segs := by
  induction hc with
  | last hmem =>
    intro segs hok hown hsig
    rename_i nodes0 c
    cases segs with
    | nil => simp at hsig
    | cons s rest =>
      simp only [List.map_cons, List.map_nil, List.cons.injEq, List.map_eq_nil_iff] at hsig
      obtain ⟨hs, rfl⟩ := hsig
      rw [ownsPath] at hown
      cases hf : findNode s.Comparable nodes0 with
      | none => simp [hf] at hown
      | some x =>
        obtain ⟨pre, n, post⟩ := x
        simp only [hf, Bool.and_eq_true, decide_eq_true_eq] at hown
        obtain ⟨hn, hcn, -⟩ := findNode_some hf
        have hnc : n = c :=
          same_child nodes0 hok.1 n c (by rw [hn]; simp) hmem (by rw [hcn, hs])
        subst hnc
        exact List.Forall₂.cons hown.1 List.Forall₂.nil
  | step hmem hrest ih =>
    intro segs hok hown hsig
    rename_i nodes0 c cs0
    cases segs with
    | nil => simp at hsig
    | cons s rest =>
      simp only [List.map_cons, List.cons.injEq] at hsig
      obtain ⟨hs, hsig1⟩ := hsig
      rw [ownsPath] at hown
      cases hf : findNode s.Comparable nodes0 with
      | none => simp [hf] at hown
      | some x =>
        obtain ⟨pre, n, post⟩ := x
        simp only [hf, Bool.and_eq_true, decide_eq_true_eq] at hown
        obtain ⟨hn, hcn, -⟩ := findNode_some hf
        have hnc : n = c :=
          same_child nodes0 hok.1 n c (by rw [hn]; simp) hmem (by rw [hcn, hs])
        subst hnc
        have heach := (node_each_iff NodeOk n).1 (hok.2 n hmem)
        exact List.Forall₂.cons hown.1 (ih rest ⟨heach.1.1, heach.2⟩ hown.2 hsig1)

theorem forall₂_names {cs : List node} {segs : List segment}
    (h : List.Forall₂ (fun (x : node) (s : segment) => x.seg.names = s.names) cs segs) :
    ∀ s ∈ segs, ∃ x ∈ cs, x.seg.names = s.names := by
  induction h with
  | nil => intro s hs; cases hs
  | cons hxs _ ih =>
    intro s hs
    rcases List.mem_cons.mp hs with rfl | hs
    · exact ⟨_, List.mem_cons_self _ _, hxs⟩
    · obtain ⟨x, hx, hxn⟩ := ih s hs
      exact ⟨x, List.mem_cons_of_mem _ hx, hxn⟩

/-- C35 does not hold: `routeByUid`, with the template `/users/{uid:uint}`, is added
without error after `routeById`, with the template `/users/{id:uint}`. The two components
have the same comparable signature, so the second `Add` binds POST on the node that the
first `Add` created, which keeps the segment of the first route. `Get("/users/5")` finds
the node, whose method table sends POST to `routeByUid`, and records the parameter under
the key `id`: there is no parameter with the key `uid`. -/
theorem C35_later_route_gets_names_of_earlier_route :
    (trie.empty.Add (some routeById)).2 = none ∧
    (((trie.empty.Add (some routeById)).1).Add (some routeByUid)).2 = none ∧
    (∃ segs, ParsePath routeByUid.path = .ok segs ∧
      (∃ s ∈ segs, "uid".toList ∈ s.names) ∧ ownsPath segs trieTwoNames.nodes = false) ∧
    (∃ n c, trieTwoNames.Get "/users/5".toList Context.Reset = .found n c ∧
      mapGet n.Methods "POST".toList = some routeByUid ∧
      c.pathParams = [⟨"id".toList, "5".toList⟩] ∧
      ¬ ∃ q ∈ c.pathParams, q.Key = "uid".toList) :=
  ⟨rfl, rfl, ⟨_, rfl, by decide, rfl⟩, ⟨_, _, rfl, rfl, rfl, by decide⟩⟩

/-- C35, amended: on every trie built by `Add`, for every route `r` whose template is
parsed into the segments `segs`, such that the nodes that the signatures of `segs` lead to
declare the capture names of `segs` (they do when `r` is the route whose `Add` created
them), and for every capture name `k` of `segs`: whenever `trie.Get` resolves a path to a
node whose method table contains `r`, the parameters recorded in the context include an
entry with the key `k`. -/
theorem C35_route_receives_names_of_its_path (t : trie) (hb : t.Built) (r : Route)
    (segs : List segment) (hp : ParsePath r.path = .ok segs)
    (hown : ownsPath segs t.nodes = true) (k : Str) (hk : ∃ s ∈ segs, k ∈ s.names)
    (path : Str) (ctx c : Context) (n : node) (m : Str)
    (hg : t.Get path ctx = .found n c) (hm : mapGet n.Methods m = some r) :
    ∃ q ∈ c.pathParams, q.Key = k := by
  have hcr := built_all_created t hb
  have hok : TrieOk t.nodes := by
    obtain ⟨rs, rfl⟩ := hb
    exact trie_AddAll_trieOk rs trie.empty
      ⟨⟨Or.inl (by simp [trie.empty]), by simp [trie.empty]⟩, by simp [trie.empty]⟩
  have hpl : ∀ x ∈ t.nodes, x.Placed [] := by
    obtain ⟨rs, rfl⟩ := hb
    exact trie_AddAll_placed rs trie.empty (by simp [trie.empty])
  obtain ⟨cs, hch, hlast, -, hall⟩ := getLoop_chain _ _ _ _ _ _ _ _ hcr hg
  obtain ⟨segs1, hp1, hsig⟩ := chain_placed hch [] hpl n hlast m r hm
  rw [hp] at hp1
  injection hp1 with hp1
  subst hp1
  simp only [List.nil_append] at hsig
  obtain ⟨s, hs, hks⟩ := hk
  obtain ⟨x, hx, hxn⟩ := forall₂_names (chain_owns hch segs hok hown hsig) s hs
  exact hall x hx k (by rw [hxn]; exact hks)

/-- The amended C35 on `trieTwoNames`: `routeById` created the nodes of its path, and
`Get("/users/5")` records the parameter under its name `id`. -/
theorem C35_route_receives_names_of_its_path_witness :
    ∃ n c, trieTwoNames.Get "/users/5".toList Context.Reset = .found n c ∧
      mapGet n.Methods "GET".toList = some routeById ∧
      c.pathParams = [⟨"id".toList, "5".toList⟩] ∧
      ∃ q ∈ c.pathParams, q.Key = "id".toList :=
  ⟨_, _, rfl, rfl, rfl,
    C35_route_receives_names_of_its_path trieTwoNames ⟨_, rfl⟩ routeById
      [.segmentstring "users".toList,
       .segmentregex ⟨"^(\\d+)$".toList, true, [.lit [], .grp .uint, .lit []]⟩
         "\x7bid:uint\x7d".toList ["id".toList]]
      rfl rfl "id".toList (by decide) "/users/5".toList Context.Reset _ _ "GET".toList
      rfl rfl⟩

theorem ownsPath_cons (s : segment) (rest : List segment) (nodes : List node) :
    ownsPath (s :: rest) nodes =
      match nodes.find? (fun x => decide (x.seg.Comparable = s.Comparable)) with
      | none => false
      | some n => decide (n.seg.names = s.names) && ownsPath rest n.nodes := by
  rw [ownsPath]
  cases hf : findNode s.Comparable nodes with
  | none => rw [find_of_findNode_none hf]
  | some x =>
    obtain ⟨pre, n, post⟩ := x
    rw [find_of_findNode_some hf]

/-- Later calls of `Add` keep the names on an owned path: they never replace the segment
of a node. -/
theorem ownsPath_grows (segs : List segment) :
    ∀ nodes nodes1 : List node, Grows nodes nodes1 → ownsPath segs nodes = true →
      ownsPath segs nodes1 = true := by
  induction segs with
  | nil => intro nodes nodes1 _ _; rfl
  | cons s rest ih =>
    intro nodes nodes1 hg h
    rw [ownsPath_cons] at h ⊢
    cases hf : nodes.find? (fun x => decide (x.seg.Comparable = s.Comparable)) with
    | none => simp [hf] at h
    | some n =>
      simp only [hf, Bool.and_eq_true, decide_eq_true_eq] at h
      have hd : descend [s.Comparable] nodes = some n := by
        rw [descend_cons, hf]; rfl
      obtain ⟨n1, hd1, hle⟩ := hg.2 _ n hd
      rw [descend_cons] at hd1
      cases hf1 : nodes1.find? (fun x => decide (x.seg.Comparable = s.Comparable)) with
      | none => simp [hf1] at hd1
      | some m =>
        simp only [hf1, List.isEmpty_nil, if_true, Option.some.injEq] at hd1
        subst hd1
        simp only [Bool.and_eq_true, decide_eq_true_eq]
        refine ⟨by rw [hle.seg_eq]; exact h.1, ih n.nodes m.nodes ⟨hle.nodes_le, ?_⟩ h.2⟩
        intro cs x hx
        cases cs with
        | nil => simp [descend] at hx
        | cons c cs1 =>
          have hdx : descend (s.Comparable :: c :: cs1) nodes = some x := by
            rw [descend_cons, hf]
            simpa using hx
          obtain ⟨x1, hx1, hle1⟩ := hg.2 _ x hdx
          rw [descend_cons, hf1] at hx1
          exact ⟨x1, by simpa using hx1, hle1⟩

/-- A walk of `trie.Add` that creates the node of its first segment creates the node of
every segment, so the path carries the names of the route. -/
theorem addLoop_owns (r : Route) (segs : List segment) :
    ∀ (nodes nodes1 : List node) (dm : Nat × Nat),
      addLoop r segs nodes = (nodes1, .ok dm) →
      (∀ s, segs.head? = some s → findNode s.Comparable nodes = none) →
      ownsPath segs nodes1 = true := by
  induction segs with
  | nil => intro nodes nodes1 dm _ _; rfl
  | cons s rest ih =>
    intro nodes nodes1 dm h hnew
    have hf := hnew s rfl
    by_cases h1 : nodes.any (fun c => c.seg.CatchAll) = true
    · rw [addLoop] at h; simp [h1] at h
    · simp only [Bool.not_eq_true] at h1
      by_cases h2 : (decide (nodes.length > 0) && s.CatchAll) = true
      · rw [addLoop] at h; simp only [h1, h2] at h; simp at h
      · simp only [Bool.not_eq_true] at h2
        rw [addLoop_step r s rest nodes h1 h2] at h
        simp only [hf, Prod.mk.injEq] at h
        obtain ⟨rfl, hb⟩ := h
        obtain ⟨dm0, hv⟩ := bump_ok hb
        have hseg := visitNode_seg r rest (node.mk s [] [])
        rw [ownsPath_cons, find_after_append _ _ _ hf (by rw [hseg]; rfl)]
        simp only [Bool.and_eq_true, decide_eq_true_eq]
        refine ⟨by rw [hseg]; rfl, ?_⟩
        cases rest with
        | nil => rfl
        | cons s1 rest1 =>
          rw [visitNode_more] at hv ⊢
          exact ih [] _ dm0 (Prod.ext rfl hv) (fun _ _ => rfl)

/-- The hypothesis of the amended C35 holds for the route whose `Add` created the node of
its first component, whatever is added afterwards; in particular for the first route added
to the empty trie. -/
theorem ownsPath_of_created (t0 : trie) (r : Route) (segs : List segment)
    (hp : ParsePath r.path = .ok segs) (hadd : (t0.Add (some r)).2 = none)
    (hnew : ∀ s, segs.head? = some s → findNode s.Comparable t0.nodes = none)
    (rs : List (Option Route)) :
    ownsPath segs (((t0.Add (some r)).1).AddAll rs).nodes = true := by
  obtain ⟨segs1, dm, hp1, -, hok, hnodes⟩ := trie_Add_ok t0 r hadd
  rw [hp] at hp1
  injection hp1 with hp1
  subst hp1
  apply ownsPath_grows segs _ _ (trie_AddAll_grows rs _)
  rw [hnodes]
  exact addLoop_owns r segs t0.nodes _ dm (Prod.ext rfl hok) hnew

theorem slashed_trailed (comps : List Str) (rest : Str) :
    '/' :: trailed comps rest = slashed comps ++ '/' :: rest := by
  induction comps with
  | nil => rfl
  | cons c cs ih =>
    simp only [trailed, slashed, List.cons_append, List.append_assoc]
    rw [ih]

theorem upTo_free (s : Str) (c : Char) : containsByte (upTo s c) c = false := by
  induction s with
  | nil => rfl
  | cons x xs ih =>
    by_cases h : x = c
    · subst h; rw [upTo_cons_eq]; rfl
    · rw [upTo_cons_ne x c xs h, containsByte_cons]
      simp only [ih, Bool.or_false, decide_eq_false_iff_not]
      first
        | exact h
        | exact fun e => h e.symm

theorem scanNodes_hit (p : Str) (nodes : List node) :
    ∀ (parms parms1 : List PathParam) (n : node),
      scanNodes p nodes parms = some (some n, parms1) →
      n ∈ nodes ∧ n.seg.accepts p = true := by
  induction nodes with
  | nil => intro parms parms1 n h; simp [scanNodes] at h
  | cons c rest ih =>
    intro parms parms1 n h
    rw [scanNodes] at h
    cases hm : c.seg.Match p parms with
    | none => simp [hm] at h
    | some x =>
      obtain ⟨b, ps⟩ := x
      cases b with
      | true =>
        simp only [hm, Option.some.injEq, Prod.mk.injEq] at h
        obtain ⟨hn1, -⟩ := h
        subst hn1
        refine ⟨List.mem_cons_self _ _, ?_⟩
        rw [Match_parms] at hm
        unfold segment.accepts
        cases h0 : c.seg.Match p [] with
        | none => simp [h0] at hm
        | some y =>
          obtain ⟨b0, q0⟩ := y
          simp only [h0, Option.map_some', Option.some.injEq, Prod.mk.injEq] at hm
          obtain ⟨rfl, -⟩ := hm
          rfl
      | false =>
        simp only [hm] at h
        obtain ⟨h1, h2⟩ := ih _ _ _ h
        exact ⟨List.mem_cons_of_mem _ h1, h2⟩

/-- A lookup that ends on a catch-all node has walked a chain of nodes down to it, one
node for each `/`-free component at the start of the path, and has recorded the rest of the
path, behind the `/` of the last of these components, as the last parameter. -/
theorem getLoop_catchall_walk (originalpath : Str) (fuel : Nat) :
    ∀ (nodes : List node) (path : Str) (ior : Int) (ctx ctx1 : Context) (n : node),
      getLoop originalpath fuel nodes path ior ctx = .found n ctx1 →
      n.seg.CatchAll = true →
      ∃ cs comps rest earlier, Chain nodes (cs ++ [n]) ∧
        List.Forall₂ (fun (x : node) (c : Str) =>
          x.seg.CatchAll = false ∧ containsByte c '/' = false ∧ x.seg.accepts c = true)
          cs comps ∧
        path = trailed comps rest ∧
        ctx1.pathParams = earlier ++ [⟨['*'], rest⟩] := by
  induction fuel with
  | zero => intro nodes path ior ctx ctx1 n h; simp [getLoop] at h
  | succ fuel ih =>
    intro nodes path ior ctx ctx1 n h hca
    rw [getLoop] at h
    simp only at h
    cases hs : scanNodes (upTo path '/') nodes ctx.pathParams with
    | none => simp [hs] at h
    | some x =>
      obtain ⟨res, parms⟩ := x
      cases res with
      | none => simp [hs] at h
      | some n1 =>
        simp only [hs] at h
        obtain ⟨hmem, hacc⟩ := scanNodes_hit _ nodes _ _ _ hs
        by_cases hc1 : n1.seg.CatchAll = true
        · simp only [hc1, if_true] at h
          cases hsl : sliceTo originalpath (ior - 1) with
          | none => simp [hsl] at h
          | some q0 =>
            simp only [hsl, GetResult.found.injEq] at h
            obtain ⟨rfl, rfl⟩ := h
            exact ⟨[], [], path, parms, Chain.last hmem, List.Forall₂.nil, rfl, rfl⟩
        · simp only [hc1, Bool.false_eq_true, if_false] at h
          by_cases hcb : containsByte path '/' = true
          · simp only [hcb, Bool.not_true, Bool.false_eq_true, if_false] at h
            obtain ⟨cs, comps, rest, earlier, hch, hall, hpath, hparams⟩ :=
              ih _ _ _ _ ctx1 n h hca
            refine ⟨n1 :: cs, upTo path '/' :: comps, rest, earlier,
              Chain.step hmem hch,
              List.Forall₂.cons ⟨by simpa using hc1, upTo_free _ _, hacc⟩ hall, ?_, hparams⟩
            rw [trailed, ← hpath]
            exact upTo_append_drop path '/' hcb
          · simp only [hcb, Bool.not_false, if_true, GetResult.found.injEq] at h
            obtain ⟨rfl, -⟩ := h
            exact absurd hca hc1

/-- C9: for every trie built by `Add` and every request path `/p`, if `trie.Get` ends on a
catch-all node `n`, then the lookup has walked a chain of nodes `cs` from the root down to
`n`, the path starts with one `/`-free component for each node of `cs`, matched by the
segment of that node (`comps`), and the part of the path behind the `/` that follows the
last of these components is `rest`: `p = c1/.../ck/rest`. The last parameter recorded in
the context has the key `*` and the value `rest`, the whole unconsumed remainder (possibly
empty, possibly with `/` in it), `ctx.PathParam("*")` is `rest`, `RoutePath` is the
consumed prefix `/c1/.../ck`, and the raw path is `RoutePath`, a `/`, and `rest`. -/
theorem C9_catchall_parameter_and_route_path (t : trie) (hb : t.Built) (p : Str)
    (ctx ctx1 : Context) (n : node) (h : t.Get ('/' :: p) ctx = .found n ctx1)
    (hca : n.seg.CatchAll = true) :
    ∃ cs comps rest earlier,
      Chain t.nodes (cs ++ [n]) ∧
      List.Forall₂ (fun (x : node) (c : Str) =>
        x.seg.CatchAll = false ∧ containsByte c '/' = false ∧ x.seg.accepts c = true)
        cs comps ∧
      p = trailed comps rest ∧
      ctx1.pathParams = earlier ++ [⟨['*'], rest⟩] ∧
      ctx1.PathParam ['*'] = rest ∧
      ctx1.RoutePath = slashed comps ∧
      '/' :: p = ctx1.RoutePath ++ '/' :: rest := by
  have h0 : t.Get ('/' :: p) ctx =
      getLoop ('/' :: p) (p.length + 1) t.nodes p 1 { ctx with pathParams := [] } := by
    simp [trie.Get, hasPrefix]
  rw [h0] at h
  obtain ⟨rest0, earlier0, h1, h2, -⟩ :=
    getLoop_catchall ('/' :: p) _ t.nodes p [] 1 _ ctx1 n rfl rfl h hca
  have hk := getLoop_catchall_keys ('/' :: p) _ t.nodes p 1 _ ctx1 n
    (built_all_created t hb) (by simp) h hca earlier0 _ h1
  obtain ⟨cs, comps, rest, earlier, hch, hall, hpath, hparams⟩ :=
    getLoop_catchall_walk ('/' :: p) _ t.nodes p 1 _ ctx1 n h hca
  have heq : earlier0 = earlier ∧ rest0 = rest := by
    rw [h1] at hparams
    obtain ⟨e1, e2⟩ := List.append_inj' hparams rfl
    simp only [List.cons.injEq, PathParam.mk.injEq, true_and, and_true] at e2
    exact ⟨e1, e2⟩
  obtain ⟨rfl, rfl⟩ := heq
  have hroute : ctx1.RoutePath = slashed comps := by
    have h3 := slashed_trailed comps rest0
    rw [← hpath, h2] at h3
    exact List.append_cancel_right h3
  exact ⟨cs, comps, rest0, earlier0, hch, hall, hpath, h1,
    pathParam_last earlier0 _ _ hk ctx1 h1, hroute, h2⟩

/-- The lookups of `TestCatchAllContextPath`: witness of C9. On `/static/assets/mylib.js`
the chain above the catch-all node is the node of `static`, the consumed component is
`static`, `*` is `assets/mylib.js` and `RoutePath` is `/static`; on `/static/` the value of
`*` is empty. -/
theorem C9_catchall_parameter_and_route_path_witness :
    (trieStatic.Get "/static/assets/mylib.js".toList Context.Reset =
      .found (node.mk .segmentcatchallstring
          [("GET".toList, mkRoute "files" "/static/\x7b*\x7d" ["GET"])] [])
        ⟨none, [⟨['*'], "assets/mylib.js".toList⟩], [], "/static".toList⟩) ∧
    (∃ cs comps rest earlier,
      Chain trieStatic.nodes (cs ++ [node.mk .segmentcatchallstring
          [("GET".toList, mkRoute "files" "/static/\x7b*\x7d" ["GET"])] []]) ∧
      List.Forall₂ (fun (x : node) (c : Str) =>
        x.seg.CatchAll = false ∧ containsByte c '/' = false ∧ x.seg.accepts c = true)
        cs comps ∧
      "static/assets/mylib.js".toList = trailed comps rest ∧
      (⟨none, [⟨['*'], "assets/mylib.js".toList⟩], [], "/static".toList⟩ : Context).pathParams =
        earlier ++ [⟨['*'], rest⟩] ∧
      (⟨none, [⟨['*'], "assets/mylib.js".toList⟩], [], "/static".toList⟩ : Context).PathParam
        ['*'] = rest ∧
      (⟨none, [⟨['*'], "assets/mylib.js".toList⟩], [], "/static".toList⟩ : Context).RoutePath =
        slashed comps ∧
      "/static/assets/mylib.js".toList =
        (⟨none, [⟨['*'], "assets/mylib.js".toList⟩], [], "/static".toList⟩ : Context).RoutePath ++
          '/' :: rest) ∧
    (trieStatic.Get "/static/".toList Context.Reset =
      .found (node.mk .segmentcatchallstring
          [("GET".toList, mkRoute "files" "/static/\x7b*\x7d" ["GET"])] [])
        ⟨none, [⟨['*'], []⟩], [], "/static".toList⟩) :=
  ⟨rfl,
   C9_catchall_parameter_and_route_path trieStatic
     ⟨[some (mkRoute "files" "/static/\x7b*\x7d" ["GET"])], rfl⟩
     "static/assets/mylib.js".toList Context.Reset _ _ rfl rfl,
   rfl⟩

/-- A call of `trie.Add` without error leaves the route in the trie and loses nothing that
the trie held. -/
theorem trie_Add_holds (t : trie) (r : Route) (h : (t.Add (some r)).2 = none) :
    (t.Add (some r)).1.Holds r ∧ Grows t.nodes (t.Add (some r)).1.nodes := by
  obtain ⟨segs, dm, hp, hne, hok, hnodes⟩ := trie_Add_ok t r h
  obtain ⟨n, hd, hb, -⟩ := addLoop_ok_terminal r segs t.nodes dm hne hok
  refine ⟨⟨segs, n, hp, ?_, hb⟩, trie_Add_grows t (some r)⟩
  rw [hnodes]
  exact hd

/-- C24: for every `HostRouter` and every non-nil route with a path that passes
`verifyPath` and at least one method. With an empty host, `AddRoute` returns the error of
the insertion into the any-host trie and leaves every host entry as it was; without error
the any-host trie holds the route afterwards (the walk by the signatures of its template
ends on a node that binds each of its methods to it) and has lost nothing; with an error
the router is unchanged. With a host that equals no registered pattern, `AddRoute` returns
"host not found" and leaves the router unchanged. Otherwise the insertion goes to the trie
of the first entry `e` whose pattern equals the host: every other entry and the any-host
trie stay as they were, the entry keeps its pattern, without error its trie holds the route
afterwards and has lost nothing, and with an error the router is unchanged. -/
theorem C24_AddRoute_dispatch (h : HostRouter) (rt : Route) (hv : verifyPath rt.path = true)
    (hm : rt.methods ≠ []) :
    (rt.host = [] →
      h.AddRoute (some rt) =
        ({ h with allhost := (h.allhost.Add (some rt)).1 }, (h.allhost.Add (some rt)).2) ∧
      (h.AddRoute (some rt)).1.hosts = h.hosts ∧
      ((h.AddRoute (some rt)).2 = none →
        (h.AddRoute (some rt)).1.allhost.Holds rt ∧
        Grows h.allhost.nodes (h.AddRoute (some rt)).1.allhost.nodes) ∧
      ((h.AddRoute (some rt)).2 ≠ none → (h.AddRoute (some rt)).1 = h)) ∧
    (rt.host ≠ [] → (∀ e ∈ h.hosts, e.host ≠ rt.host) →
      h.AddRoute (some rt) = (h, some .hostNotFound)) ∧
    (rt.host ≠ [] → ∀ (pre post : List hostentry) (e : hostentry),
      h.hosts = pre ++ e :: post → e.host = rt.host → (∀ x ∈ pre, x.host ≠ rt.host) →
      h.AddRoute (some rt) =
        ({ h with hosts := pre ++ { e with t := (e.t.Add (some rt)).1 } :: post },
          (e.t.Add (some rt)).2) ∧
      (h.AddRoute (some rt)).1.allhost = h.allhost ∧
      (∃ e1, (h.AddRoute (some rt)).1.hosts = pre ++ e1 :: post ∧ e1.host = e.host ∧
        e1.segs = e.segs ∧ e1.numwildcards = e.numwildcards ∧
        ((h.AddRoute (some rt)).2 = none → e1.t.Holds rt ∧ Grows e.t.nodes e1.t.nodes)) ∧
      ((h.AddRoute (some rt)).2 ≠ none → (h.AddRoute (some rt)).1 = h)) := by
  have hlen : ¬ rt.methods.length = 0 := fun e => hm (List.length_eq_zero.mp e)
  refine ⟨?_, ?_, ?_⟩
  · intro h0
    have heq : h.AddRoute (some rt) =
        ({ h with allhost := (h.allhost.Add (some rt)).1 }, (h.allhost.Add (some rt)).2) := by
      simp [HostRouter.AddRoute, hv, hlen, h0]
    rw [heq]
    refine ⟨rfl, rfl, ?_, ?_⟩
    · intro hok
      exact trie_Add_holds h.allhost rt hok
    · intro herr
      simp only
      rw [trie_Add_unchanged_of_error h.allhost (some rt) herr]
  · intro h0 habs
    simp [HostRouter.AddRoute, hv, hlen, h0, addToHost_absent rt h.hosts habs]
  · intro h0 pre post e hh he hpre
    have heq : h.AddRoute (some rt) =
        ({ h with hosts := pre ++ { e with t := (e.t.Add (some rt)).1 } :: post },
          (e.t.Add (some rt)).2) := by
      simp [HostRouter.AddRoute, hv, hlen, h0, hh, addToHost_at rt e post he pre hpre]
    rw [heq]
    refine ⟨rfl, rfl, ⟨_, rfl, rfl, rfl, rfl, ?_⟩, ?_⟩
    · intro hok
      exact trie_Add_holds e.t rt hok
    · intro herr
      simp only
      rw [trie_Add_unchanged_of_error e.t (some rt) herr, ← hh]

/-- The router of `TestHostNotFound` and `TestAddHostAndRouteWithGet`: witness of C24. A
route for an unknown host is refused; a route without host goes to the any-host trie, which
holds it afterwards; a route for `api.example.com` goes to the trie of that entry, which
holds it afterwards, and adding it a second time is an error that changes nothing. -/
theorem C24_AddRoute_dispatch_witness :
    ((NewHostRouter.run exampleHosts).AddRoute
        (some (mkHostRoute "r" "unknown.example.com" "/" ["GET"]))) =
      (NewHostRouter.run exampleHosts, some .hostNotFound) ∧
    (((NewHostRouter.run exampleHosts).AddRoute (some (mkHostRoute "r3" "" "/" ["GET"]))).2 =
        none ∧
      ((NewHostRouter.run exampleHosts).AddRoute
        (some (mkHostRoute "r3" "" "/" ["GET"]))).1.allhost.Holds
          (mkHostRoute "r3" "" "/" ["GET"]) ∧
      ((NewHostRouter.run exampleHosts).AddRoute
        (some (mkHostRoute "r3" "" "/" ["GET"]))).1.hosts =
          (NewHostRouter.run exampleHosts).hosts) ∧
    (((NewHostRouter.run exampleHosts).AddRoute (some routeApiUsers)).2 = none ∧
      ∃ e1, ((NewHostRouter.run exampleHosts).AddRoute (some routeApiUsers)).1.hosts =
          [compiledEntry "www.example.com"] ++ e1 :: [compiledEntry "*.local.com"] ∧
        e1.host = "api.example.com".toList ∧ e1.t.Holds routeApiUsers) ∧
    ((((NewHostRouter.run exampleHosts).AddRoute (some routeApiUsers)).1.AddRoute
        (some routeApiUsers)).2 = some .alreadyHandled ∧
      (((NewHostRouter.run exampleHosts).AddRoute (some routeApiUsers)).1.AddRoute
        (some routeApiUsers)).1 =
          ((NewHostRouter.run exampleHosts).AddRoute (some routeApiUsers)).1) :=
  have h1 := C24_AddRoute_dispatch (NewHostRouter.run exampleHosts)
    (mkHostRoute "r" "unknown.example.com" "/" ["GET"]) (by decide) (by decide)
  have h2 := (C24_AddRoute_dispatch (NewHostRouter.run exampleHosts)
    (mkHostRoute "r3" "" "/" ["GET"]) (by decide) (by decide)).1 rfl
  have h3 := (C24_AddRoute_dispatch (NewHostRouter.run exampleHosts)
    routeApiUsers (by decide) (by decide)).2.2 (by decide)
      [compiledEntry "www.example.com"] [compiledEntry "*.local.com"]
      (compiledEntry "api.example.com") rfl rfl (by decide)
  have h4 := (C24_AddRoute_dispatch
    ((NewHostRouter.run exampleHosts).AddRoute (some routeApiUsers)).1
    routeApiUsers (by decide) (by decide)).2.2 (by decide)
      [compiledEntry "www.example.com"] [compiledEntry "*.local.com"] _ rfl rfl (by decide)
  ⟨h1.2.1 (by decide) (by decide),
   ⟨rfl, (h2.2.2.1 rfl).1, h2.2.1⟩,
   ⟨rfl, by
      obtain ⟨e1, he1, hhost, -, -, hholds⟩ := h3.2.2.1
      exact ⟨e1, he1, hhost, (hholds rfl).1⟩⟩,
   ⟨rfl, h4.2.2.2 (by decide)⟩⟩

/-- A step on the context behind the pointer is a step of the lone lookup on the contents
of the context. -/
theorem view_step (allhost : trie) (hostname path : Str) (ctl : Ctl) (ctx : Context) :
    ((ctlStep allhost hostname path ctl ctx).1).view (ctlStep allhost hostname path ctl ctx).2 =
      lookupStep allhost hostname path (ctl.view ctx) := by
  cases ctl with
  | atHost rest =>
    cases rest with
    | nil => rfl
    | cons e rest =>
      simp only [ctlStep, Ctl.view, lookupStep]
      cases hm : e.Match hostname ctx with
      | none => rfl
      | some x =>
        obtain ⟨b, c1⟩ := x
        cases b <;> rfl
  | inTrie cont originalpath nodes p ior =>
    simp only [ctlStep, Ctl.view, lookupStep]
    cases hs : scanNodes (upTo p '/') nodes ctx.pathParams with
    | none => rfl
    | some x =>
      obtain ⟨res, parms⟩ := x
      cases res with
      | none =>
        cases cont <;> rfl
      | some n =>
        simp only
        by_cases hca : n.seg.CatchAll = true
        · simp only [hca, if_true]
          cases sliceTo originalpath (ior - 1) <;> rfl
        · simp only [hca, Bool.false_eq_true, if_false]
          by_cases hc : containsByte p '/' = true
          · simp only [hc, Bool.not_true, Bool.false_eq_true, if_false]
          · simp only [hc, Bool.not_false, if_true]
  | found n => rfl
  | notFound => rfl
  | panic => rfl

theorem sound_addr {router : Router} {heap : List Context} {pool : List Nat} {req0 : Request}
    {c : Caller} {a : Nat} (h : c.Sound router heap pool req0) (ha : c.addr = some a) :
    a ∉ pool ∧ ∃ x, heap[a]? = some x := by
  cases c with
  | waiting req => simp [Caller.addr] at ha
  | finished req resp => simp [Caller.addr] at ha
  | holding req b =>
    simp only [Caller.addr, Option.some.injEq] at ha
    subst ha
    exact ⟨h.2.1, h.2.2⟩
  | running req b ctl =>
    simp only [Caller.addr, Option.some.injEq] at ha
    subst ha
    obtain ⟨-, h2, x, hx, -⟩ := h
    exact ⟨h2, x, hx⟩

/-- A caller stays sound when the memory changes outside the context it holds. -/
theorem sound_frame {router : Router} {heap heap1 : List Context} {pool pool1 : List Nat}
    {req0 : Request} {c : Caller} (h : c.Sound router heap pool req0)
    (hf : ∀ a, c.addr = some a → heap1[a]? = heap[a]? ∧ a ∉ pool1) :
    c.Sound router heap1 pool1 req0 := by
  cases c with
  | waiting req => exact h
  | finished req resp => exact h
  | holding req b =>
    obtain ⟨h1, -, x, hx⟩ := h
    obtain ⟨f1, f2⟩ := hf b rfl
    exact ⟨h1, f2, x, by rw [f1]; exact hx⟩
  | running req b ctl =>
    obtain ⟨h1, -, x, hx, hrest⟩ := h
    obtain ⟨f1, f2⟩ := hf b rfl
    exact ⟨h1, f2, x, by rw [f1]; exact hx, hrest⟩

/-- The invariant after a step of caller `i` that changes the memory only where the other
callers hold nothing. -/
theorem sound_update (router : Router) (reqs : List Request) (s : System)
    (hs : s.Sound router reqs) (i : Nat) (c0 c1 : Caller) (req0 : Request)
    (heap1 : List Context) (pool1 : List Nat)
    (h0 : s.callers[i]? = some c0) (hr0 : reqs[i]? = some req0)
    (hpool : pool1.Nodup) (hpoolh : ∀ a ∈ pool1, a < heap1.length)
    (hframe : ∀ (j : Nat) (cj : Caller) (a : Nat), j ≠ i → s.callers[j]? = some cj →
      cj.addr = some a → heap1[a]? = s.heap[a]? ∧ a ∉ pool1)
    (h1 : c1.Sound router heap1 pool1 req0)
    (hown : ∀ (j : Nat) (cj : Caller) (a : Nat), j ≠ i → s.callers[j]? = some cj →
      c1.addr = some a → cj.addr ≠ some a) :
    System.Sound router reqs ⟨s.router, heap1, pool1, s.callers.set i c1⟩ := by
  obtain ⟨hrt, hlen, -, -, hall, hdis⟩ := hs
  have hi : i < s.callers.length := by
    by_contra hn
    rw [List.getElem?_eq_none (by omega)] at h0
    cases h0
  have hget : ∀ j, (s.callers.set i c1)[j]? = if i = j then some c1 else s.callers[j]? := by
    intro j
    rw [List.getElem?_set]
    by_cases hij : i = j
    · subst hij; simp [hi]
    · simp [hij]
  refine ⟨hrt, by simpa using hlen, hpool, hpoolh, ?_, ?_⟩
  · intro j c hc
    simp only [hget] at hc
    by_cases hij : i = j
    · subst hij
      simp only [if_true, Option.some.injEq] at hc
      subst hc
      exact ⟨req0, hr0, h1⟩
    · simp only [hij, if_false] at hc
      obtain ⟨rq, hrq, hsound⟩ := hall j c hc
      exact ⟨rq, hrq, sound_frame hsound
        (fun a ha => hframe j c a (fun e => hij e.symm) hc ha)⟩
  · intro p q cp cq a hpq hcp hcq hap
    simp only [hget] at hcp hcq
    by_cases hip : i = p
    · subst hip
      simp only [if_true, Option.some.injEq] at hcp
      subst hcp
      simp only [hpq, if_false] at hcq
      exact hown q cq a (fun e => hpq e.symm) hcq hap
    · simp only [hip, if_false] at hcp
      by_cases hiq : i = q
      · subst hiq
        simp only [if_true, Option.some.injEq] at hcq
        subst hcq
        intro hc1
        exact hown p cp a (fun e => hip e.symm) hcp hc1 hap
      · simp only [hiq, if_false] at hcq
        exact hdis p q cp cq a hpq hcp hcq hap

theorem view_done_answer (router : Router) (req : Request) (ctl : Ctl) (c : Context)
    (r : GetResult) (h : ctl.view c = .done r) :
    router.answer req ctl c = some (router.respond req r) := by
  cases ctl with
  | atHost rest => simp [Ctl.view] at h
  | inTrie cont op nodes p ior => simp [Ctl.view] at h
  | found n =>
    simp only [Ctl.view, LookupState.done.injEq] at h
    subst h
    rfl
  | notFound =>
    simp only [Ctl.view, LookupState.done.injEq] at h
    subst h
    rfl
  | panic =>
    simp only [Ctl.view, LookupState.done.injEq] at h
    subst h
    rfl

theorem answer_view_done (router : Router) (req : Request) (ctl : Ctl) (c : Context)
    (resp : Response) (h : router.answer req ctl c = some resp) :
    ∃ r, ctl.view c = .done r ∧ resp = router.respond req r := by
  cases ctl with
  | atHost rest => simp [Router.answer] at h
  | inTrie cont op nodes p ior => simp [Router.answer] at h
  | found n =>
    simp only [Router.answer, Option.some.injEq] at h
    exact ⟨_, rfl, h.symm⟩
  | notFound =>
    simp only [Router.answer, Option.some.injEq] at h
    exact ⟨_, rfl, h.symm⟩
  | panic =>
    simp only [Router.answer, Option.some.injEq] at h
    exact ⟨.panic, rfl, h.symm⟩

/-- Every step of every caller keeps the invariant. -/
theorem act_sound (router : Router) (reqs : List Request) (s s1 : System) (act : Action)
    (hs : s.Sound router reqs) (ha : s.act act = some s1) : s1.Sound router reqs := by
  have hs0 := hs
  obtain ⟨hrt, hlen, hnd, hph, hall, hdis⟩ := hs
  have hheld : ∀ (j : Nat) (cj : Caller) (a : Nat), s.callers[j]? = some cj →
      cj.addr = some a → a ∉ s.pool ∧ ∃ x, s.heap[a]? = some x := by
    intro j cj a hcj haj
    obtain ⟨rq, -, hsound⟩ := hall j cj hcj
    exact sound_addr hsound haj
  have hlt : ∀ (a : Nat) (x : Context), s.heap[a]? = some x → a < s.heap.length := by
    intro a x hx
    by_contra hn
    rw [List.getElem?_eq_none (by omega)] at hx
    cases hx
  cases act with
  | get i j =>
    cases j with
    | none =>
      simp only [System.act] at ha
      cases hc : s.callers[i]? with
      | none => simp [hc] at ha
      | some c =>
        obtain ⟨req0, hreq0, hsound⟩ := hall i c hc
        cases c with
        | holding req a => simp [hc] at ha
        | running req a ctl => simp [hc] at ha
        | finished req resp => simp [hc] at ha
        | waiting req =>
          simp only [hc, Option.some.injEq] at ha
          subst ha
          have hreq : req = req0 := hsound
          refine sound_update router reqs s hs0 i _ _ req0 _ _ hc hreq0 hnd ?_ ?_ ?_ ?_
          · intro a hap
            have := hph a hap
            simp only [List.length_append, List.length_singleton]
            omega
          · intro j cj a _ hcj haj
            obtain ⟨h1, x, hx⟩ := hheld j cj a hcj haj
            exact ⟨by rw [List.getElem?_append_left (hlt a x hx)], h1⟩
          · refine ⟨hreq, ?_, Context.Reset, ?_⟩
            · intro hin
              exact Nat.lt_irrefl _ (hph _ hin)
            · simp
          · intro j cj a _ hcj hc1 haj
            simp only [Caller.addr, Option.some.injEq] at hc1
            subst hc1
            obtain ⟨-, x, hx⟩ := hheld j cj _ hcj haj
            exact Nat.lt_irrefl _ (hlt _ x hx)
    | some j =>
      simp only [System.act] at ha
      cases hc : s.callers[i]? with
      | none => simp [hc] at ha
      | some c =>
        obtain ⟨req0, hreq0, hsound⟩ := hall i c hc
        cases c with
        | holding req a => simp [hc] at ha
        | running req a ctl => simp [hc] at ha
        | finished req resp => simp [hc] at ha
        | waiting req =>
          cases hp : s.pool[j]? with
          | none => simp [hc, hp] at ha
          | some a =>
            simp only [hc, hp, Option.some.injEq] at ha
            subst ha
            have hreq : req = req0 := hsound
            have hain : a ∈ s.pool := List.getElem?_mem hp
            refine sound_update router reqs s hs0 i _ _ req0 _ _ hc hreq0
              (hnd.erase a) ?_ ?_ ?_ ?_
            · intro b hb
              exact hph b (List.mem_of_mem_erase hb)
            · intro k ck b _ hck hbk
              obtain ⟨h1, -⟩ := hheld k ck b hck hbk
              exact ⟨rfl, fun hb => h1 (List.mem_of_mem_erase hb)⟩
            · refine ⟨hreq, hnd.not_mem_erase, ?_⟩
              have := hph a hain
              exact ⟨s.heap[a], List.getElem?_eq_getElem this⟩
            · intro k ck b _ hck hc1 hbk
              simp only [Caller.addr, Option.some.injEq] at hc1
              subst hc1
              exact (hheld k ck _ hck hbk).1 hain
  | reset i =>
    simp only [System.act] at ha
    cases hc : s.callers[i]? with
    | none => simp [hc] at ha
    | some c =>
      obtain ⟨req0, hreq0, hsound⟩ := hall i c hc
      cases c with
      | waiting req => simp [hc] at ha
      | running req a ctl => simp [hc] at ha
      | finished req resp => simp [hc] at ha
      | holding req a =>
        obtain ⟨hreq, hnp, x, hx⟩ := hsound
        simp only [hc, hx, Option.some.injEq] at ha
        subst ha
        have hal := hlt a x hx
        refine sound_update router reqs s hs0 i _ _ req0 _ _ hc hreq0 hnd ?_ ?_ ?_ ?_
        · intro b hb
          rw [List.length_set]
          exact hph b hb
        · intro k ck b hki hck hbk
          have hne : a ≠ b := by
            intro e
            subst e
            exact hdis i k _ ck a (fun e => hki e.symm) hc hck rfl hbk
          exact ⟨by rw [List.getElem?_set_ne hne], (hheld k ck b hck hbk).1⟩
        · refine ⟨hreq, hnp, x.reset, by rw [List.getElem?_set_self hal], ?_⟩
          rw [← hrt]
          cases hh : s.router.hostRouter with
          | none => rfl
          | some hr => exact ⟨0, rfl⟩
        · intro k ck b hki hck hc1
          simp only [Caller.addr, Option.some.injEq] at hc1
          subst hc1
          exact hdis i k _ ck a (fun e => hki e.symm) hc hck rfl
  | step i =>
    simp only [System.act] at ha
    cases hc : s.callers[i]? with
    | none => simp [hc] at ha
    | some c =>
      obtain ⟨req0, hreq0, hsound⟩ := hall i c hc
      cases c with
      | waiting req => simp [hc] at ha
      | holding req a => simp [hc] at ha
      | finished req resp => simp [hc] at ha
      | running req a ctl =>
        cases hh : s.router.hostRouter with
        | none => simp [hc, hh] at ha
        | some hr =>
          obtain ⟨hreq, hnp, x, hx, hrest⟩ := hsound
          simp only [hc, hh, hx, Option.some.injEq] at ha
          subst ha
          have hal := hlt a x hx
          rw [← hrt, hh] at hrest
          obtain ⟨k, hk⟩ := hrest
          refine sound_update router reqs s hs0 i _ _ req0 _ _ hc hreq0 hnd ?_ ?_ ?_ ?_
          · intro b hb
            rw [List.length_set]
            exact hph b hb
          · intro k1 ck b hki hck hbk
            have hne : a ≠ b := by
              intro e
              subst e
              exact hdis i k1 _ ck a (fun e => hki e.symm) hc hck rfl hbk
            exact ⟨by rw [List.getElem?_set_ne hne], (hheld k1 ck b hck hbk).1⟩
          · refine ⟨hreq, hnp, _, by rw [List.getElem?_set_self hal], ?_⟩
            rw [← hrt, hh]
            exact ⟨k + 1, by rw [view_step, hk, lookupIter_succ]⟩
          · intro k1 ck b hki hck hc1
            simp only [Caller.addr, Option.some.injEq] at hc1
            subst hc1
            exact hdis i k1 _ ck a (fun e => hki e.symm) hc hck rfl
  | finish i =>
    simp only [System.act] at ha
    cases hc : s.callers[i]? with
    | none => simp [hc] at ha
    | some c =>
      obtain ⟨req0, hreq0, hsound⟩ := hall i c hc
      cases c with
      | waiting req => simp [hc] at ha
      | holding req a => simp [hc] at ha
      | finished req resp => simp [hc] at ha
      | running req a ctl =>
        obtain ⟨hreq, hnp, x, hx, hrest⟩ := hsound
        cases hans : s.router.answer req ctl x with
        | none => simp [hc, hx, hans] at ha
        | some resp =>
          simp only [hc, hx, hans, Option.some.injEq] at ha
          subst ha
          have hal := hlt a x hx
          obtain ⟨r, hview, hresp⟩ := answer_view_done _ _ _ _ _ hans
          refine sound_update router reqs s hs0 i _ _ req0 _ _ hc hreq0
            (List.nodup_cons.mpr ⟨hnp, hnd⟩) ?_ ?_ ?_ ?_
          · intro b hb
            rw [List.length_set]
            rcases List.mem_cons.mp hb with rfl | hb
            · exact hal
            · exact hph b hb
          · intro k1 ck b hki hck hbk
            have hne : a ≠ b := by
              intro e
              subst e
              exact hdis i k1 _ ck a (fun e => hki e.symm) hc hck rfl hbk
            refine ⟨by rw [List.getElem?_set_ne hne], ?_⟩
            intro hb
            rcases List.mem_cons.mp hb with e | hb
            · exact hne e.symm
            · exact (hheld k1 ck b hck hbk).1 hb
          · refine ⟨hreq, ?_⟩
            rw [hresp, ServeHTTP_eq, ← hrt]
            cases hh : s.router.hostRouter with
            | none =>
              rw [← hrt, hh] at hrest
              subst hrest
              simp only [Ctl.view, LookupState.done.injEq] at hview
              subst hview
              rfl
            | some hr =>
              rw [← hrt, hh] at hrest
              obtain ⟨k, hk⟩ := hrest
              rw [hview] at hk
              simp only
              rw [← lookup_done_eq hr _ _ _ k r hk.symm]
          · intro k1 ck b _ _ hc1
            simp [Caller.addr] at hc1

/-- Every interleaving keeps the invariant. -/
theorem exec_sound (router : Router) (reqs : List Request) (acts : List Action) :
    ∀ (s s1 : System), s.Sound router reqs → s.exec acts = some s1 → s1.Sound router reqs := by
  induction acts with
  | nil =>
    intro s s1 hs h
    simp only [System.exec, Option.some.injEq] at h
    subst h
    exact hs
  | cons a rest ih =>
    intro s s1 hs h
    simp only [System.exec] at h
    cases ha : s.act a with
    | none => simp [ha] at h
    | some s2 =>
      simp only [ha] at h
      exact ih s2 s1 (act_sound router reqs s s2 a hs ha) h

theorem start_sound (router : Router) (used : List Context) (reqs : List Request) :
    (System.start router used reqs).Sound router reqs := by
  refine ⟨rfl, by simp [System.start], List.nodup_range _, ?_, ?_, ?_⟩
  · intro a ha
    simpa [System.start] using ha
  · intro i c hc
    unfold System.start at hc
    simp only [List.getElem?_map, Option.map_eq_some'] at hc
    obtain ⟨req, hreq, rfl⟩ := hc
    exact ⟨req, hreq, rfl⟩
  · intro i j ci cj a _ hci _ hai
    unfold System.start at hci
    simp only [List.getElem?_map, Option.map_eq_some'] at hci
    obtain ⟨req, -, rfl⟩ := hci
    simp [Caller.addr] at hai

theorem exec_append (a b : List Action) :
    ∀ (s s1 : System), s.exec a = some s1 → s.exec (a ++ b) = s1.exec b := by
  induction a with
  | nil =>
    intro s s1 h
    simp only [System.exec, Option.some.injEq] at h
    subst h
    rfl
  | cons x rest ih =>
    intro s s1 h
    simp only [System.exec, List.cons_append] at h ⊢
    cases hx : s.act x with
    | none => simp [hx] at h
    | some s2 =>
      simp only [hx] at h ⊢
      exact ih s2 s1 h

theorem getElem?_lt {α : Type} {l : List α} {i : Nat} {a : α} (h : l[i]? = some a) :
    i < l.length := by
  by_contra hn
  rw [List.getElem?_eq_none (by omega)] at h
  cases h

theorem act_get_enabled (s : System) (i : Nat) (req : Request)
    (hc : s.callers[i]? = some (.waiting req)) :
    ∃ s1 a, s.act (.get i none) = some s1 ∧ s1.callers[i]? = some (.holding req a) := by
  refine ⟨⟨s.router, s.heap ++ [Context.Reset], s.pool,
    s.callers.set i (.holding req s.heap.length)⟩, s.heap.length, ?_, ?_⟩
  · simp only [System.act, hc]
  · exact getElem?_set_same _ _ _ _ hc

theorem act_reset_enabled (s : System) (i : Nat) (req : Request) (a : Nat) (c : Context)
    (hc : s.callers[i]? = some (.holding req a)) (hx : s.heap[a]? = some c) :
    ∃ s1 ctl, s.act (.reset i) = some s1 ∧ s1.callers[i]? = some (.running req a ctl) := by
  refine ⟨⟨s.router, s.heap.set a c.reset, s.pool,
    s.callers.set i (.running req a
      (match s.router.hostRouter with
        | none => .notFound
        | some hr => .atHost hr.hosts))⟩,
    (match s.router.hostRouter with
      | none => .notFound
      | some hr => .atHost hr.hosts), ?_, ?_⟩
  · simp only [System.act, hc, hx]
  · exact getElem?_set_same _ _ _ _ hc

theorem act_step_enabled (s : System) (i : Nat) (req : Request) (a : Nat) (ctl : Ctl)
    (c : Context) (hr : HostRouter) (hc : s.callers[i]? = some (.running req a ctl))
    (hx : s.heap[a]? = some c) (hh : s.router.hostRouter = some hr) :
    ∃ s1, s.act (.step i) = some s1 ∧ s1.router = s.router ∧
      s1.callers[i]? =
        some (.running req a (ctlStep hr.allhost req.hostname req.routePath ctl c).1) ∧
      s1.heap[a]? = some (ctlStep hr.allhost req.hostname req.routePath ctl c).2 := by
  refine ⟨⟨s.router,
    s.heap.set a (ctlStep hr.allhost req.hostname req.routePath ctl c).2, s.pool,
    s.callers.set i
      (.running req a (ctlStep hr.allhost req.hostname req.routePath ctl c).1)⟩,
    ?_, rfl, ?_, ?_⟩
  · simp only [System.act, hc, hh, hx]
  · exact getElem?_set_same _ _ _ _ hc
  · exact getElem?_set_same _ _ _ _ hx

theorem act_finish_enabled (s : System) (i : Nat) (req : Request) (a : Nat) (ctl : Ctl)
    (c : Context) (resp : Response) (hc : s.callers[i]? = some (.running req a ctl))
    (hx : s.heap[a]? = some c) (hans : s.router.answer req ctl c = some resp) :
    ∃ s1, s.act (.finish i) = some s1 ∧ s1.callers[i]? = some (.finished req resp) := by
  refine ⟨⟨s.router, s.heap.set a (resp.context c), a :: s.pool,
    s.callers.set i (.finished req resp)⟩, ?_, ?_⟩
  · simp only [System.act, hc, hx, hans]
  · exact getElem?_set_same _ _ _ _ hc

/-- A running caller makes `m` steps in a row, whatever the other callers have done and
wherever they stand: the steps are those of the lone lookup. -/
theorem exec_steps (i : Nat) (req : Request) (a : Nat) (hr : HostRouter) (m : Nat) :
    ∀ (s : System) (ctl : Ctl) (c : Context), s.router.hostRouter = some hr →
      s.callers[i]? = some (.running req a ctl) → s.heap[a]? = some c →
      ∃ s1 ctl1 c1, s.exec (List.replicate m (.step i)) = some s1 ∧
        s1.callers[i]? = some (.running req a ctl1) ∧ s1.heap[a]? = some c1 ∧
        ctl1.view c1 = lookupIter hr.allhost req.hostname req.routePath m (ctl.view c) := by
  induction m with
  | zero => intro s ctl c _ hc hx; exact ⟨s, ctl, c, rfl, hc, hx, rfl⟩
  | succ m ih =>
    intro s ctl c hh hc hx
    obtain ⟨s2, hact, hr2, hc2, hx2⟩ := act_step_enabled s i req a ctl c hr hc hx hh
    obtain ⟨s1, ctl1, c1, h1, h2, h3, h4⟩ := ih s2 _ _ (by rw [hr2, hh]) hc2 hx2
    refine ⟨s1, ctl1, c1, ?_, h2, h3, ?_⟩
    · rw [List.replicate_succ, System.exec, hact]
      exact h1
    · rw [h4, view_step]
      rfl

theorem can_finish_running (router : Router) (reqs : List Request) (s : System)
    (hs : s.Sound router reqs) (i : Nat) (req : Request) (a : Nat) (ctl : Ctl)
    (hc : s.callers[i]? = some (.running req a ctl)) :
    ∃ more s1 resp, s.exec more = some s1 ∧ s1.callers[i]? = some (.finished req resp) := by
  obtain ⟨hrt, -, -, -, hall, -⟩ := hs
  obtain ⟨req0, -, -, -, c, hx, hrest⟩ := hall i _ hc
  cases hh : router.hostRouter with
  | none =>
    rw [hh] at hrest
    subst hrest
    obtain ⟨s1, h1, h2⟩ := act_finish_enabled s i req a .notFound c _ hc hx rfl
    exact ⟨[.finish i], s1, _, by rw [System.exec, h1]; rfl, h2⟩
  | some hr =>
    rw [hh] at hrest
    obtain ⟨k, hk⟩ := hrest
    obtain ⟨k0, hk0⟩ :=
      lookup_atHost hr.allhost req.hostname req.routePath hr.hosts Context.Reset
    obtain ⟨s1, ctl1, c1, h1, h2, h3, h4⟩ :=
      exec_steps i req a hr k0 s ctl c (by rw [hrt, hh]) hc hx
    rw [hk, ← lookupIter_add, Nat.add_comm, lookupIter_add, hk0, lookupIter_done] at h4
    obtain ⟨s2, h5, h6⟩ := act_finish_enabled s1 i req a ctl1 c1 _ h2 h3
      (view_done_answer s1.router req ctl1 c1 _ h4)
    refine ⟨List.replicate k0 (.step i) ++ [.finish i], s2, _, ?_, h6⟩
    rw [exec_append _ _ s s1 h1, System.exec, h5]
    rfl

/-- No caller is held up by the others: at every moment of every interleaving, a caller
reaches its answer by steps of its own, and the answer is that of the lone call. -/
theorem can_answer (router : Router) (reqs : List Request) (s : System)
    (hs : s.Sound router reqs) (i : Nat) (req : Request) (hi : reqs[i]? = some req) :
    ∃ more s1, s.exec more = some s1 ∧
      s1.callers[i]? = some (.finished req (router.ServeHTTP Context.Reset req)) := by
  have hfin : ∃ more s1 resp, s.exec more = some s1 ∧
      s1.callers[i]? = some (.finished req resp) := by
    have hs0 := hs
    obtain ⟨-, hlen, -, -, hall, -⟩ := hs
    have hlt : i < s.callers.length := by rw [hlen]; exact getElem?_lt hi
    have hget : s.callers[i]? = some s.callers[i] := List.getElem?_eq_getElem hlt
    obtain ⟨req0, hreq0, hsound⟩ := hall i _ hget
    rw [hi] at hreq0
    injection hreq0 with hreq0
    subst hreq0
    generalize s.callers[i] = c at hget hsound
    cases c with
    | finished r resp =>
      have hr0 : r = req := hsound.1
      subst hr0
      exact ⟨[], s, resp, rfl, hget⟩
    | running r a ctl =>
      have hr0 : r = req := hsound.1
      subst hr0
      exact can_finish_running router reqs s hs0 i r a ctl hget
    | holding r a =>
      obtain ⟨hr0, -, c, hx⟩ := hsound
      subst hr0
      obtain ⟨s1, ctl, h1, h2⟩ := act_reset_enabled s i r a c hget hx
      have hs1 := act_sound router reqs s s1 _ hs0 h1
      obtain ⟨more, s2, resp, h3, h4⟩ := can_finish_running router reqs s1 hs1 i r a ctl h2
      exact ⟨.reset i :: more, s2, resp, by rw [System.exec, h1]; exact h3, h4⟩
    | waiting r =>
      have hr0 : r = req := hsound
      subst hr0
      obtain ⟨s1, a, h1, h2⟩ := act_get_enabled s i r hget
      have hs1 := act_sound router reqs s s1 _ hs0 h1
      obtain ⟨-, -, -, -, hall1, -⟩ := id hs1
      obtain ⟨req1, -, -, -, c, hx⟩ := hall1 i _ h2
      obtain ⟨s2, ctl, h3, h4⟩ := act_reset_enabled s1 i r a c h2 hx
      have hs2 := act_sound router reqs s1 s2 _ hs1 h3
      obtain ⟨more, s3, resp, h5, h6⟩ := can_finish_running router reqs s2 hs2 i r a ctl h4
      exact ⟨.get i none :: .reset i :: more, s3, resp,
        by simp only [System.exec, h1, h3]; exact h5, h6⟩
  obtain ⟨more, s1, resp, h1, h2⟩ := hfin
  obtain ⟨-, -, -, -, hall1, -⟩ := exec_sound router reqs more s s1 hs h1
  obtain ⟨req1, -, -, hresp⟩ := hall1 i _ h2
  subst hresp
  exact ⟨more, s1, h1, h2⟩

/-- The invariant is needed: in `sharedContext`, where the two callers hold the same
context (a state that no interleaving reaches), the first caller makes its lookup, the
second caller makes its lookup on the same context, and the first caller then answers with
the host label and the parameter of the second, where its lone call has `a = 42`. -/
theorem shared_context_corrupts :
    (∃ s, sharedContext.exec
        [.step 0, .step 0, .step 0, .step 0, .step 1, .step 1, .step 1, .step 1,
         .finish 0] = some s ∧
      s.callers[0]? = some (.finished
        ⟨"a.example.com:8080".toList, "GET".toList, [], "/items/42".toList⟩
        (.handled ⟨"bynumber".toList, "*.example.com".toList, "/items/\x7ba:uint\x7d".toList,
            ["GET".toList], 1⟩
          ⟨some ⟨"bynumber".toList, "*.example.com".toList, "/items/\x7ba:uint\x7d".toList,
            ["GET".toList], 1⟩, [⟨"b".toList, "ff".toList⟩], ["b".toList],
            "/items/42".toList⟩))) ∧
    routerOverlap.ServeHTTP Context.Reset
        ⟨"a.example.com:8080".toList, "GET".toList, [], "/items/42".toList⟩ =
      .handled ⟨"bynumber".toList, "*.example.com".toList, "/items/\x7ba:uint\x7d".toList,
          ["GET".toList], 1⟩
        ⟨some ⟨"bynumber".toList, "*.example.com".toList, "/items/\x7ba:uint\x7d".toList,
          ["GET".toList], 1⟩, [⟨"a".toList, "42".toList⟩], ["a".toList],
          "/items/42".toList⟩ :=
  ⟨⟨_, rfl, rfl⟩, rfl⟩

/-- C29: concurrent lookups from many callers against one router do not corrupt one
another. The callers share the router, the contexts and the pool; they start with any
contexts in the pool, as earlier requests left them. For every router, every list of
requests (one caller each) and every interleaving `acts` of the atomic steps of the
callers (`pool.Get`, `ctx.Reset`, one call of `Match` on a host entry, one iteration of the
loop of `trie.Get`, the answer with `pool.Put`), where every step reads and writes the
context behind the pointer the caller holds: the router is the same after the run; no two
callers hold the same context; a caller whose lookup has returned a node finds in its
context the parameters, host parameters and route path of the lone lookup
`hostRouter.Get(hostname, path, ctx)` of its own request on a reset context, and the node
is the node of that lookup; a caller that has answered has given the answer of the lone
call of `ServeHTTP` for its own request; and no caller is held up: from the state reached,
every caller comes to that answer by further steps. -/
theorem C29_concurrent_lookups_agree_with_lone_lookup (router : Router)
    (used : List Context) (reqs : List Request) (acts : List Action) (s : System)
    (h : (System.start router used reqs).exec acts = some s) :
    s.router = router ∧
      (∀ (i j : Nat) (ci cj : Caller) (a : Nat), i ≠ j → s.callers[i]? = some ci →
        s.callers[j]? = some cj → ci.addr = some a → cj.addr ≠ some a) ∧
      (∀ (i : Nat) (req : Request) (a : Nat) (n : node),
        s.callers[i]? = some (Caller.running req a (Ctl.found n)) →
        reqs[i]? = some req ∧ ∃ hr c, router.hostRouter = some hr ∧ s.heap[a]? = some c ∧
          hr.Get req.hostname req.routePath Context.Reset = .found n c) ∧
      (∀ (i : Nat) (req : Request) (resp : Response),
        s.callers[i]? = some (Caller.finished req resp) →
        reqs[i]? = some req ∧ ∀ pooled, resp = router.ServeHTTP pooled req) ∧
      (∀ (i : Nat) (req : Request), reqs[i]? = some req →
        ∃ more s1, s.exec more = some s1 ∧
          s1.callers[i]? = some (Caller.finished req (router.ServeHTTP Context.Reset req))) := by
  have hs := exec_sound router reqs acts _ s (start_sound router used reqs) h
  refine ⟨hs.1, hs.2.2.2.2.2, ?_, ?_, fun i req hi => can_answer router reqs s hs i req hi⟩
  · intro i req a n hc
    obtain ⟨req0, hreq0, hreq, -, c, hx, hrest⟩ := hs.2.2.2.2.1 i _ hc
    subst hreq
    cases hh : router.hostRouter with
    | none =>
      rw [hh] at hrest
      cases hrest
    | some hr =>
      rw [hh] at hrest
      obtain ⟨k, hk⟩ := hrest
      exact ⟨hreq0, hr, c, rfl, hx, (lookup_done_eq hr _ _ _ k _ hk.symm).symm⟩
  · intro i req resp hc
    obtain ⟨req0, hreq0, hreq, hresp⟩ := hs.2.2.2.2.1 i _ hc
    subst hreq
    refine ⟨hreq0, ?_⟩
    intro pooled
    rw [hresp, ServeHTTP_eq, ServeHTTP_eq]

/-- C29 on `routerOverlap`: two callers take the two used contexts from the pool and are
interleaved step by step; the first answers with `a = 42`, the second with `b = ff`, each
with the label of its own hostname, and both contexts are back in the pool. -/
theorem C29_concurrent_lookups_agree_with_lone_lookup_witness :
    (System.start routerOverlap [usedContext, usedContext] overlapRequests).exec
      overlapSchedule = some overlapFinal ∧
    overlapFinal.pool = [1, 0] ∧
    overlapFinal.callers =
      [.finished ⟨"a.example.com:8080".toList, "GET".toList, [], "/items/42".toList⟩
        (.handled ⟨"bynumber".toList, "*.example.com".toList, "/items/\x7ba:uint\x7d".toList,
            ["GET".toList], 1⟩
          ⟨some ⟨"bynumber".toList, "*.example.com".toList, "/items/\x7ba:uint\x7d".toList,
            ["GET".toList], 1⟩, [⟨"a".toList, "42".toList⟩], ["a".toList],
            "/items/42".toList⟩),
       .finished ⟨"b.example.com".toList, "GET".toList, [], "/items/ff".toList⟩
        (.handled ⟨"byhex".toList, "*.example.com".toList, "/items/\x7bb:id\x7d".toList,
            ["GET".toList], 2⟩
          ⟨some ⟨"byhex".toList, "*.example.com".toList, "/items/\x7bb:id\x7d".toList,
            ["GET".toList], 2⟩, [⟨"b".toList, "ff".toList⟩], ["b".toList],
            "/items/ff".toList⟩)] ∧
    (overlapFinal.router = routerOverlap ∧
      (∀ (i j : Nat) (ci cj : Caller) (a : Nat), i ≠ j → overlapFinal.callers[i]? = some ci →
        overlapFinal.callers[j]? = some cj → ci.addr = some a → cj.addr ≠ some a) ∧
      (∀ (i : Nat) (req : Request) (a : Nat) (n : node),
        overlapFinal.callers[i]? = some (Caller.running req a (Ctl.found n)) →
        overlapRequests[i]? = some req ∧
          ∃ hr c, routerOverlap.hostRouter = some hr ∧ overlapFinal.heap[a]? = some c ∧
            hr.Get req.hostname req.routePath Context.Reset = .found n c) ∧
      (∀ (i : Nat) (req : Request) (resp : Response),
        overlapFinal.callers[i]? = some (Caller.finished req resp) →
        overlapRequests[i]? = some req ∧
          ∀ pooled, resp = routerOverlap.ServeHTTP pooled req) ∧
      (∀ (i : Nat) (req : Request), overlapRequests[i]? = some req →
        ∃ more s1, overlapFinal.exec more = some s1 ∧
          s1.callers[i]? =
            some (Caller.finished req (routerOverlap.ServeHTTP Context.Reset req)))) :=
  ⟨rfl, rfl, rfl,
    C29_concurrent_lookups_agree_with_lone_lookup routerOverlap [usedContext, usedContext]
      overlapRequests overlapSchedule overlapFinal rfl⟩

end Smux
